import Mathlib

/-!
# pdfed: page labels, page ranges, segments and the navigator

A shallow embedding of the page-navigation core of `pdfed`
(`cmd/pagelabels.go`, `cmd/split.go`, `cmd/tui.go`, and `loadLines`,
`staticSearch` and `scorePercent` of `cmd/search.go`) and the theorems that
settle the specification's claims about it.

Conventions of the embedding.

* A Go `string` is a `List Char` (`Str`): the code only splits at the ASCII
  bytes `,` and `-`, trims Unicode white space and compares strings, all of
  which act on a valid UTF-8 string as they act on its list of characters.
* A Go `int` is an `Int`, and `+`, `-` on it are exact where the operands are
  page numbers, indices and counts, which stay far inside the 64-bit range;
  a loop `for i := a; i <= b; i++` visits `a, a+1, ..., b`.  The width of
  `int` is visible in `strconv.Atoi`, which rejects numerals outside the
  `int` range; `Atoi` models that check.  Go's `/` truncates (`Int.tdiv`).
* Where the operands come from the document or from the caller and can be
  any `int`, the 64-bit width is kept: every `int` operation is followed by
  `wrapInt64`.  That is so for the label number of `generateLabels`, whose
  operands `startIndex` and `startValue` are integers of the PDF, and for
  `scorePercent`.
* A Go `map[int]bool` used as a set (`seen`, `splitPoints`) is the list of
  its keys, each key once; a Go `map[string][]int` is a lookup function.
* A function that returns `(value, error)` returns an `Except`.
* In `scorePercent` a finite `float64` is the rational it denotes; an
  operation rounds the exact result to 53 significant bits, a tie to the
  even significand (`roundFloat64`).  The
  exponent is not bounded: the values `scorePercent` computes, between
  `2^-63` and `2^70` in magnitude, are far from the ends of the `float64`
  range.  Go leaves `int(x)` to the implementation when `x` is outside the
  range of `int`; that result is `none`.
* The file system and the document service are a record of operations on an
  abstract world (`FileOps`); a run of an extraction command lists the calls
  it made with their results.
* Go `len(s)` of a string counts bytes: `byteLen` is the length of the UTF-8
  encoding.  A Go `map[int]string` is the list of its entries, each key once.
* What a function prints or renders is the list of the pieces it writes:
  `staticSearch` gives its result lines, `renderTimeline` the texts of the
  timeline row, each with the page it stands for and its style.  A style
  (colour, reverse video) adds no column, and every character of these
  texts is one column wide.
-/

namespace Pdfed

deriving instance DecidableEq for Except

/-! ## Strings -/

/-- A Go string, as the list of its characters. -/
abbrev Str := List Char

/-- Go `unicode.IsSpace`: the characters `strings.TrimSpace` removes. -/
def isSpace (c : Char) : Bool :=
  let n := c.toNat
  n = 0x20 || (0x09 ≤ n && n ≤ 0x0D) || n = 0x85 || n = 0xA0 || n = 0x1680 ||
    (0x2000 ≤ n && n ≤ 0x200A) || n = 0x2028 || n = 0x2029 || n = 0x202F ||
    n = 0x205F || n = 0x3000

/-- Go `strings.TrimSpace`: drop leading and trailing white space. -/
def TrimSpace (s : Str) : Str :=
  ((s.dropWhile isSpace).reverse.dropWhile isSpace).reverse

/-- Go `strings.Split(s, sep)` for a one-character separator: the pieces
between the separators, in order; a string without separator is one piece. -/
def Split (s : Str) (sep : Char) : List Str :=
  match s with
  | [] => [[]]
  | c :: cs =>
    if c = sep then [] :: Split cs sep
    else
      match Split cs sep with
      | [] => [[c]]
      | p :: ps => (c :: p) :: ps

/-- Go `strings.Contains(s, sep)` for a one-character separator. -/
def Contains (s : Str) (sep : Char) : Bool := s.contains sep

/-- Go `strings.SplitN(s, sep, 2)` for a one-character separator that occurs
in `s`: what stands before the first separator and what stands after it. -/
def SplitN2 (s : Str) (sep : Char) : Str × Str :=
  (s.takeWhile (fun c => c != sep), (s.dropWhile (fun c => c != sep)).tail)

/-- Go `fmt.Sprintf("%d", n)`: the decimal numeral of an integer. -/
def fmtD (n : Int) : Str :=
  if n < 0 then '-' :: Nat.toDigits 10 (-n).toNat else Nat.toDigits 10 n.toNat

/-- Go `strings.ToUpper`, on the strings it is applied to here (letters
`a`..`z` only). -/
def ToUpper (s : Str) : Str := s.map Char.toUpper

/-! ## Machine integers -/

/-- The 64-bit two's-complement value of an exact integer: the result of a Go
`int` operation whose exact result is `x`. -/
def wrapInt64 (x : Int) : Int := (x + 2 ^ 63) % 2 ^ 64 - 2 ^ 63

/-! ## Page labels (`cmd/pagelabels.go`) -/

/-- A `pageLabelEntry`: one range of the PDF's page-label number tree.  The
field `pfx` is the source's `prefix`. -/
structure pageLabelEntry where
  /-- 0-based physical page index where this label range begins -/
  startIndex : Int
  /-- The style: "D", "r", "R", "a", "A" or anything else for prefix only. -/
  style : Str
  /-- The label prefix. -/
  pfx : Str
  /-- The value numbering starts at. -/
  startValue : Int
deriving DecidableEq, Repr

/-- The inner loop of `toRoman` for one symbol: `for n >= v { write sym; n -= v }`.
The fuel bounds the number of iterations (each one lowers `n` by `v ≥ 1`). -/
def toRomanSym (v : Int) (sym : Str) : Nat → Int → Str → Int × Str
  | 0, n, b => (n, b)
  | fuel + 1, n, b => if n ≥ v then toRomanSym v sym fuel (n - v) (b ++ sym) else (n, b)

/-- The table `vals`/`syms` of `toRoman`. -/
def romanTable : List (Int × Str) :=
  [(1000, ['m']), (900, ['c', 'm']), (500, ['d']), (400, ['c', 'd']), (100, ['c']),
   (90, ['x', 'c']), (50, ['l']), (40, ['x', 'l']), (10, ['x']), (9, ['i', 'x']),
   (5, ['v']), (4, ['i', 'v']), (1, ['i'])]

/-- The function `toRoman`. -/
def toRoman (n : Int) (upper : Bool) : Str :=
  if n ≤ 0 then fmtD n
  else
    let r := romanTable.foldl (fun (st : Int × Str) (vs : Int × Str) =>
      toRomanSym vs.1 vs.2 st.1.toNat st.1 st.2) (n, [])
    if upper then ToUpper r.2 else r.2

/-- The loop of `toAlpha`: `for n > 0 { n--; write 'a' + n%26; n /= 26 }`, with
the bytes written so far in `b`.  The fuel bounds the number of iterations;
`n - 1` is not negative there, so `/` and `%` are Go's. -/
def toAlphaLoop : Nat → Int → Str → Str
  | 0, _, b => b
  | fuel + 1, n, b =>
    if n > 0 then
      let n1 := n - 1
      toAlphaLoop fuel (n1 / 26) (b ++ [Char.ofNat (97 + (n1 % 26).toNat)])
    else b

/-- The function `reverseString`. -/
def reverseString (s : Str) : Str := s.reverse

/-- The function `toAlpha`. -/
def toAlpha (n : Int) (upper : Bool) : Str :=
  if n ≤ 0 then fmtD n
  else
    let s := reverseString (toAlphaLoop n.toNat n [])
    if upper then ToUpper s else s

/-- The function `formatNumber`. -/
def formatNumber (n : Int) (style : Str) : Str :=
  if style = ['D'] then fmtD n
  else if style = ['r'] then toRoman n false
  else if style = ['R'] then toRoman n true
  else if style = ['a'] then toAlpha n false
  else if style = ['A'] then toAlpha n true
  else []

/-- The loop of `findEntry`: `result` is overwritten by every entry met whose
`startIndex` is at most `pageIndex`, and the loop breaks at the first other
entry. -/
def findEntryLoop (pageIndex : Int) (result : pageLabelEntry) :
    List pageLabelEntry → pageLabelEntry
  | [] => result
  | e :: es => if e.startIndex ≤ pageIndex then findEntryLoop pageIndex e es else result

/-- The function `findEntry`; `entries[0]` does not exist for the empty
slice, where the Go code panics (`none`). -/
def findEntry (entries : List pageLabelEntry) (pageIndex : Int) : Option pageLabelEntry :=
  match entries with
  | [] => none
  | e0 :: _ => some (findEntryLoop pageIndex e0 entries)

/-- The label `generateLabels` stores at index `i` when there are entries.
`startIndex` and `startValue` are any `int`s of the document, so the
subtraction and the addition are those of a 64-bit `int`. -/
def labelAt (entries : List pageLabelEntry) (i : Nat) : Option Str :=
  (findEntry entries i).map fun entry =>
    let offset := wrapInt64 ((i : Int) - entry.startIndex)
    let num := wrapInt64 (entry.startValue + offset)
    entry.pfx ++ formatNumber num entry.style

/-- The function `generateLabels`: one label per physical page index
`0 .. pageCount-1`.  With entries, `findEntry` is only called on a non-empty
slice, so the `none` branch below is never taken. -/
def generateLabels (entries : List pageLabelEntry) (pageCount : Nat) : List Str :=
  if entries.length = 0 then
    (List.range pageCount).map fun (i : Nat) => fmtD ((i : Int) + 1)
  else
    (List.range pageCount).map fun (i : Nat) => (labelAt entries i).getD []

/-- Spec wording of the entry that governs page index `i`: the last entry of
the list with `startIndex ≤ i`, or the first entry of the list when there is
none. -/
def governingEntry (e0 : pageLabelEntry) (rest : List pageLabelEntry) (i : Int) :
    pageLabelEntry :=
  (((e0 :: rest).filter fun e => e.startIndex ≤ i).getLast?).getD e0

/-! ## Numerals (`strconv.Atoi`) -/

/-- The value of an ASCII decimal digit. -/
def digitVal? (c : Char) : Option Nat :=
  if 48 ≤ c.toNat ∧ c.toNat ≤ 57 then some (c.toNat - 48) else none

/-- The value of a string of ASCII decimal digits read after the value `acc`;
`none` when a character is not a digit. -/
def digitsVal? (acc : Nat) : Str → Option Nat
  | [] => some acc
  | c :: cs =>
    match digitVal? c with
    | none => none
    | some d => digitsVal? (acc * 10 + d) cs

/-- The integer denoted by a decimal numeral: an optional sign `+` or `-`
followed by one or more ASCII digits. -/
def decimalInt? (s : Str) : Option Int :=
  match s with
  | [] => none
  | '+' :: ds => if ds = [] then none else (digitsVal? 0 ds).map fun n => (n : Int)
  | '-' :: ds => if ds = [] then none else (digitsVal? 0 ds).map fun n => -(n : Int)
  | ds => (digitsVal? 0 ds).map fun n => (n : Int)

/-- The largest Go `int` (64 bits). -/
def maxInt : Int := 2 ^ 63 - 1

/-- The smallest Go `int` (64 bits). -/
def minInt : Int := -(2 ^ 63)

/-- Go `strconv.Atoi`: the value of a decimal numeral that fits an `int`;
`none` stands for its error result (syntax or range). -/
def Atoi (s : Str) : Option Int :=
  match decimalInt? s with
  | none => none
  | some v => if minInt ≤ v ∧ v ≤ maxInt then some v else none

/-! ## Page ranges by page number (`cmd/split.go`) -/

/-- The pages `a, a+1, ..., b` visited by `for i := a; i <= b; i++`. -/
def intRange (a b : Int) : List Int :=
  (List.range (b + 1 - a).toNat).map fun (k : Nat) => a + (k : Int)

/-- The result slice together with the key set of the `seen` map. -/
structure PageAcc where
  /-- The slice `pages` (`result` in `resolveRealPages`). -/
  pages : List Int
  /-- The keys of the map `seen`. -/
  seen : List Int
deriving DecidableEq, Repr

/-- The loop body `if !seen[i] { pages = append(pages, i); seen[i] = true }`. -/
def addPage (st : PageAcc) (i : Int) : PageAcc :=
  if i ∈ st.seen then st else { pages := st.pages ++ [i], seen := i :: st.seen }

/-- The errors `parsePageRanges` returns, with the data of their messages. -/
inductive RangeError where
  /-- "invalid range format: %s" -/
  | invalidRangeFormat (part : Str)
  /-- "invalid page number: %s" -/
  | invalidPageNumber (s : Str)
  /-- "page range %d-%d out of bounds (document has %d pages)" -/
  | rangeOutOfBounds (start stop maxPage : Int)
  /-- "invalid range: start (%d) > end (%d)" -/
  | startAfterEnd (start stop : Int)
  /-- "page %d out of bounds (document has %d pages)" -/
  | pageOutOfBounds (page maxPage : Int)
  /-- "no valid pages specified" -/
  | noValidPages
deriving DecidableEq, Repr

/-- The body of the loop over `parts` in `parsePageRanges`, for one part. -/
def parsePart (maxPage : Int) (st : PageAcc) (part0 : Str) : Except RangeError PageAcc :=
  let part := TrimSpace part0
  if part = [] then .ok st
  else if Contains part '-' then
    match Split part '-' with
    | [p0, p1] =>
      match Atoi (TrimSpace p0) with
      | none => .error (.invalidPageNumber p0)
      | some start =>
        match Atoi (TrimSpace p1) with
        | none => .error (.invalidPageNumber p1)
        | some stop =>
          if start < 1 ∨ stop > maxPage then .error (.rangeOutOfBounds start stop maxPage)
          else if start > stop then .error (.startAfterEnd start stop)
          else .ok ((intRange start stop).foldl addPage st)
    | _ => .error (.invalidRangeFormat part)
  else
    match Atoi part with
    | none => .error (.invalidPageNumber part)
    | some page =>
      if page < 1 ∨ page > maxPage then .error (.pageOutOfBounds page maxPage)
      else .ok (addPage st page)

/-- The loop over `parts` in `parsePageRanges`: it returns at the first error. -/
def parseParts (maxPage : Int) : List Str → PageAcc → Except RangeError PageAcc
  | [], st => .ok st
  | part :: parts, st =>
    match parsePart maxPage st part with
    | .error e => .error e
    | .ok st1 => parseParts maxPage parts st1

/-- The function `parsePageRanges`. -/
def parsePageRanges (rangeStr : Str) (maxPage : Int) : Except RangeError (List Int) :=
  match parseParts maxPage (Split rangeStr ',') { pages := [], seen := [] } with
  | .error e => .error e
  | .ok st => if st.pages.length = 0 then .error .noValidPages else .ok st.pages

/-! ## Page ranges by printed label (`cmd/pagelabels.go`) -/

/-- The type `pageLabelsMap`: printed label to 1-based physical pages. -/
abbrev pageLabelsMap := Str → Option (List Int)

/-- The errors of `resolveRealPages`, with the data of their messages. -/
inductive ResolveError where
  /-- "page label %q not found in PDF" -/
  | labelNotFound (label : Str)
  /-- "invalid range: page %q (PDF page %d) comes after page %q (PDF page %d)" -/
  | invalidRange (startLabel : Str) (startPhys : Int) (endLabel : Str) (endPhys : Int)
  /-- "no valid pages specified" -/
  | noValidPages
  /-- Not a returned error: the run-time panic of `startPages[0]` or
  `endPages[len(endPages)-1]` on an empty slice. -/
  | indexOutOfRange
deriving DecidableEq, Repr

/-- The body of the loop over `parts` in `resolveRealPages`, for one part. -/
def resolvePart (labelsMap : pageLabelsMap) (st : PageAcc) (part0 : Str) :
    Except ResolveError PageAcc :=
  let part := TrimSpace part0
  if part = [] then .ok st
  else if Contains part '-' then
    let rangeParts := SplitN2 part '-'
    let startLabel := TrimSpace rangeParts.1
    let endLabel := TrimSpace rangeParts.2
    match labelsMap startLabel with
    | none => .error (.labelNotFound startLabel)
    | some startPages =>
      match labelsMap endLabel with
      | none => .error (.labelNotFound endLabel)
      | some endPages =>
        match startPages.head?, endPages.getLast? with
        | some startPhys, some endPhys =>
          if startPhys > endPhys then
            .error (.invalidRange startLabel startPhys endLabel endPhys)
          else .ok ((intRange startPhys endPhys).foldl addPage st)
        | _, _ => .error .indexOutOfRange
  else
    match labelsMap part with
    | none => .error (.labelNotFound part)
    | some physPages => .ok (physPages.foldl addPage st)

/-- The loop over `parts` in `resolveRealPages`: it returns at the first error. -/
def resolveParts (labelsMap : pageLabelsMap) : List Str → PageAcc →
    Except ResolveError PageAcc
  | [], st => .ok st
  | part :: parts, st =>
    match resolvePart labelsMap st part with
    | .error e => .error e
    | .ok st1 => resolveParts labelsMap parts st1

/-- The function `resolveRealPages` (its parameter `pageCount` is not used by
the code). -/
def resolveRealPages (rangeStr : Str) (labelsMap : pageLabelsMap) (_pageCount : Int) :
    Except ResolveError (List Int) :=
  match resolveParts labelsMap (Split rangeStr ',') { pages := [], seen := [] } with
  | .error e => .error e
  | .ok st => if st.pages.length = 0 then .error .noValidPages else .ok st.pages

/-! ## The specification's reading of a range string -/

/-- The tokens of a range string: its comma-separated pieces, trimmed, the
empty ones left out. -/
def tokens (rangeStr : Str) : List Str :=
  ((Split rangeStr ',').map TrimSpace).filter fun t => t ≠ []

/-- First-occurrence de-duplication: every value is kept where it first
occurs, the order of what is kept is unchanged. -/
def stableDedup : List Int → List Int
  | [] => []
  | x :: xs => x :: (stableDedup xs).filter fun y => y ≠ x

/-- The pages a page-number token stands for: `[n]` for an integer `n`, and
`a, a+1, ..., b` for a range `a-b` of two integers. -/
def numberTokenPages (t : Str) : List Int :=
  match decimalInt? t with
  | some n => [n]
  | none =>
    match decimalInt? (TrimSpace (SplitN2 t '-').1), decimalInt? (TrimSpace (SplitN2 t '-').2) with
    | some a, some b => intRange a b
    | _, _ => []

/-- A page-number token the specification accepts for a document of
`maxPage` pages: a decimal integer within `[1, maxPage]`, or a range `a-b`
of two integers with `1 ≤ a ≤ b ≤ maxPage`. -/
def ValidNumberToken (maxPage : Int) (t : Str) : Prop :=
  (∃ n, decimalInt? t = some n ∧ 1 ≤ n ∧ n ≤ maxPage) ∨
  (∃ a b va vb, t = a ++ '-' :: b ∧ decimalInt? (TrimSpace a) = some va ∧
    decimalInt? (TrimSpace b) = some vb ∧ 1 ≤ va ∧ va ≤ vb ∧ vb ≤ maxPage)

/-- The least element of a list of pages (0 for the empty list). -/
def minPage (l : List Int) : Int := l.foldl min (l.headD 0)

/-- The greatest element of a list of pages (0 for the empty list). -/
def maxPageOf (l : List Int) : Int := l.foldl max (l.headD 0)

/-- The pages mapped to a label (none for a label that is not a key). -/
def pagesOf (labelsMap : pageLabelsMap) (label : Str) : List Int :=
  (labelsMap label).getD []

/-- The two labels of a range token `A-B`: what stands before its first
hyphen and what stands after it, both trimmed. -/
def rangeLabels (t : Str) : Str × Str :=
  (TrimSpace (SplitN2 t '-').1, TrimSpace (SplitN2 t '-').2)

/-- The pages a label token stands for: the page list of the label for a
token without hyphen, and every page from `min (pages of A)` to
`max (pages of B)` for a token `A-B`. -/
def labelTokenPages (labelsMap : pageLabelsMap) (t : Str) : List Int :=
  if '-' ∈ t then
    intRange (minPage (pagesOf labelsMap (rangeLabels t).1))
      (maxPageOf (pagesOf labelsMap (rangeLabels t).2))
  else pagesOf labelsMap t

/-- A label token the specification rejects: it names a label absent from
the map, as a single label or as either end of a range, or it is a range
`A-B` with `min (pages of A) > max (pages of B)`. -/
def BadLabelToken (labelsMap : pageLabelsMap) (t : Str) : Prop :=
  if '-' ∈ t then
    labelsMap (rangeLabels t).1 = none ∨ labelsMap (rangeLabels t).2 = none ∨
      minPage (pagesOf labelsMap (rangeLabels t).1) >
        maxPageOf (pagesOf labelsMap (rangeLabels t).2)
  else labelsMap t = none

/-- The label map of a document whose pages 1..5 are labelled
i, ii, iii, iv, v. -/
def romanFive : pageLabelsMap := fun l =>
  if l = ['i'] then some [1]
  else if l = ['i', 'i'] then some [2]
  else if l = ['i', 'i', 'i'] then some [3]
  else if l = ['i', 'v'] then some [4]
  else if l = ['v'] then some [5]
  else none

/-- The label map of a two-page document whose number tree has the single
entry `{startIndex: 0, style: "D", prefix: "A-", startValue: 1}`: the labels
are `A-1` and `A-2`. -/
def appendixLabels : pageLabelsMap := fun l =>
  if l = ['A', '-', '1'] then some [1]
  else if l = ['A', '-', '2'] then some [2]
  else none

/-- The label map of a two-page document whose number tree has the single
entry `{startIndex: 0, style: "", prefix: "", startValue: 1}`: both labels
are the empty string. -/
def blankLabels : pageLabelsMap := fun l => if l = [] then some [1, 2] else none

/-- The label map with the single key `label`, mapped to `pages`. -/
def singleLabel (label : Str) (pages : List Int) : pageLabelsMap := fun l =>
  if l = label then some pages else none

/-! ## The navigator (`cmd/tui.go`) -/

/-- An `indexedLine`: a line of text tagged with its 1-based page number. -/
structure indexedLine where
  /-- The page of the line. -/
  page : Int
  /-- The text of the line. -/
  text : Str
deriving DecidableEq, Repr

/-- The function `lineStrings`. -/
def lineStrings (lines : List indexedLine) : List Str := lines.map fun l => l.text

/-- A `fuzzy.Match` of the matcher library. -/
structure fuzzyMatch where
  /-- The matched string. -/
  Str : Str
  /-- The index of the matched string in the corpus. -/
  Index : Int
  /-- The matched character positions. -/
  MatchedIndexes : List Int
  /-- The raw score. -/
  Score : Int
deriving DecidableEq, Repr

/-- The type `appMode`. -/
inductive appMode where
  | modeSearch
  | modeSplit
deriving DecidableEq, Repr

/-- A `segment{start, end}`; the field `stop` is the source's `end`. -/
structure segment where
  /-- First page of the segment. -/
  start : Int
  /-- Last page of the segment. -/
  stop : Int
deriving DecidableEq, Repr

/-- The key types of `tea.KeyMsg` the navigator tells apart. -/
inductive KeyType where
  | KeyCtrlC | KeyEsc | KeyEnter | KeyTab | KeyCtrlO | KeyUp | KeyDown | KeyLeft | KeyRight
  | KeyCtrlP | KeyCtrlN | KeyRunes | KeyOther
deriving DecidableEq, Repr

/-- A `tea.KeyMsg`: its `Type` and the result of its `String()`. -/
structure KeyMsg where
  /-- The field `Type`. -/
  type : KeyType
  /-- The result of `String()`. -/
  str : Str
deriving DecidableEq, Repr

/-- The mouse buttons of `tea.MouseMsg` the navigator tells apart. -/
inductive MouseButton where
  | MouseButtonWheelUp | MouseButtonWheelDown | MouseButtonLeft | MouseButtonOther
deriving DecidableEq, Repr

/-- The mouse actions of `tea.MouseMsg` the navigator tells apart. -/
inductive MouseAction where
  | MouseActionPress | MouseActionOther
deriving DecidableEq, Repr

/-- A `tea.MouseMsg`. -/
structure MouseMsg where
  /-- The column of the event. -/
  X : Int
  /-- The row of the event. -/
  Y : Int
  /-- The button of the event. -/
  Button : MouseButton
  /-- The action of the event. -/
  Action : MouseAction
deriving DecidableEq, Repr

/-- The messages `Update` receives.  An error value is its message text. -/
inductive Msg where
  /-- A `tea.WindowSizeMsg`. -/
  | windowSize (Height Width : Int)
  /-- A `splitDoneMsg`. -/
  | splitDone (count : Int) (err : Option Str)
  /-- A `sioyekMsg`. -/
  | sioyek (err : Option Str)
  /-- A `tea.MouseMsg`. -/
  | mouse (msg : MouseMsg)
  /-- A `tea.KeyMsg`. -/
  | key (msg : KeyMsg)
  /-- Any other message. -/
  | other
deriving DecidableEq, Repr

/-- The commands `Update` returns (`tea.Cmd`), with what they capture. -/
inductive Cmd where
  /-- The value `nil`. -/
  | none
  /-- The command `tea.Quit`. -/
  | quit
  /-- The command `textinput.Blink`. -/
  | blink
  /-- The command returned by the text input's own `Update`. -/
  | input
  /-- The command of `executeExtract(seg)`. -/
  | extract (filename baseName outDir : Str) (seg : segment)
  /-- The command of `executeSplitAll()`. -/
  | splitAll (filename baseName outDir : Str) (segs : List segment)
  /-- The command of `openInSioyek(filename, page)`. -/
  | openInSioyek (filename : Str) (page : Int)
deriving DecidableEq, Repr

/-- The library code the navigator calls: the text input component
(`textinput.Model`, of state type `ι`), the fuzzy matcher, the `filepath`
functions and the package-level flag `output`. -/
structure Deps (ι : Type) where
  /-- The text input as configured by `newAppModel` before `SetValue`. -/
  inputNew : ι
  /-- The method `Value`. -/
  inputValue : ι → Str
  /-- The method `SetValue`. -/
  inputSetValue : ι → Str → ι
  /-- The method `Focus`. -/
  inputFocus : ι → ι
  /-- The method `Blur`. -/
  inputBlur : ι → ι
  /-- The method `Update`, for a key message. -/
  inputUpdate : ι → KeyMsg → ι
  /-- The function `fuzzy.Find`. -/
  Find : Str → List Str → List fuzzyMatch
  /-- The function `filepath.Base`. -/
  Base : Str → Str
  /-- The function `filepath.Ext`. -/
  Ext : Str → Str
  /-- The function `filepath.Dir`. -/
  Dir : Str → Str
  /-- The function `filepath.Join` of two elements. -/
  Join : Str → Str → Str
  /-- The flag `output` of `split.go`. -/
  output : Str

/-- Go `strings.HasSuffix`. -/
def HasSuffix (s suffix : Str) : Bool := suffix.isSuffixOf s

/-- Go `strings.TrimSuffix`. -/
def TrimSuffix (s suffix : Str) : Str :=
  if HasSuffix s suffix then s.take (s.length - suffix.length) else s

/-- Go `strings.ToLower` on the ASCII letters.  It is only used to test for
the suffix ".pdf", whose characters are the lower case of ASCII characters
only. -/
def ToLower (s : Str) : Str := s.map Char.toLower

/-- The type `appModel`. -/
structure appModel (ι : Type) where
  /-- The file name. -/
  filename : Str
  /-- The base name of the output files. -/
  baseName : Str
  /-- The corpus. -/
  allLines : List indexedLine
  /-- The texts of the corpus. -/
  strs : List Str
  /-- The number of pages. -/
  pageCount : Int
  /-- The text input. -/
  input : ι
  /-- Vi modal state: false = normal mode, true = insert mode. -/
  insertMode : Bool
  /-- The source's field `matches` (`nil` is the empty list). -/
  matchList : List fuzzyMatch
  /-- The result cursor. -/
  searchCursor : Int
  /-- The first result row shown. -/
  searchOffset : Int
  /-- The selected line. -/
  selected : Option indexedLine
  /-- The keys of the map `splitPoints`, each once. -/
  splitPoints : List Int
  /-- The current page. -/
  currentPage : Int
  /-- The output directory. -/
  outDir : Str
  /-- The view. -/
  mode : appMode
  /-- The height of the terminal. -/
  height : Int
  /-- The width of the terminal. -/
  width : Int
  /-- The status message. -/
  statusMsg : Str
  /-- True while an extraction runs. -/
  splitting : Bool

/-- The function `newAppModel`. -/
def newAppModel {ι : Type} (d : Deps ι) (filename : Str) (pageCount : Int)
    (allLines : List indexedLine) (startMode : appMode) (initial : Str) : appModel ι :=
  let ti := d.inputBlur (d.inputSetValue d.inputNew initial)
  let base := TrimSuffix (d.Base filename) (d.Ext filename)
  let dir := if HasSuffix (ToLower d.output) ['.', 'p', 'd', 'f'] then d.Dir d.output else d.output
  let m : appModel ι :=
    { input := ti, allLines := allLines, strs := lineStrings allLines, pageCount := pageCount,
      splitPoints := [], currentPage := 1, filename := filename, baseName := base,
      outDir := dir, mode := startMode, insertMode := false, matchList := [],
      searchCursor := 0, searchOffset := 0, selected := none, height := 0, width := 0,
      statusMsg := [], splitting := false }
  if initial ≠ [] then
    { m with matchList := d.Find initial m.strs, insertMode := true, input := d.inputFocus m.input }
  else m

/-- Go slice indexing `l[i]`; `none` is the run-time panic of an index out of
range. -/
def index? {α : Type} (l : List α) (i : Int) : Option α :=
  if i < 0 then none else l[i.toNat]?

/-- Go `len(l)`. -/
def len {α : Type} (l : List α) : Int := (l.length : Int)

/-- The expression `m.allLines[m.matches[i].Index]`. -/
def lineOfMatch {ι : Type} (m : appModel ι) (i : Int) : Option indexedLine :=
  (index? m.matchList i).bind fun mt => index? m.allLines mt.Index

/-- The function `sortedSplits`: the keys of `splitPoints`, sorted by
`sort.Ints`. -/
def sortedSplits {ι : Type} (m : appModel ι) : List Int :=
  m.splitPoints.insertionSort (fun a b => a ≤ b)

/-- The function `buildSegments`. -/
def buildSegments {ι : Type} (m : appModel ι) : List segment :=
  let r := (sortedSplits m).foldl
    (fun (st : List segment × Int) (s : Int) => (st.1 ++ [⟨st.2, s - 1⟩], s)) ([], 1)
  r.1 ++ [⟨r.2, m.pageCount⟩]

/-- The result of the loop of `currentSegment`: the first segment that
contains the current page, if there is one. -/
def findSegment {ι : Type} (m : appModel ι) : Option segment :=
  (buildSegments m).find? fun seg => m.currentPage ≥ seg.start ∧ m.currentPage ≤ seg.stop

/-- The function `currentSegment`, with its fallback `segment{1, m.pageCount}`. -/
def currentSegment {ι : Type} (m : appModel ι) : segment :=
  match findSegment m with
  | some seg => seg
  | none => ⟨1, m.pageCount⟩

/-- The function `resultsVisible`. -/
def resultsVisible {ι : Type} (m : appModel ι) : Int :=
  let fixed : Int := match m.mode with
    | .modeSearch => 5
    | .modeSplit => 10
  let v := m.height - fixed
  if v < 0 then 0 else v

/-- The function `activePage`. -/
def activePage {ι : Type} (m : appModel ι) : Option Int :=
  if m.mode = .modeSplit then some m.currentPage
  else if len m.matchList > 0 ∧ m.searchCursor < len m.matchList then
    (lineOfMatch m m.searchCursor).map fun l => l.page
  else some 0

/-- The loop of `pageAtX` over the pages still to visit, `cur` being the
column reached. -/
def pageAtXLoop (splits : List Int) (pw x : Int) : List Int → Int → Int
  | [], _ => 0
  | page :: pages, cur =>
    let cur1 := if page > 1 ∧ page ∈ splits then cur + 3 else cur
    if x ≥ cur1 ∧ x < cur1 + pw then page else pageAtXLoop splits pw x pages (cur1 + pw)

/-- The width of a page's token in the timeline row, between 1 and 4: the
computation of `pw` in `pageAtX` and `renderTimeline`; `none` is the run-time
panic of the integer division by zero. -/
def pageWidth {ι : Type} (m : appModel ι) : Option Int :=
  let splits := sortedSplits m
  let available := m.width - 4
  let splitChars := len splits * 3
  if m.pageCount = 0 then none
  else
    let pw := (available - splitChars).tdiv m.pageCount
    some (if pw > 4 then 4 else if pw < 1 then 1 else pw)

/-- The function `pageAtX`. -/
def pageAtX {ι : Type} (m : appModel ι) (x : Int) : Option Int :=
  (pageWidth m).map fun pw => pageAtXLoop (sortedSplits m) pw x (intRange 1 m.pageCount) 2

/-- The function `doEnter`. -/
def doEnter {ι : Type} (m : appModel ι) : Option (appModel ι × Cmd) :=
  match m.mode with
  | .modeSearch =>
    if len m.matchList > 0 ∧ m.searchCursor < len m.matchList then
      (lineOfMatch m m.searchCursor).map fun l => ({ m with selected := some l }, Cmd.quit)
    else some (m, .quit)
  | .modeSplit =>
    if len m.splitPoints = 0 then
      some ({ m with statusMsg := "⚠ no split points — x to mark".toList }, .none)
    else
      some ({ m with splitting := true, statusMsg := "splitting all segments…".toList },
        .splitAll m.filename m.baseName m.outDir (buildSegments m))

/-- The function `doTab`. -/
def doTab {ι : Type} (m : appModel ι) : appModel ι × Cmd :=
  let m1 := if m.mode = .modeSearch then { m with mode := .modeSplit }
    else { m with mode := .modeSearch }
  ({ m1 with statusMsg := [] }, .none)

/-- The function `doSioyek`. -/
def doSioyek {ι : Type} (m : appModel ι) : Option (appModel ι × Cmd) :=
  (activePage m).map fun page =>
    if page > 0 then
      ({ m with statusMsg := "opening p.".toList ++ fmtD page ++ " in sioyek…".toList },
        Cmd.openInSioyek m.filename page)
    else ({ m with statusMsg := "no page selected".toList }, Cmd.none)

/-- The statement `if m.mode == modeSplit && len(m.matches) > 0
{ m.currentPage = m.allLines[m.matches[m.searchCursor].Index].page }`. -/
def followCursor {ι : Type} (m : appModel ι) : Option (appModel ι) :=
  if m.mode = .modeSplit ∧ len m.matchList > 0 then
    (lineOfMatch m m.searchCursor).map fun l => { m with currentPage := l.page }
  else some m

/-- The function `doPrevResult`. -/
def doPrevResult {ι : Type} (m : appModel ι) : Option (appModel ι × Cmd) :=
  if m.searchCursor > 0 then
    let m1 := { m with searchCursor := m.searchCursor - 1 }
    let m2 := if m1.searchCursor < m1.searchOffset then { m1 with searchOffset := m1.searchCursor }
      else m1
    (followCursor m2).map fun m3 => (m3, Cmd.none)
  else some (m, .none)

/-- The function `doNextResult`. -/
def doNextResult {ι : Type} (m : appModel ι) : Option (appModel ι × Cmd) :=
  if m.searchCursor < len m.matchList - 1 then
    let m1 := { m with searchCursor := m.searchCursor + 1 }
    let vis := resultsVisible m1
    let m2 := if m1.searchCursor ≥ m1.searchOffset + vis then
        { m1 with searchOffset := m1.searchCursor - vis + 1 }
      else m1
    (followCursor m2).map fun m3 => (m3, Cmd.none)
  else some (m, .none)

/-- The function `doPrevPage`. -/
def doPrevPage {ι : Type} (m : appModel ι) : appModel ι × Cmd :=
  if m.currentPage > 1 then ({ m with currentPage := m.currentPage - 1 }, .none) else (m, .none)

/-- The function `doNextPage`. -/
def doNextPage {ι : Type} (m : appModel ι) : appModel ι × Cmd :=
  if m.currentPage < m.pageCount then ({ m with currentPage := m.currentPage + 1 }, .none)
  else (m, .none)

/-- The function `doMarkSplit`: `delete` removes the key of the current page
from `splitPoints`, the assignment adds it. -/
def doMarkSplit {ι : Type} (d : Deps ι) (m : appModel ι) : appModel ι × Cmd :=
  if m.currentPage > 1 then
    let sp := if m.currentPage ∈ m.splitPoints then
        m.splitPoints.filter fun p => p ≠ m.currentPage
      else m.currentPage :: m.splitPoints
    ({ m with splitPoints := sp, input := d.inputSetValue m.input [], matchList := [],
              searchCursor := 0, searchOffset := 0 }, .none)
  else (m, .none)

/-- The part of `handleNormalKey` after its first `switch`: the two switches
on `msg.String()`. -/
def handleNormalKeyString {ι : Type} (d : Deps ι) (m : appModel ι) (msg : KeyMsg) :
    Option (appModel ι × Cmd) :=
  if msg.str = ['q'] then some (m, .quit)
  else if msg.str = ['/'] then
    some ({ m with insertMode := true, input := d.inputFocus m.input }, .blink)
  else if msg.str = ['j'] then doNextResult m
  else if msg.str = ['k'] then doPrevResult m
  else if msg.str = ['o'] then doSioyek m
  else if m.mode = .modeSplit then
    if msg.str = ['h'] then some (doPrevPage m)
    else if msg.str = ['l'] then some (doNextPage m)
    else if msg.str = ['g'] then some ({ m with currentPage := 1 }, .none)
    else if msg.str = ['G'] then some ({ m with currentPage := m.pageCount }, .none)
    else if msg.str = ['x'] then some (doMarkSplit d m)
    else if msg.str = ['e'] then
      if len m.splitPoints > 0 then
        let seg := currentSegment m
        some ({ m with splitting := true,
                       statusMsg := "extracting p.".toList ++ fmtD seg.start ++ "–".toList ++
                         fmtD seg.stop ++ "…".toList },
          .extract m.filename m.baseName m.outDir seg)
      else some (m, .none)
    else some (m, .none)
  else some (m, .none)

/-- The function `handleNormalKey`. -/
def handleNormalKey {ι : Type} (d : Deps ι) (m : appModel ι) (msg : KeyMsg) :
    Option (appModel ι × Cmd) :=
  match msg.type with
  | .KeyCtrlC => some (m, .quit)
  | .KeyEsc => some (m, .quit)
  | .KeyEnter => doEnter m
  | .KeyTab => some (doTab m)
  | .KeyCtrlO => doSioyek m
  | .KeyUp => doPrevResult m
  | .KeyDown => doNextResult m
  | .KeyLeft =>
    if m.mode = .modeSplit then some (doPrevPage m) else handleNormalKeyString d m msg
  | .KeyRight =>
    if m.mode = .modeSplit then some (doNextPage m) else handleNormalKeyString d m msg
  | _ => handleNormalKeyString d m msg

/-- The part of `handleInsertKey` after its `switch`: the key goes to the
text input and the matches are recomputed from its value. -/
def handleInsertEdit {ι : Type} (d : Deps ι) (m : appModel ι) (msg : KeyMsg) :
    Option (appModel ι × Cmd) :=
  let m1 := { m with input := d.inputUpdate m.input msg }
  let query := d.inputValue m1.input
  let m2 :=
    if query = [] then { m1 with matchList := [], searchCursor := 0, searchOffset := 0 }
    else
      let prev := m1.searchCursor
      let m1a := { m1 with matchList := d.Find query m1.strs }
      if prev ≥ len m1a.matchList then { m1a with searchCursor := 0, searchOffset := 0 }
      else m1a
  (followCursor m2).map fun m3 => (m3, Cmd.input)

/-- The function `handleInsertKey`. -/
def handleInsertKey {ι : Type} (d : Deps ι) (m : appModel ι) (msg : KeyMsg) :
    Option (appModel ι × Cmd) :=
  match msg.type with
  | .KeyCtrlC => some (m, .quit)
  | .KeyEsc => some ({ m with insertMode := false, input := d.inputBlur m.input }, .none)
  | .KeyTab => some (doTab { m with insertMode := false, input := d.inputBlur m.input })
  | .KeyCtrlO => doSioyek m
  | .KeyEnter => doEnter m
  | .KeyUp => doPrevResult m
  | .KeyCtrlP => doPrevResult m
  | .KeyDown => doNextResult m
  | .KeyCtrlN => doNextResult m
  | _ => handleInsertEdit d m msg

/-- The function `handleMouse`. -/
def handleMouse {ι : Type} (d : Deps ι) (m : appModel ι) (msg : MouseMsg) :
    Option (appModel ι × Cmd) :=
  match msg.Button with
  | .MouseButtonWheelUp => doPrevResult m
  | .MouseButtonWheelDown => doNextResult m
  | .MouseButtonLeft =>
    if msg.Action ≠ .MouseActionPress then some (m, .none)
    else if msg.Y = m.height - 2 then
      if ¬ m.insertMode then
        some ({ m with insertMode := true, input := d.inputFocus m.input }, .blink)
      else some (m, .none)
    else if m.mode = .modeSplit ∧ msg.Y = 1 then
      (pageAtX m msg.X).map fun page =>
        if page > 0 then ({ m with currentPage := page }, Cmd.none) else (m, Cmd.none)
    else
      let resultsStart : Int := if m.mode = .modeSplit then 7 else 2
      let idx := msg.Y - resultsStart + m.searchOffset
      if idx ≥ 0 ∧ idx < len m.matchList then
        let m1 := { m with searchCursor := idx }
        if m1.mode = .modeSplit then
          (lineOfMatch m1 idx).map fun l => ({ m1 with currentPage := l.page }, Cmd.none)
        else some (m1, .none)
      else some (m, .none)
  | .MouseButtonOther => some (m, .none)

/-- The method `Update`: the next state and the command issued; `none` is a
run-time panic (index out of range, division by zero). -/
def Update {ι : Type} (d : Deps ι) (m : appModel ι) (msg : Msg) : Option (appModel ι × Cmd) :=
  match msg with
  | .windowSize h w => some ({ m with height := h, width := w }, .none)
  | .splitDone count err =>
    let m1 := { m with splitting := false }
    match err with
    | some e => some ({ m1 with statusMsg := "error: ".toList ++ e }, .quit)
    | none =>
      some ({ m1 with statusMsg := "✓ created ".toList ++ fmtD count ++ " file(s)".toList }, .quit)
  | .sioyek err =>
    match err with
    | some e => some ({ m with statusMsg := "sioyek: ".toList ++ e }, .none)
    | none => some ({ m with statusMsg := [] }, .none)
  | .mouse msg => if m.splitting then some (m, .none) else handleMouse d m msg
  | .key msg =>
    if m.splitting then some (m, .none)
    else if m.insertMode then handleInsertKey d m msg
    else handleNormalKey d m msg
  | .other => some (m, .none)

/-- The states the navigator reaches from a first state by `Update`. -/
inductive Reachable {ι : Type} (d : Deps ι) (m0 : appModel ι) : appModel ι → Prop where
  /-- The first state. -/
  | init : Reachable d m0 m0
  /-- One more event. -/
  | step (m m1 : appModel ι) (msg : Msg) (c : Cmd) :
      Reachable d m0 m → Update d m msg = some (m1, c) → Reachable d m0 m1

/-- Library code for examples: the text input is its value, a key that is a
rune is appended to it, and the matcher finds nothing. -/
def plainDeps : Deps Str where
  inputNew := []
  inputValue := fun v => v
  inputSetValue := fun _ v => v
  inputFocus := fun v => v
  inputBlur := fun v => v
  inputUpdate := fun v k => if k.type = .KeyRunes then v ++ k.str else v
  Find := fun _ _ => []
  Base := fun f => f
  Ext := fun _ => []
  Dir := fun f => f
  Join := fun a b => a ++ '/' :: b
  output := []

/-- A segment model of `pageCount` pages with the split points `splits`. -/
def segmentModel (pageCount : Int) (splits : List Int) (currentPage : Int) : appModel Str :=
  { newAppModel plainDeps [] pageCount [] .modeSplit [] with
    splitPoints := splits, currentPage := currentPage }

/-! ## The specification's reading of the numerals -/

/-- The bijective base-26 value of a string of letters: `a` = 1, ..., `z` = 26,
most significant letter first. -/
def alphaValue (s : Str) : Int :=
  s.foldl (fun acc c => acc * 26 + ((c.toNat : Int) - 96)) 0

/-- The character is one of the letters `a`..`z`. -/
def IsLowerLetter (c : Char) : Prop := 97 ≤ c.toNat ∧ c.toNat ≤ 122

/-! ## The label map of `readPageLabels` (`cmd/pagelabels.go`) -/

/-- The statement `m[label] = append(m[label], physPage)`: the value of a key
that is absent is the empty slice. -/
def addLabel (m : pageLabelsMap) (label : Str) (physPage : Int) : pageLabelsMap :=
  fun k => if k = label then some ((m k).getD [] ++ [physPage]) else m k

/-- The loop `for physIdx, label := range labels` of `readPageLabels`, from
the index `physIdx` on. -/
def labelsLoop : List Str → Nat → pageLabelsMap → pageLabelsMap
  | [], _, m => m
  | label :: labels, physIdx, m =>
    labelsLoop labels (physIdx + 1) (addLabel m label ((physIdx : Int) + 1))

/-- The label map `readPageLabels` builds from the generated labels, starting
from the empty map. -/
def labelsMapOf (labels : List Str) : pageLabelsMap :=
  labelsLoop labels 0 fun _ => none

/-- Spec wording of a group of the label map: the physical pages, counted from
`first + 1` on in ascending order, whose label is `s`. -/
def pagesLabelled (s : Str) : List Str → Nat → List Int
  | [], _ => []
  | label :: labels, first =>
    if label = s then ((first : Int) + 1) :: pagesLabelled s labels (first + 1)
    else pagesLabelled s labels (first + 1)

/-! ## The page-label number tree (`cmd/pagelabels.go`) -/

/-- A PDF object of the document library (`types.Object`), as far as the
traversal tells objects apart; `null` is also Go's `nil`. -/
inductive Obj where
  /-- The null object, or no object. -/
  | null
  /-- A `types.Integer`. -/
  | integer (n : Int)
  /-- A `types.Name`. -/
  | name (s : Str)
  /-- A `types.StringLiteral`. -/
  | stringLiteral (s : Str)
  /-- A `types.Array`. -/
  | array (elems : List Obj)
  /-- A `types.Dict`. -/
  | dict (entries : List (Str × Obj))
  /-- A `types.IndirectRef` to the object of number `objNr`. -/
  | indirectRef (objNr : Nat)
  /-- Any other object. -/
  | other

/-- A `types.Dict`: keys and values. -/
abbrev Dict := List (Str × Obj)

/-- The method `Dict.ArrayEntry`: the value of the key when it is an array. -/
def ArrayEntry (d : Dict) (key : Str) : Option (List Obj) :=
  match d.lookup key with
  | some (.array a) => some a
  | _ => none

/-- The method `Dict.NameEntry`: the value of the key when it is a name. -/
def NameEntry (d : Dict) (key : Str) : Option Str :=
  match d.lookup key with
  | some (.name s) => some s
  | _ => none

/-- The method `Dict.StringEntry`: the value of the key when it is a string
literal. -/
def StringEntry (d : Dict) (key : Str) : Option Str :=
  match d.lookup key with
  | some (.stringLiteral s) => some s
  | _ => none

/-- The method `Dict.IntEntry`: the value of the key when it is an integer. -/
def IntEntry (d : Dict) (key : Str) : Option Int :=
  match d.lookup key with
  | some (.integer n) => some n
  | _ => none

/-- The part of a `model.Context` the extraction reads: the catalog and the
object each indirect reference resolves to, or the error of resolving it. -/
structure Context where
  /-- The field `RootDict` (`none` for `nil`). -/
  RootDict : Option Dict
  /-- The object an object number resolves to. -/
  resolve : Nat → Except Str Obj

/-- The method `Context.Dereference`: an indirect reference is resolved, any
other object is returned as it is. -/
def Dereference (ctx : Context) (o : Obj) : Except Str Obj :=
  match o with
  | .indirectRef objNr => ctx.resolve objNr
  | o => .ok o

/-- The errors of `extractLabelEntries` and `walkNumberTree`. -/
inductive LabelError where
  /-- An error returned by `ctx.Dereference`. -/
  | dereference (msg : Str)
  /-- "PageLabels is not a dict" -/
  | pageLabelsNotDict
deriving DecidableEq, Repr

/-- The entry `walkNumberTree` builds for an integer key and its dereferenced
value: the defaults, overwritten by the entries `S`, `P`, `St` of a value
that is a dict. -/
def entryOf (key : Int) (valObj : Obj) : pageLabelEntry :=
  match valObj with
  | .dict valDict =>
    { startIndex := key, style := (NameEntry valDict ['S']).getD [],
      pfx := (StringEntry valDict ['P']).getD [],
      startValue := (IntEntry valDict ['S', 't']).getD 1 }
  | _ => { startIndex := key, style := [], pfx := [], startValue := 1 }

/-- The loop `for i := 0; i+1 < len(nums); i += 2` of `walkNumberTree`: the
entries after the loop, and the error it returned with, if any. -/
def walkNums (ctx : Context) : List Obj → List pageLabelEntry →
    List pageLabelEntry × Option LabelError
  | k :: v :: nums, entries =>
    match Dereference ctx k with
    | .error e => (entries, some (.dereference e))
    | .ok (.integer key) =>
      match Dereference ctx v with
      | .error e => (entries, some (.dereference e))
      | .ok valObj => walkNums ctx nums (entries ++ [entryOf key valObj])
    | .ok _ => walkNums ctx nums entries
  | _, entries => (entries, none)

/-- The loop `for _, kidObj := range kids` of `walkNumberTree`, `walk` being the
recursive call; `none` when a recursive call does not return. -/
def walkKids (walk : Dict → List pageLabelEntry → Option (List pageLabelEntry × Option LabelError))
    (ctx : Context) : List Obj → List pageLabelEntry →
    Option (List pageLabelEntry × Option LabelError)
  | [], entries => some (entries, none)
  | kidObj :: kids, entries =>
    match Dereference ctx kidObj with
    | .error e => some (entries, some (.dereference e))
    | .ok (.dict kidDict) =>
      match walk kidDict entries with
      | none => none
      | some (entries1, some err) => some (entries1, some err)
      | some (entries1, none) => walkKids walk ctx kids entries1
    | .ok _ => walkKids walk ctx kids entries

/-- The function `walkNumberTree`: the slice `*entries` after the call and the
error returned.  The fuel bounds the depth of the recursion; `none` when the
call does not return within that depth. -/
def walkNumberTree : Nat → Context → Dict → List pageLabelEntry →
    Option (List pageLabelEntry × Option LabelError)
  | 0, _, _, _ => none
  | fuel + 1, ctx, node, entries =>
    let afterNums := match ArrayEntry node ['N', 'u', 'm', 's'] with
      | some nums => walkNums ctx nums entries
      | none => (entries, none)
    match afterNums with
    | (entries1, some err) => some (entries1, some err)
    | (entries1, none) =>
      match ArrayEntry node ['K', 'i', 'd', 's'] with
      | some kids => walkKids (walkNumberTree fuel ctx) ctx kids entries1
      | none => some (entries1, none)

/-- The function `extractLabelEntries`.  `sortSlice` is the library call
`sort.Slice(entries, less)` with the `less` of the code,
`entries[i].startIndex < entries[j].startIndex`: it puts the slice in
ascending order of `startIndex` (`SortsByStartIndex`), and the order it
leaves entries of equal `startIndex` in is the library's (the sort is not
stable).  `none` when the traversal does not return within the depth
`fuel`. -/
def extractLabelEntries (sortSlice : List pageLabelEntry → List pageLabelEntry) (fuel : Nat)
    (ctx : Context) : Option (Except LabelError (List pageLabelEntry)) :=
  match ctx.RootDict with
  | none => some (.ok [])
  | some rootDict =>
    match rootDict.lookup ['P', 'a', 'g', 'e', 'L', 'a', 'b', 'e', 'l', 's'] with
    | none => some (.ok [])
    | some obj =>
      match Dereference ctx obj with
      | .error e => some (.error (.dereference e))
      | .ok .null => some (.ok [])
      | .ok (.dict dict) =>
        match walkNumberTree fuel ctx dict [] with
        | none => none
        | some (_, some err) => some (.error err)
        | some (entries, none) => some (.ok (sortSlice entries))
      | .ok _ => some (.error .pageLabelsNotDict)

/-- The traversal of the number tree at `node` returns. -/
def WalkReturns (ctx : Context) (node : Dict) : Prop :=
  ∃ fuel, (walkNumberTree fuel ctx node []).isSome = true

/-- A document whose number-tree node, object 1, lists itself among its
`Kids`. -/
def cyclicCtx : Context where
  RootDict := some [("PageLabels".toList, .indirectRef 1)]
  resolve := fun _ => .ok (.dict [("Kids".toList, .array [.indirectRef 1])])

/-- The number-tree node of `cyclicCtx`. -/
def cyclicNode : Dict := [("Kids".toList, .array [.indirectRef 1])]

/-- A document with a two-level number tree: the root, object 1, has the kids
2 and 3; pages 0.. are roman, pages 4.. decimal with the prefix `A-`. -/
def treeCtx : Context where
  RootDict := some [("PageLabels".toList, .indirectRef 1)]
  resolve := fun n =>
    if n = 1 then .ok (.dict [("Kids".toList, .array [.indirectRef 2, .indirectRef 3])])
    else if n = 2 then
      .ok (.dict [("Nums".toList, .array [.integer 0, .dict [(['S'], .name ['r'])]])])
    else if n = 3 then
      .ok (.dict [("Nums".toList, .array [.integer 4,
        .dict [(['S'], .name ['D']), (['P'], .stringLiteral ['A', '-'])]])])
    else .ok .null

/-- The depth of the nodes of `treeCtx`: 1 for the node with `Kids`, 0 for
the others. -/
def treeRank (node : Dict) : Nat :=
  match ArrayEntry node "Kids".toList with
  | some _ => 1
  | none => 0

/-- A document whose `PageLabels` entry is an integer. -/
def integerLabelsCtx : Context where
  RootDict := some [("PageLabels".toList, .integer 5)]
  resolve := fun _ => .ok .null

/-- A document whose number tree has a valid pair followed by a pair whose
key, object 7, cannot be dereferenced. -/
def danglingKeyCtx : Context where
  RootDict := some [("PageLabels".toList, .dict [("Nums".toList,
    .array [.integer 0, .dict [(['S'], .name ['r'])], .indirectRef 7, .null])])]
  resolve := fun _ => .error "object 7 cannot be decoded".toList

/-- The root node of the number tree of `treeCtx`. -/
def treeRoot : Dict := [("Kids".toList, .array [.indirectRef 2, .indirectRef 3])]

/-! ## Extraction commands (`cmd/tui.go`) -/

/-- A call of `api.CollectFile(filename, outFile, sel, pdfConfig())`. -/
structure CollectCall where
  /-- The input file. -/
  filename : Str
  /-- The output file. -/
  outFile : Str
  /-- The page selection. -/
  sel : List Str
deriving DecidableEq, Repr

/-- The operations on the world (of state `σ`) an extraction command calls:
each returns the world after the call and its error, if any. -/
structure FileOps (σ : Type) where
  /-- The call `os.MkdirAll(outDir, 0755)`. -/
  MkdirAll : σ → Str → σ × Option Str
  /-- The call `api.CollectFile(filename, outFile, sel, pdfConfig())` of the
  document service. -/
  CollectFile : σ → CollectCall → σ × Option Str

/-- The slice `sel` of an extraction: `strconv.Itoa(p)` for `p` from
`seg.start` to `seg.end`. -/
def pageSelection (seg : segment) : List Str :=
  (intRange seg.start seg.stop).map fmtD

/-- The output file of a segment in `executeSplitAll` and `executeExtract`:
`fmt.Sprintf("%s_p%d-%d.pdf", baseName, seg.start, seg.end)`, joined to
`outDir` when that is not empty. -/
def extractOutFile {ι : Type} (d : Deps ι) (baseName outDir : Str) (seg : segment) : Str :=
  let outFile := baseName ++ "_p".toList ++ fmtD seg.start ++ "-".toList ++ fmtD seg.stop ++
    ".pdf".toList
  if outDir ≠ [] then d.Join outDir outFile else outFile

/-- The call of `CollectFile` an extraction makes for a segment. -/
def collectCallOf {ι : Type} (d : Deps ι) (filename baseName outDir : Str) (seg : segment) :
    CollectCall :=
  { filename := filename, outFile := extractOutFile d baseName outDir seg,
    sel := pageSelection seg }

/-- What running an extraction command leaves: the world, the calls of
`CollectFile` made with their results, in order, and the message delivered. -/
structure ExtractRun (σ : Type) where
  /-- The world after the command. -/
  world : σ
  /-- The calls of `CollectFile` and their errors. -/
  calls : List (CollectCall × Option Str)
  /-- The message the command returns. -/
  msg : Msg

/-- The loop `for _, seg := range segs` of the command of `executeSplitAll`,
`count` being `len(segs)` of the whole slice. -/
def splitAllLoop {ι σ : Type} (ops : FileOps σ) (d : Deps ι) (filename baseName outDir : Str)
    (count : Int) : List segment → σ → List (CollectCall × Option Str) → ExtractRun σ
  | [], w, calls => { world := w, calls := calls, msg := .splitDone count none }
  | seg :: segs, w, calls =>
    let call := collectCallOf d filename baseName outDir seg
    match ops.CollectFile w call with
    | (w1, some err) =>
      { world := w1, calls := calls ++ [(call, some err)], msg := .splitDone 0 (some err) }
    | (w1, none) =>
      splitAllLoop ops d filename baseName outDir count segs w1 (calls ++ [(call, none)])

/-- The command returned by `executeSplitAll`, run in the world `w`. -/
def runSplitAll {ι σ : Type} (ops : FileOps σ) (d : Deps ι) (filename baseName outDir : Str)
    (segs : List segment) (w : σ) : ExtractRun σ :=
  if outDir ≠ [] then
    match ops.MkdirAll w outDir with
    | (w1, some err) => { world := w1, calls := [], msg := .splitDone 0 (some err) }
    | (w1, none) => splitAllLoop ops d filename baseName outDir (len segs) segs w1 []
  else splitAllLoop ops d filename baseName outDir (len segs) segs w []

/-- The function `executeSplitAll`: the command that captures the segments and
the file names of the state. -/
def executeSplitAll {ι : Type} (m : appModel ι) : Cmd :=
  .splitAll m.filename m.baseName m.outDir (buildSegments m)

/-- A world in which no directory can be created and every `CollectFile`
succeeds; its state counts the calls of `CollectFile`. -/
def readOnlyOps : FileOps Nat where
  MkdirAll := fun w _ => (w, some "permission denied".toList)
  CollectFile := fun w _ => (w + 1, none)

/-- A world in which directories can be created and the second call of
`CollectFile` fails; its state counts the calls of `CollectFile`. -/
def secondFailsOps : FileOps Nat where
  MkdirAll := fun w _ => (w, none)
  CollectFile := fun w _ => (w + 1, if w = 1 then some "disk full".toList else none)

/-! ## Search scores (`cmd/search.go`) -/

/-- Round a rational to the nearest integer, a tie to the even one. -/
def roundHalfEven (x : ℚ) : Int :=
  let f := ⌊x⌋
  if x - f < 1 / 2 then f
  else if 1 / 2 < x - f then f + 1
  else if f % 2 = 0 then f
  else f + 1

/-- The `float64` nearest to a rational, a tie to the one with even
significand: 53 significant bits, the exponent taken from the binade of the
value. -/
def roundFloat64 (x : ℚ) : ℚ :=
  if x = 0 then 0
  else
    let ulp : ℚ := 2 ^ (Int.log 2 |x| - 52)
    roundHalfEven (x / ulp) * ulp

/-- Go `int(x)` on a `float64`: the fraction is discarded; outside the range
of `int` the result depends on the implementation (`none`). -/
def truncInt64 (x : ℚ) : Option Int :=
  let t := if 0 ≤ x then ⌊x⌋ else ⌈x⌉
  if -(2 ^ 63) ≤ t ∧ t < 2 ^ 63 then some t else none

/-- The function `scorePercent`.  The arguments are Go `int`s, in the 64-bit
range.  `none` is a result that depends on the implementation: the quotient
is infinite, or the product is outside the range of `int`. -/
def scorePercent (rawScore queryLen : Int) : Option Int :=
  if queryLen = 0 then some 0
  else
    let worst := wrapInt64 (-(wrapInt64 (queryLen * queryLen)))
    if rawScore ≤ worst then some 0
    else
      let num := roundFloat64 (wrapInt64 (rawScore - worst))
      let den := roundFloat64 (wrapInt64 (-worst))
      if den = 0 then none
      else
        match truncInt64 (roundFloat64 (roundFloat64 (num / den) * 100)) with
        | none => none
        | some pct => if pct > 100 then some 100 else some pct

/-! ## Output file names and the extraction of one segment (`cmd/tui.go`) -/

/-- The function `segmentFilename`; `%d` is `fmtD`. -/
def segmentFilename {ι : Type} (d : Deps ι) (m : appModel ι) (seg : segment) : Str :=
  let name := m.baseName ++ "_p".toList ++ fmtD seg.start ++ "-".toList ++ fmtD seg.stop ++
    ".pdf".toList
  if m.outDir ≠ [] then d.Join m.outDir name else name

/-- The command `executeExtract(seg)` returns, run in the world `w`: the
directory is created when `outDir` is not empty, then the segment is
collected; the count of a success is 1. -/
def runExtract {ι σ : Type} (ops : FileOps σ) (d : Deps ι) (filename baseName outDir : Str)
    (seg : segment) (w : σ) : ExtractRun σ :=
  let collect := fun (w0 : σ) =>
    let call := collectCallOf d filename baseName outDir seg
    match ops.CollectFile w0 call with
    | (w1, some err) =>
      ({ world := w1, calls := [(call, some err)], msg := .splitDone 0 (some err) } : ExtractRun σ)
    | (w1, none) => { world := w1, calls := [(call, none)], msg := .splitDone 1 none }
  if outDir ≠ [] then
    match ops.MkdirAll w outDir with
    | (w1, some err) => { world := w1, calls := [], msg := .splitDone 0 (some err) }
    | (w1, none) => collect w1
  else collect w

/-- The function `executeExtract`: the command captures the file name, the
base name, the output directory and the segment. -/
def executeExtract {ι : Type} (m : appModel ι) (seg : segment) : Cmd :=
  .extract m.filename m.baseName m.outDir seg

/-- Library code for examples: as `plainDeps`, with a matcher that returns
every line of the corpus, in corpus order, with score 0. -/
def everyLineDeps : Deps Str where
  inputNew := []
  inputValue := fun v => v
  inputSetValue := fun _ v => v
  inputFocus := fun v => v
  inputBlur := fun v => v
  inputUpdate := fun v k => if k.type = .KeyRunes then v ++ k.str else v
  Find := fun _ strs =>
    (List.range strs.length).zipWith (fun (i : Nat) s => ⟨s, (i : Int), [], 0⟩) strs
  Base := fun f => f
  Ext := fun _ => []
  Dir := fun f => f
  Join := fun a b => a ++ '/' :: b
  output := []

/-! ## Text lines and the non-interactive search (`cmd/search.go`) -/

/-- Go `len(s)` of a string: the number of bytes of its UTF-8 encoding. -/
def byteLen (s : Str) : Int := (((s.map Char.utf8Size).sum : Nat) : Int)

/-- The lookup `pageTexts[page]` in the map of `extractTextByPage`, given as
the list of its entries; a missing key gives the empty string. -/
def textOfPage (pageTexts : List (Int × Str)) (page : Int) : Str :=
  (pageTexts.lookup page).getD []

/-- The inner loop of `loadLines`, over the pieces of one page's text. -/
def loadLinesPage (page : Int) : List Str → List indexedLine → List indexedLine
  | [], lines => lines
  | l :: ls, lines =>
    let l1 := TrimSpace l
    if byteLen l1 ≥ 2 then loadLinesPage page ls (lines ++ [⟨page, l1⟩])
    else loadLinesPage page ls lines

/-- The outer loop of `loadLines`, over the sorted page numbers. -/
def loadLinesLoop (pageTexts : List (Int × Str)) : List Int → List indexedLine → List indexedLine
  | [], lines => lines
  | page :: pages, lines =>
    loadLinesLoop pageTexts pages
      (loadLinesPage page (Split (textOfPage pageTexts page) '\n') lines)

/-- The function `loadLines`, on the result of `extractTextByPage`: the map
from page number to text, as the list of its entries, or an error. -/
def loadLines (extracted : Except Str (List (Int × Str))) : Except Str (List indexedLine) :=
  match extracted with
  | .error err => .error err
  | .ok pageTexts =>
    let pages := (pageTexts.map Prod.fst).insertionSort (fun a b => a ≤ b)
    .ok (loadLinesLoop pageTexts pages [])

/-- The value `scorePercent` returns on an implementation of Go: where the
language leaves the result to the implementation, `impl` gives it. -/
def scorePercentOn (impl : Int → Int → Int) (rawScore queryLen : Int) : Int :=
  match scorePercent rawScore queryLen with
  | some pct => pct
  | none => impl rawScore queryLen

/-- A result line `staticSearch` prints: the page, the score in percent, the
text of the line and the positions highlighted in it. -/
structure SearchRow where
  /-- The page of the line. -/
  page : Int
  /-- The score in percent. -/
  score : Int
  /-- The text of the line. -/
  text : Str
  /-- The matched positions. -/
  MatchedIndexes : List Int
deriving DecidableEq, Repr

/-- What `staticSearch` prints: the result lines in order, and whether the
warning "No matches" follows. -/
structure SearchOutput where
  /-- The result lines. -/
  rows : List SearchRow
  /-- The warning is printed. -/
  warning : Bool
deriving DecidableEq, Repr

/-- The loop of `staticSearch` over the matches, with the counter `count` and
the lines printed so far; `none` is the run-time panic of `allLines[m.Index]`
out of range. -/
def staticSearchLoop (impl : Int → Int → Int) (allLines : List indexedLine)
    (queryLen searchThresh maxResults : Int) :
    List fuzzyMatch → Int → List SearchRow → Option (List SearchRow × Int)
  | [], count, rows => some (rows, count)
  | m :: ms, count, rows =>
    let score := scorePercentOn impl m.Score queryLen
    if score < searchThresh then
      staticSearchLoop impl allLines queryLen searchThresh maxResults ms count rows
    else
      match index? allLines m.Index with
      | none => none
      | some line =>
        let rows1 := rows ++ [⟨line.page, score, line.text, m.MatchedIndexes⟩]
        let count1 := count + 1
        if count1 ≥ maxResults then some (rows1, count1)
        else staticSearchLoop impl allLines queryLen searchThresh maxResults ms count1 rows1

/-- The function `staticSearch`, with the matcher `Find` and the flags
`searchThresh` and `maxResults` as arguments. -/
def staticSearch (Find : Str → List Str → List fuzzyMatch) (impl : Int → Int → Int)
    (searchThresh maxResults : Int) (allLines : List indexedLine) (query : Str) :
    Option (Except Str SearchOutput) :=
  if query = [] then some (.error "provide a query or remove --no-interactive".toList)
  else
    let strs := lineStrings allLines
    let matchList := Find query strs
    (staticSearchLoop impl allLines (byteLen query) searchThresh maxResults matchList 0 []).map
      fun (r : List SearchRow × Int) => .ok { rows := r.1, warning := decide (r.2 = 0) }

/-! ## The timeline row (`cmd/tui.go`) -/

/-- The table `segColors`. -/
def segColors : List Str := [['4'], ['2'], ['5'], ['3'], ['1']]

/-- A piece of the timeline row as `renderTimeline` writes it: its text, the
page whose token it is (`none` for the leading spaces, a separator and the
hint), its colour (`none`: the faint style) and whether it is shown in
reverse video and bold.  A style adds no column to the text. -/
structure TimelineSpan where
  /-- The page of the token. -/
  page : Option Int
  /-- The foreground colour. -/
  color : Option Str
  /-- Reverse video and bold: the current page. -/
  current : Bool
  /-- The text written. -/
  text : Str
deriving DecidableEq, Repr

/-- Go `make([]int, n)`; `none` is the run-time panic of a negative length. -/
def makeInts (n : Int) : Option (List Int) :=
  if n < 0 then none else some (List.replicate n.toNat 0)

/-- The assignment `tbl[i] = v`; `none` is the panic of an index out of
range. -/
def setAt (tbl : List Int) (i v : Int) : Option (List Int) :=
  if 0 ≤ i ∧ i < len tbl then some (tbl.set i.toNat v) else none

/-- The loop `for p := seg.start; p <= seg.end; p++ { pageSegment[p] = si }`,
over the pages of the segment. -/
def fillSegment (si : Int) : List Int → List Int → Option (List Int)
  | [], tbl => some tbl
  | p :: ps, tbl => (setAt tbl p si).bind (fillSegment si ps)

/-- The loop of `renderTimeline` that fills `pageSegment`. -/
def fillPageSegment : List segment → Int → List Int → Option (List Int)
  | [], _, tbl => some tbl
  | seg :: segs, si, tbl =>
    (fillSegment si (intRange seg.start seg.stop) tbl).bind (fillPageSegment segs (si + 1))

/-- Go `fmt.Sprintf("%*d", w, n)` for a width `w ≥ 0`: the decimal numeral,
with spaces before it up to the width `w`; a longer numeral is not cut. -/
def padLeft (w : Int) (n : Int) : Str :=
  List.replicate (w.toNat - (fmtD n).length) ' ' ++ fmtD n

/-- The token of a page in the timeline row. -/
def pageToken (pw page : Int) : Str :=
  if pw ≥ 2 then padLeft (pw - 1) page ++ [' '] else ['▪']

/-- The loop of `renderTimeline` over the pages. -/
def timelineTokens {ι : Type} (m : appModel ι) (pw : Int) (pageSegment : List Int) :
    List Int → Option (List TimelineSpan)
  | [] => some []
  | page :: pages =>
    (index? pageSegment page).bind fun si =>
      (index? segColors (si.tmod (len segColors))).bind fun color =>
        (timelineTokens m pw pageSegment pages).map fun rest =>
          (if page > 1 ∧ page ∈ sortedSplits m then
            [({ page := none, color := none, current := false, text := " │ ".toList } :
              TimelineSpan)]
          else []) ++
          { page := some page, color := some color, current := page = m.currentPage,
            text := pageToken pw page } :: rest

/-- The function `renderTimeline`, as the pieces it writes; `none` is a
run-time panic. -/
def renderTimeline {ι : Type} (m : appModel ι) : Option (List TimelineSpan) :=
  (makeInts (m.pageCount + 1)).bind fun tbl =>
    (fillPageSegment (buildSegments m) 0 tbl).bind fun pageSegment =>
      (pageWidth m).bind fun pw =>
        (timelineTokens m pw pageSegment (intRange 1 m.pageCount)).map fun tokens =>
          { page := none, color := none, current := false, text := "  ".toList } :: tokens ++
          (if m.currentPage ∈ m.splitPoints then
            [{ page := none, color := none, current := false, text := "  ← remove".toList }]
          else if m.currentPage > 1 then
            [{ page := none, color := none, current := false, text := "  ← split here".toList }]
          else [])

/-- The columns of the timeline row, left to right from column 0: for each
one the page whose token covers it.  Every character these texts hold is one
column wide. -/
def timelineColumns (spans : List TimelineSpan) : List (Option Int) :=
  spans.flatMap fun s => List.replicate s.text.length s.page

/-! ## Invariants used in the proofs -/

/-- The state of the loops of `parsePageRanges` and `resolveRealPages` after
the pages `l` have gone through `addPage`. -/
def AccOf (st : PageAcc) (l : List Int) : Prop :=
  (∀ i, i ∈ st.seen ↔ i ∈ l) ∧ st.pages = stableDedup l

/-- Every page list of the label map is non-empty and ascending. -/
def AscendingMap (labelsMap : pageLabelsMap) : Prop :=
  ∀ label pages, labelsMap label = some pages →
    pages ≠ [] ∧ pages.Pairwise (fun x y => x ≤ y)

/-- The segments `buildSegments` appends once its loop has reached the
boundary `start` with the split points `splits` still to visit. -/
def segmentsFrom (pageCount : Int) (start : Int) : List Int → List segment
  | [] => [⟨start, pageCount⟩]
  | s :: splits => ⟨start, s - 1⟩ :: segmentsFrom pageCount s splits

/-- The page `p` lies in the segment `seg`. -/
def segment.Covers (seg : segment) (p : Int) : Prop := seg.start ≤ p ∧ p ≤ seg.stop

/-- The boundaries still to visit ascend strictly from `start` and stay
within the document. -/
def SplitsFrom (pageCount start : Int) (splits : List Int) : Prop :=
  (start :: splits).Pairwise (fun a b => a < b) ∧ ∀ s ∈ start :: splits, s ≤ pageCount

/-- The invariant of the navigator of a document of `pageCount` pages: the
page count is unchanged and at least 1, the corpus lines lie on pages of the
document, the split points lie in `[2, pageCount]` and the current page in
`[1, pageCount]`. -/
structure NavInv {ι : Type} (pageCount : Int) (m : appModel ι) : Prop where
  /-- The page count is the one the navigator started with. -/
  count : m.pageCount = pageCount
  /-- The document has at least one page. -/
  pages : 1 ≤ m.pageCount
  /-- Every corpus line lies on a page of the document. -/
  lines : ∀ l ∈ m.allLines, 1 ≤ l.page ∧ l.page ≤ m.pageCount
  /-- Every split point lies in `[2, pageCount]`. -/
  splits : ∀ p ∈ m.splitPoints, 2 ≤ p ∧ p ≤ m.pageCount
  /-- The current page is at least 1. -/
  curLo : 1 ≤ m.currentPage
  /-- The current page is at most `pageCount`. -/
  curHi : m.currentPage ≤ m.pageCount

/-- Every state a handler's result holds satisfies `P` (a panic holds none). -/
def StepTo {ι : Type} (P : appModel ι → Prop) (r : Option (appModel ι × Cmd)) : Prop :=
  ∀ m1 c, r = some (m1, c) → P m1

/-- The symbols the loop of `toRoman` writes for the remainder `r` and the part
of the table still to visit: each symbol as often as its value fits. -/
def romanParts (r : Int) : List (Int × Str) → List (Int × Str)
  | [] => []
  | vs :: t => List.replicate (r / vs.1).toNat vs ++ romanParts (r % vs.1) t

/-- The remainder the loop of `toRoman` ends with. -/
def romanRest (r : Int) : List (Int × Str) → Int
  | [] => r
  | vs :: t => romanRest (r % vs.1) t

/-- No character stands four times in a row at the head of a window of the
string. -/
def noFourInARow : Str → Bool
  | a :: b :: c :: d :: rest =>
    !(a == b && b == c && c == d) && noFourInARow (b :: c :: d :: rest)
  | _ => true

/-- An error that is the failure of resolving some indirect reference. -/
def FromResolve (ctx : Context) (e : LabelError) : Prop :=
  ∃ objNr msg, ctx.resolve objNr = .error msg ∧ e = .dereference msg

/-- The outcome of an extract-all run, against the calls `expected` for the
segments in order: the calls made are the first ones expected, one each; every
call but the last succeeded; and either all calls were made, all succeeded
and the message carries the count, or the last call made failed and the
message carries its error. -/
def SplitAllOutcome (calls : List (CollectCall × Option Str)) (expected : List CollectCall)
    (count : Int) (msg : Msg) : Prop :=
  calls.map Prod.fst = expected.take calls.length ∧
  (∀ c ∈ calls.dropLast, c.2 = none) ∧
  ((msg = .splitDone count none ∧ calls.length = expected.length ∧ ∀ c ∈ calls, c.2 = none) ∨
    ∃ e, msg = .splitDone 0 (some e) ∧ calls.getLast?.map Prod.snd = some (some e))

/-- The invariant of the result list of a navigator over the corpus
`allLines` with `n` pages: corpus and page count are the ones it started
with, the result cursor is not negative and is below the number of matches or
0, and every match satisfies `V`. -/
structure ResInv {ι : Type} (V : fuzzyMatch → Prop) (allLines : List indexedLine) (n : Int)
    (m : appModel ι) : Prop where
  /-- The corpus is unchanged. -/
  lines : m.allLines = allLines
  /-- The texts are those of the corpus. -/
  strs : m.strs = lineStrings allLines
  /-- The page count is unchanged. -/
  count : m.pageCount = n
  /-- The cursor is not negative. -/
  curLo : 0 ≤ m.searchCursor
  /-- The cursor is below the number of matches, or 0. -/
  curHi : m.searchCursor < len m.matchList ∨ m.searchCursor = 0
  /-- Every match satisfies `V`. -/
  good : ∀ mt ∈ m.matchList, V mt

/-- A handler's result keeps `P`, and under the condition `T` the handler
returns (no panic). -/
def StepKeeps {ι : Type} (P : appModel ι → Prop) (T : Prop) (r : Option (appModel ι × Cmd)) :
    Prop :=
  StepTo P r ∧ (T → ∃ m1 c, r = some (m1, c))

/-- The index of the match is an index of the corpus. -/
def ValidIndex (allLines : List indexedLine) (mt : fuzzyMatch) : Prop :=
  0 ≤ mt.Index ∧ mt.Index < len allLines

/-- The condition under which `Update` has no panic left: every match that
satisfies `V` indexes the corpus, and the page count is not 0. -/
def Runs (V : fuzzyMatch → Prop) (allLines : List indexedLine) (n : Int) : Prop :=
  (∀ mt, V mt → ValidIndex allLines mt) ∧ n ≠ 0

/-- The state after the messages `msgs`, handled by `Update` one after the
other from the state `m`; `none` when one of them ends in a panic. -/
def runMsgs {ι : Type} (d : Deps ι) : appModel ι → List Msg → Option (appModel ι)
  | m, [] => some m
  | m, msg :: msgs => (Update d m msg).bind fun r => runMsgs d r.1 msgs

/-- A corpus for examples: ten lines, the line of index `i` on page `i + 1`. -/
def tenLines : List indexedLine :=
  (List.range 10).map fun (i : Nat) => ⟨(i : Int) + 1, "line".toList⟩

/-- The key `down`. -/
def keyDown : Msg := .key ⟨.KeyDown, "down".toList⟩

/-- The key `up`. -/
def keyUp : Msg := .key ⟨.KeyUp, "up".toList⟩

/-- The key of the letter `c`. -/
def keyRune (c : Char) : Msg := .key ⟨.KeyRunes, [c]⟩

/-- A press of the left button at column `x`, row `y`. -/
def leftPress (x y : Int) : Msg := .mouse ⟨x, y, .MouseButtonLeft, .MouseActionPress⟩

/-- The lines of one page that `loadLines` keeps, in the order of the text:
the pieces between line breaks, trimmed, that are at least 2 bytes long. -/
def keptLines (text : Str) : List Str :=
  ((Split text '\n').map TrimSpace).filter fun l => decide (2 ≤ byteLen l)

/-- The result line of a match: its corpus line with the score. -/
def rowOfMatch (impl : Int → Int → Int) (allLines : List indexedLine) (queryLen : Int)
    (mt : fuzzyMatch) : Option SearchRow :=
  (index? allLines mt.Index).map fun line =>
    ⟨line.page, scorePercentOn impl mt.Score queryLen, line.text, mt.MatchedIndexes⟩

/-- The matches whose score in percent is at least the threshold, in the
order of the match list. -/
def qualifying (impl : Int → Int → Int) (queryLen searchThresh : Int)
    (matchList : List fuzzyMatch) : List fuzzyMatch :=
  matchList.filter fun mt => decide (searchThresh ≤ scorePercentOn impl mt.Score queryLen)

/-- The columns the loop of `renderTimeline` writes for the pages `pages`:
three columns of no page before a split page, then the columns of the page's
token, `width page` of them. -/
def timelineCells (splits : List Int) (width : Int → Nat) (pages : List Int) :
    List (Option Int) :=
  pages.flatMap fun page =>
    (if page > 1 ∧ page ∈ splits then List.replicate 3 none else []) ++
      List.replicate (width page) (some page)

/-- The calls recorded are calls of the document service made one after the
other from the world `w`, each with the result the service gave: the world
after the last of them, `none` when a recorded result is not the
service's. -/
def worldAfterCalls {σ : Type} (ops : FileOps σ) : σ → List (CollectCall × Option Str) → Option σ
  | w, [] => some w
  | w, c :: rest =>
    if (ops.CollectFile w c.1).2 = c.2 then worldAfterCalls ops (ops.CollectFile w c.1).1 rest
    else none

/-- A dereference of the pair `k`, `v` of a `Nums` array fails with `msg`: the
key cannot be dereferenced, or the key is an integer and the value cannot be
dereferenced (the value under a key that is not an integer is not looked
at). -/
def PairFails (ctx : Context) (k v : Obj) (msg : Str) : Prop :=
  Dereference ctx k = .error msg ∨
    ∃ key, Dereference ctx k = .ok (.integer key) ∧ Dereference ctx v = .error msg

/-- One behaviour of `sort.Slice` for the examples: the stable sort by
`startIndex`. -/
def stableSortSlice (entries : List pageLabelEntry) : List pageLabelEntry :=
  entries.insertionSort fun a b => a.startIndex ≤ b.startIndex

/-- What `sort.Slice` with the `less` of `extractLabelEntries` guarantees: the
result is a rearrangement of the slice, in ascending order of `startIndex`. -/
def SortsByStartIndex (sortSlice : List pageLabelEntry → List pageLabelEntry) : Prop :=
  ∀ l, (sortSlice l).Perm l ∧ (sortSlice l).Pairwise fun a b => a.startIndex ≤ b.startIndex

/-- The loop over `Nums` of the traversal of `node`, started with `entries`,
ends without an error and leaves `es`. -/
def NumsPass (ctx : Context) (node : Dict) (entries es : List pageLabelEntry) : Prop :=
  (ArrayEntry node ['N', 'u', 'm', 's'] = none ∧ es = entries) ∨
    ∃ nums, ArrayEntry node ['N', 'u', 'm', 's'] = some nums ∧
      walkNums ctx nums entries = (es, none)

/-- Spec wording of the lower-case roman numeral of `n ≥ 1`: the symbols
m, cm, d, cd, c, xc, l, xl, x, ix, v, iv, i of the values 1000, 900, 500, 400,
100, 90, 50, 40, 10, 9, 5, 4, 1, each in turn as often as its value fits into
what remains of `n`. -/
def romanNumeral (n : Int) : Str :=
  ((romanParts n
    [(1000, ['m']), (900, ['c', 'm']), (500, ['d']), (400, ['c', 'd']), (100, ['c']),
     (90, ['x', 'c']), (50, ['l']), (40, ['x', 'l']), (10, ['x']), (9, ['i', 'x']),
     (5, ['v']), (4, ['i', 'v']), (1, ['i'])]).map Prod.snd).flatten

/-- Spec wording of "`s` is the numeral of `number` rendered in `style`":
decimal `D` gives the base-10 string; roman `r` the roman numeral and `R`
its upper-case form; alpha `a` the string of letters `a`..`z` whose bijective
base-26 value is the number and `A` the upper-case form of that string; a
non-positive number falls back to its decimal string in the roman and alpha
styles; any other style gives the empty numeral. -/
def NumeralOf (style : Str) (number : Int) (s : Str) : Prop :=
  (style = ['D'] → s = fmtD number) ∧
  (style = ['r'] → s = if number ≤ 0 then fmtD number else romanNumeral number) ∧
  (style = ['R'] → s = if number ≤ 0 then fmtD number else ToUpper (romanNumeral number)) ∧
  (style = ['a'] → if number ≤ 0 then s = fmtD number
    else (∀ c ∈ s, IsLowerLetter c) ∧ alphaValue s = number) ∧
  (style = ['A'] → if number ≤ 0 then s = fmtD number
    else ∃ t, (∀ c ∈ t, IsLowerLetter c) ∧ alphaValue t = number ∧ s = ToUpper t) ∧
  (style ≠ ['D'] → style ≠ ['r'] → style ≠ ['R'] → style ≠ ['a'] → style ≠ ['A'] → s = [])

/-! ## Theorems: page labels -/

/-- On a list sorted by `startIndex` the loop of `findEntry` ends with the last
entry whose `startIndex` is at most the page index, or with the value it
started from when there is none. -/
theorem findEntryLoop_eq_last (i : Int) :
    ∀ (l : List pageLabelEntry) (r : pageLabelEntry),
      l.Pairwise (fun a b => a.startIndex ≤ b.startIndex) →
      findEntryLoop i r l = ((l.filter fun e => e.startIndex ≤ i).getLast?).getD r := by
  intro l
  induction l with
  | nil => intro r _; rfl
  | cons e es ih =>
    intro r hs
    rw [List.pairwise_cons] at hs
    by_cases h : e.startIndex ≤ i
    · have hf : (List.filter (fun e => decide (e.startIndex ≤ i)) (e :: es))
          = e :: List.filter (fun e => decide (e.startIndex ≤ i)) es := by
        simp [List.filter_cons, h]
      rw [hf, findEntryLoop, if_pos h, ih e hs.2]
      cases hfe : List.filter (fun e => decide (e.startIndex ≤ i)) es with
      | nil => simp
      | cons x xs => simp [List.getLast?_cons_cons, List.getLast?_eq_getLast _ (List.cons_ne_nil x xs)]
    · have hf : (List.filter (fun e => decide (e.startIndex ≤ i)) (e :: es)) = [] := by
        rw [List.filter_eq_nil_iff]
        intro a ha
        rcases List.mem_cons.1 ha with rfl | ha
        · simpa using h
        · have := hs.1 a ha
          simp only [decide_eq_true_eq]; omega
      rw [hf, findEntryLoop, if_neg h]; rfl

/-! ## Theorems: the loops that collect pages -/

theorem mem_stableDedup (x : Int) : ∀ l : List Int, x ∈ stableDedup l ↔ x ∈ l := by
  intro l
  induction l with
  | nil => simp [stableDedup]
  | cons y ys ih =>
    simp only [stableDedup, List.mem_cons, List.mem_filter, ih, decide_eq_true_eq]
    constructor
    · rintro (h | ⟨h, _⟩)
      · exact Or.inl h
      · exact Or.inr h
    · rintro (h | h)
      · exact Or.inl h
      · by_cases hxy : x = y
        · exact Or.inl hxy
        · exact Or.inr ⟨h, hxy⟩

theorem nodup_stableDedup : ∀ l : List Int, (stableDedup l).Nodup := by
  intro l
  induction l with
  | nil => simp [stableDedup]
  | cons y ys ih =>
    simp only [stableDedup, List.nodup_cons, List.mem_filter, decide_eq_true_eq]
    exact ⟨fun h => h.2 rfl, ih.filter _⟩

theorem stableDedup_concat (x : Int) :
    ∀ l : List Int, stableDedup (l ++ [x]) = if x ∈ l then stableDedup l else stableDedup l ++ [x] := by
  intro l
  induction l with
  | nil => simp [stableDedup]
  | cons y ys ih =>
    show y :: List.filter _ (stableDedup (ys ++ [x])) = _
    rw [ih]
    by_cases hxy : x = y
    · subst hxy
      by_cases hx : x ∈ ys
      · simp [hx, stableDedup]
      · simp [hx, List.filter_append, stableDedup]
    · by_cases hx : x ∈ ys
      · simp [hx, hxy, stableDedup]
      · simp [hx, hxy, List.filter_append, stableDedup]

theorem stableDedup_of_nodup : ∀ l : List Int, l.Nodup → stableDedup l = l := by
  intro l
  induction l with
  | nil => intro _; rfl
  | cons y ys ih =>
    intro h
    rw [List.nodup_cons] at h
    simp only [stableDedup, ih h.2]
    congr 1
    rw [List.filter_eq_self]
    intro a ha
    simp only [decide_eq_true_eq]
    rintro rfl
    exact h.1 ha

theorem accOf_addPage (st : PageAcc) (l : List Int) (x : Int) (h : AccOf st l) :
    AccOf (addPage st x) (l ++ [x]) := by
  obtain ⟨hs, hp⟩ := h
  unfold addPage
  by_cases hx : x ∈ st.seen
  · have hxl : x ∈ l := (hs x).1 hx
    rw [if_pos hx]
    refine ⟨fun i => ?_, ?_⟩
    · rw [hs i, List.mem_append, List.mem_singleton]
      constructor
      · exact Or.inl
      · rintro (h | rfl)
        · exact h
        · exact hxl
    · rw [stableDedup_concat, if_pos hxl, hp]
  · have hxl : x ∉ l := fun h => hx ((hs x).2 h)
    rw [if_neg hx]
    refine ⟨fun i => ?_, ?_⟩
    · simp only [List.mem_cons, List.mem_append, List.mem_singleton, hs i]
      tauto
    · simp only [stableDedup_concat, if_neg hxl, hp]

theorem accOf_foldl (xs : List Int) :
    ∀ (st : PageAcc) (l : List Int), AccOf st l → AccOf (xs.foldl addPage st) (l ++ xs) := by
  induction xs with
  | nil => intro st l h; simpa using h
  | cons x xs ih =>
    intro st l h
    have := ih (addPage st x) (l ++ [x]) (accOf_addPage st l x h)
    simpa using this

theorem accOf_init : AccOf { pages := [], seen := [] } [] := by
  simp [AccOf, stableDedup]

theorem mem_intRange (a b x : Int) : x ∈ intRange a b ↔ a ≤ x ∧ x ≤ b := by
  unfold intRange
  rw [List.mem_map]
  constructor
  · rintro ⟨k, hk, rfl⟩
    rw [List.mem_range] at hk
    have h1 : (k : Int) < ((b + 1 - a).toNat : Int) := by exact_mod_cast hk
    have h2 : 0 ≤ b + 1 - a := by
      by_contra hneg
      rw [Int.toNat_of_nonpos (by omega)] at h1
      simp at h1
      omega
    rw [Int.toNat_of_nonneg h2] at h1
    omega
  · rintro ⟨h1, h2⟩
    refine ⟨(x - a).toNat, ?_, ?_⟩
    · rw [List.mem_range]
      have : ((x - a).toNat : Int) < ((b + 1 - a).toNat : Int) := by
        rw [Int.toNat_of_nonneg (by omega), Int.toNat_of_nonneg (by omega)]
        omega
      exact_mod_cast this
    · rw [Int.toNat_of_nonneg (by omega)]
      omega

theorem Split_ne_nil (c : Char) : ∀ s : Str, Split s c ≠ [] := by
  intro s
  induction s with
  | nil => simp [Split]
  | cons x xs ih =>
    unfold Split
    by_cases h : x = c
    · simp [h]
    · rw [if_neg h]
      cases hS : Split xs c with
      | nil => simp
      | cons p ps => simp

theorem Split_of_not_mem (c : Char) : ∀ s : Str, c ∉ s → Split s c = [s] := by
  intro s
  induction s with
  | nil => intro _; rfl
  | cons x xs ih =>
    intro h
    rw [List.mem_cons, not_or] at h
    have hx : ¬ x = c := fun e => h.1 e.symm
    unfold Split
    rw [if_neg hx, ih h.2]

theorem Split_append (c : Char) (b : Str) :
    ∀ a : Str, c ∉ a → Split (a ++ c :: b) c = a :: Split b c := by
  intro a
  induction a with
  | nil => intro _; simp [Split]
  | cons x xs ih =>
    intro h
    rw [List.mem_cons, not_or] at h
    have hx : ¬ x = c := fun e => h.1 e.symm
    rw [List.cons_append, Split, if_neg hx, ih h.2]

theorem Split_decomp (c : Char) :
    ∀ (s p : Str) (ps : List Str), Split s c = p :: ps →
      c ∉ p ∧ ((ps = [] ∧ s = p) ∨ ∃ rest, s = p ++ c :: rest ∧ Split rest c = ps) := by
  intro s
  induction s with
  | nil =>
    intro p ps h
    simp only [Split, List.cons.injEq] at h
    obtain ⟨rfl, rfl⟩ := h
    simp
  | cons x xs ih =>
    intro p ps h
    unfold Split at h
    by_cases hx : x = c
    · rw [if_pos hx] at h
      simp only [List.cons.injEq] at h
      obtain ⟨rfl, rfl⟩ := h
      refine ⟨by simp, Or.inr ⟨xs, by simp [hx], rfl⟩⟩
    · rw [if_neg hx] at h
      cases hS : Split xs c with
      | nil => exact absurd hS (Split_ne_nil c xs)
      | cons q qs =>
        rw [hS] at h
        simp only [List.cons.injEq] at h
        obtain ⟨rfl, rfl⟩ := h
        obtain ⟨hq, hrest⟩ := ih q qs hS
        refine ⟨?_, ?_⟩
        · simp only [List.mem_cons, not_or]
          exact ⟨fun e => hx e.symm, hq⟩
        · rcases hrest with ⟨h1, h2⟩ | ⟨rest, h1, h2⟩
          · exact Or.inl ⟨h1, by rw [h2]⟩
          · exact Or.inr ⟨rest, by rw [h1]; rfl, h2⟩

theorem Split_eq_pair (c : Char) (s p0 p1 : Str) (h : Split s c = [p0, p1]) :
    s = p0 ++ c :: p1 ∧ c ∉ p0 ∧ c ∉ p1 := by
  obtain ⟨h0, hr⟩ := Split_decomp c s p0 [p1] h
  rcases hr with ⟨h1, _⟩ | ⟨rest, h1, h2⟩
  · simp at h1
  · obtain ⟨h3, hr2⟩ := Split_decomp c rest p1 [] h2
    rcases hr2 with ⟨_, h4⟩ | ⟨rest2, _, h5⟩
    · exact ⟨by rw [h1, h4], h0, h3⟩
    · exact absurd h5 (Split_ne_nil c rest2)

theorem Contains_iff (s : Str) (c : Char) : Contains s c = true ↔ c ∈ s := by
  simp [Contains]

theorem SplitN2_append (c : Char) (b : Str) :
    ∀ a : Str, c ∉ a → SplitN2 (a ++ c :: b) c = (a, b) := by
  intro a
  induction a with
  | nil => intro _; simp [SplitN2]
  | cons x xs ih =>
    intro h
    rw [List.mem_cons, not_or] at h
    have hx : ¬ x = c := fun e => h.1 e.symm
    have := ih h.2
    simp only [SplitN2, Prod.mk.injEq] at this ⊢
    simp [List.takeWhile_cons, List.dropWhile_cons, hx, this.1, this.2]

theorem mem_dropWhile_of_false {α : Type} (p : α → Bool) (x : α) :
    ∀ l : List α, x ∈ l → p x = false → x ∈ l.dropWhile p := by
  intro l
  induction l with
  | nil => intro h; simp at h
  | cons y ys ih =>
    intro h hp
    rw [List.dropWhile_cons]
    by_cases hy : p y = true
    · rw [if_pos hy]
      rcases List.mem_cons.1 h with rfl | h
      · rw [hp] at hy; exact absurd hy (by simp)
      · exact ih h hp
    · rw [if_neg hy]; exact h

theorem mem_of_mem_dropWhile {α : Type} (p : α → Bool) (x : α) (l : List α)
    (h : x ∈ l.dropWhile p) : x ∈ l :=
  (List.dropWhile_sublist p).subset h

theorem mem_TrimSpace_of_not_space (s : Str) (c : Char) (h : c ∈ s) (hc : isSpace c = false) :
    c ∈ TrimSpace s := by
  unfold TrimSpace
  rw [List.mem_reverse]
  apply mem_dropWhile_of_false _ _ _ _ hc
  rw [List.mem_reverse]
  exact mem_dropWhile_of_false _ _ _ h hc

theorem mem_of_mem_TrimSpace (s : Str) (c : Char) (h : c ∈ TrimSpace s) : c ∈ s := by
  unfold TrimSpace at h
  rw [List.mem_reverse] at h
  have := mem_of_mem_dropWhile _ _ _ h
  rw [List.mem_reverse] at this
  exact mem_of_mem_dropWhile _ _ _ this

theorem TrimSpace_nil : TrimSpace [] = [] := rfl

theorem digitVal?_some (c : Char) (d : Nat) (h : digitVal? c = some d) :
    48 ≤ c.toNat ∧ c.toNat ≤ 57 := by
  unfold digitVal? at h
  by_cases hc : 48 ≤ c.toNat ∧ c.toNat ≤ 57
  · exact hc
  · rw [if_neg hc] at h; cases h

theorem digitsVal?_all_digits :
    ∀ (ds : Str) (acc n : Nat), digitsVal? acc ds = some n →
      ∀ c ∈ ds, 48 ≤ c.toNat ∧ c.toNat ≤ 57 := by
  intro ds
  induction ds with
  | nil => intro _ _ _ c hc; simp at hc
  | cons x xs ih =>
    intro acc n h c hc
    unfold digitsVal? at h
    cases hx : digitVal? x with
    | none => rw [hx] at h; cases h
    | some d =>
      rw [hx] at h
      rcases List.mem_cons.1 hc with rfl | hc
      · exact digitVal?_some _ _ hx
      · exact ih _ _ h c hc

theorem hyphen_not_digit (c : Char) (h : 48 ≤ c.toNat ∧ c.toNat ≤ 57) : c ≠ '-' := by
  rintro rfl
  revert h
  decide

theorem digitsVal?_no_hyphen (ds : Str) (acc n : Nat) (h : digitsVal? acc ds = some n) :
    '-' ∉ ds := fun hm =>
  hyphen_not_digit _ (digitsVal?_all_digits ds acc n h _ hm) rfl

theorem decimalInt?_plus (ds : Str) :
    decimalInt? ('+' :: ds) = if ds = [] then none else (digitsVal? 0 ds).map fun n => (n : Int) := by
  rfl

theorem decimalInt?_minus (ds : Str) :
    decimalInt? ('-' :: ds) = if ds = [] then none else (digitsVal? 0 ds).map fun n => -(n : Int) := by
  rfl

theorem decimalInt?_other (c : Char) (ds : Str) (h1 : c ≠ '+') (h2 : c ≠ '-') :
    decimalInt? (c :: ds) = (digitsVal? 0 (c :: ds)).map fun n => (n : Int) := by
  unfold decimalInt?
  split
  · rename_i h; cases h
  · rename_i h; simp only [List.cons.injEq] at h; exact absurd h.1 h1
  · rename_i h; simp only [List.cons.injEq] at h; exact absurd h.1 h2
  · rfl

theorem decimalInt?_tail_no_hyphen (c : Char) (ds : Str) (v : Int)
    (h : decimalInt? (c :: ds) = some v) : '-' ∉ ds := by
  by_cases h1 : c = '+'
  · subst h1
    rw [decimalInt?_plus] at h
    by_cases hd : ds = []
    · rw [if_pos hd] at h; cases h
    · rw [if_neg hd] at h
      cases hv : digitsVal? 0 ds with
      | none => rw [hv] at h; cases h
      | some n => exact digitsVal?_no_hyphen ds 0 n hv
  · by_cases h2 : c = '-'
    · subst h2
      rw [decimalInt?_minus] at h
      by_cases hd : ds = []
      · rw [if_pos hd] at h; cases h
      · rw [if_neg hd] at h
        cases hv : digitsVal? 0 ds with
        | none => rw [hv] at h; cases h
        | some n => exact digitsVal?_no_hyphen ds 0 n hv
    · rw [decimalInt?_other c ds h1 h2] at h
      cases hv : digitsVal? 0 (c :: ds) with
      | none => rw [hv] at h; cases h
      | some n =>
        intro hm
        exact digitsVal?_no_hyphen (c :: ds) 0 n hv (List.mem_cons_of_mem _ hm)

theorem decimalInt?_ne_nil (s : Str) (v : Int) (h : decimalInt? s = some v) : s ≠ [] := by
  rintro rfl
  cases h

theorem decimalInt?_pos_no_hyphen (s : Str) (v : Int) (h : decimalInt? s = some v)
    (hv : 1 ≤ v) : '-' ∉ s := by
  cases s with
  | nil => simp
  | cons c ds =>
    intro hm
    rcases List.mem_cons.1 hm with hc | hm
    · subst hc
      rw [decimalInt?_minus] at h
      by_cases hd : ds = []
      · rw [if_pos hd] at h; cases h
      · rw [if_neg hd] at h
        cases hn : digitsVal? 0 ds with
        | none => rw [hn] at h; cases h
        | some n =>
          rw [hn] at h
          simp at h
          omega
    · exact decimalInt?_tail_no_hyphen c ds v h hm

theorem Atoi_eq_some (s : Str) (v : Int) :
    Atoi s = some v ↔ decimalInt? s = some v ∧ minInt ≤ v ∧ v ≤ maxInt := by
  unfold Atoi
  cases h : decimalInt? s with
  | none => simp
  | some w =>
    by_cases hr : minInt ≤ w ∧ w ≤ maxInt
    · simp only [if_pos hr, Option.some.injEq]
      constructor
      · rintro rfl; exact ⟨rfl, hr⟩
      · rintro ⟨h1, _⟩; exact h1
    · simp only [if_neg hr, Option.some.injEq]
      constructor
      · intro h; cases h
      · rintro ⟨rfl, h2⟩; exact absurd h2 hr

theorem isSpace_hyphen : isSpace '-' = false := by decide

theorem hyphen_mem_TrimSpace (s : Str) (h : '-' ∈ s) : '-' ∈ TrimSpace s :=
  mem_TrimSpace_of_not_space s '-' h isSpace_hyphen

theorem not_mem_of_TrimSpace_pos (a : Str) (va : Int) (h : decimalInt? (TrimSpace a) = some va)
    (hv : 1 ≤ va) : '-' ∉ a := fun hm =>
  decimalInt?_pos_no_hyphen _ _ h hv (hyphen_mem_TrimSpace a hm)

theorem ne_nil_of_TrimSpace_decimal (a : Str) (va : Int)
    (h : decimalInt? (TrimSpace a) = some va) : a ≠ [] := by
  rintro rfl
  exact decimalInt?_ne_nil _ _ h TrimSpace_nil

theorem decimalInt?_range_none (a b : Str) (ha : a ≠ []) : decimalInt? (a ++ '-' :: b) = none := by
  cases a with
  | nil => exact absurd rfl ha
  | cons c rest =>
    cases h : decimalInt? (c :: rest ++ '-' :: b) with
    | none => rfl
    | some v =>
      exfalso
      exact decimalInt?_tail_no_hyphen c (rest ++ '-' :: b) v h (by simp)

theorem numberTokenPages_range (a b : Str) (va vb : Int)
    (ha : decimalInt? (TrimSpace a) = some va) (hb : decimalInt? (TrimSpace b) = some vb)
    (hv : 1 ≤ va) : numberTokenPages (a ++ '-' :: b) = intRange va vb := by
  have h1 : '-' ∉ a := not_mem_of_TrimSpace_pos a va ha hv
  unfold numberTokenPages
  rw [decimalInt?_range_none a b (ne_nil_of_TrimSpace_decimal a va ha), SplitN2_append '-' b a h1]
  simp only [ha, hb]

theorem validNumberToken_pages (maxPage : Int) (t : Str) (h : ValidNumberToken maxPage t) :
    numberTokenPages t ≠ [] ∧ ∀ x ∈ numberTokenPages t, 1 ≤ x ∧ x ≤ maxPage := by
  rcases h with ⟨n, hn, h1, h2⟩ | ⟨a, b, va, vb, rfl, ha, hb, h1, h2, h3⟩
  · have : numberTokenPages t = [n] := by simp [numberTokenPages, hn]
    rw [this]
    simp [h1, h2]
  · rw [numberTokenPages_range a b va vb ha hb h1]
    constructor
    · intro he
      have : va ∈ intRange va vb := (mem_intRange va vb va).2 ⟨le_refl _, h2⟩
      rw [he] at this
      simp at this
    · intro x hx
      rw [mem_intRange] at hx
      omega

theorem parsePart_empty (maxPage : Int) (st : PageAcc) (p : Str) (h : TrimSpace p = []) :
    parsePart maxPage st p = .ok st := by
  simp [parsePart, h]

theorem parsePart_ok (maxPage : Int) (st st1 : PageAcc) (p : Str) (ht : TrimSpace p ≠ [])
    (h : parsePart maxPage st p = .ok st1) :
    ValidNumberToken maxPage (TrimSpace p) ∧
      st1 = (numberTokenPages (TrimSpace p)).foldl addPage st := by
  unfold parsePart at h
  simp only [if_neg ht] at h
  by_cases hc : Contains (TrimSpace p) '-' = true
  · rw [if_pos hc] at h
    split at h
    · rename_i p0 p1 hS
      obtain ⟨ht2, h0, _⟩ := Split_eq_pair '-' _ p0 p1 hS
      cases ha : Atoi (TrimSpace p0) with
      | none => rw [ha] at h; cases h
      | some start =>
        cases hb : Atoi (TrimSpace p1) with
        | none => rw [ha, hb] at h; cases h
        | some stop =>
          rw [ha, hb] at h
          simp only at h
          by_cases hb1 : start < 1 ∨ stop > maxPage
          · rw [if_pos hb1] at h; cases h
          · rw [if_neg hb1] at h
            by_cases hb2 : start > stop
            · rw [if_pos hb2] at h; cases h
            · rw [if_neg hb2] at h
              rw [Atoi_eq_some] at ha hb
              have hs1 : 1 ≤ start := by omega
              refine ⟨Or.inr ⟨p0, p1, start, stop, ht2, ha.1, hb.1, hs1, by omega, by omega⟩, ?_⟩
              rw [ht2, numberTokenPages_range p0 p1 start stop ha.1 hb.1 hs1]
              injection h with h
              exact h.symm
    · cases h
  · rw [if_neg hc] at h
    cases ha : Atoi (TrimSpace p) with
    | none => rw [ha] at h; cases h
    | some page =>
      rw [ha] at h
      simp only at h
      by_cases hb1 : page < 1 ∨ page > maxPage
      · rw [if_pos hb1] at h; cases h
      · rw [if_neg hb1] at h
        rw [Atoi_eq_some] at ha
        refine ⟨Or.inl ⟨page, ha.1, by omega, by omega⟩, ?_⟩
        have : numberTokenPages (TrimSpace p) = [page] := by simp [numberTokenPages, ha.1]
        rw [this]
        injection h with h
        exact h.symm

theorem parsePart_of_valid (maxPage : Int) (hmax : maxPage ≤ maxInt) (st : PageAcc) (p : Str)
    (ht : TrimSpace p ≠ []) (h : ValidNumberToken maxPage (TrimSpace p)) :
    ∃ st1, parsePart maxPage st p = .ok st1 := by
  have hmin : minInt ≤ 1 := by decide
  unfold parsePart
  simp only [if_neg ht]
  rcases h with ⟨n, hn, h1, h2⟩ | ⟨a, b, va, vb, hab, ha, hb, h1, h2, h3⟩
  · have hc : ¬ Contains (TrimSpace p) '-' = true := by
      rw [Contains_iff]
      exact decimalInt?_pos_no_hyphen _ _ hn h1
    have hA : Atoi (TrimSpace p) = some n := (Atoi_eq_some _ _).2 ⟨hn, by omega, by omega⟩
    rw [if_neg hc, hA]
    simp only
    rw [if_neg (by omega)]
    exact ⟨_, rfl⟩
  · have hna : '-' ∉ a := not_mem_of_TrimSpace_pos a va ha h1
    have hnb : '-' ∉ b := not_mem_of_TrimSpace_pos b vb hb (by omega)
    have hc : Contains (TrimSpace p) '-' = true := by
      rw [Contains_iff, hab]; simp
    have hS : Split (TrimSpace p) '-' = [a, b] := by
      rw [hab, Split_append '-' b a hna, Split_of_not_mem '-' b hnb]
    have hA : Atoi (TrimSpace a) = some va := (Atoi_eq_some _ _).2 ⟨ha, by omega, by omega⟩
    have hB : Atoi (TrimSpace b) = some vb := (Atoi_eq_some _ _).2 ⟨hb, by omega, by omega⟩
    rw [if_pos hc, hS]
    simp only [hA, hB]
    rw [if_neg (by omega), if_neg (by omega)]
    exact ⟨_, rfl⟩

/-! ## Theorems: page ranges by page number -/

theorem tokens_cons_empty (p : Str) (parts : List Str) (h : TrimSpace p = []) :
    ((p :: parts).map TrimSpace).filter (fun t => t ≠ []) =
      (parts.map TrimSpace).filter (fun t => t ≠ []) := by
  simp [List.filter_cons, h]

theorem tokens_cons_token (p : Str) (parts : List Str) (h : TrimSpace p ≠ []) :
    ((p :: parts).map TrimSpace).filter (fun t => t ≠ []) =
      TrimSpace p :: (parts.map TrimSpace).filter (fun t => t ≠ []) := by
  simp [List.filter_cons, h]

theorem parseParts_ok (maxPage : Int) :
    ∀ (parts : List Str) (st st1 : PageAcc) (l : List Int), AccOf st l →
      parseParts maxPage parts st = .ok st1 →
      AccOf st1 (l ++ ((parts.map TrimSpace).filter (fun t => t ≠ [])).flatMap numberTokenPages) ∧
        ∀ t ∈ (parts.map TrimSpace).filter (fun t => t ≠ []), ValidNumberToken maxPage t := by
  intro parts
  induction parts with
  | nil =>
    intro st st1 l hacc h
    simp only [parseParts, Except.ok.injEq] at h
    subst h
    simpa using hacc
  | cons p parts ih =>
    intro st st1 l hacc h
    unfold parseParts at h
    cases hp : parsePart maxPage st p with
    | error e => rw [hp] at h; cases h
    | ok st2 =>
      rw [hp] at h
      simp only at h
      by_cases ht : TrimSpace p = []
      · rw [parsePart_empty maxPage st p ht] at hp
        injection hp with hp
        subst hp
        rw [tokens_cons_empty p parts ht]
        exact ih st st1 l hacc h
      · obtain ⟨hv, hst2⟩ := parsePart_ok maxPage st st2 p ht hp
        have hacc2 : AccOf st2 (l ++ numberTokenPages (TrimSpace p)) := by
          rw [hst2]; exact accOf_foldl _ st l hacc
        obtain ⟨h1, h2⟩ := ih st2 st1 _ hacc2 h
        rw [tokens_cons_token p parts ht]
        refine ⟨?_, ?_⟩
        · simpa [List.flatMap_cons, List.append_assoc] using h1
        · intro t htm
          rcases List.mem_cons.1 htm with rfl | htm
          · exact hv
          · exact h2 t htm

theorem parseParts_of_valid (maxPage : Int) (hmax : maxPage ≤ maxInt) :
    ∀ (parts : List Str) (st : PageAcc),
      (∀ t ∈ (parts.map TrimSpace).filter (fun t => t ≠ []), ValidNumberToken maxPage t) →
      ∃ st1, parseParts maxPage parts st = .ok st1 := by
  intro parts
  induction parts with
  | nil => intro st _; exact ⟨st, rfl⟩
  | cons p parts ih =>
    intro st hv
    unfold parseParts
    by_cases ht : TrimSpace p = []
    · rw [parsePart_empty maxPage st p ht]
      rw [tokens_cons_empty p parts ht] at hv
      exact ih st hv
    · rw [tokens_cons_token p parts ht] at hv
      obtain ⟨st2, hst2⟩ := parsePart_of_valid maxPage hmax st p ht
        (hv _ (List.mem_cons_self _ _))
      rw [hst2]
      exact ih st2 fun t htm => hv t (List.mem_cons_of_mem _ htm)

theorem parsePageRanges_cases (rangeStr : Str) (maxPage : Int) :
    (∃ e, parseParts maxPage (Split rangeStr ',') { pages := [], seen := [] } = .error e ∧
        parsePageRanges rangeStr maxPage = .error e) ∨
    (∃ st, parseParts maxPage (Split rangeStr ',') { pages := [], seen := [] } = .ok st ∧
        st.pages = [] ∧ parsePageRanges rangeStr maxPage = .error .noValidPages) ∨
    (∃ st, parseParts maxPage (Split rangeStr ',') { pages := [], seen := [] } = .ok st ∧
        st.pages ≠ [] ∧ parsePageRanges rangeStr maxPage = .ok st.pages) := by
  unfold parsePageRanges
  cases h : parseParts maxPage (Split rangeStr ',') { pages := [], seen := [] } with
  | error e => exact Or.inl ⟨e, rfl, rfl⟩
  | ok st =>
    by_cases hp : st.pages = []
    · exact Or.inr (Or.inl ⟨st, rfl, hp, by simp [hp]⟩)
    · refine Or.inr (Or.inr ⟨st, rfl, hp, ?_⟩)
      have : ¬ st.pages.length = 0 := by simpa using hp
      simp [this]

theorem stableDedup_eq_nil (l : List Int) (h : stableDedup l = []) : l = [] := by
  cases l with
  | nil => rfl
  | cons x xs => simp [stableDedup] at h

/-- C4: when `parsePageRanges` succeeds, its result is the first-occurrence
de-duplication (order kept, not sorted) of the concatenation, token by token
from left to right, of the token expansions (`[n]` for an integer token `n`,
`a, a+1, ..., b` for a token `a-b`); every returned page lies in
`[1, maxPage]` and no page occurs twice; and "1-3,5" with `maxPage = 10`
gives `[1,2,3,5]`. -/
theorem parsePageRanges_result :
    (∀ (rangeStr : Str) (maxPage : Int) (pages : List Int),
      parsePageRanges rangeStr maxPage = .ok pages →
        pages = stableDedup ((tokens rangeStr).flatMap numberTokenPages) ∧
        (∀ p ∈ pages, 1 ≤ p ∧ p ≤ maxPage) ∧ pages.Nodup) ∧
    parsePageRanges "1-3,5".toList 10 = .ok [1, 2, 3, 5] := by
  refine ⟨?_, by decide⟩
  intro rangeStr maxPage pages h
  rcases parsePageRanges_cases rangeStr maxPage with ⟨e, _, h2⟩ | ⟨st, _, _, h2⟩ | ⟨st, h1, _, h2⟩
  · rw [h2] at h; cases h
  · rw [h2] at h; cases h
  · rw [h2] at h
    injection h with h
    subst h
    obtain ⟨hacc, hv⟩ := parseParts_ok maxPage _ _ st [] accOf_init h1
    have hp : st.pages = stableDedup ((tokens rangeStr).flatMap numberTokenPages) := by
      simpa [tokens] using hacc.2
    refine ⟨hp, ?_, ?_⟩
    · intro p hpm
      rw [hp, mem_stableDedup, List.mem_flatMap] at hpm
      obtain ⟨t, ht, hpt⟩ := hpm
      exact (validNumberToken_pages maxPage t (hv t ht)).2 p hpt
    · rw [hp]; exact nodup_stableDedup _

/-- C4 at a concrete input with a repeated page, inner spaces and a sign. -/
theorem parsePageRanges_result_witness :
    parsePageRanges "3, 1 - 2 ,+3,2".toList 10 = .ok [3, 1, 2] ∧
      ([3, 1, 2] : List Int) =
        stableDedup ((tokens "3, 1 - 2 ,+3,2".toList).flatMap numberTokenPages) ∧
      (∀ p ∈ ([3, 1, 2] : List Int), 1 ≤ p ∧ p ≤ 10) ∧ ([3, 1, 2] : List Int).Nodup :=
  ⟨by decide, parsePageRanges_result.1 "3, 1 - 2 ,+3,2".toList 10 [3, 1, 2] (by decide)⟩

/-- C5: for a `maxPage` that is a Go `int`, `parsePageRanges` returns an
error (an error result carries no pages) if and only if the range string has
no non-empty token after trimming, or some token is neither a decimal
integer within `[1, maxPage]` nor a range `a-b` of two integers with
`1 ≤ a ≤ b ≤ maxPage`; and the token "11" with `maxPage = 10` is rejected as
out of bounds. -/
theorem parsePageRanges_error_iff :
    (∀ (rangeStr : Str) (maxPage : Int), maxPage ≤ maxInt →
      ((∃ e, parsePageRanges rangeStr maxPage = .error e) ↔
        (tokens rangeStr = [] ∨ ∃ t ∈ tokens rangeStr, ¬ ValidNumberToken maxPage t))) ∧
    parsePageRanges "11".toList 10 = .error (.pageOutOfBounds 11 10) := by
  refine ⟨?_, by decide⟩
  intro rangeStr maxPage hmax
  constructor
  · rintro ⟨e, he⟩
    rcases parsePageRanges_cases rangeStr maxPage with ⟨e1, h1, _⟩ | ⟨st, h1, h3, _⟩ | ⟨st, _, _, h2⟩
    · by_cases hall : ∀ t ∈ tokens rangeStr, ValidNumberToken maxPage t
      · obtain ⟨st1, hst1⟩ := parseParts_of_valid maxPage hmax (Split rangeStr ',')
          { pages := [], seen := [] } hall
        rw [hst1] at h1; cases h1
      · right
        push_neg at hall
        exact hall
    · left
      obtain ⟨hacc, hv⟩ := parseParts_ok maxPage _ _ st [] accOf_init h1
      have hp : stableDedup ((tokens rangeStr).flatMap numberTokenPages) = [] := by
        rw [← h3]; simpa [tokens] using hacc.2.symm
      have hnil := stableDedup_eq_nil _ hp
      cases htk : tokens rangeStr with
      | nil => rfl
      | cons t ts =>
        exfalso
        have htm : t ∈ tokens rangeStr := by rw [htk]; exact List.mem_cons_self _ _
        have hne := (validNumberToken_pages maxPage t (hv t htm)).1
        rw [htk, List.flatMap_cons, List.append_eq_nil] at hnil
        exact hne hnil.1
    · rw [h2] at he; cases he
  · intro h
    rcases parsePageRanges_cases rangeStr maxPage with ⟨e1, _, h2⟩ | ⟨st, _, _, h2⟩ | ⟨st, h1, h3, _⟩
    · exact ⟨e1, h2⟩
    · exact ⟨_, h2⟩
    · exfalso
      obtain ⟨hacc, hv⟩ := parseParts_ok maxPage _ _ st [] accOf_init h1
      rcases h with h | ⟨t, ht, hnv⟩
      · apply h3
        have : st.pages = stableDedup ((tokens rangeStr).flatMap numberTokenPages) := by
          simpa [tokens] using hacc.2
        rw [this, h]
        rfl
      · exact hnv (hv t ht)

/-- C5 at a concrete input: the second token is out of bounds. -/
theorem parsePageRanges_error_iff_witness :
    (10 : Int) ≤ maxInt ∧
      ((∃ e, parsePageRanges "1-3,12".toList 10 = .error e) ↔
        (tokens "1-3,12".toList = [] ∨
          ∃ t ∈ tokens "1-3,12".toList, ¬ ValidNumberToken 10 t)) :=
  ⟨by decide, parsePageRanges_error_iff.1 "1-3,12".toList 10 (by decide)⟩

/-! ## Theorems: page ranges by printed label -/

theorem foldl_min_of_le : ∀ (l : List Int) (a : Int), (∀ y ∈ l, a ≤ y) → l.foldl min a = a := by
  intro l
  induction l with
  | nil => intro a _; rfl
  | cons y ys ih =>
    intro a h
    rw [List.foldl_cons, min_eq_left (h y (List.mem_cons_self _ _))]
    exact ih a fun z hz => h z (List.mem_cons_of_mem _ hz)

theorem getLast?_eq_foldl_max :
    ∀ (l : List Int) (a : Int), (a :: l).Pairwise (fun x y => x ≤ y) →
      (a :: l).getLast? = some (l.foldl max a) := by
  intro l
  induction l with
  | nil => intro a _; rfl
  | cons y ys ih =>
    intro a h
    rw [List.pairwise_cons] at h
    rw [List.getLast?_cons_cons, ih y h.2, List.foldl_cons,
      max_eq_right (h.1 y (List.mem_cons_self _ _))]

theorem head?_eq_minPage (v : List Int) (hne : v ≠ []) (hs : v.Pairwise (fun x y => x ≤ y)) :
    v.head? = some (minPage v) := by
  cases v with
  | nil => exact absurd rfl hne
  | cons a l =>
    rw [List.pairwise_cons] at hs
    simp only [List.head?_cons, minPage, List.headD_cons, List.foldl_cons, min_self]
    rw [foldl_min_of_le l a hs.1]

theorem getLast?_eq_maxPageOf (v : List Int) (hne : v ≠ [])
    (hs : v.Pairwise (fun x y => x ≤ y)) : v.getLast? = some (maxPageOf v) := by
  cases v with
  | nil => exact absurd rfl hne
  | cons a l =>
    rw [getLast?_eq_foldl_max l a hs]
    simp [maxPageOf]

theorem resolvePart_empty (m : pageLabelsMap) (st : PageAcc) (p : Str) (h : TrimSpace p = []) :
    resolvePart m st p = .ok st := by
  simp [resolvePart, h]

theorem resolvePart_cases (m : pageLabelsMap) (hm : AscendingMap m) (st : PageAcc) (p : Str)
    (ht : TrimSpace p ≠ []) :
    (BadLabelToken m (TrimSpace p) ∧
      ∃ e, resolvePart m st p = .error e ∧ e ≠ .indexOutOfRange) ∨
    (¬ BadLabelToken m (TrimSpace p) ∧ labelTokenPages m (TrimSpace p) ≠ [] ∧
      resolvePart m st p = .ok ((labelTokenPages m (TrimSpace p)).foldl addPage st)) := by
  unfold resolvePart BadLabelToken labelTokenPages
  simp only [if_neg ht]
  by_cases hc : '-' ∈ TrimSpace p
  · have hc2 : Contains (TrimSpace p) '-' = true := (Contains_iff _ _).2 hc
    simp only [if_pos hc, if_pos hc2, rangeLabels]
    cases hA : m (TrimSpace (SplitN2 (TrimSpace p) '-').1) with
    | none => exact Or.inl ⟨Or.inl rfl, _, rfl, by simp⟩
    | some startPages =>
      cases hB : m (TrimSpace (SplitN2 (TrimSpace p) '-').2) with
      | none => exact Or.inl ⟨Or.inr (Or.inl rfl), _, rfl, by simp⟩
      | some endPages =>
        obtain ⟨hA1, hA2⟩ := hm _ _ hA
        obtain ⟨hB1, hB2⟩ := hm _ _ hB
        simp only [pagesOf, hA, hB, Option.getD_some, head?_eq_minPage _ hA1 hA2,
          getLast?_eq_maxPageOf _ hB1 hB2]
        by_cases hgt : minPage startPages > maxPageOf endPages
        · rw [if_pos hgt]
          exact Or.inl ⟨Or.inr (Or.inr hgt), _, rfl, by simp⟩
        · rw [if_neg hgt]
          refine Or.inr ⟨by simp [hgt], ?_, rfl⟩
          intro he
          have : minPage startPages ∈ intRange (minPage startPages) (maxPageOf endPages) :=
            (mem_intRange _ _ _).2 ⟨le_refl _, by omega⟩
          rw [he] at this
          simp at this
  · have hc2 : ¬ Contains (TrimSpace p) '-' = true := fun h => hc ((Contains_iff _ _).1 h)
    simp only [if_neg hc, if_neg hc2]
    cases hA : m (TrimSpace p) with
    | none => exact Or.inl ⟨rfl, _, rfl, by simp⟩
    | some pages =>
      refine Or.inr ⟨by simp, ?_, ?_⟩
      · simpa [pagesOf, hA] using (hm _ _ hA).1
      · simp [pagesOf, hA]

theorem resolveParts_cases (m : pageLabelsMap) (hm : AscendingMap m) :
    ∀ (parts : List Str) (st : PageAcc) (l : List Int), AccOf st l →
      ((∃ t ∈ (parts.map TrimSpace).filter (fun t => t ≠ []), BadLabelToken m t) ∧
        ∃ e, resolveParts m parts st = .error e ∧ e ≠ .indexOutOfRange) ∨
      ((∀ t ∈ (parts.map TrimSpace).filter (fun t => t ≠ []), ¬ BadLabelToken m t) ∧
        ∃ st1, resolveParts m parts st = .ok st1 ∧
          AccOf st1 (l ++ ((parts.map TrimSpace).filter (fun t => t ≠ [])).flatMap
            (labelTokenPages m)) ∧
          ((parts.map TrimSpace).filter (fun t => t ≠ []) ≠ [] →
            ((parts.map TrimSpace).filter (fun t => t ≠ [])).flatMap (labelTokenPages m) ≠ [])) := by
  intro parts
  induction parts with
  | nil =>
    intro st l hacc
    right
    refine ⟨by simp, st, rfl, by simpa using hacc, by simp⟩
  | cons p parts ih =>
    intro st l hacc
    unfold resolveParts
    by_cases ht : TrimSpace p = []
    · rw [resolvePart_empty m st p ht, tokens_cons_empty p parts ht]
      exact ih st l hacc
    · rw [tokens_cons_token p parts ht]
      rcases resolvePart_cases m hm st p ht with ⟨hbad, e, he, hne⟩ | ⟨hgood, hpages, hok⟩
      · left
        rw [he]
        exact ⟨⟨_, List.mem_cons_self _ _, hbad⟩, e, rfl, hne⟩
      · rw [hok]
        simp only
        have hacc2 := accOf_foldl (labelTokenPages m (TrimSpace p)) st l hacc
        rcases ih _ _ hacc2 with ⟨⟨t, htm, hbad⟩, hr⟩ | ⟨hall, st1, h1, h2, _⟩
        · left
          exact ⟨⟨t, List.mem_cons_of_mem _ htm, hbad⟩, hr⟩
        · right
          refine ⟨?_, st1, h1, ?_, ?_⟩
          · intro t htm
            rcases List.mem_cons.1 htm with rfl | htm
            · exact hgood
            · exact hall t htm
          · simpa [List.flatMap_cons, List.append_assoc] using h2
          · intro _ he
            rw [List.flatMap_cons, List.append_eq_nil] at he
            exact hpages he.1

theorem resolveRealPages_cases (m : pageLabelsMap) (hm : AscendingMap m) (rangeStr : Str)
    (pageCount : Int) :
    ((tokens rangeStr = [] ∨ ∃ t ∈ tokens rangeStr, BadLabelToken m t) ∧
      ∃ e, resolveRealPages rangeStr m pageCount = .error e ∧ e ≠ .indexOutOfRange) ∨
    ((tokens rangeStr ≠ [] ∧ ∀ t ∈ tokens rangeStr, ¬ BadLabelToken m t) ∧
      resolveRealPages rangeStr m pageCount =
        .ok (stableDedup ((tokens rangeStr).flatMap (labelTokenPages m)))) := by
  unfold resolveRealPages
  rcases resolveParts_cases m hm (Split rangeStr ',') _ [] accOf_init with
    ⟨hbad, e, he, hne⟩ | ⟨hall, st1, h1, h2, h3⟩
  · left
    rw [he]
    exact ⟨Or.inr hbad, e, rfl, hne⟩
  · rw [h1]
    simp only [List.nil_append] at h2
    have hp : st1.pages = stableDedup ((tokens rangeStr).flatMap (labelTokenPages m)) := h2.2
    by_cases htk : tokens rangeStr = []
    · left
      refine ⟨Or.inl htk, .noValidPages, ?_, by simp⟩
      have : st1.pages = [] := by rw [hp, htk]; rfl
      simp [this]
    · right
      refine ⟨⟨htk, hall⟩, ?_⟩
      have hne : st1.pages ≠ [] := by
        rw [hp]
        intro he
        exact h3 htk (stableDedup_eq_nil _ he)
      have : ¬ st1.pages.length = 0 := by simpa using hne
      show (if st1.pages.length = 0 then Except.error ResolveError.noValidPages
        else Except.ok st1.pages) = _
      rw [if_neg this, hp]

/-- C2: for a label map whose page lists are non-empty and ascending, a
successful `resolveRealPages` returns the first-occurrence de-duplication
(order kept, not sorted) of the concatenation, token by token from left to
right, of the token expansions: the page list of the label for a token
without hyphen, and every page from `min (pages of A)` to `max (pages of B)`
for a token `A-B` (read at its first hyphen); and with pages 1..5 labelled
i, ii, iii, iv, v, "ii-iv" resolves to `[2,3,4]`. -/
theorem resolveRealPages_result :
    (∀ (labelsMap : pageLabelsMap) (rangeStr : Str) (pageCount : Int) (pages : List Int),
      AscendingMap labelsMap → resolveRealPages rangeStr labelsMap pageCount = .ok pages →
        pages = stableDedup ((tokens rangeStr).flatMap (labelTokenPages labelsMap))) ∧
    resolveRealPages "ii-iv".toList romanFive 5 = .ok [2, 3, 4] := by
  refine ⟨?_, by decide⟩
  intro m rangeStr pageCount pages hm h
  rcases resolveRealPages_cases m hm rangeStr pageCount with ⟨_, e, he, _⟩ | ⟨_, hok⟩
  · rw [he] at h; cases h
  · rw [hok] at h
    injection h with h
    exact h.symm

/-- The page lists of `romanFive` are non-empty and ascending. -/
theorem ascendingMap_romanFive : AscendingMap romanFive := by
  intro label pages h
  unfold romanFive at h
  split_ifs at h <;> simp at h <;> subst h <;> simp

/-- C2 at a concrete input with overlapping tokens. -/
theorem resolveRealPages_result_witness :
    AscendingMap romanFive ∧
      resolveRealPages "v,ii-iv,i-iii".toList romanFive 5 = .ok [5, 2, 3, 4, 1] ∧
      ([5, 2, 3, 4, 1] : List Int) =
        stableDedup ((tokens "v,ii-iv,i-iii".toList).flatMap (labelTokenPages romanFive)) :=
  ⟨ascendingMap_romanFive, by decide,
    resolveRealPages_result.1 romanFive "v,ii-iv,i-iii".toList 5 [5, 2, 3, 4, 1]
      ascendingMap_romanFive (by decide)⟩

/-- C6: for a label map whose page lists are non-empty and ascending,
`resolveRealPages` returns an error (an error result carries no pages) if
and only if the range string has no non-empty token, or some token names a
label absent from the map (as a single label or as either end of a range),
or some range `A-B` has `min (pages of A) > max (pages of B)`; and the error
is a returned one, never the panic of an empty page list. -/
theorem resolveRealPages_error_iff (labelsMap : pageLabelsMap) (rangeStr : Str)
    (pageCount : Int) (hm : AscendingMap labelsMap) :
    ((∃ e, resolveRealPages rangeStr labelsMap pageCount = .error e) ↔
      (tokens rangeStr = [] ∨ ∃ t ∈ tokens rangeStr, BadLabelToken labelsMap t)) ∧
    resolveRealPages rangeStr labelsMap pageCount ≠ .error .indexOutOfRange := by
  rcases resolveRealPages_cases labelsMap hm rangeStr pageCount with
    ⟨hbad, e, he, hne⟩ | ⟨⟨htk, hall⟩, hok⟩
  · refine ⟨⟨fun _ => hbad, fun _ => ⟨e, he⟩⟩, ?_⟩
    rw [he]
    intro h
    injection h with h
    exact hne h
  · refine ⟨⟨?_, ?_⟩, ?_⟩
    · rintro ⟨e, he⟩
      rw [hok] at he; cases he
    · rintro (h | ⟨t, ht, hb⟩)
      · exact absurd h htk
      · exact absurd hb (hall t ht)
    · rw [hok]
      intro h; cases h

/-- C6 at a concrete input: a range whose ends are in the wrong order. -/
theorem resolveRealPages_error_iff_witness :
    AscendingMap romanFive ∧
      (((∃ e, resolveRealPages "iv-ii".toList romanFive 5 = .error e) ↔
        (tokens "iv-ii".toList = [] ∨
          ∃ t ∈ tokens "iv-ii".toList, BadLabelToken romanFive t)) ∧
      resolveRealPages "iv-ii".toList romanFive 5 ≠ .error .indexOutOfRange) :=
  ⟨ascendingMap_romanFive,
    resolveRealPages_error_iff romanFive "iv-ii".toList 5 ascendingMap_romanFive⟩

/-- C3 as stated fails: a printed label that is a key of the label map is not
resolved to its pages when it contains a hyphen (the token is read as a range:
the label `A-1` of a document numbered `A-1`, `A-2` is looked up as the range
from `A` to `1`), when it is the empty string (the token is skipped and the
selection stays empty), when it contains a comma (it is split into two
tokens), when it starts with white space (the token is trimmed), when its page
list repeats a page (the page is returned once) or when its page list is
empty (the selection stays empty). -/
theorem resolveRealPages_label_not_resolved :
    (generateLabels [⟨0, ['D'], ['A', '-'], 1⟩] 2 = [['A', '-', '1'], ['A', '-', '2']] ∧
      appendixLabels ['A', '-', '1'] = some [1] ∧
      resolveRealPages ['A', '-', '1'] appendixLabels 2 = .error (.labelNotFound ['A'])) ∧
    (generateLabels [⟨0, [], [], 1⟩] 2 = [[], []] ∧
      blankLabels [] = some [1, 2] ∧
      resolveRealPages [] blankLabels 2 = .error .noValidPages) ∧
    (singleLabel ['1', ',', '1'] [1] ['1', ',', '1'] = some [1] ∧
      resolveRealPages ['1', ',', '1'] (singleLabel ['1', ',', '1'] [1]) 1 =
        .error (.labelNotFound ['1'])) ∧
    (singleLabel [' ', '1'] [1] [' ', '1'] = some [1] ∧
      resolveRealPages [' ', '1'] (singleLabel [' ', '1'] [1]) 1 =
        .error (.labelNotFound ['1'])) ∧
    (singleLabel ['x'] [1, 1] ['x'] = some [1, 1] ∧
      resolveRealPages ['x'] (singleLabel ['x'] [1, 1]) 1 = .ok [1]) ∧
    (singleLabel ['x'] [] ['x'] = some [] ∧
      resolveRealPages ['x'] (singleLabel ['x'] []) 1 = .error .noValidPages) := by
  decide

/-- C3, amended: for a printed label that is a key of the label map, is not
empty, has no leading or trailing white space and contains neither a comma
nor a hyphen, and whose page list is non-empty and without repetition,
`resolveRealPages` applied to just that label succeeds and returns exactly
the pages mapped to it, in their stored order. -/
theorem resolveRealPages_single_label (labelsMap : pageLabelsMap) (label : Str)
    (pages : List Int) (pageCount : Int)
    (hkey : labelsMap label = some pages) (hne : pages ≠ []) (hnd : pages.Nodup)
    (hlabel : label ≠ []) (htrim : TrimSpace label = label)
    (hcomma : ',' ∉ label) (hhyphen : '-' ∉ label) :
    resolveRealPages label labelsMap pageCount = .ok pages := by
  have hc : ¬ Contains label '-' = true := fun h => hhyphen ((Contains_iff _ _).1 h)
  have hacc := accOf_foldl pages { pages := [], seen := [] } [] accOf_init
  have hp : (pages.foldl addPage { pages := [], seen := [] }).pages = pages := by
    rw [hacc.2, List.nil_append, stableDedup_of_nodup pages hnd]
  have hlen : ¬ (pages.foldl addPage { pages := [], seen := [] }).pages.length = 0 := by
    rw [hp]; simpa using hne
  unfold resolveRealPages
  rw [Split_of_not_mem ',' label hcomma]
  simp only [resolveParts, resolvePart, htrim, if_neg hlabel, if_neg hc, hkey]
  rw [if_neg hlen, hp]

/-- C3, amended, at a concrete input: the label `iii` of `romanFive`. -/
theorem resolveRealPages_single_label_witness :
    romanFive ['i', 'i', 'i'] = some [3] ∧
      resolveRealPages ['i', 'i', 'i'] romanFive 5 = .ok [3] :=
  ⟨by decide, resolveRealPages_single_label romanFive ['i', 'i', 'i'] [3] 5 (by decide) (by decide)
    (by decide) (by decide) (by decide) (by decide) (by decide)⟩

/-! ## Theorems: segments -/

theorem buildSegments_foldl (pageCount : Int) :
    ∀ (splits : List Int) (acc : List segment) (start : Int),
      ((splits.foldl (fun (st : List segment × Int) (s : Int) =>
          (st.1 ++ [⟨st.2, s - 1⟩], s)) (acc, start)).1 ++
        [⟨(splits.foldl (fun (st : List segment × Int) (s : Int) =>
          (st.1 ++ [⟨st.2, s - 1⟩], s)) (acc, start)).2, pageCount⟩]) =
      acc ++ segmentsFrom pageCount start splits := by
  intro splits
  induction splits with
  | nil => intro acc start; rfl
  | cons s rest ih =>
    intro acc start
    rw [List.foldl_cons, ih]
    simp [segmentsFrom]

theorem buildSegments_eq {ι : Type} (m : appModel ι) :
    buildSegments m = segmentsFrom m.pageCount 1 (sortedSplits m) := by
  unfold buildSegments
  simpa using buildSegments_foldl m.pageCount (sortedSplits m) [] 1

theorem segmentsFrom_length (pageCount : Int) :
    ∀ (splits : List Int) (start : Int),
      (segmentsFrom pageCount start splits).length = splits.length + 1 := by
  intro splits
  induction splits with
  | nil => intro _; rfl
  | cons s rest ih => intro start; simp [segmentsFrom, ih]

theorem segmentsFrom_head (pageCount : Int) (splits : List Int) (start : Int) :
    (segmentsFrom pageCount start splits).head?.map segment.start = some start := by
  cases splits <;> rfl

theorem segmentsFrom_getLast (pageCount : Int) :
    ∀ (splits : List Int) (start : Int),
      (segmentsFrom pageCount start splits).getLast?.map segment.stop = some pageCount := by
  intro splits
  induction splits with
  | nil => intro _; rfl
  | cons s rest ih =>
    intro start
    have h := ih s
    cases hr : segmentsFrom pageCount s rest with
    | nil =>
      have := segmentsFrom_length pageCount rest s
      rw [hr] at this
      simp at this
    | cons x xs =>
      rw [hr] at h
      simpa [segmentsFrom, hr, List.getLast?_cons_cons] using h

theorem splitsFrom_tail (pageCount start s : Int) (rest : List Int)
    (h : SplitsFrom pageCount start (s :: rest)) :
    start < s ∧ SplitsFrom pageCount s rest := by
  obtain ⟨h1, h2⟩ := h
  rw [List.pairwise_cons] at h1
  exact ⟨h1.1 s (List.mem_cons_self _ _), h1.2, fun x hx => h2 x (List.mem_cons_of_mem _ hx)⟩

theorem segmentsFrom_bounds (pageCount : Int) :
    ∀ (splits : List Int) (start : Int), SplitsFrom pageCount start splits →
      ∀ seg ∈ segmentsFrom pageCount start splits,
        start ≤ seg.start ∧ seg.start ≤ seg.stop ∧ seg.stop ≤ pageCount := by
  intro splits
  induction splits with
  | nil =>
    intro start h seg hs
    simp only [segmentsFrom, List.mem_singleton] at hs
    subst hs
    have := h.2 start (List.mem_cons_self _ _)
    exact ⟨le_refl _, this, le_refl _⟩
  | cons s rest ih =>
    intro start h seg hs
    obtain ⟨hlt, ht⟩ := splitsFrom_tail pageCount start s rest h
    have hsle : s ≤ pageCount := ht.2 s (List.mem_cons_self _ _)
    simp only [segmentsFrom, List.mem_cons] at hs
    rcases hs with rfl | hs
    · simp only
      omega
    · obtain ⟨h1, h2, h3⟩ := ih s ht seg hs
      exact ⟨by omega, h2, h3⟩

theorem segmentsFrom_chain (pageCount : Int) :
    ∀ (splits : List Int) (start : Int) (i : Nat) (a b : segment),
      (segmentsFrom pageCount start splits)[i]? = some a →
      (segmentsFrom pageCount start splits)[i + 1]? = some b → a.stop + 1 = b.start := by
  intro splits
  induction splits with
  | nil =>
    intro start i a b _ hb
    simp [segmentsFrom] at hb
  | cons s rest ih =>
    intro start i a b ha hb
    cases i with
    | zero =>
      simp only [segmentsFrom, List.getElem?_cons_zero, Option.some.injEq] at ha
      simp only [segmentsFrom, zero_add, List.getElem?_cons_succ] at hb
      have hh := segmentsFrom_head pageCount rest s
      cases hr : segmentsFrom pageCount s rest with
      | nil => rw [hr] at hb; simp at hb
      | cons x xs =>
        rw [hr] at hb hh
        simp only [List.getElem?_cons_zero, Option.some.injEq] at hb
        simp only [List.head?_cons, Option.map_some', Option.some.injEq] at hh
        subst ha hb
        simp only
        omega
    | succ j =>
      simp only [segmentsFrom, List.getElem?_cons_succ] at ha hb
      exact ih s j a b ha hb

theorem segmentsFrom_cover (pageCount : Int) :
    ∀ (splits : List Int) (start : Int), SplitsFrom pageCount start splits →
      ∀ p : Int, start ≤ p → p ≤ pageCount →
        ∃ (i : Nat) (seg : segment),
          (segmentsFrom pageCount start splits)[i]? = some seg ∧ seg.Covers p ∧
          ∀ (j : Nat) (seg1 : segment), (segmentsFrom pageCount start splits)[j]? = some seg1 →
            seg1.Covers p → j = i := by
  intro splits
  induction splits with
  | nil =>
    intro start _ p h1 h2
    refine ⟨0, ⟨start, pageCount⟩, rfl, ⟨h1, h2⟩, ?_⟩
    intro j seg1 hj _
    cases j with
    | zero => rfl
    | succ k => simp [segmentsFrom] at hj
  | cons s rest ih =>
    intro start h p h1 h2
    obtain ⟨hlt, ht⟩ := splitsFrom_tail pageCount start s rest h
    by_cases hp : p < s
    · refine ⟨0, ⟨start, s - 1⟩, by simp [segmentsFrom], ⟨h1, by show p ≤ s - 1; omega⟩, ?_⟩
      intro j seg1 hj hc
      cases j with
      | zero => rfl
      | succ k =>
        exfalso
        simp only [segmentsFrom, List.getElem?_cons_succ] at hj
        have := (segmentsFrom_bounds pageCount rest s ht seg1 (List.mem_iff_getElem?.2 ⟨_, hj⟩)).1
        have := hc.1
        omega
    · obtain ⟨i, seg, hi, hc, huniq⟩ := ih s ht p (by omega) h2
      refine ⟨i + 1, seg, by simp only [segmentsFrom, List.getElem?_cons_succ]; exact hi, hc, ?_⟩
      intro j seg1 hj hc1
      cases j with
      | zero =>
        exfalso
        simp only [segmentsFrom, List.getElem?_cons_zero, Option.some.injEq] at hj
        subst hj
        have := hc1.2
        simp only at this
        omega
      | succ k =>
        simp only [segmentsFrom, List.getElem?_cons_succ] at hj
        rw [huniq k seg1 hj hc1]

/-- The function `sortedSplits` returns a permutation of the split points. -/
theorem sortedSplits_perm {ι : Type} (m : appModel ι) : (sortedSplits m).Perm m.splitPoints :=
  List.perm_insertionSort _ _

theorem sortedSplits_splitsFrom {ι : Type} (m : appModel ι) (hpc : 1 ≤ m.pageCount)
    (hnd : m.splitPoints.Nodup) (hb : ∀ p ∈ m.splitPoints, 2 ≤ p ∧ p ≤ m.pageCount) :
    SplitsFrom m.pageCount 1 (sortedSplits m) := by
  have hperm := sortedSplits_perm m
  have hsorted : (sortedSplits m).Sorted (fun a b => a ≤ b) :=
    List.sorted_insertionSort _ _
  have hlt : (sortedSplits m).Sorted (fun a b => a < b) :=
    hsorted.lt_of_le ((hperm.nodup_iff).2 hnd)
  refine ⟨List.pairwise_cons.2 ⟨?_, hlt⟩, ?_⟩
  · intro s hs
    have := (hb s ((hperm.mem_iff).1 hs)).1
    omega
  · intro s hs
    rcases List.mem_cons.1 hs with rfl | hs
    · exact hpc
    · exact (hb s ((hperm.mem_iff).1 hs)).2

/-- C7: for `pageCount ≥ 1` and a set of split points within `[2, pageCount]`,
`buildSegments` returns exactly `|S| + 1` segments, the first starting at 1,
the last ending at `pageCount`, each with `start ≤ end`, consecutive ones with
`end[i] + 1 = start[i+1]`, and every page of `[1, pageCount]` lies in exactly
one segment; and the split points `{3, 6}` on 8 pages give
`[(1,2), (3,5), (6,8)]`. -/
theorem buildSegments_partition :
    (∀ {ι : Type} (m : appModel ι), 1 ≤ m.pageCount → m.splitPoints.Nodup →
      (∀ p ∈ m.splitPoints, 2 ≤ p ∧ p ≤ m.pageCount) →
        (buildSegments m).length = m.splitPoints.length + 1 ∧
        (buildSegments m).head?.map segment.start = some 1 ∧
        (buildSegments m).getLast?.map segment.stop = some m.pageCount ∧
        (∀ seg ∈ buildSegments m, seg.start ≤ seg.stop) ∧
        (∀ (i : Nat) (a b : segment), (buildSegments m)[i]? = some a →
          (buildSegments m)[i + 1]? = some b → a.stop + 1 = b.start) ∧
        (∀ p : Int, 1 ≤ p → p ≤ m.pageCount →
          ∃ (i : Nat) (seg : segment), (buildSegments m)[i]? = some seg ∧ seg.Covers p ∧
            ∀ (j : Nat) (seg1 : segment), (buildSegments m)[j]? = some seg1 →
              seg1.Covers p → j = i)) ∧
    buildSegments (segmentModel 8 [3, 6] 1) = [⟨1, 2⟩, ⟨3, 5⟩, ⟨6, 8⟩] := by
  refine ⟨?_, by decide⟩
  intro ι m hpc hnd hb
  have hsf := sortedSplits_splitsFrom m hpc hnd hb
  rw [buildSegments_eq]
  refine ⟨?_, segmentsFrom_head _ _ _, segmentsFrom_getLast _ _ _, ?_,
    segmentsFrom_chain _ _ _, segmentsFrom_cover _ _ _ hsf⟩
  · rw [segmentsFrom_length, (sortedSplits_perm m).length_eq]
  · intro seg hs
    exact (segmentsFrom_bounds _ _ _ hsf seg hs).2.1

/-- C7 at a concrete input: the split points 6 and 3 on 8 pages. -/
theorem buildSegments_partition_witness :
    (1 : Int) ≤ (segmentModel 8 [6, 3] 4).pageCount ∧
      (segmentModel 8 [6, 3] 4).splitPoints.Nodup ∧
      (buildSegments (segmentModel 8 [6, 3] 4)).length = 3 ∧
      (∀ seg ∈ buildSegments (segmentModel 8 [6, 3] 4), seg.start ≤ seg.stop) := by
  have h := buildSegments_partition.1 (segmentModel 8 [6, 3] 4) (by decide) (by decide)
    (by decide)
  exact ⟨by decide, by decide, h.1, h.2.2.2.1⟩

/-- C8: for `pageCount ≥ 1`, split points within `[2, pageCount]` and a current
page within `[1, pageCount]`, the loop of `currentSegment` finds a segment (the
fallback `(1, pageCount)` is not reached); the segment returned is an element
of `buildSegments`, it contains the current page, and no other element of
`buildSegments` contains the current page. -/
theorem currentSegment_unique {ι : Type} (m : appModel ι) (hpc : 1 ≤ m.pageCount)
    (hnd : m.splitPoints.Nodup) (hb : ∀ p ∈ m.splitPoints, 2 ≤ p ∧ p ≤ m.pageCount)
    (h1 : 1 ≤ m.currentPage) (h2 : m.currentPage ≤ m.pageCount) :
    findSegment m = some (currentSegment m) ∧
    currentSegment m ∈ buildSegments m ∧
    (currentSegment m).Covers m.currentPage ∧
    ∃ i : Nat, (buildSegments m)[i]? = some (currentSegment m) ∧
      ∀ (j : Nat) (seg1 : segment), (buildSegments m)[j]? = some seg1 →
        seg1.Covers m.currentPage → j = i := by
  have hsf := sortedSplits_splitsFrom m hpc hnd hb
  obtain ⟨i, seg, hi, hc, huniq⟩ :=
    segmentsFrom_cover m.pageCount (sortedSplits m) 1 hsf m.currentPage h1 h2
  rw [← buildSegments_eq] at hi huniq
  have hmem : seg ∈ buildSegments m := List.getElem?_mem hi
  cases hf : findSegment m with
  | none =>
    exfalso
    unfold findSegment at hf
    rw [List.find?_eq_none] at hf
    apply hf seg hmem
    simp only [decide_eq_true_eq]
    exact ⟨hc.1, hc.2⟩
  | some found =>
    have hcur : currentSegment m = found := by simp [currentSegment, hf]
    unfold findSegment at hf
    have hfm : found ∈ buildSegments m := List.mem_of_find?_eq_some hf
    have hfc : found.Covers m.currentPage := by
      have := List.find?_some hf
      simp only [decide_eq_true_eq] at this
      exact ⟨this.1, this.2⟩
    obtain ⟨k, hk⟩ := List.mem_iff_getElem?.1 hfm
    have hki : k = i := huniq k found hk hfc
    rw [hcur]
    refine ⟨rfl, hfm, hfc, i, ?_, huniq⟩
    rw [← hki]; exact hk

/-- C8 at a concrete input: page 4 of 8 with the split points 6 and 3. -/
theorem currentSegment_unique_witness :
    findSegment (segmentModel 8 [6, 3] 4) = some ⟨3, 5⟩ ∧
      currentSegment (segmentModel 8 [6, 3] 4) = ⟨3, 5⟩ ∧
      (currentSegment (segmentModel 8 [6, 3] 4)).Covers 4 := by
  have h := currentSegment_unique (segmentModel 8 [6, 3] 4) (by decide) (by decide)
    (by decide) (by decide) (by decide)
  exact ⟨by decide, by decide, h.2.2.1⟩

theorem buildSegments_congr {ι κ : Type} (m : appModel ι) (m1 : appModel κ)
    (hpc : m1.pageCount = m.pageCount) (hsp : m1.splitPoints.Perm m.splitPoints) :
    buildSegments m1 = buildSegments m := by
  have hs : sortedSplits m1 = sortedSplits m := by
    apply List.eq_of_perm_of_sorted (r := fun (a b : Int) => a ≤ b)
    · exact ((sortedSplits_perm m1).trans hsp).trans (sortedSplits_perm m).symm
    · exact List.sorted_insertionSort _ _
    · exact List.sorted_insertionSort _ _
  unfold buildSegments
  rw [hs, hpc]

theorem doMarkSplit_first_page {ι : Type} (d : Deps ι) (m : appModel ι)
    (h : m.currentPage ≤ 1) : doMarkSplit d m = (m, .none) := by
  unfold doMarkSplit
  rw [if_neg (by omega)]

theorem doMarkSplit_fields {ι : Type} (d : Deps ι) (m : appModel ι) :
    (doMarkSplit d m).1.currentPage = m.currentPage ∧
      (doMarkSplit d m).1.pageCount = m.pageCount := by
  unfold doMarkSplit
  split_ifs <;> exact ⟨rfl, rfl⟩

theorem doMarkSplit_splitPoints {ι : Type} (d : Deps ι) (m : appModel ι)
    (h : 1 < m.currentPage) :
    (doMarkSplit d m).1.splitPoints =
      if m.currentPage ∈ m.splitPoints then m.splitPoints.filter fun p => p ≠ m.currentPage
      else m.currentPage :: m.splitPoints := by
  unfold doMarkSplit
  rw [if_pos (by omega)]

theorem filter_ne_perm (l : List Int) (x : Int) (hnd : l.Nodup) (hx : x ∈ l) :
    (x :: l.filter fun p => p ≠ x).Perm l := by
  have : (l.filter fun p => p ≠ x) = l.erase x := by
    rw [hnd.erase_eq_filter]
    congr 1
    funext p
    by_cases hp : p = x <;> simp [hp]
  rw [this]
  exact (List.perm_cons_erase hx).symm

/-- C10: for every navigator state (the split points listed once each),
applying `doMarkSplit` twice, the current page staying where it is, leaves the
set of split points, and therefore the list returned by `buildSegments`, as
it was before the first toggle; and when the current page is 1 a single
toggle leaves the whole state unchanged. -/
theorem doMarkSplit_twice {ι : Type} (d : Deps ι) (m : appModel ι)
    (hnd : m.splitPoints.Nodup) :
    (doMarkSplit d (doMarkSplit d m).1).1.currentPage = m.currentPage ∧
    (∀ p, p ∈ (doMarkSplit d (doMarkSplit d m).1).1.splitPoints ↔ p ∈ m.splitPoints) ∧
    buildSegments (doMarkSplit d (doMarkSplit d m).1).1 = buildSegments m ∧
    (m.currentPage = 1 → doMarkSplit d m = (m, .none)) := by
  have hperm : (doMarkSplit d (doMarkSplit d m).1).1.splitPoints.Perm m.splitPoints := by
    by_cases h : 1 < m.currentPage
    · have h1 : 1 < (doMarkSplit d m).1.currentPage := by
        rw [(doMarkSplit_fields d m).1]; exact h
      rw [doMarkSplit_splitPoints d _ h1, (doMarkSplit_fields d m).1,
        doMarkSplit_splitPoints d m h]
      by_cases hx : m.currentPage ∈ m.splitPoints
      · rw [if_pos hx, if_neg (by simp)]
        exact filter_ne_perm _ _ hnd hx
      · rw [if_neg hx, if_pos (List.mem_cons_self _ _)]
        have : ((m.currentPage :: m.splitPoints).filter fun p => p ≠ m.currentPage) =
            m.splitPoints := by
          rw [List.filter_cons]
          simp only [ne_eq, not_true_eq_false, decide_False, Bool.false_eq_true, if_false]
          rw [List.filter_eq_self]
          intro a ha
          simp only [decide_eq_true_eq]
          rintro rfl
          exact hx ha
        rw [this]
    · rw [doMarkSplit_first_page d m (by omega), doMarkSplit_first_page d m (by omega)]
  refine ⟨?_, fun p => hperm.mem_iff, ?_, fun h => doMarkSplit_first_page d m (by omega)⟩
  · rw [(doMarkSplit_fields d _).1, (doMarkSplit_fields d m).1]
  · apply buildSegments_congr _ _ _ hperm
    rw [(doMarkSplit_fields d _).2, (doMarkSplit_fields d m).2]

/-- C10 at a concrete input: page 3 of 8 with the split points 6 and 3. -/
theorem doMarkSplit_twice_witness :
    (segmentModel 8 [6, 3] 3).splitPoints.Nodup ∧
      (doMarkSplit plainDeps (segmentModel 8 [6, 3] 3)).1.splitPoints = [6] ∧
      (doMarkSplit plainDeps (doMarkSplit plainDeps (segmentModel 8 [6, 3] 3)).1).1.splitPoints
        = [3, 6] ∧
      buildSegments (doMarkSplit plainDeps (doMarkSplit plainDeps (segmentModel 8 [6, 3] 3)).1).1
        = buildSegments (segmentModel 8 [6, 3] 3) :=
  ⟨by decide, by decide, by decide,
    (doMarkSplit_twice plainDeps (segmentModel 8 [6, 3] 3) (by decide)).2.2.1⟩

/-! ## Theorems: the navigator -/

theorem NavInv.of_eq {ι : Type} {n : Int} {m m1 : appModel ι} (h : NavInv n m)
    (e1 : m1.pageCount = m.pageCount) (e2 : m1.allLines = m.allLines)
    (e3 : m1.splitPoints = m.splitPoints) (e4 : m1.currentPage = m.currentPage) :
    NavInv n m1 :=
  ⟨by rw [e1]; exact h.count, by rw [e1]; exact h.pages, by rw [e1, e2]; exact h.lines,
    by rw [e1, e3]; exact h.splits, by rw [e4]; exact h.curLo, by rw [e1, e4]; exact h.curHi⟩

theorem NavInv.setPage {ι : Type} {n : Int} {m m1 : appModel ι} (h : NavInv n m) (p : Int)
    (e1 : m1.pageCount = m.pageCount) (e2 : m1.allLines = m.allLines)
    (e3 : m1.splitPoints = m.splitPoints) (e4 : m1.currentPage = p)
    (hp1 : 1 ≤ p) (hp2 : p ≤ m.pageCount) : NavInv n m1 :=
  ⟨by rw [e1]; exact h.count, by rw [e1]; exact h.pages, by rw [e1, e2]; exact h.lines,
    by rw [e1, e3]; exact h.splits, by rw [e4]; exact hp1, by rw [e1, e4]; exact hp2⟩

theorem stepTo_some {ι : Type} {P : appModel ι → Prop} {m0 : appModel ι} (c0 : Cmd)
    (h : P m0) : StepTo P (some (m0, c0)) := by
  intro m1 c h1
  injection h1 with h1
  injection h1 with e1 _
  subst e1
  exact h

theorem stepTo_pair {ι : Type} {P : appModel ι → Prop} {r : appModel ι × Cmd}
    (h : P r.1) : StepTo P (some r) := by
  intro m1 c h1
  injection h1 with h1
  subst h1
  exact h

theorem stepTo_ite {ι : Type} {P : appModel ι → Prop} {p : Prop} [Decidable p]
    {a b : Option (appModel ι × Cmd)} (ha : StepTo P a) (hb : StepTo P b) :
    StepTo P (if p then a else b) := by
  by_cases hp : p
  · rw [if_pos hp]; exact ha
  · rw [if_neg hp]; exact hb

theorem stepTo_map {ι α : Type} {P : appModel ι → Prop} {o : Option α}
    {f : α → appModel ι × Cmd} (h : ∀ a, o = some a → P (f a).1) : StepTo P (o.map f) := by
  intro m1 c h1
  rw [Option.map_eq_some'] at h1
  obtain ⟨a, ha, heq⟩ := h1
  have := h a ha
  rw [heq] at this
  exact this

theorem index?_mem {α : Type} (l : List α) (i : Int) (a : α) (h : index? l i = some a) :
    a ∈ l := by
  unfold index? at h
  split_ifs at h
  exact List.getElem?_mem h

theorem lineOfMatch_mem {ι : Type} (m : appModel ι) (i : Int) (l : indexedLine)
    (h : lineOfMatch m i = some l) : l ∈ m.allLines := by
  unfold lineOfMatch at h
  rw [Option.bind_eq_some] at h
  obtain ⟨mt, _, h2⟩ := h
  exact index?_mem _ _ _ h2

theorem followCursor_inv {ι : Type} {n : Int} (m m1 : appModel ι) (h : NavInv n m)
    (h1 : followCursor m = some m1) : NavInv n m1 := by
  unfold followCursor at h1
  split_ifs at h1
  · rw [Option.map_eq_some'] at h1
    obtain ⟨l, hl, rfl⟩ := h1
    have := h.lines l (lineOfMatch_mem m _ l hl)
    exact h.setPage l.page rfl rfl rfl rfl this.1 this.2
  · injection h1 with h1
    subst h1
    exact h

theorem followCursor_step {ι : Type} {n : Int} (m : appModel ι) (c : Cmd) (h : NavInv n m) :
    StepTo (NavInv n) ((followCursor m).map fun m3 => (m3, c)) :=
  stepTo_map fun m3 hm3 => followCursor_inv m m3 h hm3

theorem doPrevResult_inv {ι : Type} {n : Int} (m : appModel ι) (h : NavInv n m) :
    StepTo (NavInv n) (doPrevResult m) := by
  unfold doPrevResult
  refine stepTo_ite (followCursor_step _ _ ?_) (stepTo_some _ h)
  dsimp only
  split_ifs <;> exact h.of_eq rfl rfl rfl rfl

theorem doNextResult_inv {ι : Type} {n : Int} (m : appModel ι) (h : NavInv n m) :
    StepTo (NavInv n) (doNextResult m) := by
  unfold doNextResult
  refine stepTo_ite (followCursor_step _ _ ?_) (stepTo_some _ h)
  dsimp only
  split_ifs <;> exact h.of_eq rfl rfl rfl rfl

theorem doEnter_inv {ι : Type} {n : Int} (m : appModel ι) (h : NavInv n m) :
    StepTo (NavInv n) (doEnter m) := by
  unfold doEnter
  split
  · exact stepTo_ite (stepTo_map fun l _ => h.of_eq rfl rfl rfl rfl) (stepTo_some _ h)
  · exact stepTo_ite (stepTo_some _ (h.of_eq rfl rfl rfl rfl))
      (stepTo_some _ (h.of_eq rfl rfl rfl rfl))

theorem doTab_inv {ι : Type} {n : Int} (m : appModel ι) (h : NavInv n m) :
    NavInv n (doTab m).1 := by
  unfold doTab
  split_ifs <;> exact h.of_eq rfl rfl rfl rfl

theorem doSioyek_inv {ι : Type} {n : Int} (m : appModel ι) (h : NavInv n m) :
    StepTo (NavInv n) (doSioyek m) := by
  unfold doSioyek
  refine stepTo_map fun page _ => ?_
  split_ifs <;> exact h.of_eq rfl rfl rfl rfl

theorem doPrevPage_inv {ι : Type} {n : Int} (m : appModel ι) (h : NavInv n m) :
    NavInv n (doPrevPage m).1 := by
  unfold doPrevPage
  split_ifs with hc
  · exact h.setPage (m.currentPage - 1) rfl rfl rfl rfl (by omega) (by have := h.curHi; omega)
  · exact h

theorem doNextPage_inv {ι : Type} {n : Int} (m : appModel ι) (h : NavInv n m) :
    NavInv n (doNextPage m).1 := by
  unfold doNextPage
  split_ifs with hc
  · exact h.setPage (m.currentPage + 1) rfl rfl rfl rfl (by have := h.curLo; omega) (by omega)
  · exact h

theorem doMarkSplit_inv {ι : Type} {n : Int} (d : Deps ι) (m : appModel ι) (h : NavInv n m) :
    NavInv n (doMarkSplit d m).1 := by
  unfold doMarkSplit
  split_ifs with hc hx
  · refine ⟨h.count, h.pages, h.lines, ?_, h.curLo, h.curHi⟩
    intro p hp
    exact h.splits p (List.mem_filter.1 hp).1
  · refine ⟨h.count, h.pages, h.lines, ?_, h.curLo, h.curHi⟩
    intro p hp
    rcases List.mem_cons.1 hp with rfl | hp
    · exact ⟨by omega, h.curHi⟩
    · exact h.splits p hp
  · exact h

theorem pageAtXLoop_range (splits : List Int) (pw x : Int) :
    ∀ (pages : List Int) (cur : Int),
      pageAtXLoop splits pw x pages cur = 0 ∨ pageAtXLoop splits pw x pages cur ∈ pages := by
  intro pages
  induction pages with
  | nil => intro cur; exact Or.inl rfl
  | cons page rest ih =>
    intro cur
    unfold pageAtXLoop
    simp only
    split_ifs
    · exact Or.inr (List.mem_cons_self _ _)
    · rcases ih (cur + 3 + pw) with h | h
      · exact Or.inl h
      · exact Or.inr (List.mem_cons_of_mem _ h)
    · exact Or.inr (List.mem_cons_self _ _)
    · rcases ih (cur + pw) with h | h
      · exact Or.inl h
      · exact Or.inr (List.mem_cons_of_mem _ h)

theorem pageAtX_range {ι : Type} (m : appModel ι) (x page : Int)
    (h : pageAtX m x = some page) (hp : page > 0) : 1 ≤ page ∧ page ≤ m.pageCount := by
  unfold pageAtX at h
  rw [Option.map_eq_some'] at h
  obtain ⟨pw, _, rfl⟩ := h
  rcases pageAtXLoop_range (sortedSplits m) pw x (intRange 1 m.pageCount) 2 with h0 | hm
  · omega
  · exact (mem_intRange _ _ _).1 hm

theorem handleNormalKeyString_inv {ι : Type} {n : Int} (d : Deps ι) (m : appModel ι)
    (msg : KeyMsg) (h : NavInv n m) : StepTo (NavInv n) (handleNormalKeyString d m msg) := by
  unfold handleNormalKeyString
  refine stepTo_ite (stepTo_some _ h) ?_
  refine stepTo_ite (stepTo_some _ (h.of_eq rfl rfl rfl rfl)) ?_
  refine stepTo_ite (doNextResult_inv m h) ?_
  refine stepTo_ite (doPrevResult_inv m h) ?_
  refine stepTo_ite (doSioyek_inv m h) ?_
  refine stepTo_ite ?_ (stepTo_some _ h)
  refine stepTo_ite (stepTo_pair (doPrevPage_inv m h)) ?_
  refine stepTo_ite (stepTo_pair (doNextPage_inv m h)) ?_
  refine stepTo_ite (stepTo_some _ (h.setPage 1 rfl rfl rfl rfl (le_refl _) h.pages)) ?_
  refine stepTo_ite
    (stepTo_some _ (h.setPage m.pageCount rfl rfl rfl rfl h.pages (le_refl _))) ?_
  refine stepTo_ite (stepTo_pair (doMarkSplit_inv d m h)) ?_
  refine stepTo_ite ?_ (stepTo_some _ h)
  exact stepTo_ite (stepTo_some _ (h.of_eq rfl rfl rfl rfl)) (stepTo_some _ h)

theorem handleNormalKey_inv {ι : Type} {n : Int} (d : Deps ι) (m : appModel ι) (msg : KeyMsg)
    (h : NavInv n m) : StepTo (NavInv n) (handleNormalKey d m msg) := by
  unfold handleNormalKey
  split
  · exact stepTo_some _ h
  · exact stepTo_some _ h
  · exact doEnter_inv m h
  · exact stepTo_pair (doTab_inv m h)
  · exact doSioyek_inv m h
  · exact doPrevResult_inv m h
  · exact doNextResult_inv m h
  · exact stepTo_ite (stepTo_pair (doPrevPage_inv m h)) (handleNormalKeyString_inv d m msg h)
  · exact stepTo_ite (stepTo_pair (doNextPage_inv m h)) (handleNormalKeyString_inv d m msg h)
  · exact handleNormalKeyString_inv d m msg h

theorem handleInsertEdit_inv {ι : Type} {n : Int} (d : Deps ι) (m : appModel ι) (msg : KeyMsg)
    (h : NavInv n m) : StepTo (NavInv n) (handleInsertEdit d m msg) := by
  unfold handleInsertEdit
  refine followCursor_step _ _ ?_
  dsimp only
  split_ifs <;> exact h.of_eq rfl rfl rfl rfl

theorem handleInsertKey_inv {ι : Type} {n : Int} (d : Deps ι) (m : appModel ι) (msg : KeyMsg)
    (h : NavInv n m) : StepTo (NavInv n) (handleInsertKey d m msg) := by
  unfold handleInsertKey
  split
  · exact stepTo_some _ h
  · exact stepTo_some _ (h.of_eq rfl rfl rfl rfl)
  · exact stepTo_pair (doTab_inv _ (h.of_eq rfl rfl rfl rfl))
  · exact doSioyek_inv m h
  · exact doEnter_inv m h
  · exact doPrevResult_inv m h
  · exact doPrevResult_inv m h
  · exact doNextResult_inv m h
  · exact doNextResult_inv m h
  · exact handleInsertEdit_inv d m msg h

theorem handleMouse_inv {ι : Type} {n : Int} (d : Deps ι) (m : appModel ι) (msg : MouseMsg)
    (h : NavInv n m) : StepTo (NavInv n) (handleMouse d m msg) := by
  unfold handleMouse
  split
  · exact doPrevResult_inv m h
  · exact doNextResult_inv m h
  · refine stepTo_ite (stepTo_some _ h) ?_
    refine stepTo_ite ?_ ?_
    · exact stepTo_ite (stepTo_some _ (h.of_eq rfl rfl rfl rfl)) (stepTo_some _ h)
    · refine stepTo_ite ?_ ?_
      · refine stepTo_map fun page hpage => ?_
        split_ifs with hp
        · have := pageAtX_range m msg.X page hpage hp
          exact h.setPage page rfl rfl rfl rfl this.1 this.2
        · exact h
      · dsimp only
        refine stepTo_ite ?_ (stepTo_some _ h)
        refine stepTo_ite ?_ (stepTo_some _ (h.of_eq rfl rfl rfl rfl))
        refine stepTo_map fun l hl => ?_
        have := h.lines l (lineOfMatch_mem _ _ l hl)
        exact h.setPage l.page rfl rfl rfl rfl this.1 this.2
  · exact stepTo_some _ h

/-- One `Update` keeps the invariant of the navigator. -/
theorem Update_inv {ι : Type} {n : Int} (d : Deps ι) (m : appModel ι) (msg : Msg)
    (h : NavInv n m) : StepTo (NavInv n) (Update d m msg) := by
  unfold Update
  split
  · exact stepTo_some _ (h.of_eq rfl rfl rfl rfl)
  · dsimp only
    split
    · exact stepTo_some _ (h.of_eq rfl rfl rfl rfl)
    · exact stepTo_some _ (h.of_eq rfl rfl rfl rfl)
  · split
    · exact stepTo_some _ (h.of_eq rfl rfl rfl rfl)
    · exact stepTo_some _ (h.of_eq rfl rfl rfl rfl)
  · exact stepTo_ite (stepTo_some _ h) (handleMouse_inv d m _ h)
  · exact stepTo_ite (stepTo_some _ h)
      (stepTo_ite (handleInsertKey_inv d m _ h) (handleNormalKey_inv d m _ h))
  · exact stepTo_some _ h

theorem newAppModel_inv {ι : Type} (d : Deps ι) (filename : Str) (pageCount : Int)
    (allLines : List indexedLine) (startMode : appMode) (initial : Str)
    (hpc : 1 ≤ pageCount) (hlines : ∀ l ∈ allLines, 1 ≤ l.page ∧ l.page ≤ pageCount) :
    NavInv pageCount (newAppModel d filename pageCount allLines startMode initial) := by
  unfold newAppModel
  dsimp only
  split_ifs <;> exact ⟨rfl, hpc, hlines, by intro p hp; simp at hp, le_refl _, hpc⟩

/-- Every reachable state satisfies the invariant of the navigator. -/
theorem reachable_inv {ι : Type} {n : Int} (d : Deps ι) (m0 m : appModel ι) (h0 : NavInv n m0)
    (hr : Reachable d m0 m) : NavInv n m := by
  induction hr with
  | init => exact h0
  | step m m1 msg c _ hstep ih => exact Update_inv d m msg ih m1 c hstep

/-- C9: in every state reachable from `newAppModel` by any sequence of
messages of `Update` (key, mouse, resize, completion and viewer messages),
provided `pageCount ≥ 1` and every corpus line lies on a page of
`[1, pageCount]`, every split point `p` satisfies `2 ≤ p ≤ pageCount` (page 1
is never a split point) and the current page satisfies
`1 ≤ currentPage ≤ pageCount`. -/
theorem reachable_split_points_and_page {ι : Type} (d : Deps ι) (filename : Str)
    (pageCount : Int) (allLines : List indexedLine) (startMode : appMode) (initial : Str)
    (hpc : 1 ≤ pageCount) (hlines : ∀ l ∈ allLines, 1 ≤ l.page ∧ l.page ≤ pageCount)
    (m : appModel ι)
    (hr : Reachable d (newAppModel d filename pageCount allLines startMode initial) m) :
    (∀ p ∈ m.splitPoints, 2 ≤ p ∧ p ≤ pageCount) ∧
      1 ≤ m.currentPage ∧ m.currentPage ≤ pageCount := by
  have h := reachable_inv d _ m
    (newAppModel_inv d filename pageCount allLines startMode initial hpc hlines) hr
  have hc := h.count
  refine ⟨?_, h.curLo, by rw [← hc]; exact h.curHi⟩
  intro p hp
  have := h.splits p hp
  rw [hc] at this
  exact this


/-- C9 at a concrete input: on 8 pages in Split view, the keys `l` and `x`
lead to the current page 2 and the split point 2. -/
theorem reachable_split_points_and_page_witness :
    ∃ m : appModel Str,
      Reachable plainDeps (newAppModel plainDeps [] 8 [] .modeSplit []) m ∧
      m.splitPoints = [2] ∧ m.currentPage = 2 ∧
      ((∀ p ∈ m.splitPoints, 2 ≤ p ∧ p ≤ 8) ∧ 1 ≤ m.currentPage ∧ m.currentPage ≤ 8) := by
  have hr : Reachable plainDeps (newAppModel plainDeps [] 8 [] .modeSplit [])
      (doMarkSplit plainDeps
        (doNextPage (newAppModel plainDeps [] 8 [] .modeSplit [])).1).1 :=
    Reachable.step _ _ (.key ⟨.KeyRunes, ['x']⟩) .none
      (Reachable.step _ _ (.key ⟨.KeyRunes, ['l']⟩) .none Reachable.init rfl) rfl
  exact ⟨_, hr, rfl, rfl,
    reachable_split_points_and_page plainDeps [] 8 [] .modeSplit [] (by decide)
      (by intro l hl; simp at hl) _ hr⟩

/-! ## Theorems: numerals -/

theorem digitVal?_digitChar : ∀ k : Nat, k < 10 → digitVal? (Nat.digitChar k) = some k := by
  decide

theorem digitsVal?_append_digit (acc k : Nat) (hk : k < 10) (t : Str) :
    digitsVal? acc (Nat.digitChar k :: t) = digitsVal? (acc * 10 + k) t := by
  rw [digitsVal?, digitVal?_digitChar k hk]

theorem toDigitsCore_spec :
    ∀ (fuel n : Nat) (ds : Str), n < fuel →
      ∃ s : Str, Nat.toDigitsCore 10 fuel n ds = s ++ ds ∧ s ≠ [] ∧
        ∀ (acc : Nat) (t : Str),
          digitsVal? acc (s ++ t) = digitsVal? (acc * 10 ^ s.length + n) t := by
  intro fuel
  induction fuel with
  | zero => intro n ds h; omega
  | succ fuel ih =>
    intro n ds h
    unfold Nat.toDigitsCore
    simp only
    by_cases hz : n / 10 = 0
    · rw [if_pos hz]
      refine ⟨[Nat.digitChar (n % 10)], rfl, by simp, ?_⟩
      intro acc t
      have : n % 10 = n := by omega
      rw [List.singleton_append, digitsVal?_append_digit acc _ (Nat.mod_lt _ (by decide))]
      simp [this]
    · rw [if_neg hz]
      obtain ⟨s, hs, _, hv⟩ := ih (n / 10) (Nat.digitChar (n % 10) :: ds) (by omega)
      refine ⟨s ++ [Nat.digitChar (n % 10)], by simp [hs], by simp, ?_⟩
      intro acc t
      rw [List.append_assoc, List.singleton_append, hv,
        digitsVal?_append_digit _ _ (Nat.mod_lt _ (by decide))]
      congr 1
      rw [List.length_append, List.length_singleton, pow_succ]
      have := Nat.div_add_mod n 10
      nlinarith [this]

theorem digitsVal?_toDigits (n : Nat) : digitsVal? 0 (Nat.toDigits 10 n) = some n := by
  obtain ⟨s, hs, _, hv⟩ := toDigitsCore_spec (n + 1) n [] (by omega)
  unfold Nat.toDigits
  rw [hs]
  have := hv 0 []
  simpa [digitsVal?] using this

theorem toDigits_ne_nil (n : Nat) : Nat.toDigits 10 n ≠ [] := by
  obtain ⟨s, hs, hne, _⟩ := toDigitsCore_spec (n + 1) n [] (by omega)
  unfold Nat.toDigits
  rw [hs]
  simpa using hne

theorem decimalInt?_of_digits (ds : Str) (n : Nat) (hne : ds ≠ [])
    (h : digitsVal? 0 ds = some n) : decimalInt? ds = some (n : Int) := by
  cases ds with
  | nil => exact absurd rfl hne
  | cons c cs =>
    have hd := digitsVal?_all_digits (c :: cs) 0 n h c (List.mem_cons_self _ _)
    have h1 : c ≠ '+' := by
      rintro rfl
      revert hd
      decide
    have h2 : c ≠ '-' := hyphen_not_digit c hd
    rw [decimalInt?_other c cs h1 h2, h]
    rfl

/-- The string `fmtD n` is a decimal numeral of `n`. -/
theorem decimalInt?_fmtD (n : Int) : decimalInt? (fmtD n) = some n := by
  unfold fmtD
  by_cases hn : n < 0
  · rw [if_pos hn, decimalInt?_minus, if_neg (toDigits_ne_nil _), digitsVal?_toDigits]
    show some (-(((-n).toNat : Nat) : Int)) = some n
    rw [Int.toNat_of_nonneg (by omega)]
    simp
  · rw [if_neg hn, decimalInt?_of_digits _ _ (toDigits_ne_nil _) (digitsVal?_toDigits _)]
    rw [Int.toNat_of_nonneg (by omega)]

theorem toNat_ofNat_letter : ∀ k : Nat, k < 26 → (Char.ofNat (97 + k)).toNat = 97 + k := by
  decide

theorem alphaValue_concat (s : Str) (c : Char) :
    alphaValue (s ++ [c]) = alphaValue s * 26 + ((c.toNat : Int) - 96) := by
  simp [alphaValue, List.foldl_append]

theorem toAlphaLoop_spec :
    ∀ (fuel : Nat) (n : Int) (b : Str), 0 ≤ n → n.toNat ≤ fuel →
      ∃ s : Str, toAlphaLoop fuel n b = b ++ s ∧ (∀ c ∈ s, IsLowerLetter c) ∧
        alphaValue s.reverse = n ∧ (1 ≤ n → s ≠ []) := by
  intro fuel
  induction fuel with
  | zero =>
    intro n b h0 hf
    have hn : n = 0 := by omega
    subst hn
    exact ⟨[], by simp [toAlphaLoop], by simp, rfl, by omega⟩
  | succ fuel ih =>
    intro n b h0 hf
    unfold toAlphaLoop
    by_cases hn : n > 0
    · rw [if_pos hn]
      have hk : ((n - 1) % 26).toNat < 26 := by omega
      have hc := toNat_ofNat_letter _ hk
      obtain ⟨s, hs, hl, hv, _⟩ := ih ((n - 1) / 26)
        (b ++ [Char.ofNat (97 + ((n - 1) % 26).toNat)]) (by omega) (by omega)
      refine ⟨Char.ofNat (97 + ((n - 1) % 26).toNat) :: s, ?_, ?_, ?_, fun _ => by simp⟩
      · simp only [hs, List.append_assoc, List.singleton_append]
      · intro c hcm
        rcases List.mem_cons.1 hcm with rfl | hcm
        · unfold IsLowerLetter
          omega
        · exact hl c hcm
      · rw [List.reverse_cons, alphaValue_concat, hv, hc]
        have := Int.ediv_add_emod (n - 1) 26
        have h2 : (((n - 1) % 26).toNat : Int) = (n - 1) % 26 := Int.toNat_of_nonneg (by omega)
        push_cast
        omega
    · rw [if_neg hn]
      have : n = 0 := by omega
      subst this
      exact ⟨[], by simp, by simp, rfl, by omega⟩

theorem toAlpha_lower_spec (n : Int) (hn : 1 ≤ n) :
    toAlpha n false ≠ [] ∧ (∀ c ∈ toAlpha n false, IsLowerLetter c) ∧
      alphaValue (toAlpha n false) = n := by
  obtain ⟨s, hs, hl, hv, hne⟩ := toAlphaLoop_spec n.toNat n [] (by omega) (le_refl _)
  have : toAlpha n false = s.reverse := by
    unfold toAlpha
    rw [if_neg (by omega)]
    simp [reverseString, hs]
  rw [this]
  refine ⟨by simpa using hne hn, ?_, hv⟩
  intro c hc
  exact hl c (List.mem_reverse.1 hc)

theorem toUpper_lower (c : Char) (h : IsLowerLetter c) :
    Char.toUpper c = Char.ofNat (c.toNat - 32) := by
  unfold IsLowerLetter at h
  unfold Char.toUpper
  simp only
  rw [if_pos ⟨h.1, h.2⟩]

/-- C11: for every `n ≥ 1`, `toAlpha(n, false)` is a non-empty string of letters
`a`..`z` whose bijective base-26 value (`a` = 1, ..., `z` = 26, most
significant letter first) is `n`, and `toAlpha(n, true)` is its upper-case
form (every letter replaced by the capital letter 32 code points below);
`toAlpha` is injective on the positive integers; and `toAlpha` of 1, 26, 27,
28 is `a`, `z`, `aa`, `ab`. -/
theorem toAlpha_bijective_base26 :
    (∀ n : Int, 1 ≤ n →
      toAlpha n false ≠ [] ∧ (∀ c ∈ toAlpha n false, IsLowerLetter c) ∧
      alphaValue (toAlpha n false) = n ∧
      toAlpha n true = ToUpper (toAlpha n false) ∧
      toAlpha n true = (toAlpha n false).map fun c => Char.ofNat (c.toNat - 32)) ∧
    (∀ n m : Int, 1 ≤ n → 1 ≤ m → toAlpha n false = toAlpha m false → n = m) ∧
    toAlpha 1 false = ['a'] ∧ toAlpha 26 false = ['z'] ∧ toAlpha 27 false = ['a', 'a'] ∧
      toAlpha 28 false = ['a', 'b'] := by
  refine ⟨?_, ?_, by decide, by decide, by decide, by decide⟩
  · intro n hn
    obtain ⟨h1, h2, h3⟩ := toAlpha_lower_spec n hn
    have hu : toAlpha n true = ToUpper (toAlpha n false) := by
      have hn0 : ¬ n ≤ 0 := by omega
      simp [toAlpha, hn0]
    refine ⟨h1, h2, h3, hu, ?_⟩
    rw [hu, ToUpper]
    apply List.map_congr_left
    intro c hc
    exact toUpper_lower c (h2 c hc)
  · intro n m hn hm h
    have h1 := (toAlpha_lower_spec n hn).2.2
    have h2 := (toAlpha_lower_spec m hm).2.2
    rw [h] at h1
    omega

/-- C11 at a concrete input: 703 = 26·26 + 26 + 1 is `aaa`. -/
theorem toAlpha_bijective_base26_witness :
    (1 : Int) ≤ 703 ∧ toAlpha 703 false = ['a', 'a', 'a'] ∧
      alphaValue (toAlpha 703 false) = 703 ∧ toAlpha 703 true = ['A', 'A', 'A'] :=
  ⟨by decide, by decide, (toAlpha_bijective_base26.1 703 (by decide)).2.2.1, by decide⟩

/-- C13: with an empty entry list `generateLabels` returns `pageCount` labels,
and the label of the 0-based index `i` is the decimal string of `i + 1` (the
`%d` rendering, a decimal numeral that denotes `i + 1`); for 3 pages the
labels are "1", "2", "3". -/
theorem generateLabels_no_entries :
    (∀ pageCount : Nat,
      (generateLabels [] pageCount).length = pageCount ∧
      ∀ i : Nat, i < pageCount →
        (generateLabels [] pageCount)[i]? = some (fmtD ((i : Int) + 1)) ∧
        decimalInt? (fmtD ((i : Int) + 1)) = some ((i : Int) + 1)) ∧
    generateLabels [] 3 = [['1'], ['2'], ['3']] ∧
    (generateLabels [] 12)[11]? = some ['1', '2'] := by
  refine ⟨?_, by decide, by decide⟩
  intro pageCount
  constructor
  · simp [generateLabels]
  · intro i hi
    refine ⟨?_, decimalInt?_fmtD _⟩
    simp [generateLabels, List.getElem?_map, List.getElem?_range hi]

/-- C13 at a concrete input: the tenth label of ten pages is "10". -/
theorem generateLabels_no_entries_witness :
    (9 : Nat) < 10 ∧ (generateLabels [] 10)[9]? = some ['1', '0'] := by
  have h := ((generateLabels_no_entries.1 10).2 9 (by decide)).1
  exact ⟨by decide, by rw [h]; decide⟩

/-! ## Theorems: roman numerals -/

theorem toRomanSym_eq (v : Int) (sym : Str) (hv : 0 < v) :
    ∀ (fuel : Nat) (n : Int) (b : Str), 0 ≤ n → n.toNat ≤ fuel →
      toRomanSym v sym fuel n b = (n % v, b ++ (List.replicate (n / v).toNat sym).flatten) := by
  intro fuel
  induction fuel with
  | zero =>
    intro n b h0 hf
    have hn : n = 0 := by omega
    subst hn
    simp [toRomanSym]
  | succ fuel ih =>
    intro n b h0 hf
    unfold toRomanSym
    by_cases hge : n ≥ v
    · rw [if_pos hge, ih (n - v) (b ++ sym) (by omega) (by omega)]
      have h1 : (n - v) % v = n % v := by
        rw [Int.sub_emod, Int.emod_self, sub_zero, Int.emod_emod_of_dvd _ (dvd_refl v)]
      have h2 : n / v = (n - v) / v + 1 := by
        have : n = (n - v) + v := by ring
        conv_lhs => rw [this]
        rw [Int.add_ediv_of_dvd_right (dvd_refl v), Int.ediv_self (by omega)]
      have h3 : 0 ≤ (n - v) / v := Int.ediv_nonneg (by omega) (by omega)
      have h4 : (n / v).toNat = ((n - v) / v).toNat + 1 := by
        rw [h2]; omega
      rw [h1, h4, List.replicate_succ, List.flatten_cons, List.append_assoc]
    · rw [if_neg hge]
      have h1 : n % v = n := Int.emod_eq_of_lt h0 (by omega)
      have h2 : n / v = 0 := Int.ediv_eq_zero_of_lt h0 (by omega)
      simp [h1, h2]

theorem romanFold_eq :
    ∀ (t : List (Int × Str)) (r : Int) (b : Str), (∀ vs ∈ t, 0 < vs.1) → 0 ≤ r →
      t.foldl (fun (st : Int × Str) (vs : Int × Str) =>
        toRomanSym vs.1 vs.2 st.1.toNat st.1 st.2) (r, b) =
      (romanRest r t, b ++ ((romanParts r t).map Prod.snd).flatten) := by
  intro t
  induction t with
  | nil => intro r b _ _; simp [romanRest, romanParts]
  | cons vs t ih =>
    intro r b hpos h0
    have hv := hpos vs (List.mem_cons_self _ _)
    rw [List.foldl_cons]
    simp only
    rw [toRomanSym_eq vs.1 vs.2 hv r.toNat r b h0 (le_refl _),
      ih _ _ (fun ws hw => hpos ws (List.mem_cons_of_mem _ hw)) (Int.emod_nonneg _ (by omega))]
    simp [romanRest, romanParts, List.map_append, List.flatten_append, List.map_replicate]

theorem romanTable_pos : ∀ vs ∈ romanTable, 0 < vs.1 := by decide

theorem toRoman_eq_parts (n : Int) (hn : 1 ≤ n) :
    toRoman n false = ((romanParts n romanTable).map Prod.snd).flatten := by
  have hn0 : ¬ n ≤ 0 := by omega
  simp [toRoman, hn0, romanFold_eq romanTable n [] romanTable_pos (by omega)]

theorem romanParts_mem :
    ∀ (t : List (Int × Str)) (r : Int), ∀ p ∈ romanParts r t, p ∈ t := by
  intro t
  induction t with
  | nil => intro r p hp; simp [romanParts] at hp
  | cons vs t ih =>
    intro r p hp
    simp only [romanParts, List.mem_append] at hp
    rcases hp with hp | hp
    · rw [(List.mem_replicate.1 hp).2]; exact List.mem_cons_self _ _
    · exact List.mem_cons_of_mem _ (ih _ p hp)

theorem romanParts_sorted :
    ∀ (t : List (Int × Str)) (r : Int), t.Pairwise (fun a b => a.1 ≥ b.1) →
      (romanParts r t).Pairwise (fun a b => a.1 ≥ b.1) := by
  intro t
  induction t with
  | nil => intro r _; simp [romanParts]
  | cons vs t ih =>
    intro r hs
    rw [List.pairwise_cons] at hs
    simp only [romanParts]
    rw [List.pairwise_append]
    refine ⟨?_, ih _ hs.2, ?_⟩
    · rw [List.pairwise_replicate]
      exact Or.inr (le_refl _)
    · intro a ha b hb
      rw [(List.mem_replicate.1 ha).2]
      exact hs.1 b (romanParts_mem t _ b hb)

theorem romanParts_sum :
    ∀ (t : List (Int × Str)) (r : Int), (∀ vs ∈ t, 0 < vs.1) → 0 ≤ r →
      ((romanParts r t).map Prod.fst).sum + romanRest r t = r := by
  intro t
  induction t with
  | nil => intro r _ _; simp [romanParts, romanRest]
  | cons vs t ih =>
    intro r hpos h0
    have hv := hpos vs (List.mem_cons_self _ _)
    have := ih (r % vs.1) (fun ws hw => hpos ws (List.mem_cons_of_mem _ hw))
      (Int.emod_nonneg _ (by omega))
    simp only [romanParts, romanRest, List.map_append, List.sum_append, List.map_replicate,
      List.sum_replicate, smul_eq_mul]
    have hq : 0 ≤ r / vs.1 := Int.ediv_nonneg h0 (by omega)
    have hk : ((r / vs.1).toNat • vs.1 : Int) = (r / vs.1) * vs.1 := by
      rw [nsmul_eq_mul, Int.toNat_of_nonneg hq]
    have hdm := Int.ediv_add_emod r vs.1
    rw [hk]
    linarith [mul_comm (r / vs.1) vs.1]

theorem romanRest_table (r : Int) : romanRest r romanTable = 0 := by
  simp [romanRest, romanTable]

theorem noFour_cons (a : Char) (t : Str) :
    noFourInARow (a :: t) = true ↔ noFourInARow t = true ∧ ¬ [a, a, a] <+: t := by
  cases t with
  | nil => simp [noFourInARow]
  | cons b t =>
    cases t with
    | nil => simp [noFourInARow, List.prefix_cons_inj]
    | cons c t =>
      cases t with
      | nil => simp [noFourInARow, List.prefix_cons_inj]
      | cons d t =>
        rw [noFourInARow]
        simp only [Bool.and_eq_true, Bool.not_eq_true', Bool.and_eq_false_imp, beq_iff_eq,
          beq_eq_false_iff_ne, ne_eq]
        constructor
        · rintro ⟨h1, h2⟩
          refine ⟨h2, ?_⟩
          rintro ⟨q, hq⟩
          simp only [List.cons_append, List.nil_append, List.cons.injEq] at hq
          obtain ⟨rfl, rfl, rfl, _⟩ := hq
          exact h1 ⟨rfl, rfl⟩ rfl
        · rintro ⟨h2, h1⟩
          refine ⟨?_, h2⟩
          rintro ⟨rfl, rfl⟩ rfl
          exact h1 ⟨t, rfl⟩

theorem noFour_append :
    ∀ (A B : Str), noFourInARow A = true → noFourInARow B = true →
      (∀ x y, A.getLast? = some x → B.head? = some y → x ≠ y) →
      noFourInARow (A ++ B) = true := by
  intro A
  induction A with
  | nil => intro B _ hB _; simpa using hB
  | cons a A ih =>
    intro B hA hB hb
    rw [noFour_cons] at hA
    rw [List.cons_append, noFour_cons]
    constructor
    · apply ih B hA.1 hB
      intro x y hx hy
      cases A with
      | nil => simp at hx
      | cons a2 A2 =>
        exact hb x y (by rw [List.getLast?_cons_cons]; exact hx) hy
    · rintro ⟨q, hq⟩
      match A, B, hA, hb, hq with
      | [], [], _, _, hq => simp at hq
      | [], y :: B, _, hb, hq =>
        simp only [List.cons_append, List.nil_append, List.cons.injEq] at hq
        exact hb a y rfl rfl hq.1
      | [a2], [], _, _, hq => simp at hq
      | [a2], y :: B, _, hb, hq =>
        simp only [List.cons_append, List.nil_append, List.cons.injEq] at hq
        obtain ⟨h1, h2, _⟩ := hq
        exact hb a2 y rfl rfl (by rw [← h1, h2])
      | [a2, a3], [], _, _, hq => simp at hq
      | [a2, a3], y :: B, _, hb, hq =>
        simp only [List.cons_append, List.nil_append, List.cons.injEq] at hq
        obtain ⟨_, h2, h3, _⟩ := hq
        exact hb a3 y rfl rfl (by rw [← h2, h3])
      | a2 :: a3 :: a4 :: A3, B, hA, _, hq =>
        simp only [List.cons_append, List.nil_append, List.cons.injEq] at hq
        obtain ⟨rfl, rfl, rfl, _⟩ := hq
        exact hA.2 ⟨A3, rfl⟩

theorem noFour_no_run (s : Str) (h : noFourInARow s = true) (c : Char) :
    ¬ List.replicate 4 c <:+: s := by
  rintro ⟨p, q, hpq⟩
  subst hpq
  induction p with
  | nil =>
    have : noFourInARow (c :: c :: c :: c :: q) = true := by simpa [List.replicate] using h
    rw [noFour_cons] at this
    exact this.2 ⟨q, rfl⟩
  | cons a p ih =>
    apply ih
    have h2 : noFourInARow (a :: (p ++ List.replicate 4 c ++ q)) = true := by simpa using h
    rw [noFour_cons] at h2
    exact h2.1

theorem head?_flatten {α : Type} :
    ∀ (L : List (List α)) (y : α), L.flatten.head? = some y → ∃ l ∈ L, l.head? = some y := by
  intro L
  induction L with
  | nil => intro y h; simp at h
  | cons l L ih =>
    intro y h
    cases l with
    | nil =>
      obtain ⟨l2, hl2, h2⟩ := ih y (by simpa using h)
      exact ⟨l2, List.mem_cons_of_mem _ hl2, h2⟩
    | cons a l => exact ⟨a :: l, List.mem_cons_self _ _, by simpa using h⟩

theorem getLast?_flatten {α : Type} (L : List (List α)) (x : α)
    (h : L.flatten.getLast? = some x) : ∃ l ∈ L, l.getLast? = some x := by
  have h2 : (L.reverse.map List.reverse).flatten.head? = some x := by
    rw [List.map_reverse, ← List.reverse_flatten, List.head?_reverse]
    exact h
  obtain ⟨l, hl, hx⟩ := head?_flatten _ x h2
  rw [List.mem_map] at hl
  obtain ⟨l0, hl0, rfl⟩ := hl
  exact ⟨l0, List.mem_reverse.1 hl0, by rw [← List.head?_reverse]; exact hx⟩

theorem romanTable_boundary :
    romanTable.Pairwise (fun vs ws => vs.2.getLast? ≠ ws.2.head?) := by decide

theorem romanTable_group :
    ∀ vs ∈ romanTable, ∀ k : Nat, k < 4 →
      noFourInARow (List.replicate k vs.2).flatten = true := by decide

theorem romanTable_chain : romanTable.Chain' (fun a b => a.1 ≤ 4 * b.1) := by
  simp [romanTable, List.chain'_cons]

theorem romanTable_sorted : romanTable.Pairwise (fun a b => a.1 ≥ b.1) := by decide

theorem romanParts_noFour :
    ∀ (t : List (Int × Str)) (r : Int),
      t.Pairwise (fun vs ws => vs.2.getLast? ≠ ws.2.head?) →
      (∀ vs ∈ t, ∀ k : Nat, k < 4 → noFourInARow (List.replicate k vs.2).flatten = true) →
      (∀ vs ∈ t, 0 < vs.1) → t.Chain' (fun a b => a.1 ≤ 4 * b.1) → 0 ≤ r →
      (∀ vs, t.head? = some vs → r < 4 * vs.1) →
      noFourInARow ((romanParts r t).map Prod.snd).flatten = true := by
  intro t
  induction t with
  | nil => intro r _ _ _ _ _ _; rfl
  | cons vs t ih =>
    intro r hb hg hpos hch h0 hr
    have hv := hpos vs (List.mem_cons_self _ _)
    have hlt : r < 4 * vs.1 := hr vs rfl
    have hk : (r / vs.1).toNat < 4 := by
      have h1 : r / vs.1 < 4 := Int.ediv_lt_of_lt_mul hv hlt
      have h2 : 0 ≤ r / vs.1 := Int.ediv_nonneg h0 (by omega)
      omega
    rw [List.pairwise_cons] at hb
    simp only [romanParts, List.map_append, List.flatten_append, List.map_replicate]
    apply noFour_append
    · exact hg vs (List.mem_cons_self _ _) _ hk
    · apply ih (r % vs.1) hb.2 (fun ws hw => hg ws (List.mem_cons_of_mem _ hw))
        (fun ws hw => hpos ws (List.mem_cons_of_mem _ hw)) hch.tail
        (Int.emod_nonneg _ (by omega))
      intro ws hws
      have h1 : r % vs.1 < vs.1 := Int.emod_lt_of_pos _ hv
      have h2 : vs.1 ≤ 4 * ws.1 := by
        cases t with
        | nil => simp at hws
        | cons w t2 =>
          simp only [List.head?_cons, Option.some.injEq] at hws
          subst hws
          exact (List.chain'_cons.1 hch).1
      omega
    · intro x y hx hy
      obtain ⟨l, hl, hlx⟩ := getLast?_flatten _ x hx
      rw [(List.mem_replicate.1 hl).2] at hlx
      obtain ⟨l2, hl2, hly⟩ := head?_flatten _ y hy
      rw [List.mem_map] at hl2
      obtain ⟨ws, hws, rfl⟩ := hl2
      have hne := hb.1 ws (romanParts_mem t _ ws hws)
      rintro rfl
      exact hne (by rw [hlx, hly])

/-- C12: for `1 ≤ n ≤ 3999`, `toRoman(n, false)` is a concatenation of symbols of
the table m, cm, d, cd, c, xc, l, xl, x, ix, v, iv, i in non-increasing value
order whose values sum to `n`, and no letter stands four times in a row in
it; for `n ≤ 0`, `toRoman` returns the decimal string of `n`, in both cases
of `upper`. -/
theorem toRoman_canonical :
    (∀ n : Int, 1 ≤ n → n ≤ 3999 →
      (∃ parts : List (Int × Str),
        (∀ p ∈ parts, p ∈ romanTable) ∧
        toRoman n false = (parts.map Prod.snd).flatten ∧
        parts.Pairwise (fun a b => a.1 ≥ b.1) ∧
        (parts.map Prod.fst).sum = n) ∧
      ∀ c : Char, ¬ List.replicate 4 c <:+: toRoman n false) ∧
    (∀ (n : Int) (upper : Bool), n ≤ 0 →
      toRoman n upper = fmtD n ∧ decimalInt? (toRoman n upper) = some n) ∧
    toRoman 1994 false = "mcmxciv".toList ∧ toRoman 3999 false = "mmmcmxcix".toList ∧
      toRoman 0 false = ['0'] ∧ toRoman (-3) true = ['-', '3'] := by
  refine ⟨?_, ?_, by decide, by decide, by decide, by decide⟩
  · intro n h1 h2
    constructor
    · refine ⟨romanParts n romanTable, romanParts_mem _ _, toRoman_eq_parts n h1,
        romanParts_sorted _ _ romanTable_sorted, ?_⟩
      have := romanParts_sum romanTable n romanTable_pos (by omega)
      rw [romanRest_table] at this
      simpa using this
    · rw [toRoman_eq_parts n h1]
      apply noFour_no_run
      apply romanParts_noFour romanTable n romanTable_boundary romanTable_group
        romanTable_pos romanTable_chain (by omega)
      intro vs hvs
      simp only [romanTable, List.head?_cons, Option.some.injEq] at hvs
      subst hvs
      simp only
      omega
  · intro n upper hn
    have : toRoman n upper = fmtD n := by simp [toRoman, hn]
    rw [this]
    exact ⟨rfl, decimalInt?_fmtD n⟩

/-- C12 at a concrete input: 1888, the longest numeral below 2000. -/
theorem toRoman_canonical_witness :
    (1 : Int) ≤ 1888 ∧ (1888 : Int) ≤ 3999 ∧
      toRoman 1888 false = "mdccclxxxviii".toList ∧
      (∀ c : Char, ¬ List.replicate 4 c <:+: toRoman 1888 false) :=
  ⟨by decide, by decide, by decide, (toRoman_canonical.1 1888 (by decide) (by decide)).2⟩

/-! ## Theorems: the busy navigator -/

/-- C19: in a state with `splitting` set, `Update` returns the state unchanged
and the command `nil` for every key message and every mouse message: no quit,
no mode change, no movement, no toggle, no extraction, no viewer launch. -/
theorem Update_busy_ignores_input {ι : Type} (d : Deps ι) (m : appModel ι)
    (hbusy : m.splitting = true) :
    (∀ k : KeyMsg, Update d m (.key k) = some (m, .none)) ∧
    (∀ e : MouseMsg, Update d m (.mouse e) = some (m, .none)) := by
  constructor
  · intro k
    simp [Update, hbusy]
  · intro e
    simp [Update, hbusy]

/-- C19 at a concrete input: a busy navigator ignores `q` and a left click. -/
theorem Update_busy_ignores_input_witness :
    ({ segmentModel 8 [3] 2 with splitting := true } : appModel Str).splitting = true ∧
      (Update plainDeps { segmentModel 8 [3] 2 with splitting := true }
          (.key ⟨.KeyRunes, ['q']⟩)).map (fun r => (r.1.currentPage, r.1.splitPoints, r.2)) =
        some (2, [3], Cmd.none) ∧
      (∀ e : MouseMsg, Update plainDeps { segmentModel 8 [3] 2 with splitting := true }
          (.mouse e) = some ({ segmentModel 8 [3] 2 with splitting := true }, .none)) :=
  ⟨rfl, by decide,
    (Update_busy_ignores_input plainDeps { segmentModel 8 [3] 2 with splitting := true } rfl).2⟩

/-! ## Theorems: the label map -/

theorem pagesLabelled_of_not_mem (s : Str) :
    ∀ (labels : List Str) (first : Nat), s ∉ labels → pagesLabelled s labels first = [] := by
  intro labels
  induction labels with
  | nil => intro _ _; rfl
  | cons label labels ih =>
    intro first h
    rw [List.mem_cons, not_or] at h
    have h2 : ¬ label = s := fun e => h.1 e.symm
    rw [pagesLabelled, if_neg h2, ih _ h.2]

theorem labelsLoop_spec (s : Str) :
    ∀ (labels : List Str) (first : Nat) (m : pageLabelsMap),
      labelsLoop labels first m s =
        if s ∈ labels then some ((m s).getD [] ++ pagesLabelled s labels first) else m s := by
  intro labels
  induction labels with
  | nil => intro first m; simp [labelsLoop]
  | cons label labels ih =>
    intro first m
    rw [labelsLoop, ih]
    by_cases h : label = s
    · subst h
      rw [if_pos (List.mem_cons_self _ _)]
      by_cases hm : label ∈ labels
      · rw [if_pos hm]
        simp [pagesLabelled, addLabel]
      · rw [if_neg hm]
        simp [pagesLabelled, addLabel, pagesLabelled_of_not_mem label labels _ hm]
    · have h2 : ¬ s = label := fun e => h e.symm
      simp [pagesLabelled, h, addLabel, h2]

theorem mem_pagesLabelled (s : Str) :
    ∀ (labels : List Str) (first : Nat) (p : Int),
      p ∈ pagesLabelled s labels first ↔
        ∃ i : Nat, labels[i]? = some s ∧ p = (first : Int) + (i : Int) + 1 := by
  intro labels
  induction labels with
  | nil => intro first p; simp [pagesLabelled]
  | cons label labels ih =>
    intro first p
    have key : (∃ i : Nat, (label :: labels)[i]? = some s ∧ p = (first : Int) + (i : Int) + 1) ↔
        (label = s ∧ p = (first : Int) + 1) ∨
          ∃ i : Nat, labels[i]? = some s ∧ p = ((first + 1 : Nat) : Int) + (i : Int) + 1 := by
      constructor
      · rintro ⟨i, hi, hp⟩
        cases i with
        | zero =>
          simp only [List.getElem?_cons_zero, Option.some.injEq] at hi
          exact Or.inl ⟨hi, by simpa using hp⟩
        | succ j =>
          simp only [List.getElem?_cons_succ] at hi
          exact Or.inr ⟨j, hi, by push_cast at hp ⊢; omega⟩
      · rintro (⟨hl, hp⟩ | ⟨i, hi, hp⟩)
        · exact ⟨0, by simp [hl], by simpa using hp⟩
        · exact ⟨i + 1, by simpa using hi, by push_cast at hp ⊢; omega⟩
    rw [key]
    unfold pagesLabelled
    by_cases h : label = s
    · rw [if_pos h, List.mem_cons, ih]
      simp [h]
    · rw [if_neg h, ih]
      simp [h]

theorem pagesLabelled_sorted (s : Str) :
    ∀ (labels : List Str) (first : Nat),
      (pagesLabelled s labels first).Pairwise (fun a b => a < b) := by
  intro labels
  induction labels with
  | nil => intro first; simp [pagesLabelled]
  | cons label labels ih =>
    intro first
    unfold pagesLabelled
    by_cases h : label = s
    · rw [if_pos h, List.pairwise_cons]
      refine ⟨?_, ih _⟩
      intro p hp
      rw [mem_pagesLabelled] at hp
      obtain ⟨i, _, rfl⟩ := hp
      push_cast
      omega
    · rw [if_neg h]
      exact ih _

theorem labelsMapOf_eq (labels : List Str) (s : Str) :
    labelsMapOf labels s = if s ∈ labels then some (pagesLabelled s labels 0) else none := by
  rw [labelsMapOf, labelsLoop_spec]
  simp

theorem mem_labelsMapOf (labels : List Str) (s : Str) (pages : List Int)
    (h : labelsMapOf labels s = some pages) (p : Int) :
    p ∈ pages ↔ 1 ≤ p ∧ p ≤ (labels.length : Int) ∧ labels[(p - 1).toNat]? = some s := by
  rw [labelsMapOf_eq] at h
  split_ifs at h
  injection h with h
  subst h
  rw [mem_pagesLabelled]
  constructor
  · rintro ⟨i, hi, rfl⟩
    have hlt : i < labels.length := by
      by_contra hge
      rw [List.getElem?_eq_none (by omega)] at hi
      cases hi
    refine ⟨by omega, by omega, ?_⟩
    have : ((0 : Nat) : Int) + (i : Int) + 1 - 1 = (i : Int) := by omega
    rw [this, Int.toNat_ofNat]
    exact hi
  · rintro ⟨h1, _, h3⟩
    refine ⟨(p - 1).toNat, h3, ?_⟩
    rw [Int.toNat_of_nonneg (by omega)]
    omega

/-- C14: the label map built from a list of `n` generated labels maps a label
that occurs to the list of exactly those physical pages `p` of `[1, n]` whose
label it is, in strictly ascending order, and has no other key; hence the
page lists are non-empty and ascending, every physical page lies in the group
of exactly one label, and pages sharing a label are all retained. -/
theorem labelsMapOf_groups (labels : List Str) :
    (∀ s : Str, labelsMapOf labels s =
      if s ∈ labels then some (pagesLabelled s labels 0) else none) ∧
    (∀ (s : Str) (pages : List Int), labelsMapOf labels s = some pages →
      pages.Pairwise (fun a b => a < b) ∧ pages ≠ [] ∧
      ∀ p : Int, p ∈ pages ↔
        1 ≤ p ∧ p ≤ (labels.length : Int) ∧ labels[(p - 1).toNat]? = some s) ∧
    (∀ p : Int, 1 ≤ p → p ≤ (labels.length : Int) →
      ∃ (s : Str) (pages : List Int), labelsMapOf labels s = some pages ∧ p ∈ pages ∧
        ∀ (s1 : Str) (pages1 : List Int), labelsMapOf labels s1 = some pages1 →
          p ∈ pages1 → s1 = s) ∧
    AscendingMap (labelsMapOf labels) := by
  have hgroup : ∀ (s : Str) (pages : List Int), labelsMapOf labels s = some pages →
      pages.Pairwise (fun a b => a < b) ∧ pages ≠ [] := by
    intro s pages h
    have h0 := h
    rw [labelsMapOf_eq] at h
    split_ifs at h with hs
    injection h with h
    subst h
    refine ⟨pagesLabelled_sorted s labels 0, ?_⟩
    obtain ⟨i, hi⟩ := List.mem_iff_getElem?.1 hs
    intro he
    have : ((0 : Nat) : Int) + (i : Int) + 1 ∈ pagesLabelled s labels 0 :=
      (mem_pagesLabelled s labels 0 _).2 ⟨i, hi, rfl⟩
    rw [he] at this
    simp at this
  refine ⟨labelsMapOf_eq labels, ?_, ?_, ?_⟩
  · intro s pages h
    exact ⟨(hgroup s pages h).1, (hgroup s pages h).2, mem_labelsMapOf labels s pages h⟩
  · intro p h1 h2
    have hlt : (p - 1).toNat < labels.length := by omega
    have hget : labels[(p - 1).toNat]? = some (labels[(p - 1).toNat]) :=
      List.getElem?_eq_getElem hlt
    have hmem : labels[(p - 1).toNat] ∈ labels := List.getElem_mem _
    have hmap : labelsMapOf labels (labels[(p - 1).toNat]) =
        some (pagesLabelled (labels[(p - 1).toNat]) labels 0) := by
      rw [labelsMapOf_eq, if_pos hmem]
    refine ⟨_, _, hmap, (mem_labelsMapOf labels _ _ hmap p).2 ⟨h1, h2, hget⟩, ?_⟩
    intro s1 pages1 hs1 hp1
    have := ((mem_labelsMapOf labels s1 pages1 hs1 p).1 hp1).2.2
    rw [hget] at this
    injection this with this
    exact this.symm
  · intro s pages h
    refine ⟨(hgroup s pages h).2, ?_⟩
    exact (hgroup s pages h).1.imp fun hab => le_of_lt hab

/-- C14 at a concrete input: a document whose roman numbering restarts on the
third page; the label `ii` keeps both of its pages. -/
theorem labelsMapOf_groups_witness :
    generateLabels [⟨0, ['r'], [], 1⟩, ⟨2, ['r'], [], 1⟩] 5 =
        [['i'], ['i', 'i'], ['i'], ['i', 'i'], ['i', 'i', 'i']] ∧
      labelsMapOf [['i'], ['i', 'i'], ['i'], ['i', 'i'], ['i', 'i', 'i']] ['i', 'i'] =
        some [2, 4] ∧
      ((4 : Int) ∈ [2, 4] ↔ (1 : Int) ≤ 4 ∧ (4 : Int) ≤ 5 ∧
        ([['i'], ['i', 'i'], ['i'], ['i', 'i'], ['i', 'i', 'i']] : List Str)[((4 : Int) - 1).toNat]?
          = some ['i', 'i']) :=
  ⟨by decide, by decide,
    ((labelsMapOf_groups [['i'], ['i', 'i'], ['i'], ['i', 'i'], ['i', 'i', 'i']]).2.1
      ['i', 'i'] [2, 4] (by decide)).2.2 4⟩

/-! ## Theorems: the number tree -/

theorem walkNumberTree_cyclic :
    ∀ (fuel : Nat) (entries : List pageLabelEntry),
      walkNumberTree fuel cyclicCtx cyclicNode entries = none := by
  intro fuel
  induction fuel with
  | zero => intro entries; rfl
  | succ fuel ih =>
    intro entries
    have h : walkNumberTree (fuel + 1) cyclicCtx cyclicNode entries =
        walkKids (walkNumberTree fuel cyclicCtx) cyclicCtx [.indirectRef 1] entries := rfl
    rw [h]
    have h2 : walkKids (walkNumberTree fuel cyclicCtx) cyclicCtx [.indirectRef 1] entries =
        match walkNumberTree fuel cyclicCtx cyclicNode entries with
        | none => none
        | some (entries1, some err) => some (entries1, some err)
        | some (entries1, none) =>
          walkKids (walkNumberTree fuel cyclicCtx) cyclicCtx [] entries1 := rfl
    rw [h2, ih]

/-- C15 as stated fails: on a document whose number-tree node lists itself
among its `Kids`, `walkNumberTree` does not return at any depth of recursion,
and neither does `extractLabelEntries`, whatever the library's sort does. -/
theorem walkNumberTree_cycle_diverges :
    ¬ WalkReturns cyclicCtx cyclicNode ∧
      ¬ ∃ sortSlice fuel, (extractLabelEntries sortSlice fuel cyclicCtx).isSome = true := by
  constructor
  · rintro ⟨fuel, h⟩
    rw [walkNumberTree_cyclic] at h
    cases h
  · rintro ⟨sortSlice, fuel, h⟩
    have : extractLabelEntries sortSlice fuel cyclicCtx =
        match walkNumberTree fuel cyclicCtx cyclicNode [] with
        | none => none
        | some (_, some err) => some (.error err)
        | some (entries, none) => some (.ok (sortSlice entries)) := rfl
    rw [this, walkNumberTree_cyclic] at h
    cases h

theorem walkKids_isSome
    (walk : Dict → List pageLabelEntry → Option (List pageLabelEntry × Option LabelError))
    (ctx : Context) :
    ∀ (kids : List Obj) (entries : List pageLabelEntry),
      (∀ kid ∈ kids, ∀ kidDict, Dereference ctx kid = .ok (.dict kidDict) →
        ∀ e, (walk kidDict e).isSome = true) →
      (walkKids walk ctx kids entries).isSome = true := by
  intro kids
  induction kids with
  | nil => intro entries _; rfl
  | cons kid kids ih =>
    intro entries h
    have hrest : ∀ e, (walkKids walk ctx kids e).isSome = true := fun e =>
      ih e fun k hk => h k (List.mem_cons_of_mem _ hk)
    unfold walkKids
    split
    · rfl
    · rename_i kidDict hd
      have hw := h kid (List.mem_cons_self _ _) kidDict hd entries
      split
      · rename_i hnone
        rw [hnone] at hw
        cases hw
      · rfl
      · exact hrest _
    · exact hrest _

theorem walkNumberTree_isSome (ctx : Context) (inTree : Dict → Prop) (rank : Dict → Nat)
    (hkids : ∀ node kids kid kidDict, inTree node →
      ArrayEntry node ['K', 'i', 'd', 's'] = some kids → kid ∈ kids →
      Dereference ctx kid = .ok (.dict kidDict) → inTree kidDict ∧ rank kidDict < rank node) :
    ∀ (fuel : Nat) (node : Dict) (entries : List pageLabelEntry), inTree node →
      rank node < fuel → (walkNumberTree fuel ctx node entries).isSome = true := by
  intro fuel
  induction fuel with
  | zero => intro node entries _ h; omega
  | succ fuel ih =>
    intro node entries hin hr
    unfold walkNumberTree
    simp only
    split
    · rfl
    · split
      · rename_i kids hk
        apply walkKids_isSome
        intro kid hkid kidDict hd e
        obtain ⟨h1, h2⟩ := hkids node kids kid kidDict hin hk hkid hd
        exact ih kidDict e h1 (by omega)
      · rfl

/-- C15, amended: on a document in which every `Kids` link of the number tree
leads to a node of strictly lower rank (the tree below the root is acyclic and
of finite depth), `walkNumberTree` returns, within a depth of recursion of the
rank of the root plus one. -/
theorem walkNumberTree_terminates (ctx : Context) (root : Dict) (inTree : Dict → Prop)
    (rank : Dict → Nat) (hroot : inTree root)
    (hkids : ∀ node kids kid kidDict, inTree node →
      ArrayEntry node ['K', 'i', 'd', 's'] = some kids → kid ∈ kids →
      Dereference ctx kid = .ok (.dict kidDict) → inTree kidDict ∧ rank kidDict < rank node) :
    WalkReturns ctx root ∧
      (walkNumberTree (rank root + 1) ctx root []).isSome = true :=
  ⟨⟨rank root + 1,
      walkNumberTree_isSome ctx inTree rank hkids (rank root + 1) root [] hroot (by omega)⟩,
    walkNumberTree_isSome ctx inTree rank hkids (rank root + 1) root [] hroot (by omega)⟩

/-- C15, amended, at a concrete input: the two-level tree of `treeCtx`. -/
theorem walkNumberTree_terminates_witness :
    WalkReturns treeCtx treeRoot ∧
      (walkNumberTree (treeRank treeRoot + 1) treeCtx treeRoot []).isSome = true := by
  apply walkNumberTree_terminates treeCtx treeRoot
    (fun node => node = treeRoot ∨ ArrayEntry node ['K', 'i', 'd', 's'] = none) treeRank
    (Or.inl rfl)
  intro node kids kid kidDict hin hk hkid hd
  rcases hin with rfl | hnone
  · have hk2 : ArrayEntry treeRoot ['K', 'i', 'd', 's'] =
        some [.indirectRef 2, .indirectRef 3] := rfl
    rw [hk2] at hk
    injection hk with hk
    subst hk
    simp only [List.mem_cons, List.mem_singleton, List.not_mem_nil, or_false] at hkid
    rcases hkid with rfl | rfl
    · have h2 : Dereference treeCtx (.indirectRef 2) = .ok (.dict
          [("Nums".toList, .array [.integer 0, .dict [(['S'], .name ['r'])]])]) := rfl
      rw [h2] at hd
      injection hd with hd
      injection hd with hd
      subst hd
      exact ⟨Or.inr rfl, by decide⟩
    · have h3 : Dereference treeCtx (.indirectRef 3) = .ok (.dict
          [("Nums".toList, .array [.integer 4,
            .dict [(['S'], .name ['D']), (['P'], .stringLiteral ['A', '-'])]])]) := rfl
      rw [h3] at hd
      injection hd with hd
      injection hd with hd
      subst hd
      exact ⟨Or.inr rfl, by decide⟩
  · rw [hnone] at hk
    cases hk

theorem Dereference_error (ctx : Context) (o : Obj) (msg : Str)
    (h : Dereference ctx o = .error msg) : FromResolve ctx (.dereference msg) := by
  cases o with
  | indirectRef n => exact ⟨n, msg, h, rfl⟩
  | _ => cases h

theorem walkNums_cons_cons (ctx : Context) (k v : Obj) (nums : List Obj)
    (entries : List pageLabelEntry) :
    walkNums ctx (k :: v :: nums) entries =
      match Dereference ctx k with
      | .error e => (entries, some (.dereference e))
      | .ok (.integer key) =>
        match Dereference ctx v with
        | .error e => (entries, some (.dereference e))
        | .ok valObj => walkNums ctx nums (entries ++ [entryOf key valObj])
      | .ok _ => walkNums ctx nums entries := by
  rw [walkNums]

theorem walkNums_skip_key (ctx : Context) (k v : Obj) (nums : List Obj)
    (entries : List pageLabelEntry) (keyObj : Obj) (hk : Dereference ctx k = .ok keyObj)
    (hni : ∀ n, keyObj ≠ .integer n) :
    walkNums ctx (k :: v :: nums) entries = walkNums ctx nums entries := by
  rw [walkNums_cons_cons, hk]
  cases keyObj with
  | integer n => exact absurd rfl (hni n)
  | _ => rfl

theorem walkNums_err (ctx : Context) :
    ∀ (n : Nat) (nums : List Obj) (entries : List pageLabelEntry) (e : LabelError),
      nums.length ≤ n → (walkNums ctx nums entries).2 = some e → FromResolve ctx e := by
  intro n
  induction n using Nat.strong_induction_on with
  | _ n ih =>
    intro nums entries e hlen h
    match nums, hlen, h with
    | [], _, h => simp [walkNums] at h
    | [_], _, h => simp [walkNums] at h
    | k :: v :: nums, hlen, h =>
      rw [walkNums_cons_cons] at h
      have hrec : ∀ es, (walkNums ctx nums es).2 = some e → FromResolve ctx e := fun es hh =>
        ih (n - 2) (by simp at hlen; omega) nums es e (by simp at hlen; omega) hh
      cases hk : Dereference ctx k with
      | error msg =>
        rw [hk] at h
        simp only [Option.some.injEq] at h
        rw [← h]
        exact Dereference_error ctx k msg hk
      | ok keyObj =>
        rw [hk] at h
        cases keyObj with
        | integer key =>
          simp only at h
          cases hv : Dereference ctx v with
          | error msg =>
            rw [hv] at h
            simp only [Option.some.injEq] at h
            rw [← h]
            exact Dereference_error ctx v msg hv
          | ok valObj =>
            rw [hv] at h
            exact hrec _ h
        | _ => exact hrec _ h

theorem walkKids_err
    (walk : Dict → List pageLabelEntry → Option (List pageLabelEntry × Option LabelError))
    (ctx : Context)
    (hwalk : ∀ d es r e, walk d es = some (r, some e) → FromResolve ctx e) :
    ∀ (kids : List Obj) (entries r : List pageLabelEntry) (e : LabelError),
      walkKids walk ctx kids entries = some (r, some e) → FromResolve ctx e := by
  intro kids
  induction kids with
  | nil => intro entries r e h; simp [walkKids] at h
  | cons kid kids ih =>
    intro entries r e h
    unfold walkKids at h
    split at h
    · rename_i msg hd
      simp only [Option.some.injEq, Prod.mk.injEq] at h
      rw [← h.2]
      exact Dereference_error ctx kid msg hd
    · split at h
      · cases h
      · rename_i entries1 err hw
        simp only [Option.some.injEq, Prod.mk.injEq] at h
        rw [← h.2]
        exact hwalk _ _ _ _ hw
      · exact ih _ _ _ h
    · exact ih _ _ _ h

theorem walkNumberTree_err (ctx : Context) :
    ∀ (fuel : Nat) (node : Dict) (entries r : List pageLabelEntry) (e : LabelError),
      walkNumberTree fuel ctx node entries = some (r, some e) → FromResolve ctx e := by
  intro fuel
  induction fuel with
  | zero => intro node entries r e h; simp [walkNumberTree] at h
  | succ fuel ih =>
    intro node entries r e h
    unfold walkNumberTree at h
    simp only at h
    split at h
    · rename_i entries1 err hnums
      simp only [Option.some.injEq, Prod.mk.injEq] at h
      rw [← h.2]
      split at hnums
      · rename_i nums _
        have := walkNums_err ctx nums.length nums entries err (le_refl _)
          (by rw [hnums])
        exact this
      · cases hnums
    · split at h
      · exact walkKids_err _ ctx (fun d es r e hh => ih d es r e hh) _ _ _ _ h
      · cases h

theorem walkNums_skip_pair (ctx : Context) (k v : Obj) (post : List Obj) (keyObj : Obj)
    (hk : Dereference ctx k = .ok keyObj) (hni : ∀ n, keyObj ≠ .integer n) :
    ∀ (n : Nat) (before : List Obj) (entries : List pageLabelEntry), before.length = 2 * n →
      walkNums ctx (before ++ k :: v :: post) entries = walkNums ctx (before ++ post) entries := by
  intro n
  induction n with
  | zero =>
    intro before entries hlen
    have : before = [] := List.length_eq_zero.1 (by omega)
    subst this
    exact walkNums_skip_key ctx k v post entries keyObj hk hni
  | succ n ih =>
    intro before entries hlen
    match before, hlen with
    | [], hlen => simp at hlen
    | [_], hlen => simp at hlen; omega
    | k1 :: v1 :: before, hlen =>
      have hl : before.length = 2 * n := by simp at hlen; omega
      simp only [List.cons_append]
      rw [walkNums_cons_cons, walkNums_cons_cons]
      cases Dereference ctx k1 with
      | error msg => rfl
      | ok keyObj1 =>
        cases keyObj1 with
        | integer key =>
          simp only
          cases Dereference ctx v1 with
          | error msg => rfl
          | ok valObj => exact ih before _ hl
        | _ => exact ih before _ hl

theorem walkKids_skip_kid
    (walk : Dict → List pageLabelEntry → Option (List pageLabelEntry × Option LabelError))
    (ctx : Context) (kid : Obj) (post : List Obj) (o : Obj)
    (hk : Dereference ctx kid = .ok o) (hnd : ∀ d, o ≠ .dict d) :
    ∀ (before : List Obj) (entries : List pageLabelEntry),
      walkKids walk ctx (before ++ kid :: post) entries =
        walkKids walk ctx (before ++ post) entries := by
  intro before
  induction before with
  | nil =>
    intro entries
    simp only [List.nil_append]
    rw [walkKids, hk]
    cases o with
    | dict d => exact absurd rfl (hnd d)
    | _ => rfl
  | cons kid1 before ih =>
    intro entries
    simp only [List.cons_append]
    rw [walkKids, walkKids]
    cases Dereference ctx kid1 with
    | error msg => rfl
    | ok o1 =>
      cases o1 with
      | dict d =>
        simp only
        cases walk d entries with
        | none => rfl
        | some r =>
          obtain ⟨entries1, err⟩ := r
          cases err with
          | none => exact ih entries1
          | some e => rfl
      | _ => exact ih entries

theorem walkNums_append (ctx : Context) (rest : List Obj) :
    ∀ (n : Nat) (before : List Obj) (entries es : List pageLabelEntry),
      before.length = 2 * n → walkNums ctx before entries = (es, none) →
      walkNums ctx (before ++ rest) entries = walkNums ctx rest es := by
  intro n
  induction n with
  | zero =>
    intro before entries es hlen h
    have : before = [] := List.length_eq_zero.1 (by omega)
    subst this
    simp only [walkNums, Prod.mk.injEq, and_true] at h
    subst h
    rfl
  | succ n ih =>
    intro before entries es hlen h
    match before, hlen, h with
    | [], hlen, _ => simp at hlen
    | [_], hlen, _ => simp at hlen; omega
    | k1 :: v1 :: before, hlen, h =>
      have hl : before.length = 2 * n := by simp at hlen; omega
      simp only [List.cons_append]
      rw [walkNums_cons_cons] at h ⊢
      cases hk : Dereference ctx k1 with
      | error msg => rw [hk] at h; simp at h
      | ok keyObj1 =>
        rw [hk] at h
        cases keyObj1 with
        | integer key =>
          simp only at h ⊢
          cases hv : Dereference ctx v1 with
          | error msg => rw [hv] at h; simp at h
          | ok valObj =>
            rw [hv] at h
            exact ih before _ _ hl h
        | _ => exact ih before _ _ hl h

theorem walkNums_pair_fails (ctx : Context) (k v : Obj) (post : List Obj)
    (entries : List pageLabelEntry) (msg : Str) (h : PairFails ctx k v msg) :
    walkNums ctx (k :: v :: post) entries = (entries, some (.dereference msg)) := by
  rw [walkNums_cons_cons]
  rcases h with hk | ⟨key, hk, hv⟩
  · rw [hk]
  · rw [hk]
    simp only
    rw [hv]

theorem walkNums_error_split (ctx : Context) :
    ∀ (n : Nat) (nums : List Obj) (entries r : List pageLabelEntry) (e : LabelError),
      nums.length ≤ n → walkNums ctx nums entries = (r, some e) →
      ∃ before k v post msg, nums = before ++ k :: v :: post ∧ before.length % 2 = 0 ∧
        walkNums ctx before entries = (r, none) ∧ PairFails ctx k v msg ∧
        e = .dereference msg := by
  intro n
  induction n using Nat.strong_induction_on with
  | _ n ih =>
    intro nums entries r e hlen h
    match nums, hlen, h with
    | [], _, h => simp [walkNums] at h
    | [_], _, h => simp [walkNums] at h
    | k :: v :: nums, hlen, h =>
      rw [walkNums_cons_cons] at h
      have hrec : ∀ es, walkNums ctx nums es = (r, some e) →
          ∃ before k v post msg, nums = before ++ k :: v :: post ∧ before.length % 2 = 0 ∧
            walkNums ctx before es = (r, none) ∧ PairFails ctx k v msg ∧
            e = .dereference msg := fun es hh =>
        ih (n - 2) (by simp at hlen; omega) nums es r e (by simp at hlen; omega) hh
      cases hk : Dereference ctx k with
      | error msg =>
        rw [hk] at h
        simp only [Prod.mk.injEq, Option.some.injEq] at h
        refine ⟨[], k, v, nums, msg, rfl, rfl, ?_, Or.inl hk, h.2.symm⟩
        rw [← h.1]
        rfl
      | ok keyObj =>
        rw [hk] at h
        cases keyObj with
        | integer key =>
          simp only at h
          cases hv : Dereference ctx v with
          | error msg =>
            rw [hv] at h
            simp only [Prod.mk.injEq, Option.some.injEq] at h
            refine ⟨[], k, v, nums, msg, rfl, rfl, ?_, Or.inr ⟨key, hk, hv⟩, h.2.symm⟩
            rw [← h.1]
            rfl
          | ok valObj =>
            rw [hv] at h
            obtain ⟨before, k2, v2, post, msg, hn, hl, hb, hp, he⟩ := hrec _ h
            refine ⟨k :: v :: before, k2, v2, post, msg, by rw [hn]; rfl,
              by simp only [List.length_cons]; omega, ?_, hp, he⟩
            rw [walkNums_cons_cons, hk]
            simp only
            rw [hv]
            exact hb
        | _ =>
          obtain ⟨before, k2, v2, post, msg, hn, hl, hb, hp, he⟩ := hrec _ h
          refine ⟨k :: v :: before, k2, v2, post, msg, by rw [hn]; rfl,
            by simp only [List.length_cons]; omega, ?_, hp, he⟩
          rw [walkNums_cons_cons, hk]
          exact hb

theorem walkNums_error_iff (ctx : Context) (nums : List Obj) (entries r : List pageLabelEntry)
    (e : LabelError) :
    walkNums ctx nums entries = (r, some e) ↔
      ∃ before k v post msg, nums = before ++ k :: v :: post ∧ before.length % 2 = 0 ∧
        walkNums ctx before entries = (r, none) ∧ PairFails ctx k v msg ∧
        e = .dereference msg := by
  constructor
  · exact walkNums_error_split ctx nums.length nums entries r e (le_refl _)
  · rintro ⟨before, k, v, post, msg, rfl, hl, hb, hp, rfl⟩
    rw [walkNums_append ctx _ (before.length / 2) before entries r (by omega) hb]
    exact walkNums_pair_fails ctx k v post r msg hp

theorem walkKids_append
    (walk : Dict → List pageLabelEntry → Option (List pageLabelEntry × Option LabelError))
    (ctx : Context) (rest : List Obj) :
    ∀ (before : List Obj) (entries es : List pageLabelEntry),
      walkKids walk ctx before entries = some (es, none) →
      walkKids walk ctx (before ++ rest) entries = walkKids walk ctx rest es := by
  intro before
  induction before with
  | nil =>
    intro entries es h
    simp only [walkKids, Option.some.injEq, Prod.mk.injEq, and_true] at h
    subst h
    rfl
  | cons kid1 before ih =>
    intro entries es h
    simp only [List.cons_append]
    rw [walkKids] at h ⊢
    cases hk : Dereference ctx kid1 with
    | error msg => rw [hk] at h; simp at h
    | ok o1 =>
      rw [hk] at h
      cases o1 with
      | dict dct =>
        simp only at h ⊢
        cases hw : walk dct entries with
        | none => rw [hw] at h; simp at h
        | some res =>
          obtain ⟨entries1, err⟩ := res
          rw [hw] at h
          cases err with
          | none => exact ih entries1 es h
          | some e => simp at h
      | _ => exact ih entries es h

theorem walkKids_error_split
    (walk : Dict → List pageLabelEntry → Option (List pageLabelEntry × Option LabelError))
    (ctx : Context) :
    ∀ (kids : List Obj) (entries r : List pageLabelEntry) (e : LabelError),
      walkKids walk ctx kids entries = some (r, some e) →
      ∃ before kid post es, kids = before ++ kid :: post ∧
        walkKids walk ctx before entries = some (es, none) ∧
        ((∃ msg, Dereference ctx kid = .error msg ∧ e = .dereference msg ∧ r = es) ∨
          ∃ kidDict, Dereference ctx kid = .ok (.dict kidDict) ∧
            walk kidDict es = some (r, some e)) := by
  intro kids
  induction kids with
  | nil => intro entries r e h; simp [walkKids] at h
  | cons kid kids ih =>
    intro entries r e h
    have hcons : ∀ es1, walkKids walk ctx kids es1 = some (r, some e) →
        walkKids walk ctx [kid] entries = some (es1, none) →
        ∃ before kid1 post es, kid :: kids = before ++ kid1 :: post ∧
          walkKids walk ctx before entries = some (es, none) ∧
          ((∃ msg, Dereference ctx kid1 = .error msg ∧ e = .dereference msg ∧ r = es) ∨
            ∃ kidDict, Dereference ctx kid1 = .ok (.dict kidDict) ∧
              walk kidDict es = some (r, some e)) := by
      intro es1 hrest hone
      obtain ⟨before, kid1, post, es, hk, hb, hc⟩ := ih es1 r e hrest
      refine ⟨kid :: before, kid1, post, es, by rw [hk]; rfl, ?_, hc⟩
      have := walkKids_append walk ctx before [kid] entries es1 hone
      simp only [List.singleton_append] at this
      rw [this]
      exact hb
    rw [walkKids] at h
    cases hk : Dereference ctx kid with
    | error msg =>
      rw [hk] at h
      simp only [Option.some.injEq, Prod.mk.injEq] at h
      exact ⟨[], kid, kids, entries, rfl, rfl, Or.inl ⟨msg, hk, h.2.symm, h.1.symm⟩⟩
    | ok o =>
      rw [hk] at h
      cases o with
      | dict dct =>
        simp only at h
        cases hw : walk dct entries with
        | none => rw [hw] at h; simp at h
        | some res =>
          obtain ⟨entries1, err⟩ := res
          rw [hw] at h
          cases err with
          | none =>
            simp only at h
            apply hcons entries1 h
            rw [walkKids, hk]
            simp only
            rw [hw]
            rfl
          | some e1 =>
            simp only [Option.some.injEq, Prod.mk.injEq] at h
            refine ⟨[], kid, kids, entries, rfl, rfl, Or.inr ⟨dct, hk, ?_⟩⟩
            rw [hw, h.1, h.2]
      | _ =>
        apply hcons entries h
        rw [walkKids, hk]
        rfl

theorem walkKids_error_iff
    (walk : Dict → List pageLabelEntry → Option (List pageLabelEntry × Option LabelError))
    (ctx : Context) (kids : List Obj) (entries r : List pageLabelEntry) (e : LabelError) :
    walkKids walk ctx kids entries = some (r, some e) ↔
      ∃ before kid post es, kids = before ++ kid :: post ∧
        walkKids walk ctx before entries = some (es, none) ∧
        ((∃ msg, Dereference ctx kid = .error msg ∧ e = .dereference msg ∧ r = es) ∨
          ∃ kidDict, Dereference ctx kid = .ok (.dict kidDict) ∧
            walk kidDict es = some (r, some e)) := by
  constructor
  · exact walkKids_error_split walk ctx kids entries r e
  · rintro ⟨before, kid, post, es, rfl, hb, hc⟩
    rw [walkKids_append walk ctx _ before entries es hb, walkKids]
    rcases hc with ⟨msg, hk, rfl, rfl⟩ | ⟨kidDict, hk, hw⟩
    · rw [hk]
    · rw [hk]
      simp only
      rw [hw]

theorem walkNumberTree_succ (fuel : Nat) (ctx : Context) (node : Dict)
    (entries : List pageLabelEntry) :
    walkNumberTree (fuel + 1) ctx node entries =
      match (match ArrayEntry node ['N', 'u', 'm', 's'] with
        | some nums => walkNums ctx nums entries
        | none => (entries, none)) with
      | (entries1, some err) => some (entries1, some err)
      | (entries1, none) =>
        match ArrayEntry node ['K', 'i', 'd', 's'] with
        | some kids => walkKids (walkNumberTree fuel ctx) ctx kids entries1
        | none => some (entries1, none) := by
  rw [walkNumberTree]

theorem walkNumberTree_of_numsPass (fuel : Nat) (ctx : Context) (node : Dict)
    (entries es : List pageLabelEntry) (h : NumsPass ctx node entries es) :
    walkNumberTree (fuel + 1) ctx node entries =
      match ArrayEntry node ['K', 'i', 'd', 's'] with
      | some kids => walkKids (walkNumberTree fuel ctx) ctx kids es
      | none => some (es, none) := by
  rw [walkNumberTree_succ]
  rcases h with ⟨hn, rfl⟩ | ⟨nums, hn, hw⟩
  · rw [hn]
  · rw [hn]
    simp only
    rw [hw]

theorem walkNumberTree_of_nums_error (fuel : Nat) (ctx : Context) (node : Dict)
    (entries r : List pageLabelEntry) (e : LabelError) (nums : List Obj)
    (hn : ArrayEntry node ['N', 'u', 'm', 's'] = some nums)
    (hw : walkNums ctx nums entries = (r, some e)) :
    walkNumberTree (fuel + 1) ctx node entries = some (r, some e) := by
  rw [walkNumberTree_succ, hn]
  simp only
  rw [hw]

theorem numsPass_or_error (ctx : Context) (node : Dict) (entries : List pageLabelEntry) :
    (∃ es, NumsPass ctx node entries es) ∨
      ∃ nums r e, ArrayEntry node ['N', 'u', 'm', 's'] = some nums ∧
        walkNums ctx nums entries = (r, some e) := by
  cases hn : ArrayEntry node ['N', 'u', 'm', 's'] with
  | none => exact Or.inl ⟨entries, Or.inl ⟨hn, rfl⟩⟩
  | some nums =>
    cases hw : walkNums ctx nums entries with
    | mk es err =>
      cases err with
      | none => exact Or.inl ⟨es, Or.inr ⟨nums, hn, hw⟩⟩
      | some e => exact Or.inr ⟨nums, es, e, rfl, hw⟩

theorem walkNumberTree_error_iff (fuel : Nat) (ctx : Context) (node : Dict)
    (entries r : List pageLabelEntry) (e : LabelError) :
    walkNumberTree (fuel + 1) ctx node entries = some (r, some e) ↔
      (∃ nums, ArrayEntry node ['N', 'u', 'm', 's'] = some nums ∧
        walkNums ctx nums entries = (r, some e)) ∨
      ∃ es kids, NumsPass ctx node entries es ∧
        ArrayEntry node ['K', 'i', 'd', 's'] = some kids ∧
        walkKids (walkNumberTree fuel ctx) ctx kids es = some (r, some e) := by
  constructor
  · intro h
    rcases numsPass_or_error ctx node entries with ⟨es, hp⟩ | ⟨nums, r1, e1, hn, hw⟩
    · rw [walkNumberTree_of_numsPass fuel ctx node entries es hp] at h
      cases hk : ArrayEntry node ['K', 'i', 'd', 's'] with
      | none => rw [hk] at h; cases h
      | some kids =>
        rw [hk] at h
        exact Or.inr ⟨es, kids, hp, rfl, h⟩
    · rw [walkNumberTree_of_nums_error fuel ctx node entries r1 e1 nums hn hw] at h
      simp only [Option.some.injEq, Prod.mk.injEq] at h
      rw [h.1, h.2] at hw
      exact Or.inl ⟨nums, hn, hw⟩
  · rintro (⟨nums, hn, hw⟩ | ⟨es, kids, hp, hk, hw⟩)
    · exact walkNumberTree_of_nums_error fuel ctx node entries r e nums hn hw
    · rw [walkNumberTree_of_numsPass fuel ctx node entries es hp, hk]
      exact hw

theorem extractLabelEntries_eq (sortSlice : List pageLabelEntry → List pageLabelEntry)
    (fuel : Nat) (ctx : Context) (rootDict : Dict) (obj : Obj)
    (hr : ctx.RootDict = some rootDict)
    (hl : rootDict.lookup ['P', 'a', 'g', 'e', 'L', 'a', 'b', 'e', 'l', 's'] = some obj) :
    extractLabelEntries sortSlice fuel ctx =
      match Dereference ctx obj with
      | .error e => some (.error (.dereference e))
      | .ok .null => some (.ok [])
      | .ok (.dict dict) =>
        match walkNumberTree fuel ctx dict [] with
        | none => none
        | some (_, some err) => some (.error err)
        | some (entries, none) => some (.ok (sortSlice entries))
      | .ok _ => some (.error .pageLabelsNotDict) := by
  unfold extractLabelEntries
  rw [hr]
  simp only
  rw [hl]

theorem extractLabelEntries_error_iff (sortSlice : List pageLabelEntry → List pageLabelEntry)
    (fuel : Nat) (ctx : Context) (e : LabelError) :
    extractLabelEntries sortSlice fuel ctx = some (.error e) ↔
      ∃ rootDict obj, ctx.RootDict = some rootDict ∧
        rootDict.lookup ['P', 'a', 'g', 'e', 'L', 'a', 'b', 'e', 'l', 's'] = some obj ∧
        ((∃ msg, Dereference ctx obj = .error msg ∧ e = .dereference msg) ∨
          (∃ o, Dereference ctx obj = .ok o ∧ o ≠ .null ∧ (∀ dict, o ≠ .dict dict) ∧
            e = .pageLabelsNotDict) ∨
          ∃ dict r, Dereference ctx obj = .ok (.dict dict) ∧
            walkNumberTree fuel ctx dict [] = some (r, some e)) := by
  constructor
  · intro h
    cases hr : ctx.RootDict with
    | none =>
      unfold extractLabelEntries at h
      rw [hr] at h
      cases h
    | some rootDict =>
      cases hl : rootDict.lookup ['P', 'a', 'g', 'e', 'L', 'a', 'b', 'e', 'l', 's'] with
      | none =>
        unfold extractLabelEntries at h
        rw [hr] at h
        simp only at h
        rw [hl] at h
        cases h
      | some obj =>
        refine ⟨rootDict, obj, rfl, hl, ?_⟩
        rw [extractLabelEntries_eq sortSlice fuel ctx rootDict obj hr hl] at h
        cases hd : Dereference ctx obj with
        | error msg =>
          rw [hd] at h
          simp only [Option.some.injEq, Except.error.injEq] at h
          exact Or.inl ⟨msg, rfl, h.symm⟩
        | ok o =>
          rw [hd] at h
          have hnd : ∀ o1 : Obj, o1 ≠ .null → (∀ dict, o1 ≠ .dict dict) →
              some (Except.error LabelError.pageLabelsNotDict :
                Except LabelError (List pageLabelEntry)) = some (.error e) →
              (∃ msg, (Except.ok o1 : Except Str Obj) = .error msg ∧ e = .dereference msg) ∨
              (∃ o2, (Except.ok o1 : Except Str Obj) = .ok o2 ∧ o2 ≠ .null ∧
                (∀ dict, o2 ≠ .dict dict) ∧ e = .pageLabelsNotDict) ∨
              ∃ dict r, (Except.ok o1 : Except Str Obj) = .ok (.dict dict) ∧
                walkNumberTree fuel ctx dict [] = some (r, some e) := by
            intro o1 h1 h2 h3
            simp only [Option.some.injEq, Except.error.injEq] at h3
            exact Or.inr (Or.inl ⟨o1, rfl, h1, h2, h3.symm⟩)
          cases o with
          | null => cases h
          | dict dict =>
            simp only at h
            cases hw : walkNumberTree fuel ctx dict [] with
            | none => rw [hw] at h; cases h
            | some res =>
              obtain ⟨r, err⟩ := res
              rw [hw] at h
              cases err with
              | none => cases h
              | some e1 =>
                simp only [Option.some.injEq, Except.error.injEq] at h
                subst h
                exact Or.inr (Or.inr ⟨dict, r, rfl, hw⟩)
          | integer n => exact hnd _ (fun hh => by cases hh) (fun _ hh => by cases hh) h
          | name s => exact hnd _ (fun hh => by cases hh) (fun _ hh => by cases hh) h
          | stringLiteral s => exact hnd _ (fun hh => by cases hh) (fun _ hh => by cases hh) h
          | array a => exact hnd _ (fun hh => by cases hh) (fun _ hh => by cases hh) h
          | indirectRef n => exact hnd _ (fun hh => by cases hh) (fun _ hh => by cases hh) h
          | other => exact hnd _ (fun hh => by cases hh) (fun _ hh => by cases hh) h
  · rintro ⟨rootDict, obj, hr, hl, h⟩
    rw [extractLabelEntries_eq sortSlice fuel ctx rootDict obj hr hl]
    rcases h with ⟨msg, hd, rfl⟩ | ⟨o, hd, hnull, hdict, rfl⟩ | ⟨dict, r, hd, hw⟩
    · rw [hd]
    · rw [hd]
      cases o with
      | null => exact absurd rfl hnull
      | dict dict => exact absurd rfl (hdict dict)
      | _ => rfl
    · rw [hd]
      simp only
      rw [hw]

theorem stableSortSlice_sorts : SortsByStartIndex stableSortSlice := by
  intro l
  refine ⟨List.perm_insertionSort _ _, ?_⟩
  have : IsTotal pageLabelEntry fun a b => a.startIndex ≤ b.startIndex :=
    ⟨fun a b => le_total a.startIndex b.startIndex⟩
  have : IsTrans pageLabelEntry fun a b => a.startIndex ≤ b.startIndex :=
    ⟨fun a b c hab hbc => le_trans hab hbc⟩
  exact List.sorted_insertionSort _ l

theorem extractLabelEntries_sorted (sortSlice : List pageLabelEntry → List pageLabelEntry)
    (hsort : SortsByStartIndex sortSlice) (fuel : Nat) (ctx : Context)
    (entries : List pageLabelEntry)
    (h : extractLabelEntries sortSlice fuel ctx = some (.ok entries)) :
    entries.Pairwise fun a b => a.startIndex ≤ b.startIndex := by
  unfold extractLabelEntries at h
  split at h
  · injection h with h; injection h with h; subst h; exact List.Pairwise.nil
  · split at h
    · injection h with h; injection h with h; subst h; exact List.Pairwise.nil
    · split at h
      · cases h
      · injection h with h; injection h with h; subst h; exact List.Pairwise.nil
      · split at h
        · cases h
        · cases h
        · injection h with h; injection h with h; subst h; exact (hsort _).2
      · cases h

/-- C16 as stated fails: a `PageLabels` value of unexpected shape (an integer)
makes `extractLabelEntries` return the error "PageLabels is not a dict", and a
key that cannot be dereferenced makes it return that error, although the pair
before it is well formed: no entry is returned; and a pair whose value is not
a dict is not skipped, it gives an entry. -/
theorem extractLabelEntries_returns_error :
    (∀ sortSlice fuel,
      extractLabelEntries sortSlice fuel integerLabelsCtx = some (.error .pageLabelsNotDict)) ∧
    (∀ sortSlice fuel, extractLabelEntries sortSlice (fuel + 1) danglingKeyCtx =
      some (.error (.dereference "object 7 cannot be decoded".toList))) ∧
    walkNums integerLabelsCtx [.integer 3, .name ['x']] [] =
      ([{ startIndex := 3, style := [], pfx := [], startValue := 1 }], none) := by
  refine ⟨?_, ?_, rfl⟩
  · intro sortSlice fuel; rfl
  · intro sortSlice fuel; rfl

/-- C16, amended.  (1) `extractLabelEntries` returns an error exactly when
`PageLabels` is present and its value cannot be dereferenced (that error), or
resolves to an object that is neither null nor a dict ("PageLabels is not a
dict"), or resolves to a dict whose traversal returns an error (that error).
(2) The traversal of a node returns an error exactly when the loop over its
`Nums` does, or that loop passes without error and the loop over its `Kids`
does.  (3) The loop over `Nums` returns an error exactly at the first pair
whose key cannot be dereferenced, or whose key is an integer and whose value
cannot be dereferenced (`PairFails`), the pairs before it having passed
without error.  (4) The loop over `Kids` returns an error exactly at the
first child that cannot be dereferenced or that is a dict whose traversal
returns an error, the children before it having passed without error.
(5) Every error returned is "PageLabels is not a dict" or the error of an
indirect reference that could not be resolved.  (6) A pair of `Nums` whose key
is not an integer and (7) an element of `Kids` that is not a dict are skipped:
the traversal goes on as if they were not there.  (8) A value that is not a
dict gives the entry with the default style, prefix and start value 1. -/
theorem extractLabelEntries_error_cases :
    (∀ (sortSlice : List pageLabelEntry → List pageLabelEntry) (fuel : Nat) (ctx : Context)
        (e : LabelError),
      extractLabelEntries sortSlice fuel ctx = some (.error e) ↔
        ∃ rootDict obj, ctx.RootDict = some rootDict ∧
          rootDict.lookup ['P', 'a', 'g', 'e', 'L', 'a', 'b', 'e', 'l', 's'] = some obj ∧
          ((∃ msg, Dereference ctx obj = .error msg ∧ e = .dereference msg) ∨
            (∃ o, Dereference ctx obj = .ok o ∧ o ≠ .null ∧ (∀ dict, o ≠ .dict dict) ∧
              e = .pageLabelsNotDict) ∨
            ∃ dict r, Dereference ctx obj = .ok (.dict dict) ∧
              walkNumberTree fuel ctx dict [] = some (r, some e))) ∧
    (∀ (fuel : Nat) (ctx : Context) (node : Dict) (entries r : List pageLabelEntry)
        (e : LabelError),
      walkNumberTree (fuel + 1) ctx node entries = some (r, some e) ↔
        (∃ nums, ArrayEntry node ['N', 'u', 'm', 's'] = some nums ∧
          walkNums ctx nums entries = (r, some e)) ∨
        ∃ es kids, NumsPass ctx node entries es ∧
          ArrayEntry node ['K', 'i', 'd', 's'] = some kids ∧
          walkKids (walkNumberTree fuel ctx) ctx kids es = some (r, some e)) ∧
    (∀ (ctx : Context) (nums : List Obj) (entries r : List pageLabelEntry) (e : LabelError),
      walkNums ctx nums entries = (r, some e) ↔
        ∃ before k v post msg, nums = before ++ k :: v :: post ∧ before.length % 2 = 0 ∧
          walkNums ctx before entries = (r, none) ∧ PairFails ctx k v msg ∧
          e = .dereference msg) ∧
    (∀ (fuel : Nat) (ctx : Context) (kids : List Obj) (entries r : List pageLabelEntry)
        (e : LabelError),
      walkKids (walkNumberTree fuel ctx) ctx kids entries = some (r, some e) ↔
        ∃ before kid post es, kids = before ++ kid :: post ∧
          walkKids (walkNumberTree fuel ctx) ctx before entries = some (es, none) ∧
          ((∃ msg, Dereference ctx kid = .error msg ∧ e = .dereference msg ∧ r = es) ∨
            ∃ kidDict, Dereference ctx kid = .ok (.dict kidDict) ∧
              walkNumberTree fuel ctx kidDict es = some (r, some e))) ∧
    (∀ (sortSlice : List pageLabelEntry → List pageLabelEntry) (fuel : Nat) (ctx : Context)
        (e : LabelError),
      extractLabelEntries sortSlice fuel ctx = some (.error e) →
        e = .pageLabelsNotDict ∨ FromResolve ctx e) ∧
    (∀ (ctx : Context) (before : List Obj) (k v : Obj) (post : List Obj)
        (entries : List pageLabelEntry) (keyObj : Obj),
      before.length % 2 = 0 → Dereference ctx k = .ok keyObj → (∀ n, keyObj ≠ .integer n) →
        walkNums ctx (before ++ k :: v :: post) entries =
          walkNums ctx (before ++ post) entries) ∧
    (∀ (fuel : Nat) (ctx : Context) (before : List Obj) (kid : Obj) (post : List Obj)
        (entries : List pageLabelEntry) (o : Obj),
      Dereference ctx kid = .ok o → (∀ d, o ≠ .dict d) →
        walkKids (walkNumberTree fuel ctx) ctx (before ++ kid :: post) entries =
          walkKids (walkNumberTree fuel ctx) ctx (before ++ post) entries) ∧
    (∀ (key : Int) (valObj : Obj), (∀ d, valObj ≠ .dict d) →
      entryOf key valObj = { startIndex := key, style := [], pfx := [], startValue := 1 }) := by
  refine ⟨extractLabelEntries_error_iff, walkNumberTree_error_iff, walkNums_error_iff,
    fun fuel ctx => walkKids_error_iff (walkNumberTree fuel ctx) ctx, ?_, ?_, ?_, ?_⟩
  · intro sortSlice fuel ctx e h
    obtain ⟨rootDict, obj, _, _, h⟩ := (extractLabelEntries_error_iff sortSlice fuel ctx e).1 h
    rcases h with ⟨msg, hd, rfl⟩ | ⟨o, _, _, _, rfl⟩ | ⟨dict, r, _, hw⟩
    · exact Or.inr (Dereference_error ctx _ msg hd)
    · exact Or.inl rfl
    · exact Or.inr (walkNumberTree_err ctx fuel _ _ _ _ hw)
  · intro ctx before k v post entries keyObj hlen hk hni
    exact walkNums_skip_pair ctx k v post keyObj hk hni (before.length / 2) before entries
      (by omega)
  · intro fuel ctx before kid post entries o hk hnd
    exact walkKids_skip_kid _ ctx kid post o hk hnd before entries
  · intro key valObj hnd
    cases valObj with
    | dict d => exact absurd rfl (hnd d)
    | _ => rfl

/-- C16, amended, at concrete inputs: in the number tree of `danglingKeyCtx` the
loop over `Nums` returns the error of the second pair, whose key cannot be
dereferenced, after the first pair has given its entry; in the number tree
of `treeCtx` a pair with a name as key, put before the pair of the first
leaf, changes nothing; and the extraction from `treeCtx` returns the two
entries of the leaves. -/
theorem extractLabelEntries_error_cases_witness :
    walkNums danglingKeyCtx
        [.integer 0, .dict [(['S'], .name ['r'])], .indirectRef 7, .null] [] =
      ([⟨0, ['r'], [], 1⟩], some (.dereference "object 7 cannot be decoded".toList)) ∧
    Dereference treeCtx (.name ['x']) = .ok (.name ['x']) ∧
      walkNums treeCtx
          ([] ++ .name ['x'] :: .null :: [.integer 0, .dict [(['S'], .name ['r'])]]) [] =
        walkNums treeCtx ([] ++ [.integer 0, .dict [(['S'], .name ['r'])]]) [] ∧
      extractLabelEntries stableSortSlice 2 treeCtx =
        some (.ok [⟨0, ['r'], [], 1⟩, ⟨4, ['D'], ['A', '-'], 1⟩]) :=
  ⟨(extractLabelEntries_error_cases.2.2.1 danglingKeyCtx _ [] _ _).2
      ⟨[.integer 0, .dict [(['S'], .name ['r'])]], .indirectRef 7, .null, [], _, rfl, rfl, rfl,
        Or.inl rfl, rfl⟩,
    rfl,
    extractLabelEntries_error_cases.2.2.2.2.2.1 treeCtx [] (.name ['x']) .null _ []
      (.name ['x']) rfl rfl (fun n h => by cases h),
    by decide⟩

/-! ## Theorems: extraction commands -/

theorem splitAllLoop_calls {ι σ : Type} (ops : FileOps σ) (d : Deps ι)
    (filename baseName outDir : Str) (count : Int) :
    ∀ (segs : List segment) (w : σ) (calls : List (CollectCall × Option Str)),
      (splitAllLoop ops d filename baseName outDir count segs w calls).calls =
          calls ++ (splitAllLoop ops d filename baseName outDir count segs w []).calls ∧
        (splitAllLoop ops d filename baseName outDir count segs w calls).msg =
          (splitAllLoop ops d filename baseName outDir count segs w []).msg := by
  intro segs
  induction segs with
  | nil => intro w calls; simp [splitAllLoop]
  | cons seg segs ih =>
    intro w calls
    unfold splitAllLoop
    simp only
    cases h : ops.CollectFile w (collectCallOf d filename baseName outDir seg) with
    | mk w1 err =>
      cases err with
      | some e => simp
      | none =>
        simp only
        rw [(ih w1 (calls ++ [_])).1, (ih w1 (calls ++ [_])).2, (ih w1 ([] ++ [_])).1,
          (ih w1 ([] ++ [_])).2]
        simp

theorem splitAllLoop_outcome {ι σ : Type} (ops : FileOps σ) (d : Deps ι)
    (filename baseName outDir : Str) (count : Int) :
    ∀ (segs : List segment) (w : σ),
      SplitAllOutcome (splitAllLoop ops d filename baseName outDir count segs w []).calls
        (segs.map (collectCallOf d filename baseName outDir)) (count + len segs - len segs)
        (splitAllLoop ops d filename baseName outDir count segs w []).msg := by
  intro segs
  induction segs with
  | nil =>
    intro w
    refine ⟨rfl, by simp [splitAllLoop], Or.inl ⟨by simp [splitAllLoop], rfl, by simp [splitAllLoop]⟩⟩
  | cons seg segs ih =>
    intro w
    have hc : count + len (seg :: segs) - len (seg :: segs) = count := by omega
    have hc2 : count + len segs - len segs = count := by omega
    rw [hc]
    unfold splitAllLoop
    simp only
    cases h : ops.CollectFile w (collectCallOf d filename baseName outDir seg) with
    | mk w1 err =>
      cases err with
      | some e =>
        refine ⟨by simp, by simp, Or.inr ⟨e, rfl, by simp⟩⟩
      | none =>
        simp only
        obtain ⟨h1, h2, h3⟩ := ih w1
        rw [hc2] at h3
        rw [(splitAllLoop_calls ops d filename baseName outDir count segs w1 _).1,
          (splitAllLoop_calls ops d filename baseName outDir count segs w1 _).2]
        generalize (splitAllLoop ops d filename baseName outDir count segs w1 []).calls = new
          at h1 h2 h3
        generalize (splitAllLoop ops d filename baseName outDir count segs w1 []).msg = msg
          at h3
        refine ⟨?_, ?_, ?_⟩
        · simp [h1]
        · intro c hcm
          cases new with
          | nil => simp at hcm
          | cons x xs =>
            simp only [List.nil_append, List.singleton_append, List.dropLast_cons₂,
              List.mem_cons] at hcm
            rcases hcm with rfl | hcm
            · rfl
            · exact h2 c hcm
        · rcases h3 with ⟨hm, hl, hall⟩ | ⟨e, hm, hlast⟩
          · refine Or.inl ⟨hm, by simp [hl], ?_⟩
            intro c hcm
            simp only [List.nil_append, List.singleton_append, List.mem_cons] at hcm
            rcases hcm with rfl | hcm
            · rfl
            · exact hall c hcm
          · refine Or.inr ⟨e, hm, ?_⟩
            cases new with
            | nil => simp at hlast
            | cons x xs =>
              simpa [List.getLast?_cons_cons] using hlast

theorem Update_splitDone {ι : Type} (d : Deps ι) (m : appModel ι) (count : Int)
    (err : Option Str) :
    ∃ m1, Update d m (.splitDone count err) = some (m1, .quit) ∧ m1.splitting = false := by
  cases err with
  | none => exact ⟨_, rfl, rfl⟩
  | some e => exact ⟨_, rfl, rfl⟩

theorem pageSelection_denotes (seg : segment) :
    (pageSelection seg).map decimalInt? = (intRange seg.start seg.stop).map some := by
  simp [pageSelection, List.map_map, Function.comp_def, decimalInt?_fmtD]

theorem splitAllLoop_world {ι σ : Type} (ops : FileOps σ) (d : Deps ι)
    (filename baseName outDir : Str) (count : Int) :
    ∀ (segs : List segment) (w : σ) (calls : List (CollectCall × Option Str)),
      (splitAllLoop ops d filename baseName outDir count segs w calls).world =
        (splitAllLoop ops d filename baseName outDir count segs w []).world := by
  intro segs
  induction segs with
  | nil => intro w calls; rfl
  | cons seg segs ih =>
    intro w calls
    unfold splitAllLoop
    simp only
    cases h : ops.CollectFile w (collectCallOf d filename baseName outDir seg) with
    | mk w1 err =>
      cases err with
      | some e => rfl
      | none =>
        simp only
        rw [ih w1 (calls ++ [_]), ih w1 ([] ++ [_])]

theorem splitAllLoop_worldAfterCalls {ι σ : Type} (ops : FileOps σ) (d : Deps ι)
    (filename baseName outDir : Str) (count : Int) :
    ∀ (segs : List segment) (w : σ),
      worldAfterCalls ops w (splitAllLoop ops d filename baseName outDir count segs w []).calls =
        some (splitAllLoop ops d filename baseName outDir count segs w []).world := by
  intro segs
  induction segs with
  | nil => intro w; rfl
  | cons seg segs ih =>
    intro w
    unfold splitAllLoop
    simp only
    cases h : ops.CollectFile w (collectCallOf d filename baseName outDir seg) with
    | mk w1 err =>
      cases err with
      | some e =>
        simp only [List.nil_append, worldAfterCalls, h, if_true]
      | none =>
        simp only
        rw [(splitAllLoop_calls ops d filename baseName outDir count segs w1 _).1,
          splitAllLoop_world ops d filename baseName outDir count segs w1 _]
        simp only [List.nil_append, List.singleton_append, worldAfterCalls, h, if_true]
        exact ih w1

theorem runSplitAll_mkdir_fails {ι σ : Type} (ops : FileOps σ) (d : Deps ι)
    (filename baseName outDir : Str) (segs : List segment) (w : σ) (err : Str)
    (ho : outDir ≠ []) (hm : (ops.MkdirAll w outDir).2 = some err) :
    (runSplitAll ops d filename baseName outDir segs w).calls = [] ∧
      (runSplitAll ops d filename baseName outDir segs w).msg = .splitDone 0 (some err) ∧
      (runSplitAll ops d filename baseName outDir segs w).world = (ops.MkdirAll w outDir).1 := by
  unfold runSplitAll
  rw [if_pos ho]
  cases hmk : ops.MkdirAll w outDir with
  | mk w1 e =>
    rw [hmk] at hm
    simp only at hm
    subst hm
    exact ⟨rfl, rfl, rfl⟩

theorem runSplitAll_loop {ι σ : Type} (ops : FileOps σ) (d : Deps ι)
    (filename baseName outDir : Str) (segs : List segment) (w : σ)
    (hdir : outDir = [] ∨ (ops.MkdirAll w outDir).2 = none) :
    runSplitAll ops d filename baseName outDir segs w =
      splitAllLoop ops d filename baseName outDir (len segs) segs
        (if outDir = [] then w else (ops.MkdirAll w outDir).1) [] := by
  unfold runSplitAll
  by_cases ho : outDir = []
  · simp only [ho, ne_eq, not_true_eq_false, if_false, if_true]
  · rcases hdir with hd | hd
    · exact absurd hd ho
    · simp only [ne_eq, ho, not_false_eq_true, if_true, if_false]
      cases hm : ops.MkdirAll w outDir with
      | mk w1 err =>
        rw [hm] at hd
        simp only at hd
        subst hd
        rfl

theorem runSplitAll_dir_ok {ι σ : Type} (ops : FileOps σ) (d : Deps ι)
    (filename baseName outDir : Str) (segs : List segment) (w : σ)
    (hdir : outDir = [] ∨ (ops.MkdirAll w outDir).2 = none) :
    SplitAllOutcome (runSplitAll ops d filename baseName outDir segs w).calls
        (segs.map (collectCallOf d filename baseName outDir)) (len segs)
        (runSplitAll ops d filename baseName outDir segs w).msg := by
  rw [runSplitAll_loop ops d filename baseName outDir segs w hdir]
  have h := splitAllLoop_outcome ops d filename baseName outDir (len segs) segs
    (if outDir = [] then w else (ops.MkdirAll w outDir).1)
  have hc : len segs + len segs - len segs = len segs := by omega
  rwa [hc] at h

theorem runSplitAll_msg {ι σ : Type} (ops : FileOps σ) (d : Deps ι)
    (filename baseName outDir : Str) (segs : List segment) (w : σ) :
    ∃ count err, (runSplitAll ops d filename baseName outDir segs w).msg =
      .splitDone count err := by
  by_cases hdir : outDir = [] ∨ (ops.MkdirAll w outDir).2 = none
  · rcases (runSplitAll_dir_ok ops d filename baseName outDir segs w hdir).2.2 with
      ⟨hm, _, _⟩ | ⟨e, hm, _⟩
    · exact ⟨_, _, hm⟩
    · exact ⟨_, _, hm⟩
  · rw [not_or] at hdir
    cases hm : (ops.MkdirAll w outDir).2 with
    | none => exact absurd hm hdir.2
    | some err =>
      exact ⟨_, _, (runSplitAll_mkdir_fails ops d filename baseName outDir segs w err
        hdir.1 hm).2.1⟩

/-- Claim C20 does not hold as stated: with a non-empty output directory that
cannot be created, extract-all makes no collect call for either of the two
segments and delivers an error instead of the success count 2, although the
collect operation would succeed on every call. -/
theorem runSplitAll_mkdir_failure :
    (runSplitAll readOnlyOps plainDeps "a.pdf".toList "a".toList "out".toList
        [⟨1, 2⟩, ⟨3, 5⟩] 0).calls = [] ∧
      (runSplitAll readOnlyOps plainDeps "a.pdf".toList "a".toList "out".toList
        [⟨1, 2⟩, ⟨3, 5⟩] 0).msg = .splitDone 0 (some "permission denied".toList) ∧
      ∀ w call, (readOnlyOps.CollectFile w call).2 = none := by
  refine ⟨by decide, by decide, ?_⟩
  intro w call
  rfl

/-- Claim C20, amended.  For every list of segments, every world and every
behaviour of its operations: (1) when the output directory is empty or can be
created, extract-all calls collect once per segment in segment order, stops
at the first call that fails and delivers that error, and otherwise delivers
a success count equal to the number of segments, and the calls recorded are
calls of the document service, made one after the other with the results the
service gave; (2) when the output directory is not empty and cannot be
created, it makes no collect call and delivers the error of the directory;
(3) the page selection of a call is start, start+1, ..., end in decimal;
(4) in every case the completion event delivered clears Busy and ends the
session; (5) the segments are those of the navigator state, |splitPoints|+1
of them. -/
theorem runSplitAll_outcome {ι σ : Type} (ops : FileOps σ) (d : Deps ι)
    (filename baseName outDir : Str) (segs : List segment) (w : σ) :
    ((outDir = [] ∨ (ops.MkdirAll w outDir).2 = none) →
      SplitAllOutcome (runSplitAll ops d filename baseName outDir segs w).calls
          (segs.map (collectCallOf d filename baseName outDir)) (len segs)
          (runSplitAll ops d filename baseName outDir segs w).msg ∧
        worldAfterCalls ops (if outDir = [] then w else (ops.MkdirAll w outDir).1)
            (runSplitAll ops d filename baseName outDir segs w).calls =
          some (runSplitAll ops d filename baseName outDir segs w).world) ∧
      (∀ err, outDir ≠ [] → (ops.MkdirAll w outDir).2 = some err →
        (runSplitAll ops d filename baseName outDir segs w).calls = [] ∧
          (runSplitAll ops d filename baseName outDir segs w).msg =
            .splitDone 0 (some err) ∧
          (runSplitAll ops d filename baseName outDir segs w).world =
            (ops.MkdirAll w outDir).1) ∧
      (∀ seg, (collectCallOf d filename baseName outDir seg).sel.map decimalInt? =
        (intRange seg.start seg.stop).map some) ∧
      (∀ m : appModel ι, ∃ m1,
        Update d m (runSplitAll ops d filename baseName outDir segs w).msg = some (m1, .quit) ∧
          m1.splitting = false) ∧
      ∀ m : appModel ι, executeSplitAll m =
          .splitAll m.filename m.baseName m.outDir (buildSegments m) ∧
        len (buildSegments m) = len m.splitPoints + 1 := by
  refine ⟨fun hdir => ⟨runSplitAll_dir_ok ops d filename baseName outDir segs w hdir, ?_⟩,
    fun err ho hm => runSplitAll_mkdir_fails ops d filename baseName outDir segs w err ho hm,
    fun seg => pageSelection_denotes seg, ?_, ?_⟩
  · rw [runSplitAll_loop ops d filename baseName outDir segs w hdir]
    exact splitAllLoop_worldAfterCalls ops d filename baseName outDir _ segs _
  · intro m
    obtain ⟨count, err, hm⟩ := runSplitAll_msg ops d filename baseName outDir segs w
    rw [hm]
    exact Update_splitDone d m count err
  · intro m
    refine ⟨rfl, ?_⟩
    rw [buildSegments_eq]
    simp [len, segmentsFrom_length, (sortedSplits_perm m).length_eq]

/-- Witness for C20: a collect operation that fails on its second call, three
segments, output directory `out`: two calls are made, the second fails, and
the completion event ends the session; and a directory that cannot be
created. -/
theorem runSplitAll_outcome_witness :
    ("out".toList = [] ∨ (secondFailsOps.MkdirAll 0 "out".toList).2 = none) ∧
      (runSplitAll secondFailsOps plainDeps "a.pdf".toList "a".toList "out".toList
        [⟨1, 2⟩, ⟨3, 5⟩, ⟨6, 6⟩] 0).calls.map Prod.snd = [none, some "disk full".toList] ∧
      SplitAllOutcome
        (runSplitAll secondFailsOps plainDeps "a.pdf".toList "a".toList "out".toList
          [⟨1, 2⟩, ⟨3, 5⟩, ⟨6, 6⟩] 0).calls
        (([⟨1, 2⟩, ⟨3, 5⟩, ⟨6, 6⟩] : List segment).map
          (collectCallOf plainDeps "a.pdf".toList "a".toList "out".toList)) 3
        (runSplitAll secondFailsOps plainDeps "a.pdf".toList "a".toList "out".toList
          [⟨1, 2⟩, ⟨3, 5⟩, ⟨6, 6⟩] 0).msg ∧
      ("out".toList ≠ [] ∧
        (readOnlyOps.MkdirAll 0 "out".toList).2 = some "permission denied".toList) ∧
      (runSplitAll readOnlyOps plainDeps "a.pdf".toList "a".toList "out".toList
          [⟨1, 2⟩, ⟨3, 5⟩] 0).calls = [] ∧
      (runSplitAll readOnlyOps plainDeps "a.pdf".toList "a".toList "out".toList
          [⟨1, 2⟩, ⟨3, 5⟩] 0).msg = .splitDone 0 (some "permission denied".toList) :=
  ⟨Or.inr rfl, by decide,
    ((runSplitAll_outcome secondFailsOps plainDeps "a.pdf".toList "a".toList "out".toList
      [⟨1, 2⟩, ⟨3, 5⟩, ⟨6, 6⟩] 0).1 (Or.inr rfl)).1,
    ⟨by decide, rfl⟩,
    ((runSplitAll_outcome readOnlyOps plainDeps "a.pdf".toList "a".toList "out".toList
      [⟨1, 2⟩, ⟨3, 5⟩] 0).2.1 _ (by decide) rfl).1,
    ((runSplitAll_outcome readOnlyOps plainDeps "a.pdf".toList "a".toList "out".toList
      [⟨1, 2⟩, ⟨3, 5⟩] 0).2.1 _ (by decide) rfl).2.1⟩

/-! ## Theorems: search scores -/

theorem roundHalfEven_intCast (n : Int) : roundHalfEven (n : ℚ) = n := by
  simp [roundHalfEven]

theorem roundHalfEven_floor_le (x : ℚ) : ⌊x⌋ ≤ roundHalfEven x := by
  unfold roundHalfEven
  simp only
  split_ifs <;> omega

theorem roundHalfEven_le_floor_succ (x : ℚ) : roundHalfEven x ≤ ⌊x⌋ + 1 := by
  unfold roundHalfEven
  simp only
  split_ifs <;> omega

theorem roundHalfEven_mono {x y : ℚ} (h : x ≤ y) : roundHalfEven x ≤ roundHalfEven y := by
  have hf : ⌊x⌋ ≤ ⌊y⌋ := Int.floor_mono h
  rcases lt_or_eq_of_le hf with hlt | heq
  · calc roundHalfEven x ≤ ⌊x⌋ + 1 := roundHalfEven_le_floor_succ x
      _ ≤ ⌊y⌋ := hlt
      _ ≤ roundHalfEven y := roundHalfEven_floor_le y
  · have hxy : x - ⌊x⌋ ≤ y - ⌊y⌋ := by rw [heq]; linarith
    unfold roundHalfEven
    simp only
    rw [heq] at hxy ⊢
    split_ifs <;> first | omega | linarith

theorem roundFloat64_pos_bounds {x : ℚ} (hx : 0 < x) :
    (2 : ℚ) ^ Int.log 2 x ≤ roundFloat64 x ∧ roundFloat64 x ≤ (2 : ℚ) ^ (Int.log 2 x + 1) := by
  have hlo : ((2 : ℕ) : ℚ) ^ Int.log 2 x ≤ x := Int.zpow_log_le_self (by norm_num) hx
  have hhi : x < ((2 : ℕ) : ℚ) ^ (Int.log 2 x + 1) := Int.lt_zpow_succ_log_self (by norm_num) x
  simp only [Nat.cast_ofNat] at hlo hhi
  have hu : (0 : ℚ) < 2 ^ (Int.log 2 x - 52) := by positivity
  unfold roundFloat64
  rw [if_neg hx.ne', abs_of_pos hx]
  simp only
  have e1 : (2 : ℚ) ^ Int.log 2 x = ((2 ^ 52 : Int) : ℚ) * 2 ^ (Int.log 2 x - 52) := by
    rw [zpow_sub₀ (by norm_num)]
    push_cast
    field_simp
    norm_num
    ring
  have e2 : (2 : ℚ) ^ (Int.log 2 x + 1) = ((2 ^ 53 : Int) : ℚ) * 2 ^ (Int.log 2 x - 52) := by
    rw [zpow_sub₀ (by norm_num), zpow_add₀ (by norm_num)]
    push_cast
    field_simp
    ring
  constructor
  · rw [e1]
    apply mul_le_mul_of_nonneg_right _ hu.le
    have : ((2 ^ 52 : Int) : ℚ) ≤ x / 2 ^ (Int.log 2 x - 52) := by
      rw [le_div_iff₀ hu, ← e1]; exact hlo
    have h2 := roundHalfEven_mono this
    rw [roundHalfEven_intCast] at h2
    exact_mod_cast h2
  · rw [e2]
    apply mul_le_mul_of_nonneg_right _ hu.le
    have : x / 2 ^ (Int.log 2 x - 52) ≤ ((2 ^ 53 : Int) : ℚ) := by
      rw [div_le_iff₀ hu, ← e2]; exact hhi.le
    have h2 := roundHalfEven_mono this
    rw [roundHalfEven_intCast] at h2
    exact_mod_cast h2

theorem roundFloat64_pos {x : ℚ} (hx : 0 < x) : 0 < roundFloat64 x :=
  lt_of_lt_of_le (by positivity) (roundFloat64_pos_bounds hx).1

theorem roundFloat64_mono_pos {x y : ℚ} (hx : 0 < x) (h : x ≤ y) :
    roundFloat64 x ≤ roundFloat64 y := by
  have hy : 0 < y := lt_of_lt_of_le hx h
  have hl : Int.log 2 x ≤ Int.log 2 y := Int.log_mono_right hx h
  rcases lt_or_eq_of_le hl with hlt | heq
  · calc roundFloat64 x ≤ (2 : ℚ) ^ (Int.log 2 x + 1) := (roundFloat64_pos_bounds hx).2
      _ ≤ (2 : ℚ) ^ Int.log 2 y := zpow_le_zpow_right₀ (by norm_num) (by omega)
      _ ≤ roundFloat64 y := (roundFloat64_pos_bounds hy).1
  · have hu : (0 : ℚ) < 2 ^ (Int.log 2 y - 52) := by positivity
    unfold roundFloat64
    rw [if_neg hx.ne', if_neg hy.ne', abs_of_pos hx, abs_of_pos hy, heq]
    simp only
    apply mul_le_mul_of_nonneg_right _ hu.le
    exact_mod_cast roundHalfEven_mono (div_le_div_of_nonneg_right h hu.le)

/-- A value with a significand of at most 53 bits is a `float64`. -/
theorem roundFloat64_exact (m : Int) (k : Int) (hm : |m| ≤ 2 ^ 53) :
    roundFloat64 ((m : ℚ) * 2 ^ k) = (m : ℚ) * 2 ^ k := by
  by_cases h0 : m = 0
  · simp [roundFloat64, h0]
  have hk : (0 : ℚ) < 2 ^ k := by positivity
  have hx0 : (m : ℚ) * 2 ^ k ≠ 0 := mul_ne_zero (by exact_mod_cast h0) hk.ne'
  have habs : |(m : ℚ) * 2 ^ k| = ((|m| : Int) : ℚ) * 2 ^ k := by
    rw [abs_mul, abs_of_pos hk]; push_cast; rfl
  have hpos : (0 : ℚ) < ((|m| : Int) : ℚ) * 2 ^ k := by
    apply mul_pos _ hk
    exact_mod_cast abs_pos.2 h0
  have hlo : ((2 : ℕ) : ℚ) ^ Int.log 2 (((|m| : Int) : ℚ) * 2 ^ k) ≤ ((|m| : Int) : ℚ) * 2 ^ k :=
    Int.zpow_log_le_self (by norm_num) hpos
  simp only [Nat.cast_ofNat] at hlo
  have hle : ((|m| : Int) : ℚ) * 2 ^ k ≤ 2 ^ (53 + k) := by
    rw [zpow_add₀ (by norm_num)]
    apply mul_le_mul_of_nonneg_right _ hk.le
    exact_mod_cast hm
  have he : Int.log 2 (((|m| : Int) : ℚ) * 2 ^ k) ≤ 53 + k := by
    have := le_trans hlo hle
    exact (zpow_le_zpow_iff_right₀ (by norm_num)).1 this
  unfold roundFloat64
  rw [if_neg hx0, habs]
  simp only
  generalize Int.log 2 (((|m| : Int) : ℚ) * 2 ^ k) = e at he hlo
  rcases lt_or_eq_of_le he with hlt | heq
  · obtain ⟨j, hj⟩ : ∃ j : ℕ, k - (e - 52) = j := ⟨(k - (e - 52)).toNat, by omega⟩
    have hdiv : (m : ℚ) * 2 ^ k / 2 ^ (e - 52) = ((m * 2 ^ j : Int) : ℚ) := by
      rw [mul_div_assoc, ← zpow_sub₀ (by norm_num), hj]
      push_cast
      rw [zpow_natCast]
    rw [hdiv, roundHalfEven_intCast]
    push_cast
    rw [mul_assoc, ← zpow_natCast, ← zpow_add₀ (by norm_num), ← hj]
    congr 2
    ring
  · -- the significand is 2 ^ 53 exactly
    subst heq
    have hm2 : ((|m| : Int) : ℚ) = 2 ^ 53 := by
      have h1 : (2 : ℚ) ^ (53 + k) ≤ ((|m| : Int) : ℚ) * 2 ^ k := hlo
      have := le_antisymm hle h1
      rw [zpow_add₀ (by norm_num)] at this
      have h3 := mul_right_cancel₀ hk.ne' this
      rw [h3]; norm_num
    have hm3 : |m| = 2 ^ 53 := by exact_mod_cast hm2
    have hev : ∃ n : Int, m = 2 * n := by
      rcases abs_eq (by norm_num : (0:Int) ≤ 2 ^ 53) |>.1 hm3 with h | h
      · exact ⟨2 ^ 52, by rw [h]; norm_num⟩
      · exact ⟨-2 ^ 52, by rw [h]; norm_num⟩
    obtain ⟨n, rfl⟩ := hev
    have hdiv : ((2 * n : Int) : ℚ) * 2 ^ k / 2 ^ (53 + k - 52) = ((n : Int) : ℚ) := by
      have : (53 + k - 52 : Int) = k + 1 := by ring
      rw [this, zpow_add₀ (by norm_num)]
      push_cast
      field_simp
      ring
    rw [hdiv, roundHalfEven_intCast]
    have : (53 + k - 52 : Int) = k + 1 := by ring
    rw [this, zpow_add₀ (by norm_num)]
    push_cast
    ring

theorem roundFloat64_intCast (m : Int) (hm : |m| ≤ 2 ^ 53) : roundFloat64 (m : ℚ) = m := by
  have := roundFloat64_exact m 0 hm
  simpa using this

theorem wrapInt64_of_range (x : Int) (h1 : -(2 ^ 63) ≤ x) (h2 : x < 2 ^ 63) :
    wrapInt64 x = x := by
  unfold wrapInt64
  norm_num at h1 h2 ⊢
  omega

theorem truncInt64_of_nonneg (x : ℚ) (h0 : 0 ≤ x) (h1 : x < 2 ^ 63) :
    truncInt64 x = some ⌊x⌋ := by
  unfold truncInt64
  simp only [if_pos h0]
  have hf0 : (0 : Int) ≤ ⌊x⌋ := Int.floor_nonneg.2 h0
  have hf1 : ⌊x⌋ < 2 ^ 63 := by
    rw [Int.floor_lt]; exact_mod_cast h1
  rw [if_pos ⟨by linarith, hf1⟩]

/-- Inside the range where no `int` operation wraps and the product fits in
an `int`, `scorePercent` is the clamped integer part of a positive `float64`
that is at least 100 when `rawScore` is not negative. -/
theorem scorePercent_eq (rawScore queryLen : Int) (hq : queryLen ≠ 0)
    (hq2 : queryLen * queryLen < 2 ^ 63) (hlow : -(queryLen * queryLen) < rawScore)
    (hN : rawScore + queryLen * queryLen ≤ 2 ^ 56) :
    ∃ p : ℚ, 0 < p ∧ p < 2 ^ 63 ∧ (0 ≤ rawScore → 100 ≤ p) ∧
      scorePercent rawScore queryLen = some (if ⌊p⌋ > 100 then 100 else ⌊p⌋) := by
  have hD1 : 1 ≤ queryLen * queryLen := by
    have : 0 < queryLen * queryLen := mul_self_pos.2 hq
    omega
  generalize hD : queryLen * queryLen = D at hq2 hlow hN hD1
  have hw1 : wrapInt64 D = D := wrapInt64_of_range D (by omega) hq2
  have hw2 : wrapInt64 (-D) = -D := wrapInt64_of_range (-D) (by omega) (by omega)
  have hw3 : wrapInt64 (rawScore - -D) = rawScore + D :=
    (wrapInt64_of_range _ (by omega) (by norm_num at hN ⊢; omega)).trans (by ring)
  have hw4 : wrapInt64 (- -D) = D :=
    (wrapInt64_of_range _ (by omega) (by omega)).trans (by ring)
  have h1 : roundFloat64 (1 : ℚ) = 1 := by
    simpa using roundFloat64_intCast 1 (by norm_num)
  have h100 : roundFloat64 (100 : ℚ) = 100 := by
    simpa using roundFloat64_intCast 100 (by norm_num)
  have h56 : roundFloat64 ((2 : ℚ) ^ 56) = 2 ^ 56 := by
    have := roundFloat64_exact 1 56 (by norm_num)
    norm_num at this ⊢
    exact this
  have h5600 : roundFloat64 ((2 : ℚ) ^ 56 * 100) = 2 ^ 56 * 100 := by
    have := roundFloat64_exact 25 58 (by norm_num)
    norm_num at this ⊢
    exact this
  have hNq : (1 : ℚ) ≤ ((rawScore + D : Int) : ℚ) := by exact_mod_cast (by omega : 1 ≤ rawScore + D)
  have hNq2 : ((rawScore + D : Int) : ℚ) ≤ 2 ^ 56 := by exact_mod_cast hN
  have hDq : (1 : ℚ) ≤ ((D : Int) : ℚ) := by exact_mod_cast hD1
  have ha1 : 1 ≤ roundFloat64 ((rawScore + D : Int) : ℚ) :=
    h1 ▸ roundFloat64_mono_pos one_pos hNq
  have ha2 : roundFloat64 ((rawScore + D : Int) : ℚ) ≤ 2 ^ 56 :=
    h56 ▸ roundFloat64_mono_pos (by linarith) hNq2
  have hb1 : 1 ≤ roundFloat64 ((D : Int) : ℚ) := h1 ▸ roundFloat64_mono_pos one_pos hDq
  have hab : roundFloat64 ((D : Int) : ℚ) ≤ roundFloat64 ((rawScore + D : Int) : ℚ) ∨
      rawScore < 0 := by
    by_cases hr : 0 ≤ rawScore
    · left
      apply roundFloat64_mono_pos (by linarith)
      exact_mod_cast (by omega : D ≤ rawScore + D)
    · right; omega
  generalize haeq : roundFloat64 ((rawScore + D : Int) : ℚ) = a at ha1 ha2 hab
  generalize hbeq : roundFloat64 ((D : Int) : ℚ) = b at hb1 hab
  have hb0 : 0 < b := by linarith
  have hq0 : 0 < a / b := div_pos (by linarith) hb0
  have hq1 : a / b ≤ 2 ^ 56 := by
    rw [div_le_iff₀ hb0]
    calc a ≤ 2 ^ 56 := ha2
      _ = 2 ^ 56 * 1 := by ring
      _ ≤ 2 ^ 56 * b := mul_le_mul_of_nonneg_left hb1 (by positivity)
  have hc0 : 0 < roundFloat64 (a / b) := roundFloat64_pos hq0
  have hc1 : roundFloat64 (a / b) ≤ 2 ^ 56 := h56 ▸ roundFloat64_mono_pos hq0 hq1
  have hc2 : 0 ≤ rawScore → 1 ≤ roundFloat64 (a / b) := by
    intro hr
    rcases hab with hab | hab
    · rw [← h1]
      apply roundFloat64_mono_pos one_pos
      rw [le_div_iff₀ hb0]; linarith
    · omega
  generalize hceq : roundFloat64 (a / b) = c at hc0 hc1 hc2
  have hp0 : 0 < roundFloat64 (c * 100) := roundFloat64_pos (by linarith)
  have hp1 : roundFloat64 (c * 100) ≤ 2 ^ 56 * 100 :=
    h5600 ▸ roundFloat64_mono_pos (by linarith) (by linarith)
  have hp2 : 0 ≤ rawScore → 100 ≤ roundFloat64 (c * 100) := by
    intro hr
    have h := @roundFloat64_mono_pos 100 (c * 100) (by norm_num) (by linarith [hc2 hr])
    rwa [h100] at h
  have hp3 : roundFloat64 (c * 100) < 2 ^ 63 := lt_of_le_of_lt hp1 (by norm_num)
  refine ⟨roundFloat64 (c * 100), hp0, hp3, hp2, ?_⟩
  unfold scorePercent
  rw [if_neg hq]
  simp only [hD, hw1, hw2, hw3, hw4]
  rw [if_neg (by omega), haeq, hbeq, if_neg hb0.ne', hceq, truncInt64_of_nonneg _ hp0.le hp3]
  simp only
  split_ifs <;> rfl


/-- Claim C17 does not hold as stated: for rawScore = 2^63 - 2^40 and
queryLen = 2^20 the 64-bit subtraction `rawScore - worst` wraps around to
-2^63 and `scorePercent` returns -838860800, which is outside [0,100]. -/
theorem scorePercent_negative :
    scorePercent 9223370937343148032 1048576 = some (-838860800) := by
  have w1 : wrapInt64 (1048576 * 1048576) = 1099511627776 := by
    unfold wrapInt64; norm_num
  have w2 : wrapInt64 (-1099511627776) = -1099511627776 := by
    unfold wrapInt64; norm_num
  have w3 : wrapInt64 (9223370937343148032 - -1099511627776) = -9223372036854775808 := by
    unfold wrapInt64; norm_num
  have w4 : wrapInt64 (- -1099511627776) = 1099511627776 := by
    unfold wrapInt64; norm_num
  have e1 : roundFloat64 (((-9223372036854775808 : Int) : ℚ)) = -9223372036854775808 := by
    have := roundFloat64_exact (-1) 63 (by norm_num)
    norm_num at this ⊢
    exact this
  have e2 : roundFloat64 (((1099511627776 : Int) : ℚ)) = 1099511627776 := by
    simpa using roundFloat64_intCast 1099511627776 (by norm_num)
  have e3 : roundFloat64 (-9223372036854775808 / 1099511627776 : ℚ) = -8388608 := by
    have := roundFloat64_intCast (-8388608) (by norm_num)
    norm_num at this ⊢
    exact this
  have e4 : roundFloat64 (-8388608 * 100 : ℚ) = -838860800 := by
    have := roundFloat64_intCast (-838860800) (by norm_num)
    norm_num at this ⊢
    exact this
  have e5 : truncInt64 (-838860800 : ℚ) = some (-838860800) := by
    have h : ⌈(((-838860800 : Int) : ℚ))⌉ = -838860800 := Int.ceil_intCast _
    norm_num at h
    norm_num [truncInt64, h]
  unfold scorePercent
  rw [if_neg (by norm_num)]
  simp only [w1, w2, w3, w4]
  rw [if_neg (by norm_num), e1, e2, if_neg (by norm_num), e3, e4, e5]
  rfl

/-- Claim C17, amended: for every queryLen whose square is below 2^63, so
for every queryLen from 0 to 3037000499, and every rawScore with
rawScore + queryLen^2 <= 2^56 (no 64-bit operation wraps and the product fits
in an int), scorePercent(rawScore, queryLen) lies in [0,100]; and for
queryLen = 0 it is 0, for every rawScore. -/
theorem scorePercent_range (rawScore queryLen : Int)
    (hq2 : queryLen * queryLen < 2 ^ 63) (hN : rawScore + queryLen * queryLen ≤ 2 ^ 56) :
    (∃ p, scorePercent rawScore queryLen = some p ∧ 0 ≤ p ∧ p ≤ 100) ∧
      ∀ r, scorePercent r 0 = some 0 := by
  refine ⟨?_, fun r => by simp [scorePercent]⟩
  by_cases h0 : queryLen = 0
  · exact ⟨0, by simp [scorePercent, h0], le_refl _, by norm_num⟩
  have hD1 : 0 < queryLen * queryLen := mul_self_pos.2 h0
  by_cases hlow : rawScore ≤ -(queryLen * queryLen)
  · refine ⟨0, ?_, le_refl _, by norm_num⟩
    unfold scorePercent
    rw [if_neg h0]
    simp only [wrapInt64_of_range _ (by omega) hq2,
      wrapInt64_of_range (-(queryLen * queryLen)) (by omega) (by omega)]
    rw [if_pos hlow]
  · obtain ⟨p, hp0, _, _, heq⟩ := scorePercent_eq rawScore queryLen h0 hq2 (by omega) hN
    refine ⟨_, heq, ?_, ?_⟩
    · have : (0 : Int) ≤ ⌊p⌋ := Int.floor_nonneg.2 hp0.le
      split_ifs <;> omega
    · split_ifs <;> omega

/-- Witness for C17: rawScore = -43 and queryLen = 10, where the quotient
0.57 is not a `float64` and the result is 56. -/
theorem scorePercent_range_witness :
    ((10 : Int) * 10 < 2 ^ 63 ∧ (-43 : Int) + 10 * 10 ≤ 2 ^ 56) ∧
      ∃ p, scorePercent (-43) 10 = some p ∧ 0 ≤ p ∧ p ≤ 100 :=
  ⟨⟨by norm_num, by norm_num⟩,
    (scorePercent_range (-43) 10 (by norm_num) (by norm_num)).1⟩

/-- Claim C18 does not hold as stated: for queryLen = 3037000500 the 64-bit
square wraps around, `worst` is positive and the perfect score 0 gives 0; and
for rawScore = 2^63 - 2^42 >= 0 and queryLen = 2^21 the subtraction
`rawScore - worst` wraps around and the result is -209715200. Neither is
100. -/
theorem scorePercent_best_not_100 :
    scorePercent 0 3037000500 = some 0 ∧
      scorePercent 9223367638808264704 2097152 = some (-209715200) := by
  constructor
  · have w1 : wrapInt64 (-(wrapInt64 (3037000500 * 3037000500))) = 9223372036709301616 := by
      unfold wrapInt64; norm_num
    unfold scorePercent
    rw [if_neg (by norm_num)]
    simp only [w1]
    rw [if_pos (by norm_num)]
  · have w1 : wrapInt64 (2097152 * 2097152) = 4398046511104 := by
      unfold wrapInt64; norm_num
    have w2 : wrapInt64 (-4398046511104) = -4398046511104 := by
      unfold wrapInt64; norm_num
    have w3 : wrapInt64 (9223367638808264704 - -4398046511104) = -9223372036854775808 := by
      unfold wrapInt64; norm_num
    have w4 : wrapInt64 (- -4398046511104) = 4398046511104 := by
      unfold wrapInt64; norm_num
    have e1 : roundFloat64 (((-9223372036854775808 : Int) : ℚ)) = -9223372036854775808 := by
      have := roundFloat64_exact (-1) 63 (by norm_num)
      norm_num at this ⊢
      exact this
    have e2 : roundFloat64 (((4398046511104 : Int) : ℚ)) = 4398046511104 := by
      simpa using roundFloat64_intCast 4398046511104 (by norm_num)
    have e3 : roundFloat64 (-9223372036854775808 / 4398046511104 : ℚ) = -2097152 := by
      have := roundFloat64_intCast (-2097152) (by norm_num)
      norm_num at this ⊢
      exact this
    have e4 : roundFloat64 (-2097152 * 100 : ℚ) = -209715200 := by
      have := roundFloat64_intCast (-209715200) (by norm_num)
      norm_num at this ⊢
      exact this
    have e5 : truncInt64 (-209715200 : ℚ) = some (-209715200) := by
      have h : ⌈(((-209715200 : Int) : ℚ))⌉ = -209715200 := Int.ceil_intCast _
      norm_num at h
      norm_num [truncInt64, h]
    unfold scorePercent
    rw [if_neg (by norm_num)]
    simp only [w1, w2, w3, w4]
    rw [if_neg (by norm_num), e1, e2, if_neg (by norm_num), e3, e4, e5]
    rfl

/-- Claim C18, amended: for every queryLen >= 1 whose square is below 2^63,
scorePercent returns 100 when rawScore >= 0 and rawScore + queryLen^2 <= 2^56,
and returns 0 when rawScore is at or below worst = -(queryLen*queryLen); in
particular, for queryLen = 3, it returns 100 for every rawScore from 0 to
2^56 - 9 and 0 for every rawScore at or below -9. -/
theorem scorePercent_best_worst :
    (∀ rawScore queryLen : Int, 1 ≤ queryLen → queryLen * queryLen < 2 ^ 63 →
        (0 ≤ rawScore → rawScore + queryLen * queryLen ≤ 2 ^ 56 →
          scorePercent rawScore queryLen = some 100) ∧
        (rawScore ≤ -(queryLen * queryLen) → scorePercent rawScore queryLen = some 0)) ∧
      (∀ rawScore : Int, 0 ≤ rawScore → rawScore ≤ 2 ^ 56 - 9 →
        scorePercent rawScore 3 = some 100) ∧
      ∀ rawScore : Int, rawScore ≤ -9 → scorePercent rawScore 3 = some 0 := by
  have key : ∀ rawScore queryLen : Int, 1 ≤ queryLen → queryLen * queryLen < 2 ^ 63 →
      (0 ≤ rawScore → rawScore + queryLen * queryLen ≤ 2 ^ 56 →
        scorePercent rawScore queryLen = some 100) ∧
      (rawScore ≤ -(queryLen * queryLen) → scorePercent rawScore queryLen = some 0) := by
    intro rawScore queryLen hq hq2
    have h0 : queryLen ≠ 0 := by omega
    have hD1 : 0 < queryLen * queryLen := mul_self_pos.2 h0
    constructor
    · intro hr hN
      obtain ⟨p, _, _, hp, heq⟩ := scorePercent_eq rawScore queryLen h0 hq2 (by omega) hN
      rw [heq]
      have : (100 : Int) ≤ ⌊p⌋ := Int.le_floor.2 (by exact_mod_cast hp hr)
      split_ifs
      · rfl
      · congr 1; omega
    · intro hlow
      unfold scorePercent
      rw [if_neg h0]
      simp only [wrapInt64_of_range _ (by omega) hq2,
        wrapInt64_of_range (-(queryLen * queryLen)) (by omega) (by omega)]
      rw [if_pos hlow]
  refine ⟨key, ?_, ?_⟩
  · intro rawScore hr hN
    exact (key rawScore 3 (by norm_num) (by norm_num)).1 hr (by norm_num at hN ⊢; omega)
  · intro rawScore hr
    exact (key rawScore 3 (by norm_num) (by norm_num)).2 (by omega)

/-- Witness for C18: rawScore = 7 and queryLen = 10. -/
theorem scorePercent_best_worst_witness :
    ((1 : Int) ≤ 10 ∧ (10 : Int) * 10 < 2 ^ 63 ∧ (0 : Int) ≤ 7 ∧
        (7 : Int) + 10 * 10 ≤ 2 ^ 56) ∧
      scorePercent 7 10 = some 100 :=
  ⟨⟨by norm_num, by norm_num, by norm_num, by norm_num⟩,
    (scorePercent_best_worst.1 7 10 (by norm_num) (by norm_num)).1 (by norm_num)
      (by norm_num)⟩

/-! ## Theorems: output file names -/

theorem extractOutFile_eq {ι : Type} (d : Deps ι) (m : appModel ι) (seg : segment) :
    extractOutFile d m.baseName m.outDir seg = segmentFilename d m seg := rfl

theorem runSplitAll_calls {ι σ : Type} (ops : FileOps σ) (d : Deps ι)
    (filename baseName outDir : Str) (segs : List segment) (w : σ) :
    (runSplitAll ops d filename baseName outDir segs w).calls.map Prod.fst =
      (segs.map (collectCallOf d filename baseName outDir)).take
        (runSplitAll ops d filename baseName outDir segs w).calls.length := by
  unfold runSplitAll
  split_ifs with ho
  · cases hm : ops.MkdirAll w outDir with
    | mk w1 err =>
      cases err with
      | some e => simp
      | none => exact (splitAllLoop_outcome ops d filename baseName outDir _ segs w1).1
  · exact (splitAllLoop_outcome ops d filename baseName outDir _ segs w).1

theorem runExtract_calls {ι σ : Type} (ops : FileOps σ) (d : Deps ι)
    (filename baseName outDir : Str) (seg : segment) (w : σ) :
    ∀ c ∈ (runExtract ops d filename baseName outDir seg w).calls,
      c.1 = collectCallOf d filename baseName outDir seg := by
  have hc : ∀ w0 : σ, ∀ c ∈ (match ops.CollectFile w0 (collectCallOf d filename baseName outDir seg) with
      | (w1, some err) =>
        ({ world := w1, calls := [(collectCallOf d filename baseName outDir seg, some err)],
           msg := .splitDone 0 (some err) } : ExtractRun σ)
      | (w1, none) =>
        { world := w1, calls := [(collectCallOf d filename baseName outDir seg, none)],
          msg := .splitDone 1 none }).calls,
      c.1 = collectCallOf d filename baseName outDir seg := by
    intro w0 c hcm
    cases hm : ops.CollectFile w0 (collectCallOf d filename baseName outDir seg) with
    | mk w1 err =>
      rw [hm] at hcm
      cases err with
      | some e => simp at hcm; rw [hcm]
      | none => simp at hcm; rw [hcm]
  unfold runExtract
  simp only
  split_ifs with ho
  · cases hm : ops.MkdirAll w outDir with
    | mk w1 err =>
      cases err with
      | some e => simp
      | none => exact hc w1
  · exact hc w

theorem runExtract_dir_ok {ι σ : Type} (ops : FileOps σ) (d : Deps ι)
    (filename baseName outDir : Str) (seg : segment) (w : σ)
    (hdir : outDir = [] ∨ (ops.MkdirAll w outDir).2 = none) :
    (runExtract ops d filename baseName outDir seg w).calls =
        [(collectCallOf d filename baseName outDir seg,
          (ops.CollectFile (if outDir = [] then w else (ops.MkdirAll w outDir).1)
            (collectCallOf d filename baseName outDir seg)).2)] ∧
      (runExtract ops d filename baseName outDir seg w).world =
        (ops.CollectFile (if outDir = [] then w else (ops.MkdirAll w outDir).1)
          (collectCallOf d filename baseName outDir seg)).1 := by
  have hc : ∀ w0 : σ,
      (match ops.CollectFile w0 (collectCallOf d filename baseName outDir seg) with
      | (w1, some err) =>
        ({ world := w1, calls := [(collectCallOf d filename baseName outDir seg, some err)],
           msg := .splitDone 0 (some err) } : ExtractRun σ)
      | (w1, none) =>
        { world := w1, calls := [(collectCallOf d filename baseName outDir seg, none)],
          msg := .splitDone 1 none }).calls =
        [(collectCallOf d filename baseName outDir seg,
          (ops.CollectFile w0 (collectCallOf d filename baseName outDir seg)).2)] ∧
      (match ops.CollectFile w0 (collectCallOf d filename baseName outDir seg) with
      | (w1, some err) =>
        ({ world := w1, calls := [(collectCallOf d filename baseName outDir seg, some err)],
           msg := .splitDone 0 (some err) } : ExtractRun σ)
      | (w1, none) =>
        { world := w1, calls := [(collectCallOf d filename baseName outDir seg, none)],
          msg := .splitDone 1 none }).world =
        (ops.CollectFile w0 (collectCallOf d filename baseName outDir seg)).1 := by
    intro w0
    cases hm : ops.CollectFile w0 (collectCallOf d filename baseName outDir seg) with
    | mk w1 err =>
      cases err with
      | some e => exact ⟨rfl, rfl⟩
      | none => exact ⟨rfl, rfl⟩
  unfold runExtract
  simp only
  by_cases ho : outDir = []
  · simp only [ho, ne_eq, not_true_eq_false, if_false, if_true]
    exact ho ▸ hc w
  · rcases hdir with hd | hd
    · exact absurd hd ho
    · simp only [ne_eq, ho, not_false_eq_true, if_true, if_false]
      cases hm : ops.MkdirAll w outDir with
      | mk w1 err =>
        rw [hm] at hd
        simp only at hd
        subst hd
        exact hc w1

theorem runExtract_mkdir_fails {ι σ : Type} (ops : FileOps σ) (d : Deps ι)
    (filename baseName outDir : Str) (seg : segment) (w : σ) (err : Str)
    (ho : outDir ≠ []) (hm : (ops.MkdirAll w outDir).2 = some err) :
    (runExtract ops d filename baseName outDir seg w).calls = [] := by
  unfold runExtract
  simp only
  rw [if_pos ho]
  cases hmk : ops.MkdirAll w outDir with
  | mk w1 e =>
    rw [hmk] at hm
    simp only at hm
    subst hm
    rfl

theorem splitAllLoop_head {ι σ : Type} (ops : FileOps σ) (d : Deps ι)
    (filename baseName outDir : Str) (count : Int) (seg : segment) (segs : List segment)
    (w : σ) :
    (splitAllLoop ops d filename baseName outDir count (seg :: segs) w []).calls.head? =
      some (collectCallOf d filename baseName outDir seg,
        (ops.CollectFile w (collectCallOf d filename baseName outDir seg)).2) := by
  unfold splitAllLoop
  simp only
  cases h : ops.CollectFile w (collectCallOf d filename baseName outDir seg) with
  | mk w1 err =>
    cases err with
    | some e => rfl
    | none =>
      simp only
      rw [(splitAllLoop_calls ops d filename baseName outDir count segs w1 _).1]
      rfl

/-- C21: `segmentFilename` returns the string baseName + "_p" + decimal(start)
+ "-" + decimal(end) + ".pdf", joined to the output directory when one is
configured; the commands of `executeSplitAll` and `executeExtract` capture
the base name and the output directory of the state; and the path they write
for a segment is the one `segmentFilename` gives for it.  When the output
directory is empty or can be created, the command of `executeExtract` makes
exactly one call of the document service, with that path as output file, and
the command of `executeSplitAll` makes its calls with the paths of the
segments in order, the first segment first, every segment unless a call
fails; when the directory cannot be created neither command writes
anything. -/
theorem segmentFilename_is_written_path {ι σ : Type} (d : Deps ι) (m : appModel ι)
    (seg : segment) :
    (segmentFilename d m seg =
        if m.outDir = [] then
          m.baseName ++ "_p".toList ++ fmtD seg.start ++ "-".toList ++ fmtD seg.stop ++
            ".pdf".toList
        else
          d.Join m.outDir (m.baseName ++ "_p".toList ++ fmtD seg.start ++ "-".toList ++
            fmtD seg.stop ++ ".pdf".toList)) ∧
      decimalInt? (fmtD seg.start) = some seg.start ∧
      decimalInt? (fmtD seg.stop) = some seg.stop ∧
      executeExtract m seg = .extract m.filename m.baseName m.outDir seg ∧
      executeSplitAll m = .splitAll m.filename m.baseName m.outDir (buildSegments m) ∧
      (∀ (ops : FileOps σ) (w : σ),
        (m.outDir = [] ∨ (ops.MkdirAll w m.outDir).2 = none) →
        (runExtract ops d m.filename m.baseName m.outDir seg w).calls =
            [((⟨m.filename, segmentFilename d m seg, pageSelection seg⟩ : CollectCall),
              (ops.CollectFile (if m.outDir = [] then w else (ops.MkdirAll w m.outDir).1)
                ⟨m.filename, segmentFilename d m seg, pageSelection seg⟩).2)] ∧
          (runExtract ops d m.filename m.baseName m.outDir seg w).world =
            (ops.CollectFile (if m.outDir = [] then w else (ops.MkdirAll w m.outDir).1)
              ⟨m.filename, segmentFilename d m seg, pageSelection seg⟩).1) ∧
      (∀ (ops : FileOps σ) (w : σ) (segs : List segment),
        (m.outDir = [] ∨ (ops.MkdirAll w m.outDir).2 = none) →
        (runSplitAll ops d m.filename m.baseName m.outDir (seg :: segs) w).calls.head? =
            some ((⟨m.filename, segmentFilename d m seg, pageSelection seg⟩ : CollectCall),
              (ops.CollectFile (if m.outDir = [] then w else (ops.MkdirAll w m.outDir).1)
                ⟨m.filename, segmentFilename d m seg, pageSelection seg⟩).2) ∧
          ((runSplitAll ops d m.filename m.baseName m.outDir (seg :: segs) w).calls.length =
              (seg :: segs).length ∨
            ∃ e, (runSplitAll ops d m.filename m.baseName m.outDir (seg :: segs)
              w).calls.getLast?.map Prod.snd = some (some e))) ∧
      (∀ (ops : FileOps σ) (w : σ) (segs : List segment),
        (runSplitAll ops d m.filename m.baseName m.outDir segs w).calls.map
            (fun c => c.1.outFile) =
          (segs.take (runSplitAll ops d m.filename m.baseName m.outDir segs w).calls.length).map
            (segmentFilename d m)) ∧
      ∀ (ops : FileOps σ) (w : σ) (segs : List segment) (err : Str),
        m.outDir ≠ [] → (ops.MkdirAll w m.outDir).2 = some err →
        (runExtract ops d m.filename m.baseName m.outDir seg w).calls = [] ∧
          (runSplitAll ops d m.filename m.baseName m.outDir segs w).calls = [] := by
  refine ⟨?_, decimalInt?_fmtD _, decimalInt?_fmtD _, rfl, rfl, ?_, ?_, ?_, ?_⟩
  · unfold segmentFilename
    by_cases h : m.outDir = []
    · simp [h]
    · simp [h]
  · intro ops w hdir
    exact runExtract_dir_ok ops d m.filename m.baseName m.outDir seg w hdir
  · intro ops w segs hdir
    constructor
    · rw [runSplitAll_loop ops d _ _ _ _ w hdir]
      exact splitAllLoop_head ops d _ _ _ _ seg segs _
    · rcases (runSplitAll_dir_ok ops d m.filename m.baseName m.outDir (seg :: segs) w
        hdir).2.2 with ⟨_, hl, _⟩ | ⟨e, _, hlast⟩
      · exact Or.inl (by rw [hl, List.length_map])
      · exact Or.inr ⟨e, hlast⟩
  · intro ops w segs
    have h := runSplitAll_calls ops d m.filename m.baseName m.outDir segs w
    have h2 := congrArg (List.map CollectCall.outFile) h
    rw [List.map_map] at h2
    rw [← List.map_take, List.map_map] at h2
    exact h2
  · intro ops w segs err ho hm
    exact ⟨runExtract_mkdir_fails ops d _ _ _ seg w err ho hm,
      (runSplitAll_mkdir_fails ops d _ _ _ segs w err ho hm).1⟩

/-- C21 at a concrete input: the segment (3,5) of `a.pdf` with the output
directory `out`, which can be created: one call is made, and it writes
`out/a_p3-5.pdf`. -/
theorem segmentFilename_is_written_path_witness :
    segmentFilename plainDeps
        { segmentModel 8 [3, 6] 3 with baseName := "a".toList, outDir := "out".toList }
        ⟨3, 5⟩ = "out/a_p3-5.pdf".toList ∧
      ("out".toList = [] ∨ (secondFailsOps.MkdirAll 0 "out".toList).2 = none) ∧
      (runExtract secondFailsOps plainDeps [] "a".toList "out".toList ⟨3, 5⟩ 0).calls.map
        (fun c => c.1.outFile) = ["out/a_p3-5.pdf".toList] := by
  have h := (@segmentFilename_is_written_path Str Nat plainDeps
    { segmentModel 8 [3, 6] 3 with baseName := "a".toList, outDir := "out".toList }
    ⟨3, 5⟩).2.2.2.2.2.1 secondFailsOps 0 (Or.inr rfl)
  have e : segmentFilename plainDeps
      { segmentModel 8 [3, 6] 3 with baseName := "a".toList, outDir := "out".toList }
      ⟨3, 5⟩ = "out/a_p3-5.pdf".toList := by decide
  refine ⟨e, Or.inr rfl, ?_⟩
  have h1 := congrArg (List.map fun c => c.1.outFile) h.1
  rw [e] at h1
  exact h1

/-! ## Theorems: the result cursor -/

theorem resInv_of_eq {ι : Type} {V : fuzzyMatch → Prop} {allLines : List indexedLine} {n : Int}
    {m m1 : appModel ι} (h : ResInv V allLines n m)
    (e1 : m1.allLines = m.allLines) (e2 : m1.strs = m.strs) (e3 : m1.pageCount = m.pageCount)
    (e4 : m1.searchCursor = m.searchCursor) (e5 : m1.matchList = m.matchList) :
    ResInv V allLines n m1 :=
  ⟨by rw [e1]; exact h.lines, by rw [e2]; exact h.strs, by rw [e3]; exact h.count,
    by rw [e4]; exact h.curLo, by rw [e4, e5]; exact h.curHi, by rw [e5]; exact h.good⟩

theorem resInv_reset {ι : Type} {V : fuzzyMatch → Prop} {allLines : List indexedLine} {n : Int}
    {m m1 : appModel ι} (h : ResInv V allLines n m)
    (e1 : m1.allLines = m.allLines) (e2 : m1.strs = m.strs) (e3 : m1.pageCount = m.pageCount)
    (e4 : m1.searchCursor = 0) (e5 : ∀ mt ∈ m1.matchList, V mt) :
    ResInv V allLines n m1 :=
  ⟨by rw [e1]; exact h.lines, by rw [e2]; exact h.strs, by rw [e3]; exact h.count,
    by rw [e4], Or.inr e4, e5⟩

theorem resInv_move {ι : Type} {V : fuzzyMatch → Prop} {allLines : List indexedLine} {n : Int}
    {m m1 : appModel ι} (h : ResInv V allLines n m)
    (e1 : m1.allLines = m.allLines) (e2 : m1.strs = m.strs) (e3 : m1.pageCount = m.pageCount)
    (e5 : m1.matchList = m.matchList) (h1 : 0 ≤ m1.searchCursor)
    (h2 : m1.searchCursor < len m.matchList) :
    ResInv V allLines n m1 :=
  ⟨by rw [e1]; exact h.lines, by rw [e2]; exact h.strs, by rw [e3]; exact h.count,
    h1, Or.inl (by rw [e5]; exact h2), by rw [e5]; exact h.good⟩

theorem stepKeeps_some {ι : Type} {P : appModel ι → Prop} {T : Prop} {m0 : appModel ι}
    (c0 : Cmd) (h : P m0) : StepKeeps P T (some (m0, c0)) :=
  ⟨stepTo_some c0 h, fun _ => ⟨m0, c0, rfl⟩⟩

theorem stepKeeps_pair {ι : Type} {P : appModel ι → Prop} {T : Prop} {r : appModel ι × Cmd}
    (h : P r.1) : StepKeeps P T (some r) :=
  ⟨stepTo_pair h, fun _ => ⟨r.1, r.2, rfl⟩⟩

theorem stepKeeps_ite {ι : Type} {P : appModel ι → Prop} {T : Prop} {p : Prop} [Decidable p]
    {a b : Option (appModel ι × Cmd)} (ha : p → StepKeeps P T a) (hb : ¬ p → StepKeeps P T b) :
    StepKeeps P T (if p then a else b) := by
  by_cases hp : p
  · rw [if_pos hp]; exact ha hp
  · rw [if_neg hp]; exact hb hp

theorem stepKeeps_map {ι α : Type} {P : appModel ι → Prop} {T : Prop} {o : Option α}
    {f : α → appModel ι × Cmd} (h : ∀ a, o = some a → P (f a).1) (ht : T → ∃ a, o = some a) :
    StepKeeps P T (o.map f) := by
  refine ⟨stepTo_map h, fun t => ?_⟩
  obtain ⟨a, ha⟩ := ht t
  exact ⟨(f a).1, (f a).2, by rw [ha]; rfl⟩

theorem index?_of_lt {α : Type} (l : List α) (i : Int) (h0 : 0 ≤ i) (h1 : i < len l) :
    ∃ a, index? l i = some a ∧ a ∈ l := by
  unfold index?
  rw [if_neg (by omega)]
  have hlt : i.toNat < l.length := by unfold len at h1; omega
  exact ⟨l[i.toNat], List.getElem?_eq_getElem hlt, List.getElem_mem hlt⟩

theorem lineOfMatch_of_lt {ι : Type} {V : fuzzyMatch → Prop} {allLines : List indexedLine}
    {n : Int} (m : appModel ι) (h : ResInv V allLines n m) (t : Runs V allLines n) (i : Int)
    (h0 : 0 ≤ i) (h1 : i < len m.matchList) : ∃ l, lineOfMatch m i = some l := by
  obtain ⟨mt, hmt, hmem⟩ := index?_of_lt m.matchList i h0 h1
  have hv := t.1 mt (h.good mt hmem)
  obtain ⟨l, hl, _⟩ := index?_of_lt m.allLines mt.Index hv.1 (by rw [h.lines]; exact hv.2)
  exact ⟨l, by unfold lineOfMatch; rw [hmt]; exact hl⟩

theorem cursor_lt_of_nonempty {ι : Type} {V : fuzzyMatch → Prop} {allLines : List indexedLine}
    {n : Int} (m : appModel ι) (h : ResInv V allLines n m) (hne : len m.matchList > 0) :
    m.searchCursor < len m.matchList := by
  rcases h.curHi with h1 | h1
  · exact h1
  · omega

theorem followCursor_keeps {ι : Type} {V : fuzzyMatch → Prop} {allLines : List indexedLine}
    {n : Int} (m : appModel ι) (c : Cmd) (h : ResInv V allLines n m) :
    StepKeeps (ResInv V allLines n) (Runs V allLines n)
      ((followCursor m).map fun m3 => (m3, c)) := by
  refine stepKeeps_map ?_ ?_
  · intro m3 h3
    unfold followCursor at h3
    split_ifs at h3
    · rw [Option.map_eq_some'] at h3
      obtain ⟨l, _, rfl⟩ := h3
      exact resInv_of_eq h rfl rfl rfl rfl rfl
    · injection h3 with h3
      subst h3
      exact h
  · intro t
    unfold followCursor
    split_ifs with hc
    · obtain ⟨l, hl⟩ := lineOfMatch_of_lt m h t m.searchCursor h.curLo
        (cursor_lt_of_nonempty m h hc.2)
      exact ⟨_, by rw [hl]; rfl⟩
    · exact ⟨m, rfl⟩

theorem doPrevResult_keeps {ι : Type} {V : fuzzyMatch → Prop} {allLines : List indexedLine}
    {n : Int} (m : appModel ι) (h : ResInv V allLines n m) :
    StepKeeps (ResInv V allLines n) (Runs V allLines n) (doPrevResult m) := by
  unfold doPrevResult
  refine stepKeeps_ite (fun hc => followCursor_keeps _ _ ?_) (fun _ => stepKeeps_some _ h)
  have hlt : m.searchCursor < len m.matchList := by
    rcases h.curHi with h1 | h1
    · exact h1
    · omega
  dsimp only
  split_ifs
  · exact resInv_move h rfl rfl rfl rfl (by show 0 ≤ m.searchCursor - 1; omega)
      (by show m.searchCursor - 1 < len m.matchList; omega)
  · exact resInv_move h rfl rfl rfl rfl (by show 0 ≤ m.searchCursor - 1; omega)
      (by show m.searchCursor - 1 < len m.matchList; omega)

theorem doNextResult_keeps {ι : Type} {V : fuzzyMatch → Prop} {allLines : List indexedLine}
    {n : Int} (m : appModel ι) (h : ResInv V allLines n m) :
    StepKeeps (ResInv V allLines n) (Runs V allLines n) (doNextResult m) := by
  unfold doNextResult
  refine stepKeeps_ite (fun hc => followCursor_keeps _ _ ?_) (fun _ => stepKeeps_some _ h)
  have h0 := h.curLo
  dsimp only
  split_ifs
  · exact resInv_move h rfl rfl rfl rfl (by show 0 ≤ m.searchCursor + 1; omega)
      (by show m.searchCursor + 1 < len m.matchList; omega)
  · exact resInv_move h rfl rfl rfl rfl (by show 0 ≤ m.searchCursor + 1; omega)
      (by show m.searchCursor + 1 < len m.matchList; omega)

theorem doEnter_keeps {ι : Type} {V : fuzzyMatch → Prop} {allLines : List indexedLine}
    {n : Int} (m : appModel ι) (h : ResInv V allLines n m) :
    StepKeeps (ResInv V allLines n) (Runs V allLines n) (doEnter m) := by
  unfold doEnter
  split
  · refine stepKeeps_ite (fun hc => ?_) (fun _ => stepKeeps_some _ h)
    exact stepKeeps_map (fun l _ => resInv_of_eq h rfl rfl rfl rfl rfl)
      (fun t => lineOfMatch_of_lt m h t m.searchCursor h.curLo hc.2)
  · exact stepKeeps_ite (fun _ => stepKeeps_some _ (resInv_of_eq h rfl rfl rfl rfl rfl))
      (fun _ => stepKeeps_some _ (resInv_of_eq h rfl rfl rfl rfl rfl))

theorem doTab_keeps {ι : Type} {V : fuzzyMatch → Prop} {allLines : List indexedLine}
    {n : Int} (m : appModel ι) (h : ResInv V allLines n m) :
    ResInv V allLines n (doTab m).1 := by
  unfold doTab
  split_ifs <;> exact resInv_of_eq h rfl rfl rfl rfl rfl

theorem doSioyek_keeps {ι : Type} {V : fuzzyMatch → Prop} {allLines : List indexedLine}
    {n : Int} (m : appModel ι) (h : ResInv V allLines n m) :
    StepKeeps (ResInv V allLines n) (Runs V allLines n) (doSioyek m) := by
  unfold doSioyek
  refine stepKeeps_map (fun page _ => ?_) (fun t => ?_)
  · split_ifs <;> exact resInv_of_eq h rfl rfl rfl rfl rfl
  · unfold activePage
    split_ifs with h1 h2
    · exact ⟨_, rfl⟩
    · obtain ⟨l, hl⟩ := lineOfMatch_of_lt m h t m.searchCursor h.curLo h2.2
      exact ⟨l.page, by rw [hl]; rfl⟩
    · exact ⟨_, rfl⟩

theorem doPrevPage_keeps {ι : Type} {V : fuzzyMatch → Prop} {allLines : List indexedLine}
    {n : Int} (m : appModel ι) (h : ResInv V allLines n m) :
    ResInv V allLines n (doPrevPage m).1 := by
  unfold doPrevPage
  split_ifs
  · exact resInv_of_eq h rfl rfl rfl rfl rfl
  · exact h

theorem doNextPage_keeps {ι : Type} {V : fuzzyMatch → Prop} {allLines : List indexedLine}
    {n : Int} (m : appModel ι) (h : ResInv V allLines n m) :
    ResInv V allLines n (doNextPage m).1 := by
  unfold doNextPage
  split_ifs
  · exact resInv_of_eq h rfl rfl rfl rfl rfl
  · exact h

theorem doMarkSplit_keeps {ι : Type} {V : fuzzyMatch → Prop} {allLines : List indexedLine}
    {n : Int} (d : Deps ι) (m : appModel ι) (h : ResInv V allLines n m) :
    ResInv V allLines n (doMarkSplit d m).1 := by
  unfold doMarkSplit
  split_ifs
  · exact resInv_reset h rfl rfl rfl rfl (by intro mt hmt; simp at hmt)
  · exact resInv_reset h rfl rfl rfl rfl (by intro mt hmt; simp at hmt)
  · exact h

theorem handleNormalKeyString_keeps {ι : Type} {V : fuzzyMatch → Prop}
    {allLines : List indexedLine} {n : Int} (d : Deps ι) (m : appModel ι) (msg : KeyMsg)
    (h : ResInv V allLines n m) :
    StepKeeps (ResInv V allLines n) (Runs V allLines n) (handleNormalKeyString d m msg) := by
  unfold handleNormalKeyString
  refine stepKeeps_ite (fun _ => stepKeeps_some _ h) fun _ => ?_
  refine stepKeeps_ite (fun _ => stepKeeps_some _ (resInv_of_eq h rfl rfl rfl rfl rfl)) fun _ => ?_
  refine stepKeeps_ite (fun _ => doNextResult_keeps m h) fun _ => ?_
  refine stepKeeps_ite (fun _ => doPrevResult_keeps m h) fun _ => ?_
  refine stepKeeps_ite (fun _ => doSioyek_keeps m h) fun _ => ?_
  refine stepKeeps_ite (fun _ => ?_) (fun _ => stepKeeps_some _ h)
  refine stepKeeps_ite (fun _ => stepKeeps_pair (doPrevPage_keeps m h)) fun _ => ?_
  refine stepKeeps_ite (fun _ => stepKeeps_pair (doNextPage_keeps m h)) fun _ => ?_
  refine stepKeeps_ite (fun _ => stepKeeps_some _ (resInv_of_eq h rfl rfl rfl rfl rfl)) fun _ => ?_
  refine stepKeeps_ite (fun _ => stepKeeps_some _ (resInv_of_eq h rfl rfl rfl rfl rfl)) fun _ => ?_
  refine stepKeeps_ite (fun _ => stepKeeps_pair (doMarkSplit_keeps d m h)) fun _ => ?_
  refine stepKeeps_ite (fun _ => ?_) (fun _ => stepKeeps_some _ h)
  exact stepKeeps_ite (fun _ => stepKeeps_some _ (resInv_of_eq h rfl rfl rfl rfl rfl))
    (fun _ => stepKeeps_some _ h)

theorem handleNormalKey_keeps {ι : Type} {V : fuzzyMatch → Prop}
    {allLines : List indexedLine} {n : Int} (d : Deps ι) (m : appModel ι) (msg : KeyMsg)
    (h : ResInv V allLines n m) :
    StepKeeps (ResInv V allLines n) (Runs V allLines n) (handleNormalKey d m msg) := by
  unfold handleNormalKey
  split
  · exact stepKeeps_some _ h
  · exact stepKeeps_some _ h
  · exact doEnter_keeps m h
  · exact stepKeeps_pair (doTab_keeps m h)
  · exact doSioyek_keeps m h
  · exact doPrevResult_keeps m h
  · exact doNextResult_keeps m h
  · exact stepKeeps_ite (fun _ => stepKeeps_pair (doPrevPage_keeps m h))
      (fun _ => handleNormalKeyString_keeps d m msg h)
  · exact stepKeeps_ite (fun _ => stepKeeps_pair (doNextPage_keeps m h))
      (fun _ => handleNormalKeyString_keeps d m msg h)
  · exact handleNormalKeyString_keeps d m msg h

theorem handleInsertEdit_keeps {ι : Type} {V : fuzzyMatch → Prop}
    {allLines : List indexedLine} {n : Int} (d : Deps ι)
    (hV : ∀ q, ∀ mt ∈ d.Find q (lineStrings allLines), V mt) (m : appModel ι) (msg : KeyMsg)
    (h : ResInv V allLines n m) :
    StepKeeps (ResInv V allLines n) (Runs V allLines n) (handleInsertEdit d m msg) := by
  unfold handleInsertEdit
  refine followCursor_keeps _ _ ?_
  have hs := h.strs
  have h0 := h.curLo
  dsimp only
  split_ifs with hq hp
  · exact resInv_reset h rfl rfl rfl rfl (by intro mt hmt; simp at hmt)
  · exact resInv_reset h rfl rfl rfl rfl (by
      intro mt hmt
      exact hV _ mt (by rw [← hs]; exact hmt))
  · exact ⟨h.lines, h.strs, h.count, h.curLo, Or.inl (by
      show m.searchCursor < len (d.Find _ m.strs)
      have : ¬ m.searchCursor ≥ len (d.Find (d.inputValue (d.inputUpdate m.input msg)) m.strs) := hp
      omega), by
      intro mt hmt
      exact hV _ mt (by rw [← hs]; exact hmt)⟩

theorem handleInsertKey_keeps {ι : Type} {V : fuzzyMatch → Prop}
    {allLines : List indexedLine} {n : Int} (d : Deps ι)
    (hV : ∀ q, ∀ mt ∈ d.Find q (lineStrings allLines), V mt) (m : appModel ι) (msg : KeyMsg)
    (h : ResInv V allLines n m) :
    StepKeeps (ResInv V allLines n) (Runs V allLines n) (handleInsertKey d m msg) := by
  unfold handleInsertKey
  split
  · exact stepKeeps_some _ h
  · exact stepKeeps_some _ (resInv_of_eq h rfl rfl rfl rfl rfl)
  · exact stepKeeps_pair (doTab_keeps _ (resInv_of_eq h rfl rfl rfl rfl rfl))
  · exact doSioyek_keeps m h
  · exact doEnter_keeps m h
  · exact doPrevResult_keeps m h
  · exact doPrevResult_keeps m h
  · exact doNextResult_keeps m h
  · exact doNextResult_keeps m h
  · exact handleInsertEdit_keeps d hV m msg h

theorem pageAtX_of_pages {ι : Type} (m : appModel ι) (x : Int) (h : m.pageCount ≠ 0) :
    ∃ page, pageAtX m x = some page := by
  unfold pageAtX pageWidth
  simp only [if_neg h]
  exact ⟨_, rfl⟩

theorem handleMouse_keeps {ι : Type} {V : fuzzyMatch → Prop}
    {allLines : List indexedLine} {n : Int} (d : Deps ι) (m : appModel ι) (msg : MouseMsg)
    (h : ResInv V allLines n m) :
    StepKeeps (ResInv V allLines n) (Runs V allLines n) (handleMouse d m msg) := by
  unfold handleMouse
  split
  · exact doPrevResult_keeps m h
  · exact doNextResult_keeps m h
  · refine stepKeeps_ite (fun _ => stepKeeps_some _ h) fun _ => ?_
    refine stepKeeps_ite (fun _ => ?_) fun _ => ?_
    · exact stepKeeps_ite (fun _ => stepKeeps_some _ (resInv_of_eq h rfl rfl rfl rfl rfl))
        (fun _ => stepKeeps_some _ h)
    · refine stepKeeps_ite (fun _ => ?_) fun _ => ?_
      · refine stepKeeps_map (fun page _ => ?_)
          (fun t => pageAtX_of_pages m msg.X (by rw [h.count]; exact t.2))
        split_ifs
        · exact resInv_of_eq h rfl rfl rfl rfl rfl
        · exact h
      · dsimp only
        refine stepKeeps_ite (fun hi => ?_) (fun _ => stepKeeps_some _ h)
        have hm : ResInv V allLines n { m with searchCursor :=
            msg.Y - (if m.mode = .modeSplit then 7 else 2) + m.searchOffset } :=
          resInv_move h rfl rfl rfl rfl hi.1 hi.2
        refine stepKeeps_ite (fun _ => ?_) (fun _ => stepKeeps_some _ hm)
        exact stepKeeps_map (fun l _ => resInv_of_eq hm rfl rfl rfl rfl rfl)
          (fun t => lineOfMatch_of_lt _ hm t _ hi.1 hi.2)
  · exact stepKeeps_some _ h

/-- One `Update` keeps the invariant of the result list, and returns when
every match indexes the corpus and the page count is not 0. -/
theorem Update_keeps {ι : Type} {V : fuzzyMatch → Prop}
    {allLines : List indexedLine} {n : Int} (d : Deps ι)
    (hV : ∀ q, ∀ mt ∈ d.Find q (lineStrings allLines), V mt) (m : appModel ι) (msg : Msg)
    (h : ResInv V allLines n m) :
    StepKeeps (ResInv V allLines n) (Runs V allLines n) (Update d m msg) := by
  unfold Update
  split
  · exact stepKeeps_some _ (resInv_of_eq h rfl rfl rfl rfl rfl)
  · dsimp only
    split
    · exact stepKeeps_some _ (resInv_of_eq h rfl rfl rfl rfl rfl)
    · exact stepKeeps_some _ (resInv_of_eq h rfl rfl rfl rfl rfl)
  · split
    · exact stepKeeps_some _ (resInv_of_eq h rfl rfl rfl rfl rfl)
    · exact stepKeeps_some _ (resInv_of_eq h rfl rfl rfl rfl rfl)
  · exact stepKeeps_ite (fun _ => stepKeeps_some _ h) (fun _ => handleMouse_keeps d m _ h)
  · exact stepKeeps_ite (fun _ => stepKeeps_some _ h) fun _ =>
      stepKeeps_ite (fun _ => handleInsertKey_keeps d hV m _ h)
        (fun _ => handleNormalKey_keeps d m _ h)
  · exact stepKeeps_some _ h

theorem newAppModel_keeps {ι : Type} {V : fuzzyMatch → Prop} (d : Deps ι) (filename : Str)
    (pageCount : Int) (allLines : List indexedLine) (startMode : appMode) (initial : Str)
    (hV : ∀ q, ∀ mt ∈ d.Find q (lineStrings allLines), V mt) :
    ResInv V allLines pageCount (newAppModel d filename pageCount allLines startMode initial) := by
  unfold newAppModel
  dsimp only
  split_ifs <;>
    exact ⟨rfl, rfl, rfl, le_refl _, Or.inr rfl, fun mt hmt => by
      first
        | exact hV _ mt hmt
        | simp at hmt⟩

/-- Every reachable state satisfies the invariant of the result list. -/
theorem reachable_keeps {ι : Type} {V : fuzzyMatch → Prop} {allLines : List indexedLine}
    {n : Int} (d : Deps ι) (hV : ∀ q, ∀ mt ∈ d.Find q (lineStrings allLines), V mt)
    (m0 m : appModel ι) (h0 : ResInv V allLines n m0) (hr : Reachable d m0 m) :
    ResInv V allLines n m := by
  induction hr with
  | init => exact h0
  | step m m1 msg c _ hstep ih => exact (Update_keeps d hV m msg ih).1 m1 c hstep

/-- C24: in every state reachable from the first state of the navigator by any
sequence of messages, the result cursor is not negative, is at most
len(matches)-1 when the match list is not empty and is 0 when it is empty, so
`matches[searchCursor]` is in bounds whenever the list is not empty; a query
edit whose new match count is at most the previous cursor position ends with
the cursor 0; and `Update` has no panic on such a state for any message, when
the matcher returns indices of the corpus and the page count is not 0: no
access of the handlers to `matches` is out of bounds. -/
theorem reachable_cursor_in_bounds {ι : Type} (d : Deps ι) (filename : Str) (pageCount : Int)
    (allLines : List indexedLine) (startMode : appMode) (initial : Str) (m : appModel ι)
    (hr : Reachable d (newAppModel d filename pageCount allLines startMode initial) m) :
    0 ≤ m.searchCursor ∧
      (m.matchList ≠ [] → m.searchCursor ≤ len m.matchList - 1) ∧
      (m.matchList = [] → m.searchCursor = 0) ∧
      (m.matchList ≠ [] → ∃ mt, index? m.matchList m.searchCursor = some mt) ∧
      (∀ msg m1 c, handleInsertEdit d m msg = some (m1, c) →
        len m1.matchList ≤ m.searchCursor → m1.searchCursor = 0) ∧
      (pageCount ≠ 0 →
        (∀ q, ∀ mt ∈ d.Find q (lineStrings allLines), 0 ≤ mt.Index ∧ mt.Index < len allLines) →
        ∀ msg, ∃ m1 c, Update d m msg = some (m1, c)) := by
  have hT : ∀ q, ∀ mt ∈ d.Find q (lineStrings allLines), (fun _ : fuzzyMatch => True) mt :=
    fun _ _ _ => trivial
  have h := reachable_keeps d hT _ m
    (newAppModel_keeps d filename pageCount allLines startMode initial hT) hr
  have hlt : m.matchList ≠ [] → m.searchCursor < len m.matchList := by
    intro hne
    have : 0 < len m.matchList := by
      unfold len
      have := List.length_pos.2 hne
      omega
    exact cursor_lt_of_nonempty m h this
  refine ⟨h.curLo, fun hne => by have := hlt hne; omega, ?_, ?_, ?_, ?_⟩
  · intro he
    rcases h.curHi with h1 | h1
    · rw [he] at h1
      have := h.curLo
      simp [len] at h1
      omega
    · exact h1
  · intro hne
    obtain ⟨mt, hmt, _⟩ := index?_of_lt m.matchList m.searchCursor h.curLo (hlt hne)
    exact ⟨mt, hmt⟩
  · intro msg m1 c hstep hle
    unfold handleInsertEdit at hstep
    rw [Option.map_eq_some'] at hstep
    obtain ⟨m3, h3, heq⟩ := hstep
    injection heq with e1 _
    subst e1
    unfold followCursor at h3
    dsimp only at h3
    by_cases hq : d.inputValue (d.inputUpdate m.input msg) = []
    · simp only [hq, if_true] at h3
      split_ifs at h3
      · rw [Option.map_eq_some'] at h3
        obtain ⟨l, _, rfl⟩ := h3
        rfl
      · injection h3 with h3
        subst h3
        rfl
    · simp only [hq, if_false] at h3
      by_cases hp : m.searchCursor ≥ len (d.Find (d.inputValue (d.inputUpdate m.input msg)) m.strs)
      · simp only [hp, if_true] at h3
        split_ifs at h3
        · rw [Option.map_eq_some'] at h3
          obtain ⟨l, _, rfl⟩ := h3
          rfl
        · injection h3 with h3
          subst h3
          rfl
      · simp only [hp, if_false] at h3
        have hm : m3.matchList = d.Find (d.inputValue (d.inputUpdate m.input msg)) m.strs := by
          split_ifs at h3
          · rw [Option.map_eq_some'] at h3
            obtain ⟨l, _, rfl⟩ := h3
            rfl
          · injection h3 with h3
            subst h3
            rfl
        rw [hm] at hle
        omega
  · intro hpc hfind msg
    have h2 := reachable_keeps d hfind _ m
      (newAppModel_keeps d filename pageCount allLines startMode initial hfind) hr
    exact (Update_keeps d hfind m msg h2).2 ⟨fun _ hv => hv, hpc⟩

/-- The state `runMsgs` ends in is reachable. -/
theorem reachable_of_runMsgs {ι : Type} (d : Deps ι) (m0 : appModel ι) :
    ∀ (msgs : List Msg) (m m1 : appModel ι), Reachable d m0 m → runMsgs d m msgs = some m1 →
      Reachable d m0 m1 := by
  intro msgs
  induction msgs with
  | nil =>
    intro m m1 hr h
    injection h with h
    subst h
    exact hr
  | cons msg msgs ih =>
    intro m m1 hr h
    unfold runMsgs at h
    rw [Option.bind_eq_some] at h
    obtain ⟨r, hr1, h2⟩ := h
    exact ih r.1 m1 (Reachable.step m r.1 msg r.2 hr hr1) h2

/-- C24 at a concrete input: ten corpus lines that all match, the window of
25 rows, and three keys `down`: the cursor is 3 of 10 matches. -/
theorem reachable_cursor_in_bounds_witness :
    ∃ m : appModel Str,
      Reachable everyLineDeps (newAppModel everyLineDeps [] 10 tenLines .modeSearch ['a', 'b']) m ∧
      m.searchCursor = 3 ∧ len m.matchList = 10 ∧
      (m.matchList ≠ [] → ∃ mt, index? m.matchList m.searchCursor = some mt) := by
  have hc : (runMsgs everyLineDeps
      (newAppModel everyLineDeps [] 10 tenLines .modeSearch ['a', 'b'])
      [.windowSize 25 80, keyDown, keyDown, keyDown]).map
        (fun m => (m.searchCursor, len m.matchList)) = some (3, 10) := by decide
  rw [Option.map_eq_some'] at hc
  obtain ⟨m, hm, hc⟩ := hc
  have hr := reachable_of_runMsgs everyLineDeps _ _ _ m Reachable.init hm
  simp only [Prod.mk.injEq] at hc
  exact ⟨m, hr, hc.1, hc.2,
    (reachable_cursor_in_bounds everyLineDeps [] 10 tenLines .modeSearch ['a', 'b'] m hr).2.2.2.1⟩

/-! ## Theorems: the viewport of the results -/

theorem lineOfMatch_some {ι : Type} (m : appModel ι) (i : Int) (h0 : 0 ≤ i)
    (h1 : i < len m.matchList) (hidx : ∀ mt ∈ m.matchList, ValidIndex m.allLines mt) :
    ∃ mt l, index? m.matchList i = some mt ∧ index? m.allLines mt.Index = some l ∧
      lineOfMatch m i = some l := by
  obtain ⟨mt, hmt, hmem⟩ := index?_of_lt m.matchList i h0 h1
  have hv := hidx mt hmem
  obtain ⟨l, hl, _⟩ := index?_of_lt m.allLines mt.Index hv.1 hv.2
  exact ⟨mt, l, hmt, hl, by unfold lineOfMatch; rw [hmt]; exact hl⟩

theorem followCursor_fields {ι : Type} (m m1 : appModel ι) (h : followCursor m = some m1) :
    m1.searchCursor = m.searchCursor ∧ m1.searchOffset = m.searchOffset ∧
      m1.mode = m.mode ∧ m1.height = m.height ∧ m1.matchList = m.matchList ∧
      m1.allLines = m.allLines := by
  unfold followCursor at h
  split_ifs at h
  · rw [Option.map_eq_some'] at h
    obtain ⟨l, _, rfl⟩ := h
    exact ⟨rfl, rfl, rfl, rfl, rfl, rfl⟩
  · injection h with h
    subst h
    exact ⟨rfl, rfl, rfl, rfl, rfl, rfl⟩

theorem followCursor_some {ι : Type} (m : appModel ι) (h0 : 0 ≤ m.searchCursor)
    (h1 : m.searchCursor < len m.matchList)
    (hidx : ∀ mt ∈ m.matchList, ValidIndex m.allLines mt) :
    ∃ m1, followCursor m = some m1 := by
  unfold followCursor
  split_ifs
  · obtain ⟨_, l, _, _, hl⟩ := lineOfMatch_some m m.searchCursor h0 h1 hidx
    exact ⟨_, by rw [hl]; rfl⟩
  · exact ⟨m, rfl⟩

theorem resultsVisible_congr {ι : Type} (m m1 : appModel ι) (e1 : m1.mode = m.mode)
    (e2 : m1.height = m.height) : resultsVisible m1 = resultsVisible m := by
  unfold resultsVisible
  rw [e1, e2]

/-- Claim C25 does not hold as stated: ten matches in Search view, the window
25 rows high, three keys `down` (cursor 3, first row shown 0), then the
window shrinks to 7 rows, of which 2 show results; the state is reachable,
its match list is not empty and `resultsVisible` is 2. After the key `up` the
cursor is 2 and the first row shown still 0: the cursor row is below the two
rows of the viewport. -/
theorem move_leaves_cursor_hidden :
    ∃ m m1 : appModel Str,
      Reachable everyLineDeps (newAppModel everyLineDeps [] 10 tenLines .modeSearch ['a', 'b']) m ∧
      m.matchList ≠ [] ∧ resultsVisible m = 2 ∧
      Update everyLineDeps m keyUp = some (m1, .none) ∧
      m1.searchCursor = 2 ∧ m1.searchOffset = 0 ∧ resultsVisible m1 = 2 ∧
      ¬ (m1.searchOffset ≤ m1.searchCursor ∧
        m1.searchCursor < m1.searchOffset + resultsVisible m1) := by
  have hc : (runMsgs everyLineDeps
      (newAppModel everyLineDeps [] 10 tenLines .modeSearch ['a', 'b'])
      [.windowSize 25 80, keyDown, keyDown, keyDown, .windowSize 7 80]).map
        (fun m => ([len m.matchList, resultsVisible m],
          (Update everyLineDeps m keyUp).map fun r =>
            (r.2, [r.1.searchCursor, r.1.searchOffset, resultsVisible r.1]))) =
      some ([10, 2], some (Cmd.none, [2, 0, 2])) := by decide
  rw [Option.map_eq_some'] at hc
  obtain ⟨m, hm, hc⟩ := hc
  have hr := reachable_of_runMsgs everyLineDeps _ _ _ m Reachable.init hm
  simp only [Prod.mk.injEq, List.cons.injEq, and_true] at hc
  obtain ⟨⟨h1, h2⟩, h3⟩ := hc
  rw [Option.map_eq_some'] at h3
  obtain ⟨r, hr1, h3⟩ := h3
  simp only [Prod.mk.injEq, List.cons.injEq, and_true] at h3
  obtain ⟨e1, e2, e3, e4⟩ := h3
  refine ⟨m, r.1, hr, ?_, h2, ?_, e2, e3, e4, ?_⟩
  · intro he
    rw [he] at h1
    simp [len] at h1
  · rw [hr1, ← e1]
  · rw [e2, e3, e4]
    omega

/-- Claim C25, amended: in every state in which the match list is not empty,
at least one result row is visible and the cursor row lies inside the
viewport (searchOffset <= searchCursor < searchOffset + resultsVisible), the
cursor row lies inside the viewport after a move-result-up and after a
move-result-down event. The state is one the navigator reaches: the cursor
is an index of the match list and the matches index the corpus. The events
are the keys `up` and `down` and the two directions of the wheel, which run
`doPrevResult` and `doNextResult` in every state that is not busy. -/
theorem move_keeps_cursor_visible {ι : Type} (d : Deps ι) (m : appModel ι)
    (hcur0 : 0 ≤ m.searchCursor) (hcur : m.searchCursor < len m.matchList)
    (hidx : ∀ mt ∈ m.matchList, ValidIndex m.allLines mt)
    (hvis : 1 ≤ resultsVisible m) (hlo : m.searchOffset ≤ m.searchCursor)
    (hhi : m.searchCursor < m.searchOffset + resultsVisible m) :
    (∃ m1, doPrevResult m = some (m1, .none) ∧ m1.searchOffset ≤ m1.searchCursor ∧
        m1.searchCursor < m1.searchOffset + resultsVisible m1) ∧
      (∃ m1, doNextResult m = some (m1, .none) ∧ m1.searchOffset ≤ m1.searchCursor ∧
        m1.searchCursor < m1.searchOffset + resultsVisible m1) ∧
      (m.splitting = false → ∀ (s : Str) (x y : Int) (a : MouseAction),
        Update d m (.key ⟨.KeyUp, s⟩) = doPrevResult m ∧
        Update d m (.key ⟨.KeyDown, s⟩) = doNextResult m ∧
        Update d m (.mouse ⟨x, y, .MouseButtonWheelUp, a⟩) = doPrevResult m ∧
        Update d m (.mouse ⟨x, y, .MouseButtonWheelDown, a⟩) = doNextResult m) := by
  refine ⟨?_, ?_, ?_⟩
  · unfold doPrevResult
    split_ifs with hc
    · dsimp only
      split_ifs with ho
      · obtain ⟨m3, h3⟩ := followCursor_some
          { m with searchCursor := m.searchCursor - 1, searchOffset := m.searchCursor - 1 }
          (by show 0 ≤ m.searchCursor - 1; omega)
          (by show m.searchCursor - 1 < len m.matchList; omega) hidx
        obtain ⟨f1, f2, f3, f4, _, _⟩ := followCursor_fields _ m3 h3
        refine ⟨m3, by rw [h3]; rfl, ?_, ?_⟩
        · rw [f1, f2]
        · rw [f1, f2, (resultsVisible_congr _ m3 f3 f4).trans (resultsVisible_congr m _ rfl rfl)]
          show m.searchCursor - 1 < m.searchCursor - 1 + resultsVisible m
          omega
      · obtain ⟨m3, h3⟩ := followCursor_some
          { m with searchCursor := m.searchCursor - 1 }
          (by show 0 ≤ m.searchCursor - 1; omega)
          (by show m.searchCursor - 1 < len m.matchList; omega) hidx
        obtain ⟨f1, f2, f3, f4, _, _⟩ := followCursor_fields _ m3 h3
        have ho2 : ¬ m.searchCursor - 1 < m.searchOffset := ho
        refine ⟨m3, by rw [h3]; rfl, ?_, ?_⟩
        · rw [f1, f2]
          show m.searchOffset ≤ m.searchCursor - 1
          omega
        · rw [f1, f2, (resultsVisible_congr _ m3 f3 f4).trans (resultsVisible_congr m _ rfl rfl)]
          show m.searchCursor - 1 < m.searchOffset + resultsVisible m
          omega
    · exact ⟨m, rfl, hlo, hhi⟩
  · unfold doNextResult
    split_ifs with hc
    · dsimp only
      split_ifs with ho
      · obtain ⟨m3, h3⟩ := followCursor_some
          { m with searchCursor := m.searchCursor + 1,
                   searchOffset := m.searchCursor + 1 -
                     resultsVisible { m with searchCursor := m.searchCursor + 1 } + 1 }
          (by show 0 ≤ m.searchCursor + 1; omega)
          (by show m.searchCursor + 1 < len m.matchList; omega) hidx
        obtain ⟨f1, f2, f3, f4, _, _⟩ := followCursor_fields _ m3 h3
        have hv : resultsVisible { m with searchCursor := m.searchCursor + 1 } =
          resultsVisible m := resultsVisible_congr _ m rfl rfl
        refine ⟨m3, by rw [h3]; rfl, ?_, ?_⟩
        · rw [f1, f2]
          show m.searchCursor + 1 - resultsVisible { m with searchCursor := m.searchCursor + 1 }
            + 1 ≤ m.searchCursor + 1
          rw [hv]; omega
        · rw [f1, f2, (resultsVisible_congr _ m3 f3 f4).trans (resultsVisible_congr m _ rfl rfl)]
          show m.searchCursor + 1 < m.searchCursor + 1 -
            resultsVisible { m with searchCursor := m.searchCursor + 1 } + 1 + resultsVisible m
          rw [hv]; omega
      · obtain ⟨m3, h3⟩ := followCursor_some
          { m with searchCursor := m.searchCursor + 1 }
          (by show 0 ≤ m.searchCursor + 1; omega)
          (by show m.searchCursor + 1 < len m.matchList; omega) hidx
        obtain ⟨f1, f2, f3, f4, _, _⟩ := followCursor_fields _ m3 h3
        have hv : resultsVisible { m with searchCursor := m.searchCursor + 1 } =
          resultsVisible m := resultsVisible_congr _ m rfl rfl
        have ho2 : ¬ m.searchCursor + 1 ≥ m.searchOffset +
          resultsVisible { m with searchCursor := m.searchCursor + 1 } := ho
        rw [hv] at ho2
        refine ⟨m3, by rw [h3]; rfl, ?_, ?_⟩
        · rw [f1, f2]
          show m.searchOffset ≤ m.searchCursor + 1
          omega
        · rw [f1, f2, (resultsVisible_congr _ m3 f3 f4).trans (resultsVisible_congr m _ rfl rfl)]
          show m.searchCursor + 1 < m.searchOffset + resultsVisible m
          omega
    · exact ⟨m, rfl, hlo, hhi⟩
  · intro hb s x y a
    refine ⟨?_, ?_, ?_, ?_⟩
    · unfold Update
      simp only [hb]
      cases hi : m.insertMode <;> simp [handleInsertKey, handleNormalKey]
    · unfold Update
      simp only [hb]
      cases hi : m.insertMode <;> simp [handleInsertKey, handleNormalKey]
    · unfold Update
      simp [hb, handleMouse]
    · unfold Update
      simp [hb, handleMouse]

/-- The state of the examples: ten matches in Search view, the window 25 rows
high, the cursor on the result of index 3. -/
theorem sampleState_valid :
    ∀ mt ∈ ({ newAppModel everyLineDeps [] 10 tenLines .modeSearch ['a', 'b'] with
        height := 25, width := 80, searchCursor := 3 } : appModel Str).matchList,
      ValidIndex tenLines mt := by
  unfold ValidIndex
  decide

/-- C25, amended, at a concrete input: ten matches, 20 result rows, the cursor
on the result of index 3. -/
theorem move_keeps_cursor_visible_witness :
    ∃ m1, doNextResult ({ newAppModel everyLineDeps [] 10 tenLines .modeSearch ['a', 'b'] with
        height := 25, width := 80, searchCursor := 3 } : appModel Str) = some (m1, .none) ∧
      m1.searchOffset ≤ m1.searchCursor ∧
      m1.searchCursor < m1.searchOffset + resultsVisible m1 :=
  (move_keeps_cursor_visible everyLineDeps
    ({ newAppModel everyLineDeps [] 10 tenLines .modeSearch ['a', 'b'] with
        height := 25, width := 80, searchCursor := 3 } : appModel Str)
    (by decide) (by decide) sampleState_valid (by decide) (by decide) (by decide)).2.1

/-! ## Theorems: the page that follows the results -/

theorem followCursor_page {ι : Type} (m2 : appModel ι) (c : Cmd)
    (hmode : m2.mode = .modeSplit) (h0 : 0 ≤ m2.searchCursor)
    (h1 : m2.searchCursor < len m2.matchList)
    (hidx : ∀ mt ∈ m2.matchList, ValidIndex m2.allLines mt) :
    ∃ (m1 : appModel ι) (mt : fuzzyMatch) (l : indexedLine),
      (followCursor m2).map (fun m3 => (m3, c)) = some (m1, c) ∧
      m1.matchList = m2.matchList ∧ m1.searchCursor = m2.searchCursor ∧
      index? m2.matchList m2.searchCursor = some mt ∧
      index? m2.allLines mt.Index = some l ∧ m1.currentPage = l.page := by
  obtain ⟨mt, l, e1, e2, e3⟩ := lineOfMatch_some m2 m2.searchCursor h0 h1 hidx
  refine ⟨{ m2 with currentPage := l.page }, mt, l, ?_, rfl, rfl, e1, e2, rfl⟩
  unfold followCursor
  rw [if_pos ⟨hmode, by omega⟩, e3]
  rfl

theorem index?_zero_head {α : Type} (l : List α) (a : α) (h : index? l 0 = some a) :
    l.head? = some a := by
  unfold index? at h
  simp only [lt_self_iff_false, if_false, Int.toNat_zero] at h
  rw [← h, List.head?_eq_getElem?]

/-- Claim C26 does not hold as stated: in Split view and Insert mode, with ten
matches and the cursor on the second one (a reachable state), the key `c`
edits the query; the recomputed match list has ten elements, its first
element is the corpus line of page 1, and the current page after the event is
2, the page of the match under the cursor. -/
theorem edit_follows_cursor_not_top :
    ∃ m m1 : appModel Str,
      Reachable everyLineDeps (newAppModel everyLineDeps [] 10 tenLines .modeSplit ['a', 'b']) m ∧
      m.insertMode = true ∧ m.mode = .modeSplit ∧
      Update everyLineDeps m (keyRune 'c') = some (m1, .input) ∧
      len m1.matchList = 10 ∧ (lineOfMatch m1 0).map (fun l => l.page) = some 1 ∧
      m1.searchCursor = 1 ∧ m1.currentPage = 2 := by
  have hc : (runMsgs everyLineDeps
      (newAppModel everyLineDeps [] 10 tenLines .modeSplit ['a', 'b'])
      [.windowSize 25 80, keyDown]).map
        (fun m => ((m.insertMode, m.mode),
          (Update everyLineDeps m (keyRune 'c')).map fun r =>
            (r.2, (lineOfMatch r.1 0).map (fun l => l.page),
              [len r.1.matchList, r.1.searchCursor, r.1.currentPage]))) =
      some ((true, .modeSplit), some (Cmd.input, some 1, [10, 1, 2])) := by decide
  rw [Option.map_eq_some'] at hc
  obtain ⟨m, hm, hc⟩ := hc
  have hr := reachable_of_runMsgs everyLineDeps _ _ _ m Reachable.init hm
  simp only [Prod.mk.injEq] at hc
  obtain ⟨⟨h1, h2⟩, h3⟩ := hc
  rw [Option.map_eq_some'] at h3
  obtain ⟨r, hr1, h3⟩ := h3
  simp only [Prod.mk.injEq, List.cons.injEq, and_true] at h3
  obtain ⟨e1, e2, e3, e4, e5⟩ := h3
  exact ⟨m, r.1, hr, h1, h2, by rw [hr1, ← e1], e3, e2, e4, e5⟩

/-- Claim C26, amended: for every navigator state in Insert mode and Split view
that is not busy and whose cursor is not negative, and every query-editing
keystroke (a key that goes to the text input) after which the query is not
empty and the recomputed match list, whose matches index the corpus, is not
empty, the current page after the event equals the page of the corpus line
of the match at the result cursor; the cursor is the previous cursor when
that is below the new match count and 0 otherwise, and with the cursor 0 the
match is the top-ranked one, the first element of the new match list. -/
theorem edit_follows_cursor {ι : Type} (d : Deps ι) (m : appModel ι) (msg : KeyMsg)
    (hmode : m.mode = .modeSplit) (hins : m.insertMode = true) (hbusy : m.splitting = false)
    (hkey : msg.type = .KeyRunes ∨ msg.type = .KeyOther ∨ msg.type = .KeyLeft ∨
      msg.type = .KeyRight)
    (hcur : 0 ≤ m.searchCursor)
    (hq : d.inputValue (d.inputUpdate m.input msg) ≠ [])
    (hne : d.Find (d.inputValue (d.inputUpdate m.input msg)) m.strs ≠ [])
    (hidx : ∀ mt ∈ d.Find (d.inputValue (d.inputUpdate m.input msg)) m.strs,
      ValidIndex m.allLines mt) :
    ∃ (m1 : appModel ι) (mt : fuzzyMatch) (l : indexedLine),
      Update d m (.key msg) = some (m1, .input) ∧
      m1.matchList = d.Find (d.inputValue (d.inputUpdate m.input msg)) m.strs ∧
      m1.searchCursor = (if m.searchCursor ≥ len m1.matchList then 0 else m.searchCursor) ∧
      index? m1.matchList m1.searchCursor = some mt ∧
      index? m.allLines mt.Index = some l ∧
      m1.currentPage = l.page ∧
      (m1.searchCursor = 0 → m1.matchList.head? = some mt) := by
  have hU : Update d m (.key msg) = handleInsertEdit d m msg := by
    unfold Update
    simp only [hbusy, hins]
    unfold handleInsertKey
    rcases hkey with h | h | h | h <;> simp [h]
  have hlen : 0 < len (d.Find (d.inputValue (d.inputUpdate m.input msg)) m.strs) := by
    unfold len
    have := List.length_pos.2 hne
    omega
  rw [hU]
  unfold handleInsertEdit
  dsimp only
  rw [if_neg hq]
  by_cases hp : m.searchCursor ≥ len (d.Find (d.inputValue (d.inputUpdate m.input msg)) m.strs)
  · rw [if_pos hp]
    obtain ⟨m1, mt, l, e1, e2, e3, e4, e5, e6⟩ := followCursor_page
      ({ m with
          input := d.inputUpdate m.input msg,
          matchList := d.Find (d.inputValue (d.inputUpdate m.input msg)) m.strs,
          searchCursor := 0, searchOffset := 0 } : appModel ι) .input hmode (le_refl _) hlen hidx
    refine ⟨m1, mt, l, e1, e2, ?_, ?_, e5, e6, ?_⟩
    · rw [e3, e2, if_pos hp]
    · rw [e2, e3]; exact e4
    · intro _
      rw [e2]
      exact index?_zero_head _ mt e4
  · rw [if_neg hp]
    obtain ⟨m1, mt, l, e1, e2, e3, e4, e5, e6⟩ := followCursor_page
      ({ m with
          input := d.inputUpdate m.input msg,
          matchList := d.Find (d.inputValue (d.inputUpdate m.input msg)) m.strs } : appModel ι)
      .input hmode hcur (by
        show m.searchCursor < len (d.Find (d.inputValue (d.inputUpdate m.input msg)) m.strs)
        omega) hidx
    refine ⟨m1, mt, l, e1, e2, ?_, ?_, e5, e6, ?_⟩
    · rw [e3, e2, if_neg hp]
    · rw [e2, e3]; exact e4
    · intro h0
      rw [e3] at h0
      have h0 : m.searchCursor = 0 := h0
      have e4 : index? (d.Find (d.inputValue (d.inputUpdate m.input msg)) m.strs)
        m.searchCursor = some mt := e4
      rw [h0] at e4
      rw [e2]
      exact index?_zero_head _ mt e4

/-- C26, amended, at a concrete input: Split view, ten matches, the cursor on
the second one, the key `c`. -/
theorem edit_follows_cursor_witness :
    ∃ (m1 : appModel Str) (mt : fuzzyMatch) (l : indexedLine),
      Update everyLineDeps
        ({ newAppModel everyLineDeps [] 10 tenLines .modeSplit ['a', 'b'] with
          height := 25, width := 80, searchCursor := 1, currentPage := 2 } : appModel Str)
        (.key ⟨.KeyRunes, ['c']⟩) = some (m1, .input) ∧
      index? m1.matchList m1.searchCursor = some mt ∧
      index? tenLines mt.Index = some l ∧ m1.currentPage = l.page := by
  obtain ⟨m1, mt, l, h1, _, _, h4, h5, h6, _⟩ := edit_follows_cursor everyLineDeps
    ({ newAppModel everyLineDeps [] 10 tenLines .modeSplit ['a', 'b'] with
      height := 25, width := 80, searchCursor := 1, currentPage := 2 } : appModel Str)
    ⟨.KeyRunes, ['c']⟩ rfl rfl rfl (Or.inl rfl) (by decide) (by decide) (by decide)
    (by unfold ValidIndex; decide)
  exact ⟨m1, mt, l, h1, h4, h5, h6⟩

/-! ## Theorems: the code against the claims on clicks and the timeline -/

/-- C29, the code against the claim: in Search view with 7 rows (header 0,
separator 1, results 2 and 3, separator 4, input 5, hints 6), ten matches,
the cursor on the result of index 3 and the first row shown 2, a press of the
left button on the header row 0 moves the cursor to 0, one on the separator
row 4 moves it to 4 and one on the hints row 6 moves it to 6; in Split view
with 11 rows, the cursor on the result of index 8 of page 9 and the first row
shown 8, a press on the header row 0 moves the cursor to 1 and the current
page to 2. All three states are reachable and not busy, and no result is
drawn on these rows. -/
theorem press_off_results_moves_cursor :
    (∃ m : appModel Str,
      Reachable everyLineDeps (newAppModel everyLineDeps [] 10 tenLines .modeSearch ['a', 'b']) m ∧
      m.splitting = false ∧ m.mode = .modeSearch ∧ m.height = 7 ∧
      m.searchCursor = 3 ∧ m.searchOffset = 2 ∧ resultsVisible m = 2 ∧
      (Update everyLineDeps m (leftPress 0 0)).map (fun r => r.1.searchCursor) = some 0 ∧
      (Update everyLineDeps m (leftPress 0 4)).map (fun r => r.1.searchCursor) = some 4 ∧
      (Update everyLineDeps m (leftPress 0 6)).map (fun r => r.1.searchCursor) = some 6) ∧
    ∃ m : appModel Str,
      Reachable everyLineDeps (newAppModel everyLineDeps [] 10 tenLines .modeSplit ['a', 'b']) m ∧
      m.splitting = false ∧ m.mode = .modeSplit ∧ m.height = 11 ∧
      m.searchCursor = 8 ∧ m.searchOffset = 8 ∧ resultsVisible m = 1 ∧ m.currentPage = 9 ∧
      (Update everyLineDeps m (leftPress 0 0)).map
        (fun r => (r.1.searchCursor, r.1.currentPage)) = some (1, 2) := by
  constructor
  · have hc : (runMsgs everyLineDeps
        (newAppModel everyLineDeps [] 10 tenLines .modeSearch ['a', 'b'])
        [.windowSize 7 80, keyDown, keyDown, keyDown]).map
          (fun m => ((m.splitting, m.mode),
            [m.height, m.searchCursor, m.searchOffset, resultsVisible m],
            [(Update everyLineDeps m (leftPress 0 0)).map (fun r => r.1.searchCursor),
             (Update everyLineDeps m (leftPress 0 4)).map (fun r => r.1.searchCursor),
             (Update everyLineDeps m (leftPress 0 6)).map (fun r => r.1.searchCursor)])) =
        some ((false, .modeSearch), [7, 3, 2, 2], [some 0, some 4, some 6]) := by decide
    rw [Option.map_eq_some'] at hc
    obtain ⟨m, hm, hc⟩ := hc
    have hr := reachable_of_runMsgs everyLineDeps _ _ _ m Reachable.init hm
    simp only [Prod.mk.injEq, List.cons.injEq, and_true] at hc
    obtain ⟨⟨h1, h2⟩, ⟨h3, h4, h5, h6⟩, h7, h8, h9⟩ := hc
    exact ⟨m, hr, h1, h2, h3, h4, h5, h6, h7, h8, h9⟩
  · have hc : (runMsgs everyLineDeps
        (newAppModel everyLineDeps [] 10 tenLines .modeSplit ['a', 'b'])
        [.windowSize 11 80, keyDown, keyDown, keyDown, keyDown, keyDown, keyDown, keyDown,
          keyDown]).map
          (fun m => ((m.splitting, m.mode),
            [m.height, m.searchCursor, m.searchOffset, resultsVisible m, m.currentPage],
            (Update everyLineDeps m (leftPress 0 0)).map
              (fun r => (r.1.searchCursor, r.1.currentPage)))) =
        some ((false, .modeSplit), [11, 8, 8, 1, 9], some (1, 2)) := by decide
    rw [Option.map_eq_some'] at hc
    obtain ⟨m, hm, hc⟩ := hc
    have hr := reachable_of_runMsgs everyLineDeps _ _ _ m Reachable.init hm
    simp only [Prod.mk.injEq, List.cons.injEq, and_true] at hc
    obtain ⟨⟨h1, h2⟩, ⟨h3, h4, h5, h6, h7⟩, h8⟩ := hc
    exact ⟨m, hr, h1, h2, h3, h4, h5, h6, h7, h8⟩

/-- C28, the code against the claim: the state `newAppModel` constructs for
`pageCount = 0` has no page width (the divisor of the division is 0), so
`pageAtX` and `renderTimeline` end in a panic on it; and from such a first
state the key `tab` leads to Split view, where the press on the timeline row
and the timeline of the view end in that panic. -/
theorem zero_pages_layout_panics {ι : Type} (d : Deps ι) (filename : Str)
    (allLines : List indexedLine) (startMode : appMode) (initial : Str) :
    pageWidth (newAppModel d filename 0 allLines startMode initial) = none ∧
      (∀ x, pageAtX (newAppModel d filename 0 allLines startMode initial) x = none) ∧
      renderTimeline (newAppModel d filename 0 allLines startMode initial) = none ∧
      ∃ m : appModel Str,
        Reachable everyLineDeps (newAppModel everyLineDeps [] 0 tenLines .modeSearch ['a', 'b'])
          m ∧
        m.mode = .modeSplit ∧ m.height = 25 ∧ renderTimeline m = none ∧
        Update everyLineDeps m (leftPress 5 1) = none := by
  have hpc : (newAppModel d filename 0 allLines startMode initial).pageCount = 0 := by
    unfold newAppModel
    dsimp only
    split_ifs <;> rfl
  have hsp : (newAppModel d filename 0 allLines startMode initial).splitPoints = [] := by
    unfold newAppModel
    dsimp only
    split_ifs <;> rfl
  have hw : pageWidth (newAppModel d filename 0 allLines startMode initial) = none := by
    unfold pageWidth
    simp only [hpc, if_true]
  refine ⟨hw, ?_, ?_, ?_⟩
  · intro x
    unfold pageAtX
    rw [hw]
    rfl
  · unfold renderTimeline
    rw [hw]
    cases makeInts ((newAppModel d filename 0 allLines startMode initial).pageCount + 1) with
    | none => rfl
    | some tbl =>
      simp only [Option.some_bind]
      cases fillPageSegment (buildSegments (newAppModel d filename 0 allLines startMode initial))
        0 tbl with
      | none => rfl
      | some t => rfl
  · have hc : (runMsgs everyLineDeps
        (newAppModel everyLineDeps [] 0 tenLines .modeSearch ['a', 'b'])
        [.windowSize 25 80, .key ⟨.KeyTab, ['t', 'a', 'b']⟩]).map
          (fun m => (m.mode, m.height, renderTimeline m,
            (Update everyLineDeps m (leftPress 5 1)).map (fun r => r.2))) =
        some (.modeSplit, 25, none, none) := by decide
    rw [Option.map_eq_some'] at hc
    obtain ⟨m, hm, hc⟩ := hc
    have hr := reachable_of_runMsgs everyLineDeps _ _ _ m Reachable.init hm
    simp only [Prod.mk.injEq, Option.map_eq_none'] at hc
    obtain ⟨h1, h2, h3, h4⟩ := hc
    exact ⟨m, hr, h1, h2, h3, h4⟩

/-- C27, the code against the claim: 30 pages on a terminal of 80 columns, in
Split view without split points (a reachable state). The page width is 2, but
the tokens of the pages 10 to 30 are 3 columns wide: column 22 of the
timeline row is the last column of the token of page 10, and `pageAtX(22)` is
11; the press on that column makes 11 the current page. -/
theorem pageAtX_differs_from_timeline :
    ∃ (m : appModel Str) (spans : List TimelineSpan),
      Reachable plainDeps (newAppModel plainDeps ['f'] 30 [] .modeSplit []) m ∧
      m.mode = .modeSplit ∧ m.pageCount = 30 ∧ m.width = 80 ∧ pageWidth m = some 2 ∧
      renderTimeline m = some spans ∧
      (timelineColumns spans)[22]? = some (some 10) ∧
      pageAtX m 22 = some 11 ∧
      (Update plainDeps m (leftPress 22 1)).map (fun r => r.1.currentPage) = some 11 := by
  have hc : (runMsgs plainDeps (newAppModel plainDeps ['f'] 30 [] .modeSplit [])
      [.windowSize 24 80]).map
        (fun m => (m.mode, [m.pageCount, m.width],
          [pageWidth m, pageAtX m 22,
            (Update plainDeps m (leftPress 22 1)).map (fun r => r.1.currentPage)],
          (renderTimeline m).map (fun spans => (timelineColumns spans)[22]?))) =
      some (.modeSplit, [30, 80], [some 2, some 11, some 11], some (some (some 10))) := by
    decide
  rw [Option.map_eq_some'] at hc
  obtain ⟨m, hm, hc⟩ := hc
  have hr := reachable_of_runMsgs plainDeps _ _ _ m Reachable.init hm
  simp only [Prod.mk.injEq, List.cons.injEq, and_true] at hc
  obtain ⟨h1, ⟨h2, h3⟩, ⟨h4, h5, h6⟩, h7⟩ := hc
  rw [Option.map_eq_some'] at h7
  obtain ⟨spans, hs, h7⟩ := h7
  exact ⟨m, spans, hr, h1, h2, h3, h4, hs, h7, h5, h6⟩

/-! ## Theorems: text lines -/

theorem dropWhile_of_head {α : Type} (p : α → Bool) :
    ∀ l : List α, (∀ a, l.head? = some a → p a = false) → l.dropWhile p = l := by
  intro l h
  cases l with
  | nil => rfl
  | cons a t =>
    have := h a rfl
    simp [List.dropWhile, this]

theorem head?_dropWhile_not {α : Type} (p : α → Bool) :
    ∀ (l : List α) (a : α), (l.dropWhile p).head? = some a → p a = false := by
  intro l
  induction l with
  | nil => intro a h; simp at h
  | cons b t ih =>
    intro a h
    by_cases hb : p b = true
    · rw [List.dropWhile_cons_of_pos hb] at h
      exact ih a h
    · rw [List.dropWhile_cons_of_neg hb] at h
      simp only [List.head?_cons, Option.some.injEq] at h
      subst h
      simpa using hb

theorem dropWhile_suffix_head {α : Type} (p : α → Bool) :
    ∀ (l : List α) (a : α), (l.reverse.dropWhile p).reverse.head? = some a → l.head? = some a := by
  intro l a h
  have hs : (l.reverse.dropWhile p).reverse <+: l := by
    have := List.dropWhile_suffix p (l := l.reverse)
    have h2 := List.reverse_prefix.2 this
    rwa [List.reverse_reverse] at h2
  obtain ⟨t, ht⟩ := hs
  cases hx : (l.reverse.dropWhile p).reverse with
  | nil => rw [hx] at h; simp at h
  | cons b u =>
    rw [hx] at h ht
    rw [← ht]
    simpa using h

/-- `TrimSpace` leaves a trimmed string as it is. -/
theorem TrimSpace_idem (s : Str) : TrimSpace (TrimSpace s) = TrimSpace s := by
  have h1 : ∀ a, (TrimSpace s).head? = some a → isSpace a = false := by
    intro a h
    unfold TrimSpace at h
    exact head?_dropWhile_not isSpace s a (dropWhile_suffix_head isSpace _ a h)
  have h2 : ∀ a, (TrimSpace s).reverse.head? = some a → isSpace a = false := by
    intro a h
    unfold TrimSpace at h
    rw [List.reverse_reverse] at h
    exact head?_dropWhile_not isSpace _ a h
  show (((TrimSpace s).dropWhile isSpace).reverse.dropWhile isSpace).reverse = TrimSpace s
  rw [dropWhile_of_head isSpace _ h1, dropWhile_of_head isSpace _ h2, List.reverse_reverse]

theorem length_le_byteLen (s : Str) : (s.length : Int) ≤ byteLen s := by
  unfold byteLen
  have : s.length ≤ (s.map Char.utf8Size).sum := by
    induction s with
    | nil => simp
    | cons c t ih =>
      have := Char.utf8Size_pos c
      simp only [List.length_cons, List.map_cons, List.sum_cons]
      omega
  exact_mod_cast this

theorem loadLinesPage_eq (page : Int) :
    ∀ (ls : List Str) (lines : List indexedLine),
      loadLinesPage page ls lines =
        lines ++ (((ls.map TrimSpace).filter fun l => decide (2 ≤ byteLen l)).map
          fun l => (⟨page, l⟩ : indexedLine)) := by
  intro ls
  induction ls with
  | nil => intro lines; simp [loadLinesPage]
  | cons l ls ih =>
    intro lines
    unfold loadLinesPage
    by_cases h : byteLen (TrimSpace l) ≥ 2
    · have h2 : 2 ≤ byteLen (TrimSpace l) := h
      simp only [h, if_true, ih, List.map_cons, List.filter_cons, h2, decide_True,
        List.append_assoc, List.singleton_append]
    · have h2 : ¬ 2 ≤ byteLen (TrimSpace l) := h
      simp only [h, if_false, ih, List.map_cons, List.filter_cons, h2, decide_False]
      rfl

theorem loadLinesLoop_eq (pageTexts : List (Int × Str)) :
    ∀ (pages : List Int) (lines : List indexedLine),
      loadLinesLoop pageTexts pages lines =
        lines ++ pages.flatMap fun page =>
          (keptLines (textOfPage pageTexts page)).map fun l => (⟨page, l⟩ : indexedLine) := by
  intro pages
  induction pages with
  | nil => intro lines; simp [loadLinesLoop]
  | cons p ps ih =>
    intro lines
    unfold loadLinesLoop
    rw [ih, loadLinesPage_eq]
    simp [keptLines, List.flatMap_cons]

theorem textOfPage_of_mem :
    ∀ (pageTexts : List (Int × Str)), (pageTexts.map Prod.fst).Nodup →
      ∀ p t, (p, t) ∈ pageTexts → textOfPage pageTexts p = t := by
  intro pageTexts
  induction pageTexts with
  | nil => intro _ p t h; simp at h
  | cons e es ih =>
    intro hnd p t h
    obtain ⟨q, u⟩ := e
    simp only [List.map_cons, List.nodup_cons] at hnd
    rcases List.mem_cons.1 h with h1 | h1
    · injection h1 with e1 e2
      subst e1 e2
      simp [textOfPage, List.lookup]
    · have hne : p ≠ q := by
        rintro rfl
        exact hnd.1 (List.mem_map.2 ⟨(p, t), h1, rfl⟩)
      have := ih hnd.2 p t h1
      unfold textOfPage at this ⊢
      rw [List.lookup_cons]
      have hb : (p == q) = false := by simpa using hne
      rw [hb]
      exact this

theorem pages_ascending (f : Int → List Str) :
    ∀ pages : List Int, pages.Pairwise (fun a b => a ≤ b) →
      ((pages.flatMap fun page => (f page).map fun l => (⟨page, l⟩ : indexedLine)).map
        fun l => l.page).Pairwise (fun a b => a ≤ b) := by
  intro pages
  induction pages with
  | nil => intro _; simp
  | cons p ps ih =>
    intro h
    rw [List.pairwise_cons] at h
    rw [List.flatMap_cons, List.map_append, List.pairwise_append]
    refine ⟨?_, ih h.2, ?_⟩
    · rw [List.map_map]
      rw [List.pairwise_map]
      exact List.pairwise_of_forall (fun _ _ => le_refl _)
    · intro a ha b hb
      rw [List.map_map] at ha
      simp only [List.mem_map, Function.comp_apply] at ha
      obtain ⟨_, _, rfl⟩ := ha
      simp only [List.mem_map, List.mem_flatMap] at hb
      obtain ⟨l, ⟨q, hq, hl⟩, rfl⟩ := hb
      obtain ⟨_, _, rfl⟩ := hl
      exact h.1 q hq

/-- Claim C22 does not hold as stated: the length is counted in bytes. A page
whose text is the one character `é` (2 bytes in UTF-8), and one whose text is
a bullet (3 bytes), give lines of 1 character. -/
theorem loadLines_keeps_one_character :
    loadLines (.ok [(1, ['é']), (2, ['•'])]) = .ok [⟨1, ['é']⟩, ⟨2, ['•']⟩] ∧
      (['é'] : Str).length = 1 ∧ byteLen ['é'] = 2 ∧ TrimSpace ['é'] = ['é'] := by
  decide

/-- Claim C22, amended: for every mapping from page number to extracted text
(the list of its entries, each page once), `loadLines` returns the lines
`keptLines` of the pages in ascending page order, the lines of a page in
the order of its text. Every line returned has a text that is
whitespace-trimmed and at least 2 bytes long in UTF-8; every trimmed line of
at least 2 bytes is kept, so every trimmed line of at least 2 characters is
kept; and an error of the text extraction is returned as it is. -/
theorem loadLines_kept (pageTexts : List (Int × Str))
    (hnd : (pageTexts.map Prod.fst).Nodup) :
    ∃ lines : List indexedLine,
      loadLines (.ok pageTexts) = .ok lines ∧
      lines = ((pageTexts.map Prod.fst).insertionSort (fun a b => a ≤ b)).flatMap
        (fun page => (keptLines (textOfPage pageTexts page)).map
          fun l => (⟨page, l⟩ : indexedLine)) ∧
      (∀ line ∈ lines, TrimSpace line.text = line.text ∧ 2 ≤ byteLen line.text) ∧
      (lines.map fun l => l.page).Pairwise (fun a b => a ≤ b) ∧
      (∀ p t, (p, t) ∈ pageTexts → ∀ l ∈ Split t '\n',
        2 ≤ byteLen (TrimSpace l) → (⟨p, TrimSpace l⟩ : indexedLine) ∈ lines) ∧
      (∀ p t, (p, t) ∈ pageTexts → ∀ l ∈ Split t '\n',
        2 ≤ (TrimSpace l).length → (⟨p, TrimSpace l⟩ : indexedLine) ∈ lines) ∧
      ∀ err, loadLines (.error err) = .error err := by
  have hkept : ∀ p t, (p, t) ∈ pageTexts → ∀ l ∈ Split t '\n',
      2 ≤ byteLen (TrimSpace l) → (⟨p, TrimSpace l⟩ : indexedLine) ∈
        ((pageTexts.map Prod.fst).insertionSort (fun a b => a ≤ b)).flatMap
          (fun page => (keptLines (textOfPage pageTexts page)).map
            fun l => (⟨page, l⟩ : indexedLine)) := by
    intro p t hpt l hl h2
    rw [List.mem_flatMap]
    refine ⟨p, ?_, ?_⟩
    · rw [(List.perm_insertionSort _ _).mem_iff]
      exact List.mem_map.2 ⟨(p, t), hpt, rfl⟩
    · rw [textOfPage_of_mem pageTexts hnd p t hpt]
      refine List.mem_map.2 ⟨TrimSpace l, ?_, rfl⟩
      unfold keptLines
      rw [List.mem_filter]
      exact ⟨List.mem_map.2 ⟨l, hl, rfl⟩, by simpa using h2⟩
  refine ⟨_, ?_, rfl, ?_, ?_, hkept, ?_, fun _ => rfl⟩
  · show Except.ok (loadLinesLoop pageTexts _ []) = _
    rw [loadLinesLoop_eq]
    rfl
  · intro line hline
    rw [List.mem_flatMap] at hline
    obtain ⟨page, _, hl⟩ := hline
    rw [List.mem_map] at hl
    obtain ⟨l, hl, rfl⟩ := hl
    unfold keptLines at hl
    rw [List.mem_filter, List.mem_map] at hl
    obtain ⟨⟨l0, _, rfl⟩, h2⟩ := hl
    exact ⟨TrimSpace_idem l0, by simpa using h2⟩
  · exact pages_ascending _ _ (List.sorted_insertionSort _ _)
  · intro p t hpt l hl h2
    refine hkept p t hpt l hl ?_
    have := length_le_byteLen (TrimSpace l)
    omega

/-- C22, amended, at a concrete input: two pages given out of order, with a
line of one letter, a blank line, and lines to trim. -/
theorem loadLines_kept_witness :
    ([(2, "x\n  hello \n\n ab".toList), (1, "foo bar\n a ".toList)].map Prod.fst).Nodup ∧
      loadLines (.ok [(2, "x\n  hello \n\n ab".toList), (1, "foo bar\n a ".toList)]) =
        .ok [⟨1, "foo bar".toList⟩, ⟨2, "hello".toList⟩, ⟨2, "ab".toList⟩] := by
  obtain ⟨lines, h1, h2, _⟩ := loadLines_kept
    [(2, "x\n  hello \n\n ab".toList), (1, "foo bar\n a ".toList)] (by decide)
  refine ⟨by decide, ?_⟩
  rw [h1, h2]
  decide

/-! ## Theorems: the non-interactive search -/

theorem staticSearchLoop_eq (impl : Int → Int → Int) (allLines : List indexedLine)
    (queryLen searchThresh maxResults : Int) :
    ∀ (ms : List fuzzyMatch) (count : Int) (rows : List SearchRow),
      count < maxResults → (∀ mt ∈ ms, ValidIndex allLines mt) →
      staticSearchLoop impl allLines queryLen searchThresh maxResults ms count rows =
        some (rows ++ ((qualifying impl queryLen searchThresh ms).take
            (maxResults - count).toNat).filterMap (rowOfMatch impl allLines queryLen),
          count + len ((qualifying impl queryLen searchThresh ms).take
            (maxResults - count).toNat)) := by
  intro ms
  induction ms with
  | nil =>
    intro count rows _ _
    simp [staticSearchLoop, qualifying, len]
  | cons m ms ih =>
    intro count rows hc hv
    have hvm := hv m (List.mem_cons_self _ _)
    have hvs : ∀ mt ∈ ms, ValidIndex allLines mt := fun mt h => hv mt (List.mem_cons_of_mem _ h)
    unfold staticSearchLoop
    simp only
    by_cases hs : scorePercentOn impl m.Score queryLen < searchThresh
    · rw [if_pos hs, ih count rows hc hvs]
      have : ¬ searchThresh ≤ scorePercentOn impl m.Score queryLen := by omega
      simp [qualifying, List.filter_cons, this]
    · rw [if_neg hs]
      obtain ⟨line, hline, _⟩ := index?_of_lt allLines m.Index hvm.1 hvm.2
      rw [hline]
      simp only
      have hq : qualifying impl queryLen searchThresh (m :: ms) =
          m :: qualifying impl queryLen searchThresh ms := by
        have : searchThresh ≤ scorePercentOn impl m.Score queryLen := by omega
        simp [qualifying, List.filter_cons, this]
      have hrow : rowOfMatch impl allLines queryLen m =
          some ⟨line.page, scorePercentOn impl m.Score queryLen, line.text, m.MatchedIndexes⟩ := by
        unfold rowOfMatch
        rw [hline]
        rfl
      obtain ⟨k, hk⟩ : ∃ k : Nat, (maxResults - count).toNat = k + 1 :=
        ⟨(maxResults - count).toNat - 1, by omega⟩
      by_cases hfull : count + 1 ≥ maxResults
      · rw [if_pos hfull, hq, hk]
        have hk0 : k = 0 := by omega
        subst hk0
        simp [List.take, hrow, len]
      · rw [if_neg hfull, ih (count + 1) _ (by omega) hvs, hq, hk]
        have hk2 : (maxResults - (count + 1)).toNat = k := by omega
        rw [hk2]
        simp only [List.take_succ_cons, List.filterMap_cons, hrow, List.append_assoc,
          List.singleton_append, len, List.length_cons]
        congr 2
        push_cast
        ring

theorem scorePercent_perfect (queryLen : Int) (h1 : 1 ≤ queryLen)
    (h2 : queryLen * queryLen ≤ 2 ^ 56) : scorePercent 0 queryLen = some 100 := by
  have h0 : queryLen ≠ 0 := by omega
  have hD1 : 0 < queryLen * queryLen := mul_self_pos.2 h0
  obtain ⟨p, _, _, hp, heq⟩ := scorePercent_eq 0 queryLen h0
    (lt_of_le_of_lt h2 (by norm_num)) (by omega) (by omega)
  rw [heq]
  have : (100 : Int) ≤ ⌊p⌋ := Int.le_floor.2 (by exact_mod_cast hp (le_refl _))
  split_ifs
  · rfl
  · congr 1; omega

/-- Claim C23, the code against the claim and against the flag's own
description ("Max results"): with the maximum 0 (and the threshold 30) the
search prints one line, the first match that reaches the threshold, which is
more than the maximum and not the first 0 of the qualifying matches: the
counter is compared with the maximum only after the line is printed. -/
theorem staticSearch_prints_one_for_zero :
    staticSearch everyLineDeps.Find (fun _ _ => 0) 30 0 [⟨1, ['a', 'b']⟩, ⟨2, ['c', 'd']⟩]
        ['a', 'b'] =
      some (.ok { rows := [⟨1, 100, ['a', 'b'], []⟩], warning := false }) := by
  have hs : scorePercentOn (fun _ _ => 0) 0 2 = 100 := by
    unfold scorePercentOn
    rw [scorePercent_perfect 2 (by norm_num) (by norm_num)]
  have hb : byteLen ['a', 'b'] = 2 := by decide
  have hf : everyLineDeps.Find ['a', 'b'] (lineStrings [⟨1, ['a', 'b']⟩, ⟨2, ['c', 'd']⟩]) =
      [⟨['a', 'b'], 0, [], 0⟩, ⟨['c', 'd'], 1, [], 0⟩] := by decide
  unfold staticSearch
  rw [if_neg (by decide)]
  simp only [hb, hf]
  unfold staticSearchLoop
  simp only [hs]
  rw [if_neg (by decide)]
  have hi : index? [(⟨1, ['a', 'b']⟩ : indexedLine), ⟨2, ['c', 'd']⟩] 0 =
      some ⟨1, ['a', 'b']⟩ := by decide
  simp only [hi]
  rw [if_pos (by decide)]
  rfl

/-- Where the cap of the non-interactive search holds: for every corpus,
non-empty query, threshold and maximum maxResults >= 1 (and a matcher whose
matches index the corpus), the lines `staticSearch` prints are, in matcher rank order, exactly the first
maxResults of the matches whose score in percent is >= the threshold, each
with the page and text of its corpus line; so the number of printed lines
never exceeds maxResults and no printed line has a score below the
threshold; the warning is printed when there is no line. -/
theorem staticSearch_rows (Find : Str → List Str → List fuzzyMatch) (impl : Int → Int → Int)
    (searchThresh maxResults : Int) (allLines : List indexedLine) (query : Str)
    (hq : query ≠ []) (hmax : 1 ≤ maxResults)
    (hidx : ∀ mt ∈ Find query (lineStrings allLines), ValidIndex allLines mt) :
    ∃ out : SearchOutput,
      staticSearch Find impl searchThresh maxResults allLines query = some (.ok out) ∧
      out.rows = ((qualifying impl (byteLen query) searchThresh
          (Find query (lineStrings allLines))).take maxResults.toNat).filterMap
            (rowOfMatch impl allLines (byteLen query)) ∧
      out.rows.length = ((qualifying impl (byteLen query) searchThresh
          (Find query (lineStrings allLines))).take maxResults.toNat).length ∧
      len out.rows ≤ maxResults ∧
      (∀ r ∈ out.rows, searchThresh ≤ r.score) ∧
      (out.warning = true ↔ out.rows = []) := by
  have hloop := staticSearchLoop_eq impl allLines (byteLen query) searchThresh maxResults
    (Find query (lineStrings allLines)) 0 [] (by omega) hidx
  simp only [sub_zero, List.nil_append, zero_add] at hloop
  have hlen : ∀ ms : List fuzzyMatch, (∀ mt ∈ ms, ValidIndex allLines mt) →
      (ms.filterMap (rowOfMatch impl allLines (byteLen query))).length = ms.length := by
    intro ms
    induction ms with
    | nil => intro _; rfl
    | cons m ms ih =>
      intro hv
      have hvm := hv m (List.mem_cons_self _ _)
      obtain ⟨line, hline, _⟩ := index?_of_lt allLines m.Index hvm.1 hvm.2
      have hrow : rowOfMatch impl allLines (byteLen query) m = some
          ⟨line.page, scorePercentOn impl m.Score (byteLen query), line.text,
            m.MatchedIndexes⟩ := by
        unfold rowOfMatch
        rw [hline]
        rfl
      rw [List.filterMap_cons, hrow]
      simp only [List.length_cons]
      rw [ih (fun mt h => hv mt (List.mem_cons_of_mem _ h))]
  have hsub : ∀ mt ∈ (qualifying impl (byteLen query) searchThresh
      (Find query (lineStrings allLines))).take maxResults.toNat,
      mt ∈ Find query (lineStrings allLines) ∧
        searchThresh ≤ scorePercentOn impl mt.Score (byteLen query) := by
    intro mt hmt
    have h1 := List.mem_of_mem_take hmt
    unfold qualifying at h1
    rw [List.mem_filter] at h1
    exact ⟨h1.1, by simpa using h1.2⟩
  have hl := hlen _ (fun mt hmt => hidx mt (hsub mt hmt).1)
  refine ⟨SearchOutput.mk
      (((qualifying impl (byteLen query) searchThresh
        (Find query (lineStrings allLines))).take maxResults.toNat).filterMap
          (rowOfMatch impl allLines (byteLen query)))
      (decide (len ((qualifying impl (byteLen query) searchThresh
        (Find query (lineStrings allLines))).take maxResults.toNat) = 0)),
    ?_, rfl, hl, ?_, ?_, ?_⟩
  · unfold staticSearch
    rw [if_neg hq]
    simp only
    rw [hloop]
    rfl
  · unfold len
    rw [hl, List.length_take]
    omega
  · intro r hr
    rw [List.mem_filterMap] at hr
    obtain ⟨mt, hmt, hrow⟩ := hr
    unfold rowOfMatch at hrow
    rw [Option.map_eq_some'] at hrow
    obtain ⟨line, _, rfl⟩ := hrow
    exact (hsub mt hmt).2
  · show decide (len _ = 0) = true ↔ List.filterMap _ _ = []
    rw [decide_eq_true_iff, ← List.length_eq_zero, hl]
    unfold len
    omega

/-- The cap at a concrete input: two lines that match with the score 100, the
threshold 30 and the maximum 1. -/
theorem staticSearch_rows_witness :
    ∃ out : SearchOutput,
      staticSearch everyLineDeps.Find (fun _ _ => 0) 30 1
        [⟨1, ['a', 'b']⟩, ⟨2, ['c', 'd']⟩] ['a', 'b'] = some (.ok out) ∧
      len out.rows ≤ 1 ∧ ∀ r ∈ out.rows, 30 ≤ r.score := by
  obtain ⟨out, h1, _, _, h4, h5, _⟩ := staticSearch_rows everyLineDeps.Find (fun _ _ => 0) 30 1
    [⟨1, ['a', 'b']⟩, ⟨2, ['c', 'd']⟩] ['a', 'b'] (by decide) (by decide)
    (by unfold ValidIndex; decide)
  exact ⟨out, h1, h4, h5⟩

/-! ## Theorems: where the click and the timeline agree -/

theorem pageWidth_none_iff {ι : Type} (m : appModel ι) :
    pageWidth m = none ↔ m.pageCount = 0 := by
  unfold pageWidth
  by_cases h : m.pageCount = 0
  · simp [h]
  · simp [h]

theorem pageWidth_range {ι : Type} (m : appModel ι) (pw : Int) (h : pageWidth m = some pw) :
    1 ≤ pw ∧ pw ≤ 4 := by
  unfold pageWidth at h
  simp only at h
  split_ifs at h with h0 h1 h2
  · injection h with h; omega
  · injection h with h; omega
  · injection h with h; omega

theorem setAt_some (tbl : List Int) (i v : Int) (hi : 0 ≤ i ∧ i < len tbl) (hv : 0 ≤ v)
    (hnn : ∀ x ∈ tbl, 0 ≤ x) :
    ∃ t, setAt tbl i v = some t ∧ len t = len tbl ∧ ∀ x ∈ t, 0 ≤ x := by
  unfold setAt
  rw [if_pos hi]
  refine ⟨_, rfl, by simp [len], ?_⟩
  intro x hx
  rcases List.mem_or_eq_of_mem_set hx with h | h
  · exact hnn x h
  · rw [h]; exact hv

theorem fillSegment_some (si : Int) (hsi : 0 ≤ si) :
    ∀ (ps : List Int) (tbl : List Int), (∀ p ∈ ps, 0 ≤ p ∧ p < len tbl) →
      (∀ x ∈ tbl, 0 ≤ x) →
      ∃ t, fillSegment si ps tbl = some t ∧ len t = len tbl ∧ ∀ x ∈ t, 0 ≤ x := by
  intro ps
  induction ps with
  | nil => intro tbl _ hnn; exact ⟨tbl, rfl, rfl, hnn⟩
  | cons p ps ih =>
    intro tbl hp hnn
    obtain ⟨t1, h1, hl1, hn1⟩ := setAt_some tbl p si (hp p (List.mem_cons_self _ _)) hsi hnn
    obtain ⟨t2, h2, hl2, hn2⟩ := ih t1
      (fun q hq => by rw [hl1]; exact hp q (List.mem_cons_of_mem _ hq)) hn1
    refine ⟨t2, ?_, by rw [hl2, hl1], hn2⟩
    unfold fillSegment
    rw [h1]
    exact h2

theorem fillPageSegment_some :
    ∀ (segs : List segment) (si : Int) (tbl : List Int), 0 ≤ si →
      (∀ seg ∈ segs, 0 ≤ seg.start ∧ seg.stop < len tbl) → (∀ x ∈ tbl, 0 ≤ x) →
      ∃ t, fillPageSegment segs si tbl = some t ∧ len t = len tbl ∧ ∀ x ∈ t, 0 ≤ x := by
  intro segs
  induction segs with
  | nil => intro si tbl _ _ hnn; exact ⟨tbl, rfl, rfl, hnn⟩
  | cons seg segs ih =>
    intro si tbl hsi hs hnn
    have hseg := hs seg (List.mem_cons_self _ _)
    obtain ⟨t1, h1, hl1, hn1⟩ := fillSegment_some si hsi (intRange seg.start seg.stop) tbl
      (fun p hp => by
        have := (mem_intRange _ _ _).1 hp
        omega) hnn
    obtain ⟨t2, h2, hl2, hn2⟩ := ih (si + 1) t1 (by omega)
      (fun s hs1 => by rw [hl1]; exact hs s (List.mem_cons_of_mem _ hs1)) hn1
    refine ⟨t2, ?_, by rw [hl2, hl1], hn2⟩
    unfold fillPageSegment
    rw [h1]
    exact h2

theorem makeInts_some (n : Int) (h : 0 ≤ n) :
    ∃ t, makeInts n = some t ∧ len t = n ∧ ∀ x ∈ t, 0 ≤ x := by
  unfold makeInts
  rw [if_neg (by omega)]
  refine ⟨_, rfl, by simp [len]; omega, ?_⟩
  intro x hx
  rw [List.eq_of_mem_replicate hx]

theorem timelineColumns_cons (s : TimelineSpan) (l : List TimelineSpan) :
    timelineColumns (s :: l) = List.replicate s.text.length s.page ++ timelineColumns l := by
  simp [timelineColumns, List.flatMap_cons]

theorem timelineColumns_append (a b : List TimelineSpan) :
    timelineColumns (a ++ b) = timelineColumns a ++ timelineColumns b := by
  simp [timelineColumns, List.flatMap_append]

theorem timelineTokens_columns {ι : Type} (m : appModel ι) (pw : Int) (tbl : List Int)
    (hnn : ∀ x ∈ tbl, 0 ≤ x) :
    ∀ pages : List Int, (∀ page ∈ pages, 0 ≤ page ∧ page < len tbl) →
      ∃ spans, timelineTokens m pw tbl pages = some spans ∧
        timelineColumns spans =
          timelineCells (sortedSplits m) (fun page => (pageToken pw page).length) pages := by
  intro pages
  induction pages with
  | nil => intro _; exact ⟨[], rfl, rfl⟩
  | cons page pages ih =>
    intro hp
    obtain ⟨spans, hs, hc⟩ := ih (fun q hq => hp q (List.mem_cons_of_mem _ hq))
    have hpage := hp page (List.mem_cons_self _ _)
    obtain ⟨si, hsi, hmem⟩ := index?_of_lt tbl page hpage.1 hpage.2
    have hsi0 := hnn si hmem
    have hlen5 : len segColors = 5 := rfl
    obtain ⟨color, hcol, _⟩ := index?_of_lt segColors (si.tmod (len segColors))
      (Int.tmod_nonneg _ hsi0) (by rw [hlen5]; exact Int.tmod_lt_of_pos _ (by norm_num))
    unfold timelineTokens
    rw [hsi]
    simp only [Option.some_bind]
    rw [hcol]
    simp only [Option.some_bind]
    rw [hs]
    refine ⟨_, rfl, ?_⟩
    rw [timelineColumns_append, timelineColumns_cons, hc]
    unfold timelineCells
    rw [List.flatMap_cons, List.append_assoc]
    congr 1
    split_ifs
    · rfl
    · rfl

theorem pageAtXLoop_before (splits : List Int) (pw x : Int) (hpw : 1 ≤ pw) :
    ∀ (pages : List Int) (cur : Int), x < cur → pageAtXLoop splits pw x pages cur = 0 := by
  intro pages
  induction pages with
  | nil => intro cur _; rfl
  | cons page pages ih =>
    intro cur hx
    unfold pageAtXLoop
    simp only
    split_ifs with h1 h2 h3
    · omega
    · exact ih _ (by omega)
    · omega
    · exact ih _ (by omega)

theorem getElem?_replicate_append {α : Type} (n : Nat) (a : α) (l : List α) (i : Nat) :
    (List.replicate n a ++ l)[i]? = if i < n then some a else l[i - n]? := by
  by_cases h : i < n
  · rw [if_pos h, List.getElem?_append_left (by simpa using h)]
    simp [List.getElem?_replicate, h]
  · rw [if_neg h, List.getElem?_append_right (by simpa using h)]
    simp

theorem pageAtXLoop_cells (splits : List Int) (k : Nat) (hk : 1 ≤ k) (x : Int) (p : Int)
    (hp : 1 ≤ p) :
    ∀ (pages : List Int) (cur : Int), cur ≤ x →
      (pageAtXLoop splits (k : Int) x pages cur = p ↔
        (timelineCells splits (fun _ => k) pages)[(x - cur).toNat]? = some (some p)) := by
  intro pages
  induction pages with
  | nil =>
    intro cur _
    simp only [pageAtXLoop, timelineCells, List.flatMap_nil, List.getElem?_nil]
    constructor
    · intro h; omega
    · intro h; cases h
  | cons page pages ih =>
    intro cur hcur
    unfold pageAtXLoop
    unfold timelineCells
    rw [List.flatMap_cons]
    simp only
    by_cases hsep : page > 1 ∧ page ∈ splits
    · rw [if_pos hsep, if_pos hsep, List.append_assoc, getElem?_replicate_append,
        getElem?_replicate_append]
      by_cases h1 : x ≥ cur + 3 ∧ x < cur + 3 + (k : Int)
      · rw [if_pos h1, if_neg (by omega), if_pos (by omega)]
        constructor
        · intro h; rw [h]
        · intro h; injection h with h; injection h
      · rw [if_neg h1]
        by_cases h2 : x < cur + 3
        · rw [pageAtXLoop_before splits _ x (by omega) pages _ (by omega), if_pos (by omega)]
          constructor
          · intro h; omega
          · intro h; cases h
        · rw [if_neg (by omega), if_neg (by omega), ih (cur + 3 + (k : Int)) (by omega)]
          have : (x - (cur + 3 + (k : Int))).toNat = (x - cur).toNat - 3 - k := by omega
          rw [this]
          rfl
    · rw [if_neg hsep, if_neg hsep, List.nil_append, getElem?_replicate_append]
      by_cases h1 : x ≥ cur ∧ x < cur + (k : Int)
      · rw [if_pos h1, if_pos (by omega)]
        constructor
        · intro h; rw [h]
        · intro h; injection h with h; injection h
      · rw [if_neg h1, if_neg (by omega), ih (cur + (k : Int)) (by omega)]
        have : (x - (cur + (k : Int))).toNat = (x - cur).toNat - k := by omega
        rw [this]
        rfl

theorem timelineCells_congr (splits : List Int) (w1 w2 : Int → Nat) :
    ∀ pages : List Int, (∀ page ∈ pages, w1 page = w2 page) →
      timelineCells splits w1 pages = timelineCells splits w2 pages := by
  intro pages
  induction pages with
  | nil => intro _; rfl
  | cons page pages ih =>
    intro h
    unfold timelineCells at ih ⊢
    rw [List.flatMap_cons, List.flatMap_cons, ih (fun q hq => h q (List.mem_cons_of_mem _ hq)),
      h page (List.mem_cons_self _ _)]

theorem pageToken_length (pw page : Int) (hpw : 1 ≤ pw)
    (hfit : pw = 1 ∨ ((fmtD page).length : Int) ≤ pw - 1) :
    (pageToken pw page).length = pw.toNat := by
  unfold pageToken
  split_ifs with h
  · rcases hfit with h1 | h1
    · omega
    · unfold padLeft
      simp only [List.length_append, List.length_replicate, List.length_singleton]
      omega
  · have : pw = 1 := by omega
    rw [this]
    rfl

theorem getElem?_append_none {α : Type} (l : List (Option α)) (n : Nat) (i : Nat) (a : α) :
    (l ++ List.replicate n none)[i]? = some (some a) ↔ l[i]? = some (some a) := by
  by_cases h : i < l.length
  · rw [List.getElem?_append_left h]
  · rw [List.getElem?_append_right (by omega), List.getElem?_eq_none (by omega : l.length ≤ i)]
    rw [List.getElem?_replicate]
    split_ifs <;> simp

/-- Where the click and the timeline agree: in a state with at least one
page whose split points are distinct and lie in `[2, pageCount]`, when the
page width is 1 or every page number has at most `pw - 1` digits,
`renderTimeline` returns, and for every column `x` and page `p >= 1`,
`pageAtX(x) = p` exactly when `x` is a column of the token of `p`. -/
theorem pageAtX_matches_timeline {ι : Type} (m : appModel ι) (pw : Int)
    (hpc : 1 ≤ m.pageCount) (hnd : m.splitPoints.Nodup)
    (hb : ∀ p ∈ m.splitPoints, 2 ≤ p ∧ p ≤ m.pageCount)
    (hw : pageWidth m = some pw)
    (hfit : pw = 1 ∨ ∀ page, 1 ≤ page → page ≤ m.pageCount →
      ((fmtD page).length : Int) ≤ pw - 1) :
    ∃ spans, renderTimeline m = some spans ∧
      ∀ x p, 1 ≤ p →
        (pageAtX m x = some p ↔ index? (timelineColumns spans) x = some (some p)) := by
  obtain ⟨hpw1, hpw4⟩ := pageWidth_range m pw hw
  obtain ⟨tbl, htbl, hlen, hnn⟩ := makeInts_some (m.pageCount + 1) (by omega)
  have hsegs : ∀ seg ∈ buildSegments m, 0 ≤ seg.start ∧ seg.stop < len tbl := by
    intro seg hseg
    rw [buildSegments_eq] at hseg
    have := segmentsFrom_bounds m.pageCount _ 1 (sortedSplits_splitsFrom m hpc hnd hb) seg hseg
    omega
  obtain ⟨tbl2, htbl2, hlen2, hnn2⟩ := fillPageSegment_some (buildSegments m) 0 tbl (le_refl _)
    hsegs hnn
  obtain ⟨tokens, htok, hcols⟩ := timelineTokens_columns m pw tbl2 hnn2 (intRange 1 m.pageCount)
    (fun page hp => by
      have := (mem_intRange _ _ _).1 hp
      omega)
  have hk : ((pw.toNat : Nat) : Int) = pw := Int.toNat_of_nonneg (by omega)
  have hcells : timelineCells (sortedSplits m) (fun page => (pageToken pw page).length)
      (intRange 1 m.pageCount) =
      timelineCells (sortedSplits m) (fun _ => pw.toNat) (intRange 1 m.pageCount) := by
    apply timelineCells_congr
    intro page hp
    have hr := (mem_intRange _ _ _).1 hp
    apply pageToken_length pw page hpw1
    rcases hfit with h | h
    · exact Or.inl h
    · exact Or.inr (h page hr.1 hr.2)
  rw [hcells] at hcols
  obtain ⟨n, hint, hn⟩ : ∃ (n : Nat) (hint : List TimelineSpan),
      hint = (if m.currentPage ∈ m.splitPoints then
          [({ page := none, color := none, current := false, text := "  ← remove".toList } :
            TimelineSpan)]
        else if m.currentPage > 1 then
          [{ page := none, color := none, current := false, text := "  ← split here".toList }]
        else []) ∧ timelineColumns hint = List.replicate n none := by
    split_ifs
    · exact ⟨10, _, rfl, rfl⟩
    · exact ⟨14, _, rfl, rfl⟩
    · exact ⟨0, _, rfl, rfl⟩
  obtain ⟨hhint, hn⟩ := hn
  refine ⟨(⟨none, none, false, "  ".toList⟩ : TimelineSpan) :: tokens ++ hint, ?_, ?_⟩
  · unfold renderTimeline
    rw [htbl]
    simp only [Option.some_bind]
    rw [htbl2]
    simp only [Option.some_bind]
    rw [hw]
    simp only [Option.some_bind]
    rw [htok, hhint]
    rfl
  · intro x p hp
    have hpx : pageAtX m x = some (pageAtXLoop (sortedSplits m) pw x (intRange 1 m.pageCount) 2) := by
      unfold pageAtX
      rw [hw]
      rfl
    rw [hpx]
    have hcolumns : timelineColumns
        ((⟨none, none, false, "  ".toList⟩ : TimelineSpan) :: tokens ++ hint) =
        none :: none :: (timelineCells (sortedSplits m) (fun _ => pw.toNat)
          (intRange 1 m.pageCount) ++ List.replicate n none) := by
      rw [List.cons_append, timelineColumns_cons, timelineColumns_append, hcols, hn]
      rfl
    rw [hcolumns]
    by_cases hx2 : x < 2
    · rw [pageAtXLoop_before (sortedSplits m) pw x hpw1 _ 2 hx2]
      constructor
      · intro h
        injection h with h
        omega
      · intro h
        unfold index? at h
        split_ifs at h with h0
        have hx : x.toNat = 0 ∨ x.toNat = 1 := by omega
        rcases hx with hx | hx
        · rw [hx] at h
          simp at h
        · rw [hx] at h
          simp at h
    · have hidx : index? (none :: none :: (timelineCells (sortedSplits m) (fun _ => pw.toNat)
          (intRange 1 m.pageCount) ++ List.replicate n none)) x =
          (timelineCells (sortedSplits m) (fun _ => pw.toNat)
            (intRange 1 m.pageCount) ++ List.replicate n none)[(x - 2).toNat]? := by
        unfold index?
        rw [if_neg (by omega)]
        have : x.toNat = (x - 2).toNat + 1 + 1 := by omega
        rw [this, List.getElem?_cons_succ, List.getElem?_cons_succ]
      rw [hidx, getElem?_append_none]
      have hloop := pageAtXLoop_cells (sortedSplits m) pw.toNat (by omega) x p hp
        (intRange 1 m.pageCount) 2 (by omega)
      rw [hk] at hloop
      rw [← hloop]
      constructor
      · intro h; injection h
      · intro h; rw [h]

/-- The agreement at a concrete input: 8 pages with the split points 3 and 6
on a terminal of 80 columns (page width 4). -/
theorem pageAtX_matches_timeline_witness :
    ∃ spans, renderTimeline ({ segmentModel 8 [3, 6] 3 with width := 80 } : appModel Str) =
        some spans ∧
      ∀ x p, 1 ≤ p →
        (pageAtX ({ segmentModel 8 [3, 6] 3 with width := 80 } : appModel Str) x = some p ↔
          index? (timelineColumns spans) x = some (some p)) := by
  apply pageAtX_matches_timeline ({ segmentModel 8 [3, 6] 3 with width := 80 } : appModel Str) 4
    (by decide) (by decide) (by decide) (by decide)
  right
  intro page h1 h2
  have h8 : page ≤ 8 := h2
  have : page = 1 ∨ page = 2 ∨ page = 3 ∨ page = 4 ∨ page = 5 ∨ page = 6 ∨ page = 7 ∨
      page = 8 := by omega
  rcases this with h | h | h | h | h | h | h | h <;> subst h <;> decide

/-- What a press of the left button off the input row and off the timeline
row does to the cursor: with `idx = Y - resultsStart + searchOffset`, the
cursor becomes `idx` when that is an index of the match list and stays as it
is otherwise; the row `Y` itself is not tested. -/
theorem handleMouse_press_cursor {ι : Type} (d : Deps ι) (m : appModel ι) (x y : Int)
    (hrow : y ≠ m.height - 2) (htl : ¬ (m.mode = .modeSplit ∧ y = 1)) :
    StepTo (fun m1 => m1.searchCursor =
        if 0 ≤ y - (if m.mode = .modeSplit then 7 else 2) + m.searchOffset ∧
            y - (if m.mode = .modeSplit then 7 else 2) + m.searchOffset < len m.matchList then
          y - (if m.mode = .modeSplit then 7 else 2) + m.searchOffset
        else m.searchCursor)
      (handleMouse d m ⟨x, y, .MouseButtonLeft, .MouseActionPress⟩) := by
  unfold handleMouse
  simp only [ne_eq, not_true_eq_false, if_false]
  rw [if_neg hrow, if_neg htl]
  by_cases hmode : m.mode = .modeSplit
  · simp only [hmode, if_true]
    by_cases hi : y - 7 + m.searchOffset ≥ 0 ∧ y - 7 + m.searchOffset < len m.matchList
    · rw [if_pos hi, if_pos ⟨hi.1, hi.2⟩]
      exact stepTo_map fun l _ => rfl
    · rw [if_neg hi, if_neg (fun h => hi ⟨h.1, h.2⟩)]
      exact stepTo_some _ rfl
  · simp only [hmode, if_false]
    by_cases hi : y - 2 + m.searchOffset ≥ 0 ∧ y - 2 + m.searchOffset < len m.matchList
    · rw [if_pos hi, if_pos ⟨hi.1, hi.2⟩]
      exact stepTo_some _ rfl
    · rw [if_neg hi, if_neg (fun h => hi ⟨h.1, h.2⟩)]
      exact stepTo_some _ rfl

/-! ## Theorems: the labels of a document with label ranges -/

theorem wrapInt64_add_wrap (a b : Int) : wrapInt64 (a + wrapInt64 b) = wrapInt64 (a + b) := by
  unfold wrapInt64
  norm_num
  omega

theorem formatNumber_numeralOf (style : Str) (n : Int) :
    NumeralOf style n (formatNumber n style) := by
  refine ⟨?_, ?_, ?_, ?_, ?_, ?_⟩
  · intro h
    simp [formatNumber, h]
  · intro h
    subst h
    have : formatNumber n ['r'] = toRoman n false := by simp [formatNumber]
    rw [this]
    by_cases hn : n ≤ 0
    · simp [toRoman, hn]
    · rw [if_neg hn, toRoman_eq_parts n (by omega)]
      rfl
  · intro h
    subst h
    have : formatNumber n ['R'] = toRoman n true := by simp [formatNumber]
    rw [this]
    by_cases hn : n ≤ 0
    · simp [toRoman, hn]
    · rw [if_neg hn]
      have h1 := toRoman_eq_parts n (by omega)
      have h2 : toRoman n true = ToUpper (toRoman n false) := by simp [toRoman, hn]
      rw [h2, h1]
      rfl
  · intro h
    subst h
    have : formatNumber n ['a'] = toAlpha n false := by simp [formatNumber]
    rw [this]
    by_cases hn : n ≤ 0
    · simp [toAlpha, hn]
    · rw [if_neg hn]
      exact (toAlpha_lower_spec n (by omega)).2
  · intro h
    subst h
    have : formatNumber n ['A'] = toAlpha n true := by simp [formatNumber]
    rw [this]
    by_cases hn : n ≤ 0
    · simp [toAlpha, hn]
    · rw [if_neg hn]
      refine ⟨toAlpha n false, (toAlpha_lower_spec n (by omega)).2.1,
        (toAlpha_lower_spec n (by omega)).2.2, ?_⟩
      simp [toAlpha, hn]
  · intro h1 h2 h3 h4 h5
    simp [formatNumber, h1, h2, h3, h4, h5]

theorem generateLabels_getElem? (e0 : pageLabelEntry) (rest : List pageLabelEntry)
    (pageCount : Nat)
    (hsorted : (e0 :: rest).Pairwise (fun a b => a.startIndex ≤ b.startIndex))
    (i : Nat) (hi : i < pageCount) :
    (generateLabels (e0 :: rest) pageCount)[i]? =
      some ((governingEntry e0 rest i).pfx ++
        formatNumber (wrapInt64 ((governingEntry e0 rest i).startValue +
          ((i : Int) - (governingEntry e0 rest i).startIndex)))
          (governingEntry e0 rest i).style) := by
  have hfe : findEntry (e0 :: rest) i = some (governingEntry e0 rest i) := by
    simp only [findEntry, governingEntry]
    rw [findEntryLoop_eq_last _ _ _ hsorted]
  simp [generateLabels, labelAt, hfe, List.getElem?_map, List.getElem?_range hi,
    wrapInt64_add_wrap]

/-- C1 as stated fails: in a document whose one label range is decimal and
starts at the value 9223372036854775807 (`/St` of the PDF), the label of the
second page is `-9223372036854775808`, which is not the prefix followed by
the numeral of `startValue + (i - startIndex)` = 9223372036854775808: the
addition is that of a 64-bit `int`. -/
theorem generateLabels_number_wraps :
    generateLabels [⟨0, ['D'], [], 9223372036854775807⟩] 2 =
        ["9223372036854775807".toList, "-9223372036854775808".toList] ∧
      governingEntry ⟨0, ['D'], [], 9223372036854775807⟩ [] 1 =
        ⟨0, ['D'], [], 9223372036854775807⟩ ∧
      ¬ ∃ s, (generateLabels [⟨0, ['D'], [], 9223372036854775807⟩] 2)[1]? =
          some (([] : Str) ++ s) ∧
        NumeralOf ['D'] (9223372036854775807 + ((1 : Int) - 0)) s := by
  refine ⟨by decide, by decide, ?_⟩
  rintro ⟨s, h1, h2⟩
  have h3 := h2.1 rfl
  subst h3
  revert h1
  decide

/-- C1, amended: for a non-empty list of entries sorted ascending by
`startIndex`, `generateLabels` returns exactly `pageCount` labels, and for
every 0-based page index `i < pageCount` the label is the prefix of the
governing entry `e` followed by a numeral `s`, where `e` is the last entry
with `startIndex ≤ i`, or the first entry when there is none: when the number
`e.startValue + (i - e.startIndex)` lies in the range of a 64-bit `int`, `s`
is the numeral of that number rendered in the style of `e` (`NumeralOf`);
in every case `s` is the numeral of the number reduced to 64 bits. -/
theorem generateLabels_governingEntry (e0 : pageLabelEntry) (rest : List pageLabelEntry)
    (pageCount : Nat)
    (hsorted : (e0 :: rest).Pairwise (fun a b => a.startIndex ≤ b.startIndex)) :
    (generateLabels (e0 :: rest) pageCount).length = pageCount ∧
    ∀ i : Nat, i < pageCount →
      ∃ s, (generateLabels (e0 :: rest) pageCount)[i]? =
          some ((governingEntry e0 rest i).pfx ++ s) ∧
        (-(2 ^ 63) ≤ (governingEntry e0 rest i).startValue +
            ((i : Int) - (governingEntry e0 rest i).startIndex) →
          (governingEntry e0 rest i).startValue +
            ((i : Int) - (governingEntry e0 rest i).startIndex) < 2 ^ 63 →
          NumeralOf (governingEntry e0 rest i).style
            ((governingEntry e0 rest i).startValue +
              ((i : Int) - (governingEntry e0 rest i).startIndex)) s) ∧
        NumeralOf (governingEntry e0 rest i).style
          (wrapInt64 ((governingEntry e0 rest i).startValue +
            ((i : Int) - (governingEntry e0 rest i).startIndex))) s := by
  constructor
  · simp [generateLabels]
  · intro i hi
    refine ⟨_, generateLabels_getElem? e0 rest pageCount hsorted i hi, ?_,
      formatNumber_numeralOf _ _⟩
    intro h1 h2
    rw [wrapInt64_of_range _ h1 h2]
    exact formatNumber_numeralOf _ _

/-- C1, amended, at a concrete input: roman numerals for three pages, then
`A-1`, `A-2`, `A-3`; the fifth label is `A-2`. -/
theorem generateLabels_governingEntry_witness :
    ([⟨0, ['r'], [], 1⟩, ⟨3, ['D'], ['A', '-'], 1⟩] : List pageLabelEntry).Pairwise
        (fun a b => a.startIndex ≤ b.startIndex) ∧
      (generateLabels [⟨0, ['r'], [], 1⟩, ⟨3, ['D'], ['A', '-'], 1⟩] 6).length = 6 ∧
      governingEntry ⟨0, ['r'], [], 1⟩ [⟨3, ['D'], ['A', '-'], 1⟩] 4 =
        ⟨3, ['D'], ['A', '-'], 1⟩ ∧
      ∃ s, (generateLabels [⟨0, ['r'], [], 1⟩, ⟨3, ['D'], ['A', '-'], 1⟩] 6)[4]? =
          some (['A', '-'] ++ s) ∧ NumeralOf ['D'] 2 s ∧ s = ['2'] := by
  have hs : ([⟨0, ['r'], [], 1⟩, ⟨3, ['D'], ['A', '-'], 1⟩] : List pageLabelEntry).Pairwise
        (fun a b => a.startIndex ≤ b.startIndex) := by decide
  have hg : governingEntry ⟨0, ['r'], [], 1⟩ [⟨3, ['D'], ['A', '-'], 1⟩] 4 =
      ⟨3, ['D'], ['A', '-'], 1⟩ := by decide
  have hg4 : governingEntry ⟨0, ['r'], [], 1⟩ [⟨3, ['D'], ['A', '-'], 1⟩] ((4 : Nat) : Int) =
      ⟨3, ['D'], ['A', '-'], 1⟩ := by decide
  have h := generateLabels_governingEntry ⟨0, ['r'], [], 1⟩ [⟨3, ['D'], ['A', '-'], 1⟩] 6 hs
  obtain ⟨s, h1, h2, _⟩ := h.2 4 (by decide)
  rw [hg4] at h1 h2
  have h3 : NumeralOf ['D'] 2 s := h2 (by decide) (by decide)
  refine ⟨hs, h.1, hg, s, h1, h3, ?_⟩
  have := h3.1 rfl
  rw [this]
  decide

end Pdfed
